import Mathlib

/-!
# A shallow embedding of `src/index.js` (a Promises/A+ style `Promise` class)

The JavaScript heap is made explicit: a `World` holds the promise objects, the
`called` latches allocated by `resolvePromise`, the queue of `setTimeout`
thunks and a trace of the user functions that have been invoked.  Closures
created by the library are defunctionalised (`Fn`, `Timer`); user code is
represented by its observable behaviour.
-/

namespace PromiseJS

/-! ## Values -/

/-- The three status constants of lines 54-56. -/
inductive Status where
  | PENDING
  | FULFILLED
  | REJECTED
  deriving DecidableEq, Repr

/-- JavaScript values as far as the library can tell them apart.  `obj id` is any
object or function other than a `Promise` instance, identified by reference;
`promise id` is a reference to an instance of the class; `typeError msg` is the
object built by `new TypeError(msg)`; `array id` is a reference to an array built by
the library (its elements are in the world). -/
inductive Val where
  | undefined
  | null
  | bool (b : Bool)
  | num (n : Int)
  | str (s : String)
  | typeError (msg : String)
  | obj (id : Nat)
  | promise (id : Nat)
  | array (id : Nat)
  deriving DecidableEq, Repr

/-- How a call ends: it returns a value or it throws one. -/
inductive Completion where
  | normal (v : Val)
  | thrown (e : Val)
  deriving DecidableEq, Repr

/-- What the `then` method of a foreign thenable does, one step at a time: it calls
its first argument, calls its second argument, or throws (which ends the method). -/
inductive Event where
  | success (y : Val)
  | failure (r : Val)
  | raise (e : Val)
  deriving DecidableEq, Repr

/-- The `then` member of an object `obj id`. -/
inductive ThenMember where
  | notCallable
  | getterThrows (e : Val)
  | callable (script : List Event)
  deriving DecidableEq, Repr

/-- The closures built by the combinators and by `finally`.  `cell` names the pair
of variables (a counter and an array) the closures of one combinator call share, `i`
is the index of the input, `n` is `promises.length` and `agg` is the promise the
combinator returns.
* `allOnFulfilled`: the function of lines 107-112;
* `allSettledOnFulfilled`, `allSettledOnRejected`: the functions of lines 136-138 and
  138-140;
* `anyOnRejected`: the function of lines 149-155;
* `finallyOnFulfilled name body`, `finallyOnRejected name body`: the functions of
  line 221 and of lines 222-226, for the user callback `(name, body)`;
* `constant value`: the function `() => value` of line 221;
* `rethrow err`: the function of lines 223-226. -/
inductive Closure where
  | allOnFulfilled (cell i n agg : Nat)
  | allSettledOnFulfilled (cell i n agg : Nat)
  | allSettledOnRejected (cell i n agg : Nat)
  | anyOnRejected (cell i n agg : Nat)
  | finallyOnFulfilled (name : Nat) (body : Val → Completion)
  | finallyOnRejected (name : Nat) (body : Val → Completion)
  | constant (value : Val)
  | rethrow (err : Val)

/-- Function values the library calls.
* `user name body`: a function supplied by the user; `body` gives its completion on
  an argument and every invocation is recorded in the trace under `name`;
* `identity`: the default `(v) => v` of line 160;
* `thrower`: the default `(err) => { throw err; }` of lines 165-167;
* `resolve p`, `reject p`: the two closures of lines 65-78 belonging to promise `p`;
* `adoptFulfilled called promise2 resolve reject`: the closure of lines 22-29;
* `adoptRejected called reject`: the closure of lines 30-36;
* `closure k`: a closure built by a combinator or by `finally`. -/
inductive Fn where
  | user (name : Nat) (body : Val → Completion)
  | identity
  | thrower
  | resolve (p : Nat)
  | reject (p : Nat)
  | adoptFulfilled (called : Nat) (promise2 : Nat) (resolve reject : Fn)
  | adoptRejected (called : Nat) (reject : Fn)
  | closure (k : Closure)

/-- An argument of `then`: `typeof arg === "function"` holds exactly for `fn f`. -/
inductive Arg where
  | value (v : Val)
  | fn (f : Fn)

/-- The callbacks handed to `setTimeout` by `then`: the body of lines 171-176
(`fulfilledJob`) and of lines 181-186 (`rejectedJob`), closed over `this`, the
handler and `promise2`.  The closures pushed on the callback arrays at lines 191 and
201 do nothing but schedule such a job, so the arrays store the job. -/
inductive Timer where
  | fulfilledJob (self : Nat) (onFulfilled : Fn) (promise2 : Nat)
  | rejectedJob (self : Nat) (onRejected : Fn) (promise2 : Nat)

/-- The fields of a `Promise` instance (lines 60-64). -/
structure PromiseState where
  value : Val
  reason : Val
  status : Status
  onResolveCallbacks : List Timer
  onRejectedCallbacks : List Timer

/-- The object state the constructor sets up at lines 60-64. -/
def PromiseState.fresh : PromiseState :=
  { value := Val.undefined, reason := Val.undefined, status := Status.PENDING,
    onResolveCallbacks := [], onRejectedCallbacks := [] }

/-- The state of the program: the `then` member of every foreign object, the promise
objects (`nextId` is the next reference the constructor hands out), the `called`
variables of the running and finished `resolvePromise` calls, the pending
`setTimeout(_, 0)` callbacks in the order they were scheduled, the trace of user
function invocations `(name, argument)`, and the counters and arrays of the
combinator calls (`none` in an array is a hole; `Val.array id` refers to `arrays id`). -/
structure World where
  thenOf : Nat → ThenMember
  heap : Nat → PromiseState
  nextId : Nat
  called : Nat → Bool
  nextCalled : Nat
  timers : List Timer
  log : List (Nat × Val)
  counts : Nat → Nat
  arrays : Nat → List (Option Val)
  nextCell : Nat

/-- The world before any promise was built. -/
def World.init (thenOf : Nat → ThenMember) : World :=
  { thenOf := thenOf, heap := fun _ => PromiseState.fresh, nextId := 0,
    called := fun _ => false, nextCalled := 0, timers := [], log := [],
    counts := fun _ => 0, arrays := fun _ => [], nextCell := 0 }

/-- Schedules `setTimeout(job, 0)`. -/
def World.setTimeout (job : Timer) (w : World) : World :=
  { w with timers := w.timers ++ [job] }

/-- Runs `fns.forEach((fn) => fn())` on a callback array. -/
def World.forEachCall (fns : List Timer) (w : World) : World :=
  fns.foldl (fun acc job => acc.setTimeout job) w

/-- Declares `let called = false` (line 8) and returns the new variable. -/
def World.newCalled (w : World) : World :=
  { w with called := Function.update w.called w.nextCalled false,
           nextCalled := w.nextCalled + 1 }

/-- Performs the assignment `called = true` on the variable `c`. -/
def World.setCalled (c : Nat) (w : World) : World :=
  { w with called := Function.update w.called c true }

/-- The test `(typeof x === "object" && x !== null) || typeof x === "function"`. -/
def isObjectOrFunction : Val → Bool
  | Val.typeError _ => true
  | Val.obj _ => true
  | Val.promise _ => true
  | Val.array _ => true
  | _ => false

/-! ## The constructor and its two closures -/

/-- Lines 60-64 of the constructor: a new object in state PENDING.  Returns its
reference. -/
def newPromise (w : World) : Nat × World :=
  (w.nextId,
   { w with heap := Function.update w.heap w.nextId PromiseState.fresh,
            nextId := w.nextId + 1 })

/-- The closure `resolve` of lines 65-71, for the promise `p`. -/
def settleResolve (p : Nat) (value : Val) (w : World) : World :=
  if (w.heap p).status = Status.PENDING then
    let s := w.heap p
    let s1 : PromiseState := { s with status := Status.FULFILLED, value := value }
    let w1 := { w with heap := Function.update w.heap p s1 }
    w1.forEachCall s.onResolveCallbacks
  else w

/-- The closure `reject` of lines 72-78, for the promise `p`. -/
def settleReject (p : Nat) (value : Val) (w : World) : World :=
  if (w.heap p).status = Status.PENDING then
    let s := w.heap p
    let s1 : PromiseState := { s with status := Status.REJECTED, reason := value }
    let w1 := { w with heap := Function.update w.heap p s1 }
    w1.forEachCall s.onRejectedCallbacks
  else w

/-- `Promise.defer` (lines 230-237): a new pending promise; the bundle holds
`Val.promise id`, `Fn.resolve id` and `Fn.reject id` for the returned `id`. -/
def defer (w : World) : Nat × World :=
  newPromise w

/-! ## `then` and `catch` -/

/-- The handler `then` substitutes for its first argument (line 160). -/
def Arg.orIdentity : Arg → Fn
  | Arg.fn f => f
  | Arg.value _ => Fn.identity

/-- The handler `then` substitutes for its second argument (lines 162-167). -/
def Arg.orThrower : Arg → Fn
  | Arg.fn f => f
  | Arg.value _ => Fn.thrower

/-- `Promise.prototype.then` (lines 159-214) called on the promise `self`.  Returns
the reference of `promise2` and the new world. -/
def then_ (self : Nat) (onFulfilled onRejected : Arg) (w : World) : Nat × World :=
  let onFulfilled : Fn := onFulfilled.orIdentity
  let onRejected : Fn := onRejected.orThrower
  let (promise2, w0) := newPromise w
  let w1 := if (w0.heap self).status = Status.FULFILLED then
      w0.setTimeout (Timer.fulfilledJob self onFulfilled promise2)
    else w0
  let w2 := if (w1.heap self).status = Status.REJECTED then
      w1.setTimeout (Timer.rejectedJob self onRejected promise2)
    else w1
  let w3 := if (w2.heap self).status = Status.PENDING then
      let s := w2.heap self
      let s1 := { s with onResolveCallbacks :=
        s.onResolveCallbacks ++ [Timer.fulfilledJob self onFulfilled promise2] }
      let s2 := { s1 with onRejectedCallbacks :=
        s1.onRejectedCallbacks ++ [Timer.rejectedJob self onRejected promise2] }
      { w2 with heap := Function.update w2.heap self s2 }
    else w2
  (promise2, w3)

/-- `Promise.prototype.catch` (lines 215-217). -/
def catch_ (self : Nat) (onRejected : Arg) (w : World) : Nat × World :=
  then_ self (Arg.value Val.null) onRejected w

/-! ## `Promise.resolve`, `Promise.reject` and the closures of the combinators -/

/-- The expression `new Promise((resolve) => resolve(value))` of line 92. -/
def newFulfilled (value : Val) (w : World) : Nat × World :=
  let (p, w0) := newPromise w
  (p, settleResolve p value w0)

/-- The expression `new Promise((resolve, reject) => reject(value))` of line 99. -/
def newRejected (value : Val) (w : World) : Nat × World :=
  let (p, w0) := newPromise w
  (p, settleReject p value w0)

/-- The test `Boolean(value) && typeof value.then === "function"` of lines 89 and 96:
it is true, false, or throws what the getter of `then` throws.  Falsy values are not
asked for their `then`; primitives, errors and arrays have none. -/
def hasThenFunction (w : World) : Val → Except Val Bool
  | Val.promise _ => Except.ok true
  | Val.obj id =>
    match w.thenOf id with
    | ThenMember.callable _ => Except.ok true
    | ThenMember.notCallable => Except.ok false
    | ThenMember.getterThrows e => Except.error e
  | _ => Except.ok false

/-- `Promise.resolve` (lines 88-94). -/
def staticResolve (value : Val) (w : World) : Completion × World :=
  match hasThenFunction w value with
  | Except.error e => (Completion.thrown e, w)
  | Except.ok true => (Completion.normal value, w)
  | Except.ok false =>
    let (p, w1) := newFulfilled value w
    (Completion.normal (Val.promise p), w1)

/-- `Promise.reject` (lines 95-101). -/
def staticReject (value : Val) (w : World) : Completion × World :=
  match hasThenFunction w value with
  | Except.error e => (Completion.thrown e, w)
  | Except.ok true => (Completion.normal value, w)
  | Except.ok false =>
    let (p, w1) := newRejected value w
    (Completion.normal (Val.promise p), w1)

/-- The assignment `xs[i] = v` on a JavaScript array: indices skipped are holes. -/
def setIndex (xs : List (Option Val)) (i : Nat) (v : Val) : List (Option Val) :=
  if i < xs.length then xs.set i (some v)
  else xs ++ List.replicate (i - xs.length) none ++ [some v]

/-- Declares a counter set to 0 and an empty array (lines 103-104, 125 and 133,
146-147). -/
def World.newCell (w : World) : World :=
  { w with counts := Function.update w.counts w.nextCell 0,
           arrays := Function.update w.arrays w.nextCell [],
           nextCell := w.nextCell + 1 }

/-- The statements `count++; result[i] = data;` shared by the closures of `all`,
`allSettled` and `any`. -/
def World.record (cell i : Nat) (data : Val) (w : World) : World :=
  { w with counts := Function.update w.counts cell (w.counts cell + 1),
           arrays := Function.update w.arrays cell (setIndex (w.arrays cell) i data) }

/-- The function `fn` of lines 126-132 called with `callback` the `resolve` closure of
`agg` (also the body of lines 108-112): count, store, and settle when all are in. -/
def recordAndResolve (cell i n agg : Nat) (data : Val) (w : World) : World :=
  let w1 := w.record cell i data
  if w1.counts cell = n then settleResolve agg (Val.array cell) w1 else w1

/-- The body of lines 150-154: count, store, and reject when all are in. -/
def recordAndReject (cell i n agg : Nat) (err : Val) (w : World) : World :=
  let w1 := w.record cell i err
  if w1.counts cell = n then settleReject agg (Val.array cell) w1 else w1

/-- The message of the TypeError a JavaScript engine throws when a value that is not
a function is called (the text is that of V8 and plays no part in the statements). -/
def notAFunction : Val :=
  Val.typeError "is not a function"

/-- The message of the TypeError thrown when a member of `undefined` is read. -/
def noProperties : Val :=
  Val.typeError "Cannot read properties of undefined"

/-- The completion of the closures `() => value` and `() => { throw err; }`, which
ignore their argument and do not act on the world. -/
def Closure.completion : Closure → Completion
  | Closure.rethrow err => Completion.thrown err
  | Closure.constant value => Completion.normal value
  | _ => Completion.normal Val.undefined

/-- The call `t.then(f)` of a foreign `then` method performing `script`, for a
function `f` that completes with `onSuccess` without acting on the world, no second
argument being passed: calling the missing failure callback throws a TypeError. -/
def runThenPure (onSuccess : Completion) : List Event → Completion
  | [] => Completion.normal Val.undefined
  | Event.success _ :: rest =>
    match onSuccess with
    | Completion.thrown e => Completion.thrown e
    | Completion.normal _ => runThenPure onSuccess rest
  | Event.failure _ :: _ => Completion.thrown notAFunction
  | Event.raise e :: _ => Completion.thrown e

/-- The expression `Promise.resolve(callback()).then(f)` of lines 221 and 223 for the
user callback `(name, body)`, which is called without arguments; `f` is
`() => value` or `() => { throw err; }`. -/
def finallyBody (name : Nat) (body : Val → Completion) (f : Closure) (w : World) :
    Completion × World :=
  let w1 := { w with log := w.log ++ [(name, Val.undefined)] }
  match body Val.undefined with
  | Completion.thrown e => (Completion.thrown e, w1)
  | Completion.normal c =>
    match staticResolve c w1 with
    | (Completion.thrown e, w2) => (Completion.thrown e, w2)
    | (Completion.normal (Val.promise q), w2) =>
      let (q2, w3) := then_ q (Arg.fn (Fn.closure f)) (Arg.value Val.undefined) w2
      (Completion.normal (Val.promise q2), w3)
    | (Completion.normal (Val.obj id), w2) =>
      match w2.thenOf id with
      | ThenMember.callable script => (runThenPure f.completion script, w2)
      | _ => (Completion.thrown notAFunction, w2)
    | (Completion.normal _, w2) => (Completion.thrown notAFunction, w2)

/-- Calls a closure of a combinator or of `finally` on one argument. -/
def callClosure : Closure → Val → World → Completion × World
  | Closure.allOnFulfilled cell i n agg, res, w =>
    (Completion.normal Val.undefined, recordAndResolve cell i n agg res w)
  | Closure.allSettledOnFulfilled cell i n agg, res, w =>
    match staticResolve res w with
    | (Completion.thrown e, w1) => (Completion.thrown e, w1)
    | (Completion.normal data, w1) =>
      (Completion.normal Val.undefined, recordAndResolve cell i n agg data w1)
  | Closure.allSettledOnRejected cell i n agg, err, w =>
    match staticReject err w with
    | (Completion.thrown e, w1) => (Completion.thrown e, w1)
    | (Completion.normal data, w1) =>
      (Completion.normal Val.undefined, recordAndResolve cell i n agg data w1)
  | Closure.anyOnRejected cell i n agg, err, w =>
    (Completion.normal Val.undefined, recordAndReject cell i n agg err w)
  | Closure.finallyOnFulfilled name body, value, w =>
    finallyBody name body (Closure.constant value) w
  | Closure.finallyOnRejected name body, err, w =>
    finallyBody name body (Closure.rethrow err) w
  | Closure.constant value, _, w => (Completion.normal value, w)
  | Closure.rethrow err, _, w => (Completion.thrown err, w)

/-! ## Calling functions and the resolution procedure -/

/-- Replaces the value of a normal completion by `undefined`: the completion of a
function whose body ends without a `return` value after the given call. -/
def discard : Option (Completion × World) → Option (Completion × World)
  | none => none
  | some (Completion.normal _, w) => some (Completion.normal Val.undefined, w)
  | some (Completion.thrown e, w) => some (Completion.thrown e, w)

/-- Calls the function `f` on one argument.  `rp` is `resolvePromise` (with the fuel
left for it). -/
def callFn (rp : Nat → Val → Fn → Fn → World → Option (Completion × World)) :
    Fn → Val → World → Option (Completion × World)
  | Fn.user name body, v, w => some (body v, { w with log := w.log ++ [(name, v)] })
  | Fn.identity, v, w => some (Completion.normal v, w)
  | Fn.thrower, v, w => some (Completion.thrown v, w)
  | Fn.resolve p, v, w => some (Completion.normal Val.undefined, settleResolve p v w)
  | Fn.reject p, v, w => some (Completion.normal Val.undefined, settleReject p v w)
  | Fn.adoptFulfilled c promise2 resolve reject, y, w =>
    if w.called c then some (Completion.normal Val.undefined, w)
    else discard (rp promise2 y resolve reject (w.setCalled c))
  | Fn.adoptRejected c reject, r, w =>
    if w.called c then some (Completion.normal Val.undefined, w)
    else discard (callFn rp reject r (w.setCalled c))
  | Fn.closure k, v, w => some (callClosure k v w)

/-- The call `then.call(x, onFulfilled, onRejected)` of a foreign `then` method that
performs `script`: an exception thrown by a callback is not caught by the method. -/
def runThen (call : Fn → Val → World → Option (Completion × World))
    (onFulfilled onRejected : Fn) : List Event → World → Option (Completion × World)
  | [], w => some (Completion.normal Val.undefined, w)
  | Event.success y :: rest, w =>
    match call onFulfilled y w with
    | none => none
    | some (Completion.thrown e, w1) => some (Completion.thrown e, w1)
    | some (Completion.normal _, w1) => runThen call onFulfilled onRejected rest w1
  | Event.failure r :: rest, w =>
    match call onRejected r w with
    | none => none
    | some (Completion.thrown e, w1) => some (Completion.thrown e, w1)
    | some (Completion.normal _, w1) => runThen call onFulfilled onRejected rest w1
  | Event.raise e :: _, w => some (Completion.thrown e, w)

/-- The `catch (e)` clause of lines 42-48, for the latch `c`. -/
def catchClause (call : Fn → Val → World → Option (Completion × World))
    (c : Nat) (reject : Fn) (e : Val) (w : World) : Option (Completion × World) :=
  if w.called c then some (Completion.normal Val.undefined, w)
  else discard (call reject e (w.setCalled c))

/-- Runs the `try` block of lines 14-41 given its completion, followed by the
`catch` clause when it threw. -/
def tryCatch (call : Fn → Val → World → Option (Completion × World))
    (c : Nat) (reject : Fn) : Option (Completion × World) → Option (Completion × World)
  | none => none
  | some (Completion.normal _, w) => some (Completion.normal Val.undefined, w)
  | some (Completion.thrown e, w) => catchClause call c reject e w

/-- The function `resolvePromise` (lines 1-52).  The first argument is fuel: every
nested call made through the closure of lines 22-29 consumes one unit, and `none`
means the fuel ran out. -/
def resolvePromise : Nat → Nat → Val → Fn → Fn → World → Option (Completion × World)
  | 0, _, _, _, _, _ => none
  | fuel + 1, promise2, x, resolve, reject, w =>
    if x = Val.promise promise2 then
      callFn (resolvePromise fuel) reject
        (Val.typeError "Chaining cycle detected for promise #<Promise>") w
    else
      let c := w.nextCalled
      let w0 := w.newCalled
      match x with
      | Val.promise q =>
        -- `x.then` is `Promise.prototype.then`
        some (Completion.normal Val.undefined,
          (then_ q (Arg.fn (Fn.adoptFulfilled c promise2 resolve reject))
            (Arg.fn (Fn.adoptRejected c reject)) w0).2)
      | Val.obj id =>
        match w0.thenOf id with
        | ThenMember.getterThrows e => catchClause (callFn (resolvePromise fuel)) c reject e w0
        | ThenMember.callable script =>
          tryCatch (callFn (resolvePromise fuel)) c reject
            (runThen (callFn (resolvePromise fuel))
              (Fn.adoptFulfilled c promise2 resolve reject) (Fn.adoptRejected c reject)
              script w0)
        | ThenMember.notCallable =>
          tryCatch (callFn (resolvePromise fuel)) c reject
            (callFn (resolvePromise fuel) resolve x w0)
      | Val.typeError _ =>
        -- an error object has no `then` member
        tryCatch (callFn (resolvePromise fuel)) c reject
          (callFn (resolvePromise fuel) resolve x w0)
      | Val.array _ =>
        -- neither has an array
        tryCatch (callFn (resolvePromise fuel)) c reject
          (callFn (resolvePromise fuel) resolve x w0)
      | _ => discard (callFn (resolvePromise fuel) resolve x w0)

/-! ## The timer queue -/

/-- Runs one `setTimeout` callback of `then` (lines 171-176 and 181-186). -/
def runTimer (fuel : Nat) : Timer → World → Option World
  | Timer.fulfilledJob self onFulfilled promise2, w =>
    match callFn (resolvePromise fuel) onFulfilled (w.heap self).value w with
    | none => none
    | some (Completion.thrown e, w1) => some (settleReject promise2 e w1)
    | some (Completion.normal x, w1) =>
      match resolvePromise fuel promise2 x (Fn.resolve promise2) (Fn.reject promise2) w1 with
      | none => none
      | some (Completion.thrown e, w2) => some (settleReject promise2 e w2)
      | some (Completion.normal _, w2) => some w2
  | Timer.rejectedJob self onRejected promise2, w =>
    match callFn (resolvePromise fuel) onRejected (w.heap self).reason w with
    | none => none
    | some (Completion.thrown e, w1) => some (settleReject promise2 e w1)
    | some (Completion.normal x, w1) =>
      match resolvePromise fuel promise2 x (Fn.resolve promise2) (Fn.reject promise2) w1 with
      | none => none
      | some (Completion.thrown e, w2) => some (settleReject promise2 e w2)
      | some (Completion.normal _, w2) => some w2

/-- Runs the timer callbacks in the order they were scheduled until none is left.
`none` means the fuel ran out first. -/
def drain : Nat → World → Option World
  | 0, w => match w.timers with
    | [] => some w
    | _ :: _ => none
  | fuel + 1, w => match w.timers with
    | [] => some w
    | job :: rest =>
      match runTimer fuel job { w with timers := rest } with
      | none => none
      | some w1 => drain fuel w1

/-! ## The constructor with a user initializer -/

/-- What an initializer `(resolve, reject) => ...` does, one step at a time: it calls
`resolve`, calls `reject`, or throws (which ends it). -/
inductive ExecEvent where
  | resolve (value : Val)
  | reject (reason : Val)
  | raise (e : Val)
  deriving DecidableEq, Repr

/-- Runs the call `executor(resolve, reject)` of line 80 for the promise `p`. -/
def runExecutor (p : Nat) : List ExecEvent → World → Completion × World
  | [], w => (Completion.normal Val.undefined, w)
  | ExecEvent.resolve v :: rest, w => runExecutor p rest (settleResolve p v w)
  | ExecEvent.reject r :: rest, w => runExecutor p rest (settleReject p r w)
  | ExecEvent.raise e :: _, w => (Completion.thrown e, w)

/-- The constructor (lines 59-84) applied to a user initializer performing `script`.
Returns the reference of the new promise. -/
def construct (script : List ExecEvent) (w : World) : Nat × World :=
  let (p, w0) := newPromise w
  match runExecutor p script w0 with
  | (Completion.normal _, w1) => (p, w1)
  | (Completion.thrown e, w1) => (p, settleReject p e w1)

/-! ## `finally` and the combinators -/

/-- `Promise.prototype.finally` (lines 218-228) for the user callback `(name, body)`. -/
def finally_ (self name : Nat) (body : Val → Completion) (w : World) : Nat × World :=
  then_ self (Arg.fn (Fn.closure (Closure.finallyOnFulfilled name body)))
    (Arg.fn (Fn.closure (Closure.finallyOnRejected name body))) w

/-- The functions the combinators pass to `then` and `catch`: the two closures of the
aggregate promise and the closures of lines 107-112, 136-140 and 149-155. -/
inductive Reaction where
  | resolve (p : Nat)
  | reject (p : Nat)
  | closure (k : Closure)

/-- A reaction as a function value. -/
def Reaction.toFn : Reaction → Fn
  | Reaction.resolve p => Fn.resolve p
  | Reaction.reject p => Fn.reject p
  | Reaction.closure k => Fn.closure k

/-- Calls a reaction on one argument (`callFn` on `Reaction.toFn`, which needs no
fuel). -/
def callReaction : Reaction → Val → World → Completion × World
  | Reaction.resolve p, v, w => (Completion.normal Val.undefined, settleResolve p v w)
  | Reaction.reject p, v, w => (Completion.normal Val.undefined, settleReject p v w)
  | Reaction.closure k, v, w => callClosure k v w

/-- The call `p.then(f)` of a foreign `then` method performing `script`, no second
argument being passed. -/
def runThenReacting (f : Reaction) : List Event → World → Completion × World
  | [], w => (Completion.normal Val.undefined, w)
  | Event.success y :: rest, w =>
    match callReaction f y w with
    | (Completion.thrown e, w1) => (Completion.thrown e, w1)
    | (Completion.normal _, w1) => runThenReacting f rest w1
  | Event.failure _ :: _, w => (Completion.thrown notAFunction, w)
  | Event.raise e :: _, w => (Completion.thrown e, w)

/-- The statement `p.then(f).catch(g)` of lines 107-113, 120, 136-140 and 149-155 for
an element `p` of the input.  A promise registers `f`, and `g` on the promise `then`
returns; a foreign `then` method returns `undefined`, which has no `catch`; any other
value has no `then` method to call. -/
def thenCatch (p : Val) (f g : Reaction) (w : World) : Completion × World :=
  match p with
  | Val.promise q =>
    let (q2, w1) := then_ q (Arg.fn f.toFn) (Arg.value Val.undefined) w
    let (_, w2) := catch_ q2 (Arg.fn g.toFn) w1
    (Completion.normal Val.undefined, w2)
  | Val.obj id =>
    match w.thenOf id with
    | ThenMember.callable script =>
      match runThenReacting f script w with
      | (Completion.thrown e, w1) => (Completion.thrown e, w1)
      | (Completion.normal _, w1) => (Completion.thrown noProperties, w1)
    | ThenMember.getterThrows e => (Completion.thrown e, w)
    | ThenMember.notCallable => (Completion.thrown notAFunction, w)
  | Val.undefined => (Completion.thrown noProperties, w)
  | Val.null => (Completion.thrown noProperties, w)
  | _ => (Completion.thrown notAFunction, w)

/-- The loops `promises.forEach((p, i) => ...)` and `for (const p of promises)`:
`step i p` is the body for the element `p` at index `i`; a throw ends the loop. -/
def forEachInput (step : Nat → Val → World → Completion × World) :
    Nat → List Val → World → Completion × World
  | _, [], w => (Completion.normal Val.undefined, w)
  | i, p :: rest, w =>
    match step i p w with
    | (Completion.thrown e, w1) => (Completion.thrown e, w1)
    | (Completion.normal _, w1) => forEachInput step (i + 1) rest w1

/-- The end of the constructor for the initializers of the combinators: what the
initializer threw is passed to `reject` (lines 79-83). -/
def finishConstruct (agg : Nat) : Completion × World → Nat × World
  | (Completion.normal _, w) => (agg, w)
  | (Completion.thrown e, w) => (agg, settleReject agg e w)

/-- `Promise.all` (lines 102-116). -/
def all (promises : List Val) (w : World) : Nat × World :=
  let cell := w.nextCell
  let w0 := w.newCell
  let (agg, w1) := newPromise w0
  finishConstruct agg
    (forEachInput (fun i p => thenCatch p
      (Reaction.closure (Closure.allOnFulfilled cell i promises.length agg))
      (Reaction.reject agg)) 0 promises w1)

/-- `Promise.race` (lines 117-123). -/
def race (promises : List Val) (w : World) : Nat × World :=
  let (agg, w1) := newPromise w
  finishConstruct agg
    (forEachInput (fun _ p => thenCatch p (Reaction.resolve agg) (Reaction.reject agg))
      0 promises w1)

/-- `Promise.allSettled` (lines 124-143). -/
def allSettled (promises : List Val) (w : World) : Nat × World :=
  let cell := w.nextCell
  let w0 := w.newCell
  let (agg, w1) := newPromise w0
  finishConstruct agg
    (forEachInput (fun i p => thenCatch p
      (Reaction.closure (Closure.allSettledOnFulfilled cell i promises.length agg))
      (Reaction.closure (Closure.allSettledOnRejected cell i promises.length agg)))
      0 promises w1)

/-- `Promise.any` (lines 144-158). -/
def any (promises : List Val) (w : World) : Nat × World :=
  let (agg, w1) := newPromise w
  let cell := w1.nextCell
  let w2 := w1.newCell
  finishConstruct agg
    (forEachInput (fun i p => thenCatch p (Reaction.resolve agg)
      (Reaction.closure (Closure.anyOnRejected cell i promises.length agg)))
      0 promises w2)

/-! ## Vocabulary for the statements -/

/-- One call of a settlement capability of a promise. -/
inductive Settle where
  | resolve (value : Val)
  | reject (reason : Val)
  deriving DecidableEq, Repr

/-- Performs one call of `Fn.resolve p` or `Fn.reject p`. -/
def applySettle (p : Nat) : Settle → World → World
  | Settle.resolve v, w => settleResolve p v w
  | Settle.reject r, w => settleReject p r w

/-- Performs the calls one after the other. -/
def applySettles (p : Nat) (calls : List Settle) (w : World) : World :=
  calls.foldl (fun acc c => applySettle p c acc) w

/-- A settlement call as a step of an initializer. -/
def ExecEvent.ofSettle : Settle → ExecEvent
  | Settle.resolve v => ExecEvent.resolve v
  | Settle.reject r => ExecEvent.reject r

/-- The promise `p` is fulfilled with value `v`. -/
def World.fulfilledWith (w : World) (p : Nat) (v : Val) : Prop :=
  (w.heap p).status = Status.FULFILLED ∧ (w.heap p).value = v

/-- The promise `p` is rejected with reason `r`. -/
def World.rejectedWith (w : World) (p : Nat) (r : Val) : Prop :=
  (w.heap p).status = Status.REJECTED ∧ (w.heap p).reason = r

instance (w : World) (p : Nat) (v : Val) : Decidable (w.fulfilledWith p v) :=
  inferInstanceAs (Decidable (_ ∧ _))

instance (w : World) (p : Nat) (r : Val) : Decidable (w.rejectedWith p r) :=
  inferInstanceAs (Decidable (_ ∧ _))

/-- The reason built at line 5. -/
def cycleError : Val :=
  Val.typeError "Chaining cycle detected for promise #<Promise>"

/-- Foreign objects used in the examples: object 0 has a `then` that reports success
with 7, object 1 has a `then` that reports failure with "boom", object 2 has a `then`
that passes promise 1 to its success callback and then misbehaves, object 3 has a
`then` that reports failure with "no" and then misbehaves, the others have no `then`. -/
def exampleThenOf : Nat → ThenMember
  | 0 => ThenMember.callable [Event.success (Val.num 7)]
  | 1 => ThenMember.callable [Event.failure (Val.str "boom")]
  | 2 => ThenMember.callable
      [Event.success (Val.promise 1), Event.success (Val.num 3), Event.raise (Val.str "late")]
  | 3 => ThenMember.callable
      [Event.failure (Val.str "no"), Event.success (Val.num 3), Event.raise (Val.str "late")]
  | _ => ThenMember.notCallable

/-- The world of the examples after `dfd = Promise.defer()`: promise 0 is pending. -/
def exampleDeferred : World :=
  (defer (World.init exampleThenOf)).2

/-- The world of the examples after `dfd.resolve(1)`: promise 0 is fulfilled with 1. -/
def exampleFulfilled : World :=
  settleResolve 0 (Val.num 1) exampleDeferred

/-- The world of the examples after `dfd.reject("bad")`: promise 0 is rejected. -/
def exampleRejected : World :=
  settleReject 0 (Val.str "bad") exampleDeferred

/-- The world of the examples after `dfd.resolve(x)` for the thenable `x`, object 1,
whose `then` reports failure with "boom": promise 0 is fulfilled with `x`. -/
def exampleFulfilledWithThenable : World :=
  settleResolve 0 (Val.obj 1) exampleDeferred

/-- A value is not treated as a thenable by `resolvePromise`: it is not an object or
function, or it is an object whose `then` member can be read and is not a function. -/
def World.notThenable (w : World) : Val → Bool
  | Val.promise _ => false
  | Val.obj id => decide (w.thenOf id = ThenMember.notCallable)
  | _ => true

/-- The value has a `then` member that is a function: it is a promise of this
library, or a foreign object whose `then` can be read and is callable. -/
def World.hasCallableThen (w : World) : Val → Bool
  | Val.promise _ => true
  | Val.obj id =>
    match w.thenOf id with
    | ThenMember.callable _ => true
    | _ => false
  | _ => false

/-- What reading the `then` member of the value throws, when it throws. -/
def World.thenGetterThrows (w : World) : Val → Option Val
  | Val.obj id =>
    match w.thenOf id with
    | ThenMember.getterThrows e => some e
    | _ => none
  | _ => none

/-- The foreign objects of the examples with a getter: reading `then` on object 0
throws "g", the other objects have no `then`. -/
def exampleGetterThenOf : Nat → ThenMember
  | 0 => ThenMember.getterThrows (Val.str "g")
  | _ => ThenMember.notCallable

/-- A pending promise with the given callback arrays. -/
def PromiseState.pendingWith (onResolve onRejected : List Timer) : PromiseState :=
  { value := Val.undefined, reason := Val.undefined, status := Status.PENDING,
    onResolveCallbacks := onResolve, onRejectedCallbacks := onRejected }

/-- A promise that was fulfilled with `v` while it had the given callback arrays. -/
def PromiseState.fulfilledWith (v : Val) (onResolve onRejected : List Timer) : PromiseState :=
  { value := v, reason := Val.undefined, status := Status.FULFILLED,
    onResolveCallbacks := onResolve, onRejectedCallbacks := onRejected }

/-- A promise that was rejected with `r` while it had the given callback arrays. -/
def PromiseState.rejectedWith (r : Val) (onResolve onRejected : List Timer) : PromiseState :=
  { value := Val.undefined, reason := r, status := Status.REJECTED,
    onResolveCallbacks := onResolve, onRejectedCallbacks := onRejected }

/-- The reference of the promise `p.then(f)` a combinator builds for its input of
index `i`, when `agg` is the promise the combinator returns and every input is a
promise: the promises are built in turn. -/
def thenOfInput (agg i : Nat) : Nat :=
  agg + 1 + 2 * i

/-- The reference of the promise `p.then(f).catch(g)` built for the input of
index `i`. -/
def catchOfInput (agg i : Nat) : Nat :=
  agg + 2 + 2 * i

/-- The value or reason of a settlement call. -/
def Settle.payload : Settle → Val
  | Settle.resolve v => v
  | Settle.reject r => r

/-- The object `Promise.resolve(v)` or `Promise.reject(r)` builds for a payload that
has no callable `then`: a promise settled as `s` says, without callbacks. -/
def Settle.record : Settle → PromiseState
  | Settle.resolve v => PromiseState.fulfilledWith v [] []
  | Settle.reject r => PromiseState.rejectedWith r [] []

/-- A function value built by the library out of the default handlers, the closures
of promises and the closures of `resolvePromise`: calling it runs no user function. -/
def LibFn : Fn → Prop
  | Fn.identity => True
  | Fn.thrower => True
  | Fn.resolve _ => True
  | Fn.reject _ => True
  | Fn.adoptFulfilled _ _ res rej => LibFn res ∧ LibFn rej
  | Fn.adoptRejected _ rej => LibFn rej
  | Fn.user _ _ => False
  | Fn.closure _ => False

/-- The handler a job calls. -/
def Timer.handler : Timer → Fn
  | Timer.fulfilledJob _ h _ => h
  | Timer.rejectedJob _ h _ => h

/-- The promise whose payload a job passes to its handler. -/
def Timer.source : Timer → Nat
  | Timer.fulfilledJob self _ _ => self
  | Timer.rejectedJob self _ _ => self

/-- The argument a job passes to its handler in the world `w`. -/
def Timer.argument (w : World) : Timer → Val
  | Timer.fulfilledJob self _ _ => (w.heap self).value
  | Timer.rejectedJob self _ _ => (w.heap self).reason

/-- What running a job adds to the trace of user invocations. -/
def Timer.invocation (w : World) (t : Timer) : List (Nat × Val) :=
  match t.handler with
  | Fn.user name _ => [(name, t.argument w)]
  | _ => []

/-- A job of the promise `F` calling a user function, or a job calling a library
function. -/
def JobOf (F : Nat) (t : Timer) : Prop :=
  LibFn t.handler ∨ (t.source = F ∧ ∃ name body, t.handler = Fn.user name body)

/-- The promise `F` exists and is settled, and the callbacks stored on the other
promises call library functions only. -/
def Settled (F : Nat) (w : World) : Prop :=
  (w.heap F).status ≠ Status.PENDING ∧ F < w.nextId ∧
  ∀ p, p ≠ F →
    (∀ t ∈ (w.heap p).onResolveCallbacks, LibFn t.handler) ∧
    (∀ t ∈ (w.heap p).onRejectedCallbacks, LibFn t.handler)

/-- What a call of library functions does to a world in which `F` is settled: it
appends library jobs to the queue and changes neither the trace nor `F`. -/
def QuietStep (F : Nat) (w w1 : World) : Prop :=
  Settled F w →
    Settled F w1 ∧ w1.log = w.log ∧ w1.heap F = w.heap F ∧
    ∃ ts, w1.timers = w.timers ++ ts ∧ ∀ t ∈ ts, LibFn t.handler

/-- An argument of `then` written by the user: a function `(name, body)` or nothing. -/
def userArg : Option (Nat × (Val → Completion)) → Arg
  | none => Arg.value Val.undefined
  | some (name, body) => Arg.fn (Fn.user name body)

/-- What is done with a promise: a registration `then(onFulfilled, onRejected)` or a
call of one of its settlement closures. -/
inductive Op where
  | register (onFulfilled onRejected : Option (Nat × (Val → Completion)))
  | settle (s : Settle)

/-- Performs one operation on the promise `F`. -/
def applyOp (F : Nat) : Op → World → World
  | Op.register a b, w => (then_ F (userArg a) (userArg b) w).2
  | Op.settle s, w => applySettle F s w

/-- Performs the operations one after the other. -/
def applyOps (F : Nat) (ops : List Op) (w : World) : World :=
  ops.foldl (fun acc op => applyOp F op acc) w

/-- The first settlement call among the operations. -/
def firstSettle : List Op → Option Settle
  | [] => none
  | Op.settle s :: _ => some s
  | Op.register _ _ :: rest => firstSettle rest

/-- The names of the success handlers registered, in registration order. -/
def fulfilNames : List Op → List Nat
  | [] => []
  | Op.register (some (name, _)) _ :: rest => name :: fulfilNames rest
  | _ :: rest => fulfilNames rest

/-- The names of the failure handlers registered, in registration order. -/
def rejectNames : List Op → List Nat
  | [] => []
  | Op.register _ (some (name, _)) :: rest => name :: rejectNames rest
  | _ :: rest => rejectNames rest

/-- The invocations the claim expects once the queue is drained: the handlers of the
path of the first settlement, each once, with its payload, in registration order. -/
def expectedTrace (ops : List Op) : List (Nat × Val) :=
  match firstSettle ops with
  | none => []
  | some (Settle.resolve v) => (fulfilNames ops).map (fun name => (name, v))
  | some (Settle.reject r) => (rejectNames ops).map (fun name => (name, r))

/-- The promise a job settles: the `promise2` of the call of `then` that made it. -/
def Timer.target : Timer → Nat
  | Timer.fulfilledJob _ _ promise2 => promise2
  | Timer.rejectedJob _ _ promise2 => promise2

/-- What running the jobs one after the other adds to the trace, each handler being
passed the payload its promise has in `w`. -/
def invocations (w : World) : List Timer → List (Nat × Val)
  | [] => []
  | t :: ts => t.invocation w ++ invocations w ts

/-- The jobs the calls of `then` among `ops` make on the promise `F`, on the success
path (`fulfilled = true`) or on the failure path, in registration order; `next` is
the reference the next `promise2` gets. -/
def registeredJobs (F : Nat) (fulfilled : Bool) : Nat → List Op → List Timer
  | _, [] => []
  | next, Op.register a b :: rest =>
    (if fulfilled then Timer.fulfilledJob F (userArg a).orIdentity next
     else Timer.rejectedJob F (userArg b).orThrower next)
      :: registeredJobs F fulfilled (next + 1) rest
  | next, Op.settle _ :: rest => registeredJobs F fulfilled next rest

/-- What the operations leave untouched: the trace, the foreign objects, the promises
that existed before and are not `F`; every `promise2` they make is a new pending
promise without callbacks. -/
def OpsFrame (F : Nat) (ops : List Op) (w w1 : World) : Prop :=
  w1.log = w.log ∧ w1.thenOf = w.thenOf ∧ F < w1.nextId ∧
  (∀ p, p ≠ F → p < w.nextId → w1.heap p = w.heap p) ∧
  (∀ p, p ≠ F → w1.heap p = w.heap p ∨ w1.heap p = PromiseState.fresh) ∧
  (∀ ok, ∀ t ∈ registeredJobs F ok w.nextId ops, w1.heap t.target = PromiseState.fresh)

/-- A completion that settles `promise2` at once: a throw, or a returned value that
is not a thenable. -/
def Completion.plain (w : World) : Completion → Prop
  | Completion.thrown _ => True
  | Completion.normal x => w.notThenable x = true

/-- How the handler a registration has on the settled path completes when it is
passed the payload `v`: `then` replaces a missing success handler by `(v) => v` and a
missing failure handler by one that throws its argument (lines 160-167). -/
def Op.completion (fulfilled : Bool) (v : Val) : Op → Option Completion
  | Op.register a b =>
    if fulfilled then
      match a with
      | none => some (Completion.normal v)
      | some (_, body) => some (body v)
    else
      match b with
      | none => some (Completion.thrown v)
      | some (_, body) => some (body v)
  | Op.settle _ => none

/-- Every handler on the settled path throws or returns a value that is not a
thenable when it is passed the payload. -/
def PlainResults (w : World) (ops : List Op) : Prop :=
  match firstSettle ops with
  | none => True
  | some (Settle.resolve v) => ∀ op ∈ ops, ∀ c, Op.completion true v op = some c → c.plain w
  | some (Settle.reject r) => ∀ op ∈ ops, ∀ c, Op.completion false r op = some c → c.plain w

/-- The operations of the example: a registration with both handlers while the
promise is pending, fulfilment with 5, a registration with a throwing success handler
only, a call of `reject`, and a registration without a success handler. -/
def exampleOps : List Op :=
  [Op.register (some (1, fun v => Completion.normal v))
      (some (2, fun _ => Completion.normal Val.undefined)),
   Op.settle (Settle.resolve (Val.num 5)),
   Op.register (some (3, fun _ => Completion.thrown (Val.str "oops"))) none,
   Op.settle (Settle.reject (Val.str "late")),
   Op.register none (some (4, fun v => Completion.normal v))]

/-- The chain `p.then(a1).then(a2)...`, no link having a second argument.  Returns
the last promise of the chain. -/
def thenChain : List Arg → Nat → World → Nat × World
  | [], p, w => (p, w)
  | a :: rest, p, w =>
    thenChain rest (then_ p a (Arg.value Val.undefined) w).1
      (then_ p a (Arg.value Val.undefined) w).2

/-- The promises `head :: rest` are pending and each has, as its only failure
callback, the job that hands its reason to the next one with the default
`onRejected`; the last one has no failure callback. -/
def Linked (w : World) : Nat → List Nat → Prop
  | head, [] =>
    (w.heap head).status = Status.PENDING ∧ (w.heap head).onRejectedCallbacks = []
  | head, q :: qs =>
    (w.heap head).status = Status.PENDING ∧
    (w.heap head).onRejectedCallbacks = [Timer.rejectedJob head Fn.thrower q] ∧
    Linked w q qs

/-- The TypeError thrown by `p.then(f)` when `p` has no `then` method: `undefined` and
`null` have no members at all, for other values `p.then` is not a function. -/
def typeErrorFor : Val → Val
  | Val.undefined => noProperties
  | Val.null => noProperties
  | _ => notAFunction

/-- The world of the examples with two deferreds, promises 0 and 1, both pending. -/
def exampleTwoDeferred : World :=
  (defer (defer (World.init exampleThenOf)).2).2

/-- The world after `agg = Promise.race([d0.promise, d1.promise])` on the two pending
deferreds (`agg` is promise 2), then `d0.reject("r")`, then `d1.resolve(2)`. -/
def exampleRace : World :=
  settleResolve 1 (Val.num 2)
    (settleReject 0 (Val.str "r") (race [Val.promise 0, Val.promise 1] exampleTwoDeferred).2)

/-- The world after `agg = Promise.allSettled([d0.promise, d1.promise])` on the two
pending deferreds (`agg` is promise 2), then `d0.resolve(x)` and `d1.reject(x)` for the
same thenable `x`, object 0. -/
def exampleAllSettled : World :=
  settleReject 1 (Val.obj 0)
    (settleResolve 0 (Val.obj 0)
      (allSettled [Val.promise 0, Val.promise 1] exampleTwoDeferred).2)

/-- Replaces any completion by the normal completion `undefined`: what is left of a
call whose value is ignored and whose exception is caught and dropped. -/
def swallow : Option (Completion × World) → Option (Completion × World)
  | none => none
  | some (_, w) => some (Completion.normal Val.undefined, w)

/-- A relation `R` between the world before and the world after a call is a frame for
the functions satisfying `OK` when every elementary step of the library respects it
and `OK` passes to and from the closures built by `resolvePromise`. -/
structure Frame (OK : Fn → Prop) (R : World → World → Prop) : Prop where
  refl : ∀ w, R w w
  trans : ∀ a b c, R a b → R b c → R a c
  user : ∀ n b v (w : World), OK (Fn.user n b) → R w { w with log := w.log ++ [(n, v)] }
  resolve : ∀ p v w, R w (settleResolve p v w)
  reject : ∀ p v w, R w (settleReject p v w)
  newCalled : ∀ w : World, R w w.newCalled
  setCalled : ∀ c (w : World), R w (w.setCalled c)
  register : ∀ q f g w, OK f → OK g → R w (then_ q (Arg.fn f) (Arg.fn g) w).2
  closure : ∀ k v w, OK (Fn.closure k) → R w (callClosure k v w).2
  adoptFulfilled : ∀ c p res rej, OK res → OK rej → OK (Fn.adoptFulfilled c p res rej)
  adoptRejected : ∀ c rej, OK rej → OK (Fn.adoptRejected c rej)
  ofAdoptFulfilled : ∀ c p res rej, OK (Fn.adoptFulfilled c p res rej) → OK res ∧ OK rej
  ofAdoptRejected : ∀ c rej, OK (Fn.adoptRejected c rej) → OK rej

/-- Latches only ever go from `false` to `true`, and new ones are declared after the
existing ones. -/
def LatchMono (w w1 : World) : Prop :=
  w.nextCalled ≤ w1.nextCalled ∧ ∀ c, c < w.nextCalled → w.called c = true → w1.called c = true

/-! ## Vocabulary for the combinators under any schedule -/

/-- The outcome of the promise `p`, if it is settled. -/
def World.outcome (w : World) (p : Nat) : Option Settle :=
  match (w.heap p).status with
  | Status.PENDING => none
  | Status.FULFILLED => some (Settle.resolve (w.heap p).value)
  | Status.REJECTED => some (Settle.reject (w.heap p).reason)

/-- An input seen settled: its index in the input list, the promise, its outcome. -/
structure Seen where
  index : Nat
  input : Nat
  outcome : Settle

/-- The indices, counted from `i`, at which the promise `p` stands in the input list,
each seen with the outcome `s`. -/
def seenAt (p : Nat) (s : Settle) : Nat → List Nat → List Seen
  | _, [] => []
  | i, x :: rest =>
    if x = p then { index := i, input := p, outcome := s } :: seenAt p s (i + 1) rest
    else seenAt p s (i + 1) rest

/-- The inputs that are settled in `w`, in input order, the indices counted from `i`. -/
def seenAtCall (w : World) : Nat → List Nat → List Seen
  | _, [] => []
  | i, p :: rest =>
    match w.outcome p with
    | some s => { index := i, input := p, outcome := s } :: seenAtCall w (i + 1) rest
    | none => seenAtCall w (i + 1) rest

/-- What happens after the call of a combinator: a settlement closure of the input at
index `i` is called, or the first timer of the queue runs. -/
inductive Act where
  | settle (i : Nat) (s : Settle)
  | tick

/-- Runs the first timer of the queue, if there is one. -/
def runTick (fuel : Nat) (w : World) : Option World :=
  match w.timers with
  | [] => some w
  | job :: rest => runTimer fuel job { w with timers := rest }

/-- Performs one act on the inputs `ps`. -/
def runAct (fuel : Nat) (ps : List Nat) : Act → World → Option World
  | Act.settle i s, w =>
    match ps[i]? with
    | some p => some (applySettle p s w)
    | none => some w
  | Act.tick, w => runTick fuel w

/-- Performs the acts one after the other. -/
def runActs (fuel : Nat) (ps : List Nat) : List Act → World → Option World
  | [], w => some w
  | a :: rest, w =>
    match runAct fuel ps a w with
    | none => none
    | some w1 => runActs fuel ps rest w1

/-- The order in which the combinator sees its inputs settled: `seen` lists those seen
so far; a settlement call on a promise not seen yet adds every index at which that
promise stands; calls on a settled promise and timer runs add nothing. -/
def observe (ps : List Nat) : List Seen → List Act → List Seen
  | seen, [] => seen
  | seen, Act.tick :: rest => observe ps seen rest
  | seen, Act.settle i s :: rest =>
    match ps[i]? with
    | none => observe ps seen rest
    | some p =>
      if seen.any (fun x => decide (x.input = p)) then observe ps seen rest
      else observe ps (seen ++ seenAt p s 0 ps) rest

/-- The reason of the first rejection in the list. -/
def firstRejected : List Seen → Option Val
  | [] => none
  | x :: rest =>
    match x.outcome with
    | Settle.reject r => some r
    | Settle.resolve _ => firstRejected rest

/-- The value of the first fulfilment in the list. -/
def firstFulfilled : List Seen → Option Val
  | [] => none
  | x :: rest =>
    match x.outcome with
    | Settle.resolve v => some v
    | Settle.reject _ => firstFulfilled rest

/-- The number of fulfilments in the list. -/
def fulfilledCount : List Seen → Nat
  | [] => 0
  | x :: rest =>
    match x.outcome with
    | Settle.resolve _ => fulfilledCount rest + 1
    | Settle.reject _ => fulfilledCount rest

/-- The world in which the combinators are called: nothing is scheduled, and the
inputs are existing promises, pending or settled, the pending ones without callbacks. -/
def QuietInputs (w : World) (ps : List Nat) : Prop :=
  w.timers = [] ∧
  ∀ p ∈ ps, p < w.nextId ∧
    ((w.heap p).status = Status.PENDING →
      (w.heap p).onResolveCallbacks = [] ∧ (w.heap p).onRejectedCallbacks = [])

/-- The list `zs` holds the elements of `xs` and of `ys`, each list in its order. -/
inductive Interleave : List Timer → List Timer → List Timer → Prop where
  | nil : Interleave [] [] []
  | left (t : Timer) {xs ys zs : List Timer} :
      Interleave xs ys zs → Interleave (t :: xs) ys (t :: zs)
  | right (t : Timer) {xs ys zs : List Timer} :
      Interleave xs ys zs → Interleave xs (t :: ys) (t :: zs)

/-- The statements `p.then(f).catch(g)` a combinator makes for its inputs `ps`: `agg`
is the promise it returns, `onFulfilled i` and `onRejected i` are `f` and `g` for the
input at index `i`, and `throws v` is what `f` throws when called with `v`. -/
structure Pipes where
  ps : List Nat
  agg : Nat
  onFulfilled : Nat → Reaction
  onRejected : Nat → Reaction
  throws : Val → Option Val

/-- The outcome of `p.then(f)` for an input with the outcome `s`: `f` returns nothing,
and a rejection passes through. -/
def Pipes.thenOutcome (P : Pipes) : Settle → Settle
  | Settle.resolve v =>
    match P.throws v with
    | none => Settle.resolve Val.undefined
    | some e => Settle.reject e
  | Settle.reject r => Settle.reject r

/-- The job of `p.then(f)` for an input seen settled. -/
def Pipes.thenJob (P : Pipes) (x : Seen) : Timer :=
  match x.outcome with
  | Settle.resolve _ =>
    Timer.fulfilledJob x.input (P.onFulfilled x.index).toFn (thenOfInput P.agg x.index)
  | Settle.reject _ =>
    Timer.rejectedJob x.input Fn.thrower (thenOfInput P.agg x.index)

/-- The job of `.catch(g)` on the promise `p.then(f)` returned. -/
def Pipes.catchJob (P : Pipes) (x : Seen) : Timer :=
  match P.thenOutcome x.outcome with
  | Settle.resolve _ =>
    Timer.fulfilledJob (thenOfInput P.agg x.index) Fn.identity (catchOfInput P.agg x.index)
  | Settle.reject _ =>
    Timer.rejectedJob (thenOfInput P.agg x.index) (P.onRejected x.index).toFn
      (catchOfInput P.agg x.index)

/-- The state of the inputs and of the promises `p.then(f)` and `p.then(f).catch(g)`
made for them, when the inputs in `A` have been through both jobs, those in `B`
through the job of `then` only, and those in `C` are settled, the job of `then` not
having run yet. -/
structure Plumb (P : Pipes) (w : World) (A B C : List Seen) : Prop where
  nodup : ((A ++ B ++ C).map Seen.index).Nodup
  seen : ∀ x ∈ A ++ B ++ C,
    P.ps[x.index]? = some x.input ∧ w.outcome x.input = some x.outcome
  unseen : ∀ i p, P.ps[i]? = some p → i ∉ (A ++ B ++ C).map Seen.index →
    (w.heap p).status = Status.PENDING ∧
    (w.heap p).onResolveCallbacks =
      (seenAt p (Settle.resolve Val.undefined) 0 P.ps).map P.thenJob ∧
    (w.heap p).onRejectedCallbacks =
      (seenAt p (Settle.reject Val.undefined) 0 P.ps).map P.thenJob
  below : ∀ p ∈ P.ps, p < P.agg
  room : P.agg + 1 + 2 * P.ps.length ≤ w.nextId
  thenWaiting : ∀ i, i < P.ps.length → i ∉ (A ++ B).map Seen.index →
    w.heap (thenOfInput P.agg i) = PromiseState.pendingWith
      [Timer.fulfilledJob (thenOfInput P.agg i) Fn.identity (catchOfInput P.agg i)]
      [Timer.rejectedJob (thenOfInput P.agg i) (P.onRejected i).toFn (catchOfInput P.agg i)]
  thenDone : ∀ x ∈ A ++ B,
    w.outcome (thenOfInput P.agg x.index) = some (P.thenOutcome x.outcome)
  catchWaiting : ∀ i, i < P.ps.length → i ∉ A.map Seen.index →
    w.heap (catchOfInput P.agg i) = PromiseState.fresh

/-- The queue holds the jobs of `catch` for the inputs in `B` and the jobs of `then`
for the inputs in `C`, each kind in the order of its list. -/
def Queued (P : Pipes) (w : World) (B C : List Seen) : Prop :=
  Interleave (B.map P.catchJob) (C.map P.thenJob) w.timers

/-- Settles `promise2` as the end of a job does when the handler completed with a
throw or with a value that is not a thenable. -/
def settleWith (promise2 : Nat) : Completion → World → World
  | Completion.normal x, w => settleResolve promise2 x w.newCalled
  | Completion.thrown e, w => settleReject promise2 e w

/-- What a reaction of a combinator may do: settle `agg`, write its counter and array,
build new promises. -/
def Effect (agg : Nat) (w w1 : World) : Prop :=
  w1.timers = w.timers ∧ w1.thenOf = w.thenOf ∧ w.nextId ≤ w1.nextId ∧
  ∀ k, k ≠ agg → k < w.nextId → w1.heap k = w.heap k

/-- The worlds agree on what the state of a combinator is read from: the counters and
arrays, the foreign objects, the promise `agg` and the promises built after those of
the call. -/
def Agree (P : Pipes) (w w1 : World) : Prop :=
  w1.counts = w.counts ∧ w1.arrays = w.arrays ∧ w1.thenOf = w.thenOf ∧
  w1.nextId = w.nextId ∧
  ∀ k, k = P.agg ∨ P.agg + 1 + 2 * P.ps.length ≤ k → w1.heap k = w.heap k

/-- The state `S` of a combinator, a property of the world and of the inputs that have
been through both jobs (`A`) and through the job of `then` only (`B`), is kept by the
reactions of the combinator. -/
structure Steps (P : Pipes) (S : World → List Seen → List Seen → Prop) : Prop where
  congr : ∀ w w1 A B, Agree P w w1 → S w A B → S w1 A B
  thenFulfilled : ∀ w A B C x v, Plumb P w A B (x :: C) → S w A B →
    x.outcome = Settle.resolve v →
    ∃ c w1, callReaction (P.onFulfilled x.index) v w = (c, w1) ∧ Effect P.agg w w1 ∧
      (P.throws v = none → c = Completion.normal Val.undefined) ∧
      (∀ e, P.throws v = some e → c = Completion.thrown e) ∧
      S w1 A (B ++ [x])
  thenRejected : ∀ w A B C x r, Plumb P w A B (x :: C) → S w A B →
    x.outcome = Settle.reject r → S w A (B ++ [x])
  catchFulfilled : ∀ w A B C y u, Plumb P w A (y :: B) C → S w A (y :: B) →
    P.thenOutcome y.outcome = Settle.resolve u → S w (A ++ [y]) B
  catchRejected : ∀ w A B C y e, Plumb P w A (y :: B) C → S w A (y :: B) →
    P.thenOutcome y.outcome = Settle.reject e →
    ∃ c w1, callReaction (P.onRejected y.index) e w = (c, w1) ∧ Effect P.agg w w1 ∧
      c.plain w1 ∧ S w1 (A ++ [y]) B

/-- The state of the loop of a combinator after the inputs `pre` have been gone
through, `w0` being the world in which the loop started. -/
structure Registered (P : Pipes) (w0 w : World) (pre : List Nat) : Prop where
  nextId : w.nextId = P.agg + 1 + 2 * pre.length
  timers : w.timers = w0.timers ++ (seenAtCall w0 0 pre).map P.thenJob
  status : ∀ p, p < P.agg →
    (w.heap p).status = (w0.heap p).status ∧ (w.heap p).value = (w0.heap p).value ∧
    (w.heap p).reason = (w0.heap p).reason
  pending : ∀ p, p < P.agg → (w0.heap p).status = Status.PENDING →
    (w.heap p).onResolveCallbacks = (w0.heap p).onResolveCallbacks ++
      (seenAt p (Settle.resolve Val.undefined) 0 pre).map P.thenJob ∧
    (w.heap p).onRejectedCallbacks = (w0.heap p).onRejectedCallbacks ++
      (seenAt p (Settle.reject Val.undefined) 0 pre).map P.thenJob
  made : ∀ j, j < pre.length →
    w.heap (thenOfInput P.agg j) = PromiseState.pendingWith
      [Timer.fulfilledJob (thenOfInput P.agg j) Fn.identity (catchOfInput P.agg j)]
      [Timer.rejectedJob (thenOfInput P.agg j) (P.onRejected j).toFn
        (catchOfInput P.agg j)] ∧
    w.heap (catchOfInput P.agg j) = PromiseState.fresh
  frame : w.heap P.agg = w0.heap P.agg ∧ w.counts = w0.counts ∧ w.arrays = w0.arrays ∧
    w.thenOf = w0.thenOf ∧ w.log = w0.log ∧ w.nextCell = w0.nextCell

/-- The settlement a completion gives the promise of a job. -/
def Completion.settle : Completion → Settle
  | Completion.normal x => Settle.resolve x
  | Completion.thrown e => Settle.reject e

/-! ## The state of `Promise.all` -/

/-- The statements `p.then((res) => ...).catch(reject)` of `Promise.all` (lines
107-113) for the inputs `ps`; `cell` holds `count` and `result`. -/
def allPipes (ps : List Nat) (agg cell : Nat) : Pipes :=
  { ps := ps, agg := agg,
    onFulfilled := fun i => Reaction.closure (Closure.allOnFulfilled cell i ps.length agg),
    onRejected := fun _ => Reaction.reject agg,
    throws := fun _ => none }

/-- The counter, the array and the promise of `Promise.all`, when the inputs in `A`
have been through both jobs and those in `B` through the job of `then`: the fulfilled
ones are counted and stored at their index; the promise is rejected with the first
rejection in `A`, else fulfilled with the array when all inputs are counted, else
pending. -/
structure AllState (ps : List Nat) (agg cell : Nat) (w : World) (A B : List Seen) :
    Prop where
  count : w.counts cell = fulfilledCount (A ++ B)
  entries : ∀ x ∈ A ++ B, ∀ v, x.outcome = Settle.resolve v →
    (w.arrays cell)[x.index]? = some (some v)
  short : (w.arrays cell).length ≤ ps.length
  status :
    match firstRejected A with
    | some r => w.heap agg = PromiseState.rejectedWith r [] []
    | none =>
      if fulfilledCount (A ++ B) = ps.length then
        w.heap agg = PromiseState.fulfilledWith (Val.array cell) [] []
      else w.heap agg = PromiseState.fresh

/-- The world of the examples after `d1.reject("b"); d0.reject("a")` on two deferreds:
promise 1 was rejected first. -/
def exampleBothRejected : World :=
  settleReject 0 (Val.str "a") (settleReject 1 (Val.str "b") exampleTwoDeferred)

/-- The world of the examples after `d1.resolve(2); d0.resolve(1)` on two deferreds:
promise 1 was fulfilled first. -/
def exampleBothFulfilled : World :=
  settleResolve 0 (Val.num 1) (settleResolve 1 (Val.num 2) exampleTwoDeferred)

/-! ## The state of `Promise.any` -/

/-- The number of rejections in the list. -/
def rejectionCount : List Seen → Nat
  | [] => 0
  | x :: rest =>
    match x.outcome with
    | Settle.reject _ => rejectionCount rest + 1
    | Settle.resolve _ => rejectionCount rest

/-- The statements `p.then(resolve).catch((err) => ...)` of `Promise.any` (lines
149-155) for the inputs `ps`; `cell` holds `rejectedCount` and `errors`. -/
def anyPipes (ps : List Nat) (agg cell : Nat) : Pipes :=
  { ps := ps, agg := agg,
    onFulfilled := fun _ => Reaction.resolve agg,
    onRejected := fun i => Reaction.closure (Closure.anyOnRejected cell i ps.length agg),
    throws := fun _ => none }

/-- The counter, the array and the promise of `Promise.any`, when the inputs in `A`
have been through both jobs and those in `B` through the job of `then`: the rejected
ones of `A` are counted and stored at their index; the promise is fulfilled with the
first fulfilment in `A ++ B`, else rejected with the array when all inputs are
counted, else pending. -/
structure AnyState (ps : List Nat) (agg cell : Nat) (w : World) (A B : List Seen) :
    Prop where
  count : w.counts cell = rejectionCount A
  entries : ∀ x ∈ A, ∀ r, x.outcome = Settle.reject r →
    (w.arrays cell)[x.index]? = some (some r)
  short : (w.arrays cell).length ≤ ps.length
  status :
    match firstFulfilled (A ++ B) with
    | some v => w.heap agg = PromiseState.fulfilledWith v [] []
    | none =>
      if rejectionCount A = ps.length then
        w.heap agg = PromiseState.rejectedWith (Val.array cell) [] []
      else w.heap agg = PromiseState.fresh


/-! ## The state of `Promise.allSettled` -/

/-- The statements `p.then((res) => ...).catch((err) => ...)` of `Promise.allSettled`
(lines 135-141) for the inputs `ps`, the call being made in the world `w0`; `cell`
holds `count` and `result`.  The function of `then` throws what reading the `then`
member of its argument throws, in `Promise.resolve(res)`. -/
def settledPipes (w0 : World) (ps : List Nat) (agg cell : Nat) : Pipes :=
  { ps := ps, agg := agg,
    onFulfilled := fun i =>
      Reaction.closure (Closure.allSettledOnFulfilled cell i ps.length agg),
    onRejected := fun i =>
      Reaction.closure (Closure.allSettledOnRejected cell i ps.length agg),
    throws := w0.thenGetterThrows }

/-- What the function of `then` stores for an input seen settled: the index and the
fulfilment, unless `Promise.resolve` throws. -/
def thenRec (P : Pipes) (x : Seen) : Option (Nat × Settle) :=
  match x.outcome with
  | Settle.resolve v =>
    match P.throws v with
    | none => some (x.index, Settle.resolve v)
    | some _ => none
  | Settle.reject _ => none

/-- What the function of `catch` stores for an input seen settled: the index and the
rejection of `p.then(f)`, unless `Promise.reject` throws. -/
def catchRec (P : Pipes) (x : Seen) : Option (Nat × Settle) :=
  match P.thenOutcome x.outcome with
  | Settle.resolve _ => none
  | Settle.reject e =>
    match P.throws e with
    | none => some (x.index, Settle.reject e)
    | some _ => none

/-- What has been stored when the inputs in `A` have been through both jobs and those
in `B` through the job of `then`. -/
def records (P : Pipes) (A B : List Seen) : List (Nat × Settle) :=
  (A ++ B).filterMap (thenRec P) ++ A.filterMap (catchRec P)

/-- The value `d` is what `Promise.resolve` or `Promise.reject` returns for the payload
of `s`: the payload itself when it has a callable `then`, else a promise built after
those of the call (from `lo` on) and settled as `s` says. -/
def Wrapped (w0 w : World) (lo : Nat) (s : Settle) (d : Val) : Prop :=
  (w0.hasCallableThen s.payload = true ∧ d = s.payload) ∨
  (w0.notThenable s.payload = true ∧
    ∃ k, d = Val.promise k ∧ lo ≤ k ∧ k < w.nextId ∧ w.heap k = s.record)

/-- The counter, the array and the promise of `Promise.allSettled` when `R` lists
what has been stored: the entries are counted and stand at their index; the promise
is fulfilled with the array when the counter has reached the number of inputs, else
pending. -/
structure SettledCore (w0 : World) (ps : List Nat) (agg cell : Nat) (w : World)
    (R : List (Nat × Settle)) : Prop where
  table : w.thenOf = w0.thenOf
  count : w.counts cell = R.length
  entries : ∀ r ∈ R, ∃ d, (w.arrays cell)[r.1]? = some (some d) ∧
    Wrapped w0 w (agg + 1 + 2 * ps.length) r.2 d
  short : (w.arrays cell).length ≤ ps.length
  status :
    if R.length = ps.length then
      w.heap agg = PromiseState.fulfilledWith (Val.array cell) [] []
    else w.heap agg = PromiseState.fresh

/-- The state of `Promise.allSettled` when the inputs in `A` have been through both
jobs and those in `B` through the job of `then`. -/
def SettledState (w0 : World) (ps : List Nat) (agg cell : Nat) (w : World)
    (A B : List Seen) : Prop :=
  SettledCore w0 ps agg cell w (records (settledPipes w0 ps agg cell) A B)

/-- An outcome `Promise.allSettled` can store: reading the `then` member of a
rejection reason does not throw, and if reading the `then` member of a fulfilment
value throws `g`, reading that of `g` does not. -/
def World.recordable (w : World) : Settle → Prop
  | Settle.resolve v => ∀ g, w.thenGetterThrows v = some g → w.thenGetterThrows g = none
  | Settle.reject r => w.thenGetterThrows r = none

/-- The entry `d` stands for a rejection with `r`: a promise built after `agg` and
rejected with `r` when `r` is not a thenable, and `r` itself when it has a callable
`then`. -/
def World.rejectionEntry (w : World) (agg : Nat) (r d : Val) : Prop :=
  (w.notThenable r = true ∧ ∃ k, d = Val.promise k ∧ agg < k ∧ w.rejectedWith k r) ∨
  (w.hasCallableThen r = true ∧ d = r)

/-- The entry `d` of the array of `Promise.allSettled` for an input with the outcome
`s`.  For a fulfilment with `v`: a promise built after `agg` and fulfilled with `v`
when `v` is not a thenable; `v` itself when it has a callable `then`; the entry of a
rejection with `g` when reading the `then` member of `v` throws `g`.  For a rejection
with `r`: the entry of a rejection with `r`. -/
def World.entryFor (w : World) (agg : Nat) : Settle → Val → Prop
  | Settle.resolve v, d =>
    (w.notThenable v = true ∧ ∃ k, d = Val.promise k ∧ agg < k ∧ w.fulfilledWith k v) ∨
    (w.hasCallableThen v = true ∧ d = v) ∨
    (∃ g, w.thenGetterThrows v = some g ∧ w.rejectionEntry agg g d)
  | Settle.reject r, d => w.rejectionEntry agg r d

/-- The world after `agg = Promise.allSettled([d0.promise, d1.promise])` on the two
pending deferreds (`agg` is promise 2), then `d0.resolve(1)` and `d1.reject("x")`. -/
def exampleSettledMixed : World :=
  settleReject 1 (Val.str "x")
    (settleResolve 0 (Val.num 1)
      (allSettled [Val.promise 0, Val.promise 1] exampleTwoDeferred).2)
/-! # Theorems -/

/-! ## Basic facts -/

theorem forEachCall_eq (fns : List Timer) (w : World) :
    w.forEachCall fns = { w with timers := w.timers ++ fns } := by
  induction fns generalizing w with
  | nil => simp [World.forEachCall]
  | cons job rest ih =>
    have h := ih (w.setTimeout job)
    simp only [World.forEachCall, List.foldl_cons] at h ⊢
    rw [h]
    simp [World.setTimeout]

theorem settleResolve_pending (p : Nat) (v : Val) (w : World)
    (h : (w.heap p).status = Status.PENDING) :
    settleResolve p v w =
      { w with heap := Function.update w.heap p
                 { w.heap p with status := Status.FULFILLED, value := v },
               timers := w.timers ++ (w.heap p).onResolveCallbacks } := by
  simp [settleResolve, h, forEachCall_eq]

theorem settleReject_pending (p : Nat) (r : Val) (w : World)
    (h : (w.heap p).status = Status.PENDING) :
    settleReject p r w =
      { w with heap := Function.update w.heap p
                 { w.heap p with status := Status.REJECTED, reason := r },
               timers := w.timers ++ (w.heap p).onRejectedCallbacks } := by
  simp [settleReject, h, forEachCall_eq]

theorem settleResolve_settled (p : Nat) (v : Val) (w : World)
    (h : (w.heap p).status ≠ Status.PENDING) : settleResolve p v w = w := by
  simp [settleResolve, h]

theorem settleReject_settled (p : Nat) (r : Val) (w : World)
    (h : (w.heap p).status ≠ Status.PENDING) : settleReject p r w = w := by
  simp [settleReject, h]

theorem applySettle_settled (p : Nat) (c : Settle) (w : World)
    (h : (w.heap p).status ≠ Status.PENDING) : applySettle p c w = w := by
  cases c
  · exact settleResolve_settled p _ w h
  · exact settleReject_settled p _ w h

theorem applySettles_settled (p : Nat) (cs : List Settle) (w : World)
    (h : (w.heap p).status ≠ Status.PENDING) : applySettles p cs w = w := by
  induction cs with
  | nil => rfl
  | cons c rest ih =>
    simp only [applySettles, List.foldl_cons] at ih ⊢
    rw [applySettle_settled p c w h]
    exact ih

theorem applySettle_status (p : Nat) (c : Settle) (w : World) :
    ((applySettle p c w).heap p).status ≠ Status.PENDING := by
  by_cases h : (w.heap p).status = Status.PENDING
  · cases c
    · simp [applySettle, settleResolve_pending p _ w h]
    · simp [applySettle, settleReject_pending p _ w h]
  · rw [applySettle_settled p c w h]
    exact h

/-! ## C1 -/

/-- C1: whatever calls of the two settlement capabilities of a promise are made, the
whole effect is that of the first call.  When the promise is pending, a first call
`resolve v` makes it FULFILLED with value `v` (reason untouched) and a first call
`reject r` makes it REJECTED with reason `r` (value untouched); the later calls change
nothing, and on a promise that has left PENDING no call changes anything. -/
theorem settle_only_first_call_counts (w : World) (p : Nat) (c : Settle)
    (cs : List Settle) :
    applySettles p (c :: cs) w = applySettle p c w ∧
    ((applySettle p c w).heap p).status ≠ Status.PENDING ∧
    ((w.heap p).status ≠ Status.PENDING → applySettle p c w = w) ∧
    ((w.heap p).status = Status.PENDING →
      (∀ v, c = Settle.resolve v →
        ((applySettle p c w).heap p).status = Status.FULFILLED ∧
        ((applySettle p c w).heap p).value = v ∧
        ((applySettle p c w).heap p).reason = (w.heap p).reason) ∧
      (∀ r, c = Settle.reject r →
        ((applySettle p c w).heap p).status = Status.REJECTED ∧
        ((applySettle p c w).heap p).reason = r ∧
        ((applySettle p c w).heap p).value = (w.heap p).value)) := by
  refine ⟨?_, applySettle_status p c w, applySettle_settled p c w, ?_⟩
  · show applySettles p cs (applySettle p c w) = applySettle p c w
    exact applySettles_settled p cs _ (applySettle_status p c w)
  · intro h
    constructor
    · intro v hc
      subst hc
      simp [applySettle, settleResolve_pending p _ w h]
    · intro r hc
      subst hc
      simp [applySettle, settleReject_pending p _ w h]

/-- A run of C1 on a fresh deferred: `resolve(1)`, then `reject("late")`, then
`resolve(2)` leave it fulfilled with 1. -/
theorem settle_only_first_call_counts_witness :
    (exampleDeferred.heap 0).status = Status.PENDING ∧
    (applySettles 0
        [Settle.resolve (Val.num 1), Settle.reject (Val.str "late"),
          Settle.resolve (Val.num 2)] exampleDeferred).fulfilledWith 0 (Val.num 1) := by
  have h := settle_only_first_call_counts exampleDeferred 0
    (Settle.resolve (Val.num 1)) [Settle.reject (Val.str "late"), Settle.resolve (Val.num 2)]
  have hp : (exampleDeferred.heap 0).status = Status.PENDING := by decide
  refine ⟨hp, ?_, ?_⟩
  · rw [h.1]; exact ((h.2.2.2 hp).1 _ rfl).1
  · rw [h.1]; exact ((h.2.2.2 hp).1 _ rfl).2.1

/-! ## C3 and C4: the constructor's `resolve` stores its argument -/

/-- C3, as stated, fails: a pending promise whose `resolve` closure is called with a
thenable (object 0, whose `then` reports success with 7) is FULFILLED with the
thenable itself; nothing was scheduled and draining the queue changes nothing. -/
theorem resolve_with_thenable_counterexample :
    exampleThenOf 0 = ThenMember.callable [Event.success (Val.num 7)] ∧
    (exampleDeferred.heap 0).status = Status.PENDING ∧
    (settleResolve 0 (Val.obj 0) exampleDeferred).fulfilledWith 0 (Val.obj 0) ∧
    ¬ (settleResolve 0 (Val.obj 0) exampleDeferred).fulfilledWith 0 (Val.num 7) ∧
    (Option.map (fun w => ((w.heap 0).status, (w.heap 0).value))
      (drain 5 (settleResolve 0 (Val.obj 0) exampleDeferred)))
        = some (Status.FULFILLED, Val.obj 0) := by
  refine ⟨rfl, ?_, ?_, ?_, ?_⟩ <;> decide

/-- C3 amended: the `resolve` closure of a pending promise fulfils it with the
argument itself, whatever the argument is (thenable or not): no `called` latch is
declared (the resolution procedure does not run), no user function runs, and the
only other effect is that the success callbacks are scheduled. -/
theorem resolve_stores_argument (w : World) (p : Nat) (x : Val)
    (h : (w.heap p).status = Status.PENDING) :
    (settleResolve p x w).fulfilledWith p x ∧
    ((settleResolve p x w).heap p).reason = (w.heap p).reason ∧
    (settleResolve p x w).nextCalled = w.nextCalled ∧
    (settleResolve p x w).called = w.called ∧
    (settleResolve p x w).log = w.log ∧
    (settleResolve p x w).nextId = w.nextId ∧
    (settleResolve p x w).timers = w.timers ++ (w.heap p).onResolveCallbacks ∧
    (∀ q, q ≠ p → (settleResolve p x w).heap q = w.heap q) := by
  rw [settleResolve_pending p x w h]
  refine ⟨⟨by simp, by simp⟩, by simp, rfl, rfl, rfl, rfl, rfl, ?_⟩
  intro q hq
  simp [Function.update_noteq hq]

/-- C3 amended, on the thenable of the counterexample. -/
theorem resolve_stores_argument_witness :
    (exampleDeferred.heap 0).status = Status.PENDING ∧
    (settleResolve 0 (Val.obj 0) exampleDeferred).fulfilledWith 0 (Val.obj 0) :=
  ⟨by decide, (resolve_stores_argument exampleDeferred 0 (Val.obj 0) (by decide)).1⟩

/-- C4, as stated, fails: `dfd = Promise.defer(); dfd.resolve(dfd.promise)` leaves the
promise FULFILLED with itself as value, not rejected, and no TypeError is built. -/
theorem resolve_with_itself_counterexample :
    (defer (World.init exampleThenOf)).1 = 0 ∧
    (settleResolve 0 (Val.promise 0) (defer (World.init exampleThenOf)).2).fulfilledWith 0
      (Val.promise 0) ∧
    ¬ (settleResolve 0 (Val.promise 0) (defer (World.init exampleThenOf)).2).rejectedWith 0
      cycleError ∧
    (Option.map (fun w => ((w.heap 0).status, (w.heap 0).value))
      (drain 5 (settleResolve 0 (Val.promise 0) (defer (World.init exampleThenOf)).2)))
        = some (Status.FULFILLED, Val.promise 0) := by
  refine ⟨rfl, ?_, ?_, ?_⟩ <;> decide

/-- C4 amended: calling the `resolve` closure of the promise of a `defer()` bundle
with that promise leaves it FULFILLED with itself as value; its reason stays
`undefined` and nothing is scheduled. -/
theorem resolve_with_itself_fulfils (w : World) :
    (settleResolve (defer w).1 (Val.promise (defer w).1) (defer w).2).fulfilledWith
      (defer w).1 (Val.promise (defer w).1) ∧
    ((settleResolve (defer w).1 (Val.promise (defer w).1) (defer w).2).heap
      (defer w).1).reason = Val.undefined ∧
    (settleResolve (defer w).1 (Val.promise (defer w).1) (defer w).2).timers = w.timers := by
  have h : ((defer w).2.heap (defer w).1).status = Status.PENDING := by
    simp [defer, newPromise, PromiseState.fresh]
  rw [settleResolve_pending _ _ _ h]
  simp [defer, newPromise, PromiseState.fresh, World.fulfilledWith]

/-! ## C7: nothing runs synchronously -/

theorem then_log (self : Nat) (onFulfilled onRejected : Arg) (w : World) :
    (then_ self onFulfilled onRejected w).2.log = w.log := by
  simp only [then_, newPromise, World.setTimeout]
  split_ifs <;> rfl

theorem settleResolve_log (p : Nat) (v : Val) (w : World) :
    (settleResolve p v w).log = w.log := by
  simp only [settleResolve, forEachCall_eq]
  split_ifs <;> rfl

theorem settleReject_log (p : Nat) (v : Val) (w : World) :
    (settleReject p v w).log = w.log := by
  simp only [settleReject, forEachCall_eq]
  split_ifs <;> rfl

theorem then_fst (self : Nat) (onFulfilled onRejected : Arg) (w : World) :
    (then_ self onFulfilled onRejected w).1 = w.nextId := rfl

theorem then_fulfilled (self : Nat) (onFulfilled onRejected : Arg) (w : World)
    (hself : self ≠ w.nextId) (hs : (w.heap self).status = Status.FULFILLED) :
    (then_ self onFulfilled onRejected w).2 =
      { w with heap := Function.update w.heap w.nextId PromiseState.fresh,
               nextId := w.nextId + 1,
               timers := w.timers ++
                 [Timer.fulfilledJob self onFulfilled.orIdentity w.nextId] } := by
  simp [then_, newPromise, World.setTimeout, Function.update_noteq hself, hs]

theorem then_rejected (self : Nat) (onFulfilled onRejected : Arg) (w : World)
    (hself : self ≠ w.nextId) (hs : (w.heap self).status = Status.REJECTED) :
    (then_ self onFulfilled onRejected w).2 =
      { w with heap := Function.update w.heap w.nextId PromiseState.fresh,
               nextId := w.nextId + 1,
               timers := w.timers ++
                 [Timer.rejectedJob self onRejected.orThrower w.nextId] } := by
  simp [then_, newPromise, World.setTimeout, Function.update_noteq hself, hs]

theorem then_pending (self : Nat) (onFulfilled onRejected : Arg) (w : World)
    (hself : self ≠ w.nextId) (hs : (w.heap self).status = Status.PENDING) :
    (then_ self onFulfilled onRejected w).2 =
      { w with heap := Function.update
                 (Function.update w.heap w.nextId PromiseState.fresh) self
                 { w.heap self with
                   onResolveCallbacks := (w.heap self).onResolveCallbacks ++
                     [Timer.fulfilledJob self onFulfilled.orIdentity w.nextId],
                   onRejectedCallbacks := (w.heap self).onRejectedCallbacks ++
                     [Timer.rejectedJob self onRejected.orThrower w.nextId] },
               nextId := w.nextId + 1 } := by
  simp [then_, newPromise, World.setTimeout, Function.update_noteq hself, hs]

theorem then_timers (self : Nat) (onFulfilled onRejected : Arg) (w : World)
    (hself : self ≠ w.nextId) :
    (then_ self onFulfilled onRejected w).2.timers =
      w.timers ++
        (match (w.heap self).status with
          | Status.FULFILLED => [Timer.fulfilledJob self onFulfilled.orIdentity w.nextId]
          | Status.REJECTED => [Timer.rejectedJob self onRejected.orThrower w.nextId]
          | Status.PENDING => []) := by
  cases hs : (w.heap self).status
  · rw [then_pending _ _ _ _ hself hs]; simp
  · rw [then_fulfilled _ _ _ _ hself hs]
  · rw [then_rejected _ _ _ _ hself hs]

/-- C7: `then`, the `resolve` closure and the `reject` closure invoke no user function
before they return, in any world (hence in every state of the promise): the trace of
invocations is unchanged.  What they do is append jobs to the timer queue: `then`
on a settled promise appends the one job of the matching path and on a pending
promise appends nothing to the queue; a settlement call on a pending promise appends
the stored callbacks of its path, and on a settled promise nothing. -/
theorem no_handler_runs_synchronously (w : World) (self : Nat)
    (onFulfilled onRejected : Arg) (v : Val) :
    (then_ self onFulfilled onRejected w).2.log = w.log ∧
    (settleResolve self v w).log = w.log ∧
    (settleReject self v w).log = w.log ∧
    (settleResolve self v w).timers = w.timers ++
      (if (w.heap self).status = Status.PENDING then (w.heap self).onResolveCallbacks
       else []) ∧
    (settleReject self v w).timers = w.timers ++
      (if (w.heap self).status = Status.PENDING then (w.heap self).onRejectedCallbacks
       else []) ∧
    (self ≠ w.nextId →
      (then_ self onFulfilled onRejected w).2.timers =
        w.timers ++
          (match (w.heap self).status with
            | Status.FULFILLED => [Timer.fulfilledJob self onFulfilled.orIdentity w.nextId]
            | Status.REJECTED => [Timer.rejectedJob self onRejected.orThrower w.nextId]
            | Status.PENDING => [])) := by
  refine ⟨then_log _ _ _ _, settleResolve_log _ _ _, settleReject_log _ _ _, ?_, ?_,
    then_timers self onFulfilled onRejected w⟩
  · by_cases h : (w.heap self).status = Status.PENDING
    · rw [settleResolve_pending _ _ _ h]; simp [h]
    · rw [settleResolve_settled _ _ _ h]; simp [h]
  · by_cases h : (w.heap self).status = Status.PENDING
    · rw [settleReject_pending _ _ _ h]; simp [h]
    · rw [settleReject_settled _ _ _ h]; simp [h]

/-- The witness of C7: `then` on the pending promise of the examples schedules
nothing and invokes nothing. -/
theorem no_handler_runs_synchronously_witness :
    (0 : Nat) ≠ exampleDeferred.nextId ∧
    (then_ 0 (Arg.fn (Fn.user 7 (fun _ => Completion.normal Val.undefined)))
      (Arg.value Val.undefined) exampleDeferred).2.timers =
      exampleDeferred.timers ++
        (match (exampleDeferred.heap 0).status with
          | Status.FULFILLED => [Timer.fulfilledJob 0
              (Arg.fn (Fn.user 7 (fun _ => Completion.normal Val.undefined))).orIdentity
              exampleDeferred.nextId]
          | Status.REJECTED => [Timer.rejectedJob 0 (Arg.value Val.undefined).orThrower
              exampleDeferred.nextId]
          | Status.PENDING => []) :=
  ⟨by decide, (no_handler_runs_synchronously exampleDeferred 0
    (Arg.fn (Fn.user 7 (fun _ => Completion.normal Val.undefined)))
    (Arg.value Val.undefined) Val.undefined).2.2.2.2.2 (by decide)⟩

/-! ## Running one job -/

theorem resolvePromise_primitive (fuel promise2 : Nat) (x : Val) (resolve reject : Fn)
    (w : World) (hx : isObjectOrFunction x = false) :
    resolvePromise (fuel + 1) promise2 x resolve reject w =
      discard (callFn (resolvePromise fuel) resolve x w.newCalled) := by
  cases x <;> simp [isObjectOrFunction] at hx <;> simp [resolvePromise]

theorem resolvePromise_self (fuel promise2 : Nat) (resolve reject : Fn) (w : World) :
    resolvePromise (fuel + 1) promise2 (Val.promise promise2) resolve reject w =
      callFn (resolvePromise fuel) reject cycleError w := by
  simp [resolvePromise, cycleError]

theorem fresh_settleReject (p : Nat) (e : Val) (w : World)
    (h : (w.heap p).status = Status.PENDING) : (settleReject p e w).rejectedWith p e := by
  rw [settleReject_pending p e w h]
  simp [World.rejectedWith]

theorem fresh_settleResolve (p : Nat) (v : Val) (w : World)
    (h : (w.heap p).status = Status.PENDING) : (settleResolve p v w).fulfilledWith p v := by
  rw [settleResolve_pending p v w h]
  simp [World.fulfilledWith]

/-- The completion of a handler decides the outcome of `promise2` when the job runs
while `promise2` is pending: a throw rejects it. -/
theorem runJob_of_thrown (fuel : Nat) (onSettled : Fn) (arg e : Val) (promise2 : Nat)
    (w w1 : World)
    (hcall : callFn (resolvePromise fuel) onSettled arg w = some (Completion.thrown e, w1))
    (hpend : (w1.heap promise2).status = Status.PENDING) :
    (∀ self, (w.heap self).value = arg →
      runTimer fuel (Timer.fulfilledJob self onSettled promise2) w
        = some (settleReject promise2 e w1)) ∧
    (∀ self, (w.heap self).reason = arg →
      runTimer fuel (Timer.rejectedJob self onSettled promise2) w
        = some (settleReject promise2 e w1)) ∧
    (settleReject promise2 e w1).rejectedWith promise2 e := by
  refine ⟨?_, ?_, fresh_settleReject _ _ _ hpend⟩
  · intro self hs
    simp [runTimer, hs, hcall]
  · intro self hs
    simp [runTimer, hs, hcall]

/-- A returned value that is not an object or function fulfils `promise2`. -/
theorem runJob_of_primitive (fuel : Nat) (onSettled : Fn) (arg v : Val) (promise2 : Nat)
    (w w1 : World)
    (hcall : callFn (resolvePromise (fuel + 1)) onSettled arg w
      = some (Completion.normal v, w1))
    (hv : isObjectOrFunction v = false)
    (hpend : (w1.heap promise2).status = Status.PENDING) :
    (∀ self, (w.heap self).value = arg →
      runTimer (fuel + 1) (Timer.fulfilledJob self onSettled promise2) w
        = some (settleResolve promise2 v w1.newCalled)) ∧
    (∀ self, (w.heap self).reason = arg →
      runTimer (fuel + 1) (Timer.rejectedJob self onSettled promise2) w
        = some (settleResolve promise2 v w1.newCalled)) ∧
    (settleResolve promise2 v w1.newCalled).fulfilledWith promise2 v := by
  have hrp : resolvePromise (fuel + 1) promise2 v (Fn.resolve promise2) (Fn.reject promise2) w1
      = some (Completion.normal Val.undefined, settleResolve promise2 v w1.newCalled) := by
    rw [resolvePromise_primitive _ _ _ _ _ _ hv]
    simp [callFn, discard]
  refine ⟨?_, ?_, fresh_settleResolve _ _ _ (by simpa [World.newCalled] using hpend)⟩
  · intro self hs
    simp [runTimer, hs, hcall, hrp]
  · intro self hs
    simp [runTimer, hs, hcall, hrp]

/-! ## C2 -/

/-- C2: let `p` be settled and `next = p.then(onFulfilled, onRejected)`, the handler of
the matching path being a user function `h` (`onFulfilled` when `p` is fulfilled,
`onRejected` when `p` is rejected).  `then` schedules exactly one job; when that job
runs (whatever else is in the queue then), `h` is called with the payload of `p`, and
if `h` throws `e` then `next` is rejected with `e`, while if `h` returns a value `v`
that is not an object or function then `next` is fulfilled with `v`. -/
theorem then_handler_decides_next (w : World) (p name : Nat) (body : Val → Completion)
    (other : Arg) (fuel : Nat) (queue : List Timer) (hp : p < w.nextId) :
    ((w.heap p).status = Status.FULFILLED →
      (then_ p (Arg.fn (Fn.user name body)) other w).1 = w.nextId ∧
      (then_ p (Arg.fn (Fn.user name body)) other w).2.timers =
        w.timers ++ [Timer.fulfilledJob p (Fn.user name body) w.nextId] ∧
      (∀ e, body (w.heap p).value = Completion.thrown e →
        ∃ w1, runTimer (fuel + 1) (Timer.fulfilledJob p (Fn.user name body) w.nextId)
            { (then_ p (Arg.fn (Fn.user name body)) other w).2 with timers := queue }
            = some w1 ∧
          w1.rejectedWith w.nextId e ∧ w1.log = w.log ++ [(name, (w.heap p).value)]) ∧
      (∀ v, body (w.heap p).value = Completion.normal v → isObjectOrFunction v = false →
        ∃ w1, runTimer (fuel + 1) (Timer.fulfilledJob p (Fn.user name body) w.nextId)
            { (then_ p (Arg.fn (Fn.user name body)) other w).2 with timers := queue }
            = some w1 ∧
          w1.fulfilledWith w.nextId v ∧ w1.log = w.log ++ [(name, (w.heap p).value)])) ∧
    ((w.heap p).status = Status.REJECTED →
      (then_ p other (Arg.fn (Fn.user name body)) w).1 = w.nextId ∧
      (then_ p other (Arg.fn (Fn.user name body)) w).2.timers =
        w.timers ++ [Timer.rejectedJob p (Fn.user name body) w.nextId] ∧
      (∀ e, body (w.heap p).reason = Completion.thrown e →
        ∃ w1, runTimer (fuel + 1) (Timer.rejectedJob p (Fn.user name body) w.nextId)
            { (then_ p other (Arg.fn (Fn.user name body)) w).2 with timers := queue }
            = some w1 ∧
          w1.rejectedWith w.nextId e ∧ w1.log = w.log ++ [(name, (w.heap p).reason)]) ∧
      (∀ v, body (w.heap p).reason = Completion.normal v → isObjectOrFunction v = false →
        ∃ w1, runTimer (fuel + 1) (Timer.rejectedJob p (Fn.user name body) w.nextId)
            { (then_ p other (Arg.fn (Fn.user name body)) w).2 with timers := queue }
            = some w1 ∧
          w1.fulfilledWith w.nextId v ∧ w1.log = w.log ++ [(name, (w.heap p).reason)])) := by
  have hne : p ≠ w.nextId := Nat.ne_of_lt hp
  constructor
  · intro hs
    rw [then_fulfilled _ _ _ _ hne hs]
    refine ⟨rfl, rfl, ?_, ?_⟩
    · intro e he
      have h := runJob_of_thrown (fuel + 1) (Fn.user name body) (w.heap p).value e w.nextId
        { w with heap := Function.update w.heap w.nextId PromiseState.fresh,
                 nextId := w.nextId + 1, timers := queue }
        { w with heap := Function.update w.heap w.nextId PromiseState.fresh,
                 nextId := w.nextId + 1, timers := queue,
                 log := w.log ++ [(name, (w.heap p).value)] }
        (by simp [callFn, he]) (by simp [PromiseState.fresh])
      refine ⟨_, h.1 p (by simp [Function.update_noteq hne]), h.2.2, ?_⟩
      rw [settleReject_log]
    · intro v hv hprim
      have h := runJob_of_primitive fuel (Fn.user name body) (w.heap p).value v w.nextId
        { w with heap := Function.update w.heap w.nextId PromiseState.fresh,
                 nextId := w.nextId + 1, timers := queue }
        { w with heap := Function.update w.heap w.nextId PromiseState.fresh,
                 nextId := w.nextId + 1, timers := queue,
                 log := w.log ++ [(name, (w.heap p).value)] }
        (by simp [callFn, hv]) hprim (by simp [PromiseState.fresh])
      refine ⟨_, h.1 p (by simp [Function.update_noteq hne]), h.2.2, ?_⟩
      rw [settleResolve_log]; rfl
  · intro hs
    rw [then_rejected _ _ _ _ hne hs]
    refine ⟨rfl, rfl, ?_, ?_⟩
    · intro e he
      have h := runJob_of_thrown (fuel + 1) (Fn.user name body) (w.heap p).reason e w.nextId
        { w with heap := Function.update w.heap w.nextId PromiseState.fresh,
                 nextId := w.nextId + 1, timers := queue }
        { w with heap := Function.update w.heap w.nextId PromiseState.fresh,
                 nextId := w.nextId + 1, timers := queue,
                 log := w.log ++ [(name, (w.heap p).reason)] }
        (by simp [callFn, he]) (by simp [PromiseState.fresh])
      refine ⟨_, h.2.1 p (by simp [Function.update_noteq hne]), h.2.2, ?_⟩
      rw [settleReject_log]
    · intro v hv hprim
      have h := runJob_of_primitive fuel (Fn.user name body) (w.heap p).reason v w.nextId
        { w with heap := Function.update w.heap w.nextId PromiseState.fresh,
                 nextId := w.nextId + 1, timers := queue }
        { w with heap := Function.update w.heap w.nextId PromiseState.fresh,
                 nextId := w.nextId + 1, timers := queue,
                 log := w.log ++ [(name, (w.heap p).reason)] }
        (by simp [callFn, hv]) hprim (by simp [PromiseState.fresh])
      refine ⟨_, h.2.1 p (by simp [Function.update_noteq hne]), h.2.2, ?_⟩
      rw [settleResolve_log]; rfl

/-! ## Frames: what every call preserves -/

theorem discard_frame {R : World → World → Prop} {w : World}
    {o : Option (Completion × World)}
    (h : ∀ r w1, o = some (r, w1) → R w w1) :
    ∀ r w1, discard o = some (r, w1) → R w w1 := by
  intro r w1 hd
  match o, h with
  | none, _ => simp [discard] at hd
  | some (Completion.normal v, w2), h =>
    simp only [discard, Option.some.injEq, Prod.mk.injEq] at hd
    obtain ⟨-, rfl⟩ := hd
    exact h _ _ rfl
  | some (Completion.thrown e, w2), h =>
    simp only [discard, Option.some.injEq, Prod.mk.injEq] at hd
    obtain ⟨-, rfl⟩ := hd
    exact h _ _ rfl

theorem callFn_frame {OK : Fn → Prop} {R : World → World → Prop} (F : Frame OK R)
    (rp : Nat → Val → Fn → Fn → World → Option (Completion × World))
    (hrp : ∀ p x res rej w r w1, OK res → OK rej →
      rp p x res rej w = some (r, w1) → R w w1) :
    ∀ f v w r w1, OK f → callFn rp f v w = some (r, w1) → R w w1 := by
  intro f
  induction f with
  | user n b =>
    intro v w r w1 hok h
    simp only [callFn, Option.some.injEq, Prod.mk.injEq] at h
    obtain ⟨-, rfl⟩ := h
    exact F.user n b v w hok
  | identity =>
    intro v w r w1 _ h
    simp only [callFn, Option.some.injEq, Prod.mk.injEq] at h
    obtain ⟨-, rfl⟩ := h
    exact F.refl w
  | thrower =>
    intro v w r w1 _ h
    simp only [callFn, Option.some.injEq, Prod.mk.injEq] at h
    obtain ⟨-, rfl⟩ := h
    exact F.refl w
  | resolve p =>
    intro v w r w1 _ h
    simp only [callFn, Option.some.injEq, Prod.mk.injEq] at h
    obtain ⟨-, rfl⟩ := h
    exact F.resolve p v w
  | reject p =>
    intro v w r w1 _ h
    simp only [callFn, Option.some.injEq, Prod.mk.injEq] at h
    obtain ⟨-, rfl⟩ := h
    exact F.reject p v w
  | adoptFulfilled c p res rej _ _ =>
    intro v w r w1 hok h
    simp only [callFn] at h
    split_ifs at h with hc
    · simp only [Option.some.injEq, Prod.mk.injEq] at h
      obtain ⟨-, rfl⟩ := h
      exact F.refl w
    · have hoks := F.ofAdoptFulfilled c p res rej hok
      refine F.trans _ _ _ (F.setCalled c w) ?_
      exact discard_frame (fun r w2 h2 => hrp _ _ _ _ _ _ _ hoks.1 hoks.2 h2) r w1 h
  | adoptRejected c rej ih =>
    intro v w r w1 hok h
    simp only [callFn] at h
    split_ifs at h with hc
    · simp only [Option.some.injEq, Prod.mk.injEq] at h
      obtain ⟨-, rfl⟩ := h
      exact F.refl w
    · have hok1 := F.ofAdoptRejected c rej hok
      refine F.trans _ _ _ (F.setCalled c w) ?_
      exact discard_frame (fun r w2 h2 => ih _ _ _ _ hok1 h2) r w1 h
  | closure k =>
    intro v w r w1 hok h
    simp only [callFn, Option.some.injEq] at h
    have h2 : (callClosure k v w).2 = w1 := by rw [h]
    rw [← h2]
    exact F.closure k v w hok

theorem runThen_frame {R : World → World → Prop}
    (hrefl : ∀ w, R w w) (htrans : ∀ a b c, R a b → R b c → R a c)
    (call : Fn → Val → World → Option (Completion × World)) (f g : Fn)
    (hf : ∀ v w r w1, call f v w = some (r, w1) → R w w1)
    (hg : ∀ v w r w1, call g v w = some (r, w1) → R w w1) :
    ∀ script w r w1, runThen call f g script w = some (r, w1) → R w w1 := by
  intro script
  induction script with
  | nil =>
    intro w r w1 h
    simp only [runThen, Option.some.injEq, Prod.mk.injEq] at h
    obtain ⟨-, rfl⟩ := h
    exact hrefl w
  | cons ev rest ih =>
    intro w r w1 h
    cases ev with
    | success y =>
      simp only [runThen] at h
      split at h
      · simp at h
      · next e w2 hc =>
        simp only [Option.some.injEq, Prod.mk.injEq] at h
        obtain ⟨-, rfl⟩ := h
        exact hf _ _ _ _ hc
      · next v w2 hc => exact htrans _ _ _ (hf _ _ _ _ hc) (ih _ _ _ h)
    | failure y =>
      simp only [runThen] at h
      split at h
      · simp at h
      · next e w2 hc =>
        simp only [Option.some.injEq, Prod.mk.injEq] at h
        obtain ⟨-, rfl⟩ := h
        exact hg _ _ _ _ hc
      · next v w2 hc => exact htrans _ _ _ (hg _ _ _ _ hc) (ih _ _ _ h)
    | raise e =>
      simp only [runThen, Option.some.injEq, Prod.mk.injEq] at h
      obtain ⟨-, rfl⟩ := h
      exact hrefl w

theorem catchClause_frame {R : World → World → Prop}
    (hrefl : ∀ w, R w w) (htrans : ∀ a b c, R a b → R b c → R a c)
    (hset : ∀ c (w : World), R w (w.setCalled c))
    (call : Fn → Val → World → Option (Completion × World)) (c : Nat) (rej : Fn)
    (hrej : ∀ v w r w1, call rej v w = some (r, w1) → R w w1) :
    ∀ e w r w1, catchClause call c rej e w = some (r, w1) → R w w1 := by
  intro e w r w1 h
  simp only [catchClause] at h
  split_ifs at h
  · simp only [Option.some.injEq, Prod.mk.injEq] at h
    obtain ⟨-, rfl⟩ := h
    exact hrefl w
  · exact htrans _ _ _ (hset c w) (discard_frame (fun r w2 h2 => hrej _ _ _ _ h2) r w1 h)

theorem tryCatch_frame {R : World → World → Prop}
    (hrefl : ∀ w, R w w) (htrans : ∀ a b c, R a b → R b c → R a c)
    (hset : ∀ c (w : World), R w (w.setCalled c))
    (call : Fn → Val → World → Option (Completion × World)) (c : Nat) (rej : Fn)
    (hrej : ∀ v w r w1, call rej v w = some (r, w1) → R w w1)
    (w : World) (o : Option (Completion × World))
    (ho : ∀ r w1, o = some (r, w1) → R w w1) :
    ∀ r w1, tryCatch call c rej o = some (r, w1) → R w w1 := by
  intro r w1 h
  match o, ho with
  | none, _ => simp [tryCatch] at h
  | some (Completion.normal v, w2), ho =>
    simp only [tryCatch, Option.some.injEq, Prod.mk.injEq] at h
    obtain ⟨-, rfl⟩ := h
    exact ho _ _ rfl
  | some (Completion.thrown e, w2), ho =>
    simp only [tryCatch] at h
    exact htrans _ _ _ (ho _ _ rfl)
      (catchClause_frame hrefl htrans hset call c rej hrej _ _ _ _ h)

/-- Every call of `resolvePromise` with admissible `resolve` and `reject` respects a
frame. -/
theorem resolvePromise_frame {OK : Fn → Prop} {R : World → World → Prop} (F : Frame OK R) :
    ∀ fuel p x res rej w r w1, OK res → OK rej →
      resolvePromise fuel p x res rej w = some (r, w1) → R w w1 := by
  intro fuel
  induction fuel with
  | zero =>
    intro p x res rej w r w1 _ _ h
    simp [resolvePromise] at h
  | succ fuel ih =>
    intro p x res rej w r w1 hres hrej h
    have hcall := callFn_frame F (resolvePromise fuel) ih
    have hadF : ∀ c, OK (Fn.adoptFulfilled c p res rej) :=
      fun c => F.adoptFulfilled c p res rej hres hrej
    have hadR : ∀ c, OK (Fn.adoptRejected c rej) := fun c => F.adoptRejected c rej hrej
    simp only [resolvePromise] at h
    split_ifs at h with hx
    · exact hcall _ _ _ _ _ hrej h
    · refine F.trans _ _ _ (F.newCalled w) ?_
      have htc : ∀ o : Option (Completion × World),
          (∀ r w1, o = some (r, w1) → R w.newCalled w1) →
          ∀ r w1, tryCatch (callFn (resolvePromise fuel)) w.nextCalled rej o = some (r, w1) →
            R w.newCalled w1 :=
        fun o ho => tryCatch_frame F.refl F.trans F.setCalled _ _ rej
          (fun v w r w1 h => hcall _ _ _ _ _ hrej h) _ o ho
      cases x with
      | promise q =>
        simp only [Option.some.injEq, Prod.mk.injEq] at h
        obtain ⟨-, rfl⟩ := h
        exact F.register q _ _ _ (hadF _) (hadR _)
      | obj id =>
        simp only at h
        split at h
        · exact catchClause_frame F.refl F.trans F.setCalled _ _ rej
            (fun v w r w1 h => hcall _ _ _ _ _ hrej h) _ _ _ _ h
        · exact htc _ (fun r w1 h1 => runThen_frame F.refl F.trans _ _ _
            (fun v w r w1 h => hcall _ _ _ _ _ (hadF _) h)
            (fun v w r w1 h => hcall _ _ _ _ _ (hadR _) h) _ _ _ _ h1) _ _ h
        · exact htc _ (fun r w1 h1 => hcall _ _ _ _ _ hres h1) _ _ h
      | typeError msg =>
        exact htc _ (fun r w1 h1 => hcall _ _ _ _ _ hres h1) _ _ h
      | array id =>
        exact htc _ (fun r w1 h1 => hcall _ _ _ _ _ hres h1) _ _ h
      | undefined => exact discard_frame (fun r w1 h1 => hcall _ _ _ _ _ hres h1) _ _ h
      | null => exact discard_frame (fun r w1 h1 => hcall _ _ _ _ _ hres h1) _ _ h
      | bool b => exact discard_frame (fun r w1 h1 => hcall _ _ _ _ _ hres h1) _ _ h
      | num n => exact discard_frame (fun r w1 h1 => hcall _ _ _ _ _ hres h1) _ _ h
      | str s => exact discard_frame (fun r w1 h1 => hcall _ _ _ _ _ hres h1) _ _ h

/-! ## Latches -/

theorem settleResolve_called (p : Nat) (v : Val) (w : World) :
    (settleResolve p v w).called = w.called ∧
    (settleResolve p v w).nextCalled = w.nextCalled := by
  simp only [settleResolve, forEachCall_eq]
  split_ifs <;> exact ⟨rfl, rfl⟩

theorem settleReject_called (p : Nat) (v : Val) (w : World) :
    (settleReject p v w).called = w.called ∧
    (settleReject p v w).nextCalled = w.nextCalled := by
  simp only [settleReject, forEachCall_eq]
  split_ifs <;> exact ⟨rfl, rfl⟩

theorem then_called (self : Nat) (onFulfilled onRejected : Arg) (w : World) :
    (then_ self onFulfilled onRejected w).2.called = w.called ∧
    (then_ self onFulfilled onRejected w).2.nextCalled = w.nextCalled := by
  simp only [then_, newPromise, World.setTimeout]
  split_ifs <;> exact ⟨rfl, rfl⟩

theorem newPromise_called (w : World) :
    (newPromise w).2.called = w.called ∧ (newPromise w).2.nextCalled = w.nextCalled :=
  ⟨rfl, rfl⟩

theorem staticResolve_called (v : Val) (w : World) :
    (staticResolve v w).2.called = w.called ∧
    (staticResolve v w).2.nextCalled = w.nextCalled := by
  simp only [staticResolve, newFulfilled]
  split
  · exact ⟨rfl, rfl⟩
  · exact ⟨rfl, rfl⟩
  · exact settleResolve_called _ _ _

theorem staticReject_called (v : Val) (w : World) :
    (staticReject v w).2.called = w.called ∧
    (staticReject v w).2.nextCalled = w.nextCalled := by
  simp only [staticReject, newRejected]
  split
  · exact ⟨rfl, rfl⟩
  · exact ⟨rfl, rfl⟩
  · exact settleReject_called _ _ _

theorem recordAndResolve_called (cell i n agg : Nat) (data : Val) (w : World) :
    (recordAndResolve cell i n agg data w).called = w.called ∧
    (recordAndResolve cell i n agg data w).nextCalled = w.nextCalled := by
  simp only [recordAndResolve]
  split_ifs
  · exact settleResolve_called _ _ _
  · exact ⟨rfl, rfl⟩

theorem recordAndReject_called (cell i n agg : Nat) (data : Val) (w : World) :
    (recordAndReject cell i n agg data w).called = w.called ∧
    (recordAndReject cell i n agg data w).nextCalled = w.nextCalled := by
  simp only [recordAndReject]
  split_ifs
  · exact settleReject_called _ _ _
  · exact ⟨rfl, rfl⟩

theorem finallyBody_called (name : Nat) (body : Val → Completion) (f : Closure)
    (w : World) :
    (finallyBody name body f w).2.called = w.called ∧
    (finallyBody name body f w).2.nextCalled = w.nextCalled := by
  have hs := staticResolve_called
  simp only [finallyBody]
  split
  · exact ⟨rfl, rfl⟩
  · next c hc =>
    have h1 := hs c { w with log := w.log ++ [(name, Val.undefined)] }
    split
    · next e w2 heq => rw [heq] at h1; exact h1
    · next q w2 heq =>
      rw [heq] at h1
      have h2 := then_called q (Arg.fn (Fn.closure f)) (Arg.value Val.undefined) w2
      exact ⟨h2.1.trans h1.1, h2.2.trans h1.2⟩
    · next id w2 heq =>
      rw [heq] at h1
      split <;> exact h1
    · next v w2 _ _ heq => rw [heq] at h1; exact h1

theorem callClosure_called (k : Closure) (v : Val) (w : World) :
    (callClosure k v w).2.called = w.called ∧
    (callClosure k v w).2.nextCalled = w.nextCalled := by
  cases k with
  | allOnFulfilled cell i n agg => exact recordAndResolve_called _ _ _ _ _ _
  | allSettledOnFulfilled cell i n agg =>
    have h1 := staticResolve_called v w
    simp only [callClosure]
    split
    · next e w1 heq => rw [heq] at h1; exact h1
    · next data w1 heq =>
      rw [heq] at h1
      have h2 := recordAndResolve_called cell i n agg data w1
      exact ⟨h2.1.trans h1.1, h2.2.trans h1.2⟩
  | allSettledOnRejected cell i n agg =>
    have h1 := staticReject_called v w
    simp only [callClosure]
    split
    · next e w1 heq => rw [heq] at h1; exact h1
    · next data w1 heq =>
      rw [heq] at h1
      have h2 := recordAndResolve_called cell i n agg data w1
      exact ⟨h2.1.trans h1.1, h2.2.trans h1.2⟩
  | anyOnRejected cell i n agg => exact recordAndReject_called _ _ _ _ _ _
  | finallyOnFulfilled name body => exact finallyBody_called _ _ _ _
  | finallyOnRejected name body => exact finallyBody_called _ _ _ _
  | constant value => exact ⟨rfl, rfl⟩
  | rethrow err => exact ⟨rfl, rfl⟩

theorem latchMono_of_eq {w w1 : World} (h : w1.called = w.called ∧ w1.nextCalled = w.nextCalled) :
    LatchMono w w1 :=
  ⟨by rw [h.2], fun c _ hc => by rw [h.1]; exact hc⟩

theorem latchFrame : Frame (fun _ => True) LatchMono where
  refl := fun w => ⟨le_refl _, fun _ _ h => h⟩
  trans := fun a b c hab hbc =>
    ⟨le_trans hab.1 hbc.1, fun k hk h => hbc.2 k (lt_of_lt_of_le hk hab.1) (hab.2 k hk h)⟩
  user := fun _ _ _ _ _ => ⟨le_refl _, fun _ _ h => h⟩
  resolve := fun p v w => latchMono_of_eq (settleResolve_called p v w)
  reject := fun p v w => latchMono_of_eq (settleReject_called p v w)
  newCalled := fun w => ⟨Nat.le_succ _, fun c hc h => by
    simp only [World.newCalled]
    rw [Function.update_noteq (Nat.ne_of_lt hc)]
    exact h⟩
  setCalled := fun c w => ⟨le_refl _, fun k _ h => by
    simp only [World.setCalled]
    by_cases hk : k = c
    · subst hk; simp
    · rw [Function.update_noteq hk]; exact h⟩
  register := fun q f g w _ _ => latchMono_of_eq (then_called q _ _ w)
  closure := fun k v w _ => latchMono_of_eq (callClosure_called k v w)
  adoptFulfilled := fun _ _ _ _ _ _ => trivial
  adoptRejected := fun _ _ _ => trivial
  ofAdoptFulfilled := fun _ _ _ _ _ => ⟨trivial, trivial⟩
  ofAdoptRejected := fun _ _ _ => trivial

theorem resolvePromise_latch {fuel p : Nat} {x : Val} {res rej : Fn} {w w1 : World}
    {r : Completion} (h : resolvePromise fuel p x res rej w = some (r, w1)) :
    LatchMono w w1 :=
  resolvePromise_frame latchFrame fuel p x res rej w r w1 trivial trivial h

theorem callFn_latch {fuel : Nat} {f : Fn} {v : Val} {w w1 : World}
    {r : Completion} (h : callFn (resolvePromise fuel) f v w = some (r, w1)) :
    LatchMono w w1 :=
  callFn_frame latchFrame (resolvePromise fuel)
    (fun _ _ _ _ _ _ _ _ _ h => resolvePromise_latch h) f v w r w1 trivial h

/-- Once the latch is set, the two closures of lines 22-36 do nothing, so the rest of
a `then` method either ends normally or throws, in the same world. -/
theorem runThen_committed (rp : Nat → Val → Fn → Fn → World → Option (Completion × World))
    (c p : Nat) (res rej : Fn) (script : List Event) (w : World) (hc : w.called c = true) :
    runThen (callFn rp) (Fn.adoptFulfilled c p res rej) (Fn.adoptRejected c rej) script w
        = some (Completion.normal Val.undefined, w) ∨
    ∃ e, runThen (callFn rp) (Fn.adoptFulfilled c p res rej) (Fn.adoptRejected c rej)
        script w = some (Completion.thrown e, w) := by
  induction script with
  | nil => left; rfl
  | cons ev rest ih =>
    cases ev with
    | success y => simpa [runThen, callFn, hc] using ih
    | failure r => simpa [runThen, callFn, hc] using ih
    | raise e => right; exact ⟨e, rfl⟩

/-- With the latch set, what is left of the `try` statement has no effect. -/
theorem tryCatch_committed (rp : Nat → Val → Fn → Fn → World → Option (Completion × World))
    (c p : Nat) (res rej : Fn) (script : List Event) (w : World) (hc : w.called c = true) :
    tryCatch (callFn rp) c rej
      (runThen (callFn rp) (Fn.adoptFulfilled c p res rej) (Fn.adoptRejected c rej) script w)
        = some (Completion.normal Val.undefined, w) := by
  rcases runThen_committed rp c p res rej script w hc with h | ⟨e, h⟩
  · rw [h]; rfl
  · rw [h]; simp [tryCatch, catchClause, hc]

theorem newCalled_setCalled_latch (w : World) :
    (w.newCalled.setCalled w.nextCalled).called w.nextCalled = true ∧
    w.nextCalled < (w.newCalled.setCalled w.nextCalled).nextCalled := by
  simp [World.newCalled, World.setCalled]

theorem resolvePromise_obj (fuel p id : Nat) (res rej : Fn) (w : World) :
    resolvePromise (fuel + 1) p (Val.obj id) res rej w =
      match w.thenOf id with
      | ThenMember.getterThrows e =>
        catchClause (callFn (resolvePromise fuel)) w.nextCalled rej e w.newCalled
      | ThenMember.callable script =>
        tryCatch (callFn (resolvePromise fuel)) w.nextCalled rej
          (runThen (callFn (resolvePromise fuel))
            (Fn.adoptFulfilled w.nextCalled p res rej) (Fn.adoptRejected w.nextCalled rej)
            script w.newCalled)
      | ThenMember.notCallable =>
        tryCatch (callFn (resolvePromise fuel)) w.nextCalled rej
          (callFn (resolvePromise fuel) res (Val.obj id) w.newCalled) := by
  simp only [resolvePromise, World.newCalled]
  rfl

/-- The first event of a `then` method is a call of the success callback. -/
theorem resolvePromise_first_success (fuel p id : Nat) (res rej : Fn) (w : World)
    (y : Val) (rest : List Event)
    (hthen : w.thenOf id = ThenMember.callable (Event.success y :: rest)) :
    resolvePromise (fuel + 1) p (Val.obj id) res rej w =
      swallow (resolvePromise fuel p y res rej (w.newCalled.setCalled w.nextCalled)) := by
  rw [resolvePromise_obj, hthen]
  have hfalse : w.newCalled.called w.nextCalled = false := by simp [World.newCalled]
  simp only [runThen, callFn, hfalse, Bool.false_eq_true, if_false]
  cases hrp : resolvePromise fuel p y res rej (w.newCalled.setCalled w.nextCalled) with
  | none => simp [discard, tryCatch, swallow]
  | some out =>
    obtain ⟨r, w1⟩ := out
    have hmono := resolvePromise_latch hrp
    have hc : w1.called w.nextCalled = true :=
      hmono.2 _ (newCalled_setCalled_latch w).2 (newCalled_setCalled_latch w).1
    cases r with
    | normal v =>
      simp only [discard, swallow]
      exact tryCatch_committed _ _ _ _ _ rest w1 hc
    | thrown e =>
      simp [discard, swallow, tryCatch, catchClause, hc]

/-- The first event of a `then` method is a call of the failure callback. -/
theorem resolvePromise_first_failure (fuel p id : Nat) (res rej : Fn) (w : World)
    (r : Val) (rest : List Event)
    (hthen : w.thenOf id = ThenMember.callable (Event.failure r :: rest)) :
    resolvePromise (fuel + 1) p (Val.obj id) res rej w =
      swallow (callFn (resolvePromise fuel) rej r (w.newCalled.setCalled w.nextCalled)) := by
  rw [resolvePromise_obj, hthen]
  have hfalse : w.newCalled.called w.nextCalled = false := by simp [World.newCalled]
  simp only [runThen, callFn, hfalse, Bool.false_eq_true, if_false]
  cases hrp : callFn (resolvePromise fuel) rej r (w.newCalled.setCalled w.nextCalled) with
  | none => simp [discard, tryCatch, swallow]
  | some out =>
    obtain ⟨r1, w1⟩ := out
    have hmono := callFn_latch hrp
    have hc : w1.called w.nextCalled = true :=
      hmono.2 _ (newCalled_setCalled_latch w).2 (newCalled_setCalled_latch w).1
    cases r1 with
    | normal v =>
      simp only [discard, swallow]
      exact tryCatch_committed _ _ _ _ _ rest w1 hc
    | thrown e =>
      simp [discard, swallow, tryCatch, catchClause, hc]

/-- The first event of a `then` method is a throw. -/
theorem resolvePromise_first_raise (fuel p id : Nat) (res rej : Fn) (w : World)
    (e : Val) (rest : List Event)
    (hthen : w.thenOf id = ThenMember.callable (Event.raise e :: rest)) :
    resolvePromise (fuel + 1) p (Val.obj id) res rej w =
      discard (callFn (resolvePromise fuel) rej e (w.newCalled.setCalled w.nextCalled)) := by
  rw [resolvePromise_obj, hthen]
  have hfalse : w.newCalled.called w.nextCalled = false := by simp [World.newCalled]
  simp [runThen, tryCatch, catchClause, hfalse]

/-! ## C6 -/

/-- C6: let `x` be a foreign thenable whose `then` performs `script`.  Then
`resolvePromise(promise2, x, resolve, reject)` acts on the first event only and what
follows it in `script` plays no part:
* no event: nothing is called;
* first `success(y)`: the latch is set and the call is `resolvePromise(promise2, y,
  resolve, reject)`, whose own exception, if any, is dropped;
* first `failure(r)`: the latch is set and `reject(r)` is called;
* first `throw e`: the latch is set and `reject(e)` is called.
If the nested call runs out of fuel so does the whole call. -/
theorem resolvePromise_first_event_only (fuel promise2 id : Nat) (resolve reject : Fn)
    (w : World) (script : List Event) (hthen : w.thenOf id = ThenMember.callable script) :
    (script = [] →
      resolvePromise (fuel + 1) promise2 (Val.obj id) resolve reject w =
        some (Completion.normal Val.undefined, w.newCalled)) ∧
    (∀ y rest, script = Event.success y :: rest →
      resolvePromise (fuel + 1) promise2 (Val.obj id) resolve reject w =
        swallow (resolvePromise fuel promise2 y resolve reject
          (w.newCalled.setCalled w.nextCalled))) ∧
    (∀ r rest, script = Event.failure r :: rest →
      resolvePromise (fuel + 1) promise2 (Val.obj id) resolve reject w =
        swallow (callFn (resolvePromise fuel) reject r
          (w.newCalled.setCalled w.nextCalled))) ∧
    (∀ e rest, script = Event.raise e :: rest →
      resolvePromise (fuel + 1) promise2 (Val.obj id) resolve reject w =
        discard (callFn (resolvePromise fuel) reject e
          (w.newCalled.setCalled w.nextCalled))) := by
  refine ⟨?_, ?_, ?_, ?_⟩
  · intro hs
    subst hs
    rw [resolvePromise_obj, hthen]
    rfl
  · intro y rest hs
    subst hs
    exact resolvePromise_first_success fuel promise2 id resolve reject w y rest hthen
  · intro r rest hs
    subst hs
    exact resolvePromise_first_failure fuel promise2 id resolve reject w r rest hthen
  · intro e rest hs
    subst hs
    exact resolvePromise_first_raise fuel promise2 id resolve reject w e rest hthen

/-- A witness of C6 on object 3, whose `then` calls the failure callback with "no",
then the success callback with 3, then throws "late": only `reject("no")` happens. -/
theorem resolvePromise_first_event_only_witness :
    exampleDeferred.thenOf 3 = ThenMember.callable
      [Event.failure (Val.str "no"), Event.success (Val.num 3), Event.raise (Val.str "late")] ∧
    resolvePromise 1 0 (Val.obj 3) (Fn.resolve 0) (Fn.reject 0) exampleDeferred =
      swallow (callFn (resolvePromise 0) (Fn.reject 0) (Val.str "no")
        (exampleDeferred.newCalled.setCalled exampleDeferred.nextCalled)) :=
  ⟨rfl, (resolvePromise_first_event_only 0 0 3 (Fn.resolve 0) (Fn.reject 0) exampleDeferred
    _ rfl).2.2.1 _ _ rfl⟩

/-- The witness of C2: `dfd.promise` is fulfilled with 1 and the handler throws "err". -/
theorem then_handler_decides_next_witness :
    0 < exampleFulfilled.nextId ∧
    (exampleFulfilled.heap 0).status = Status.FULFILLED ∧
    ∃ w1, runTimer 1
        (Timer.fulfilledJob 0 (Fn.user 7 (fun _ => Completion.thrown (Val.str "err"))) 1)
        { (then_ 0 (Arg.fn (Fn.user 7 (fun _ => Completion.thrown (Val.str "err"))))
            (Arg.value Val.undefined) exampleFulfilled).2 with timers := [] } = some w1 ∧
      w1.rejectedWith 1 (Val.str "err") ∧ w1.log = [(7, Val.num 1)] :=
  ⟨by decide, by decide,
    ((then_handler_decides_next exampleFulfilled 0 7
      (fun _ => Completion.thrown (Val.str "err")) (Arg.value Val.undefined) 0 []
      (by decide)).1 (by decide)).2.2.1 (Val.str "err") rfl⟩

/-! ## C5 -/

/-- A handler that returns `promise2` itself rejects it with the cycle error. -/
theorem runJob_of_self (fuel : Nat) (onSettled : Fn) (arg : Val) (promise2 : Nat)
    (w w1 : World)
    (hcall : callFn (resolvePromise (fuel + 1)) onSettled arg w
      = some (Completion.normal (Val.promise promise2), w1))
    (hpend : (w1.heap promise2).status = Status.PENDING) :
    (∀ self, (w.heap self).value = arg →
      runTimer (fuel + 1) (Timer.fulfilledJob self onSettled promise2) w
        = some (settleReject promise2 cycleError w1)) ∧
    (∀ self, (w.heap self).reason = arg →
      runTimer (fuel + 1) (Timer.rejectedJob self onSettled promise2) w
        = some (settleReject promise2 cycleError w1)) ∧
    (settleReject promise2 cycleError w1).rejectedWith promise2 cycleError := by
  have hrp : resolvePromise (fuel + 1) promise2 (Val.promise promise2) (Fn.resolve promise2)
      (Fn.reject promise2) w1
      = some (Completion.normal Val.undefined, settleReject promise2 cycleError w1) := by
    rw [resolvePromise_self]
    simp [callFn]
  refine ⟨?_, ?_, fresh_settleReject _ _ _ hpend⟩
  · intro self hs
    simp [runTimer, hs, hcall, hrp]
  · intro self hs
    simp [runTimer, hs, hcall, hrp]

/-- A handler that returns a thenable whose `then` first passes `promise2` to its
success callback rejects `promise2` with the cycle error. -/
theorem runJob_of_thenable_self (fuel : Nat) (onSettled : Fn) (arg : Val)
    (promise2 id : Nat) (rest : List Event) (w w1 : World)
    (hcall : callFn (resolvePromise (fuel + 2)) onSettled arg w
      = some (Completion.normal (Val.obj id), w1))
    (hthen : w1.thenOf id = ThenMember.callable (Event.success (Val.promise promise2) :: rest))
    (hpend : (w1.heap promise2).status = Status.PENDING) :
    (∀ self, (w.heap self).value = arg →
      runTimer (fuel + 2) (Timer.fulfilledJob self onSettled promise2) w
        = some (settleReject promise2 cycleError (w1.newCalled.setCalled w1.nextCalled))) ∧
    (∀ self, (w.heap self).reason = arg →
      runTimer (fuel + 2) (Timer.rejectedJob self onSettled promise2) w
        = some (settleReject promise2 cycleError (w1.newCalled.setCalled w1.nextCalled))) ∧
    (settleReject promise2 cycleError
      (w1.newCalled.setCalled w1.nextCalled)).rejectedWith promise2 cycleError := by
  have hrp : resolvePromise (fuel + 2) promise2 (Val.obj id) (Fn.resolve promise2)
      (Fn.reject promise2) w1
      = some (Completion.normal Val.undefined,
          settleReject promise2 cycleError (w1.newCalled.setCalled w1.nextCalled)) := by
    rw [resolvePromise_first_success _ _ _ _ _ _ _ _ hthen, resolvePromise_self]
    simp [callFn, swallow]
  refine ⟨?_, ?_, fresh_settleReject _ _ _
    (by simpa [World.newCalled, World.setCalled] using hpend)⟩
  · intro self hs
    simp [runTimer, hs, hcall, hrp]
  · intro self hs
    simp [runTimer, hs, hcall, hrp]

/-- C5: (1) when `x` is `promise2` itself, `resolvePromise(promise2, x, resolve, reject)`
is exactly the call `reject(new TypeError(..))`: with user functions as `resolve` and
`reject` the trace gains the single entry of that call, and the equation holds
whatever the `then` members of the world are.  (2) For `next = p.then(h)` on a settled
`p`, when the job runs and `h` returns `next` itself, `next` is rejected with that
TypeError; (3) likewise when `h` returns a thenable whose `then` first passes `next`
to its success callback, whatever that `then` does afterwards. -/
theorem chaining_cycle_rejects (w : World) (fuel : Nat) :
    (∀ promise2 resolve reject,
      resolvePromise (fuel + 1) promise2 (Val.promise promise2) resolve reject w =
        callFn (resolvePromise fuel) reject cycleError w) ∧
    (∀ promise2 n1 b1 n2 b2,
      resolvePromise (fuel + 1) promise2 (Val.promise promise2) (Fn.user n1 b1)
          (Fn.user n2 b2) w =
        some (b2 cycleError, { w with log := w.log ++ [(n2, cycleError)] })) ∧
    (∀ p name body other queue, p < w.nextId →
      ((w.heap p).status = Status.FULFILLED →
        (then_ p (Arg.fn (Fn.user name body)) other w).2.timers =
          w.timers ++ [Timer.fulfilledJob p (Fn.user name body) w.nextId] ∧
        (body (w.heap p).value = Completion.normal (Val.promise w.nextId) →
          ∃ w1, runTimer (fuel + 2) (Timer.fulfilledJob p (Fn.user name body) w.nextId)
              { (then_ p (Arg.fn (Fn.user name body)) other w).2 with timers := queue }
              = some w1 ∧ w1.rejectedWith w.nextId cycleError) ∧
        (∀ id rest, body (w.heap p).value = Completion.normal (Val.obj id) →
          w.thenOf id = ThenMember.callable (Event.success (Val.promise w.nextId) :: rest) →
          ∃ w1, runTimer (fuel + 2) (Timer.fulfilledJob p (Fn.user name body) w.nextId)
              { (then_ p (Arg.fn (Fn.user name body)) other w).2 with timers := queue }
              = some w1 ∧ w1.rejectedWith w.nextId cycleError)) ∧
      ((w.heap p).status = Status.REJECTED →
        (then_ p other (Arg.fn (Fn.user name body)) w).2.timers =
          w.timers ++ [Timer.rejectedJob p (Fn.user name body) w.nextId] ∧
        (body (w.heap p).reason = Completion.normal (Val.promise w.nextId) →
          ∃ w1, runTimer (fuel + 2) (Timer.rejectedJob p (Fn.user name body) w.nextId)
              { (then_ p other (Arg.fn (Fn.user name body)) w).2 with timers := queue }
              = some w1 ∧ w1.rejectedWith w.nextId cycleError) ∧
        (∀ id rest, body (w.heap p).reason = Completion.normal (Val.obj id) →
          w.thenOf id = ThenMember.callable (Event.success (Val.promise w.nextId) :: rest) →
          ∃ w1, runTimer (fuel + 2) (Timer.rejectedJob p (Fn.user name body) w.nextId)
              { (then_ p other (Arg.fn (Fn.user name body)) w).2 with timers := queue }
              = some w1 ∧ w1.rejectedWith w.nextId cycleError))) := by
  refine ⟨fun _ _ _ => resolvePromise_self _ _ _ _ _, ?_, ?_⟩
  · intro promise2 n1 b1 n2 b2
    rw [resolvePromise_self]
    rfl
  · intro p name body other queue hp
    have hne : p ≠ w.nextId := Nat.ne_of_lt hp
    constructor
    · intro hs
      rw [then_fulfilled _ _ _ _ hne hs]
      refine ⟨rfl, ?_, ?_⟩
      · intro hb
        have h := runJob_of_self (fuel + 1) (Fn.user name body) (w.heap p).value w.nextId
          { w with heap := Function.update w.heap w.nextId PromiseState.fresh,
                   nextId := w.nextId + 1, timers := queue }
          { w with heap := Function.update w.heap w.nextId PromiseState.fresh,
                   nextId := w.nextId + 1, timers := queue,
                   log := w.log ++ [(name, (w.heap p).value)] }
          (by simp [callFn, hb]) (by simp [PromiseState.fresh])
        exact ⟨_, h.1 p (by simp [Function.update_noteq hne]), h.2.2⟩
      · intro id rest hb hthen
        have h := runJob_of_thenable_self fuel (Fn.user name body) (w.heap p).value w.nextId
          id rest
          { w with heap := Function.update w.heap w.nextId PromiseState.fresh,
                   nextId := w.nextId + 1, timers := queue }
          { w with heap := Function.update w.heap w.nextId PromiseState.fresh,
                   nextId := w.nextId + 1, timers := queue,
                   log := w.log ++ [(name, (w.heap p).value)] }
          (by simp [callFn, hb]) hthen (by simp [PromiseState.fresh])
        exact ⟨_, h.1 p (by simp [Function.update_noteq hne]), h.2.2⟩
    · intro hs
      rw [then_rejected _ _ _ _ hne hs]
      refine ⟨rfl, ?_, ?_⟩
      · intro hb
        have h := runJob_of_self (fuel + 1) (Fn.user name body) (w.heap p).reason w.nextId
          { w with heap := Function.update w.heap w.nextId PromiseState.fresh,
                   nextId := w.nextId + 1, timers := queue }
          { w with heap := Function.update w.heap w.nextId PromiseState.fresh,
                   nextId := w.nextId + 1, timers := queue,
                   log := w.log ++ [(name, (w.heap p).reason)] }
          (by simp [callFn, hb]) (by simp [PromiseState.fresh])
        exact ⟨_, h.2.1 p (by simp [Function.update_noteq hne]), h.2.2⟩
      · intro id rest hb hthen
        have h := runJob_of_thenable_self fuel (Fn.user name body) (w.heap p).reason w.nextId
          id rest
          { w with heap := Function.update w.heap w.nextId PromiseState.fresh,
                   nextId := w.nextId + 1, timers := queue }
          { w with heap := Function.update w.heap w.nextId PromiseState.fresh,
                   nextId := w.nextId + 1, timers := queue,
                   log := w.log ++ [(name, (w.heap p).reason)] }
          (by simp [callFn, hb]) hthen (by simp [PromiseState.fresh])
        exact ⟨_, h.2.1 p (by simp [Function.update_noteq hne]), h.2.2⟩

/-- The witness of C5: `dfd.promise` is fulfilled with 1 and the handler returns
object 2, whose `then` passes `next` (promise 1) to its success callback, then calls
it again with 3, then throws. -/
theorem chaining_cycle_rejects_witness :
    0 < exampleFulfilled.nextId ∧
    (exampleFulfilled.heap 0).status = Status.FULFILLED ∧
    exampleFulfilled.thenOf 2 = ThenMember.callable
      [Event.success (Val.promise 1), Event.success (Val.num 3),
        Event.raise (Val.str "late")] ∧
    ∃ w1, runTimer 2
        (Timer.fulfilledJob 0 (Fn.user 7 (fun _ => Completion.normal (Val.obj 2))) 1)
        { (then_ 0 (Arg.fn (Fn.user 7 (fun _ => Completion.normal (Val.obj 2))))
            (Arg.value Val.undefined) exampleFulfilled).2 with timers := [] } = some w1 ∧
      w1.rejectedWith 1 cycleError :=
  ⟨by decide, by decide, rfl,
    (((chaining_cycle_rejects exampleFulfilled 0).2.2 0 7
      (fun _ => Completion.normal (Val.obj 2)) (Arg.value Val.undefined) []
      (by decide)).1 (by decide)).2.2 2 _ rfl rfl⟩

/-! ## C9 and C10: links without a handler for the outcome -/

/-- C10, as stated, fails: `dfd.resolve(x)` with the thenable `x` (object 1, whose
`then` reports failure with "boom") fulfils `dfd.promise` with `x`; then
`next = dfd.promise.catch(onRejected)` is, once the queue is drained, rejected with
"boom" and not fulfilled with `x`. -/
theorem passthrough_of_thenable_value_counterexample :
    exampleFulfilledWithThenable.fulfilledWith 0 (Val.obj 1) ∧
    (catch_ 0 (Arg.fn (Fn.user 7 (fun _ => Completion.normal Val.undefined)))
      exampleFulfilledWithThenable).1 = 1 ∧
    (Option.map (fun w => ((w.heap 1).status, (w.heap 1).reason, (w.heap 1).value))
      (drain 5 (catch_ 0 (Arg.fn (Fn.user 7 (fun _ => Completion.normal Val.undefined)))
        exampleFulfilledWithThenable).2))
      = some (Status.REJECTED, Val.str "boom", Val.undefined) := by
  refine ⟨?_, rfl, ?_⟩ <;> decide

theorem resolvePromise_notThenable (fuel promise2 : Nat) (v : Val) (w : World)
    (hv : w.notThenable v = true) :
    resolvePromise (fuel + 1) promise2 v (Fn.resolve promise2) (Fn.reject promise2) w =
      some (Completion.normal Val.undefined, settleResolve promise2 v w.newCalled) := by
  cases v with
  | promise q => simp [World.notThenable] at hv
  | obj id =>
    simp only [World.notThenable, decide_eq_true_eq] at hv
    rw [resolvePromise_obj, hv]
    simp [callFn, tryCatch]
  | typeError msg => simp [resolvePromise, callFn, tryCatch, World.newCalled]
  | array a => simp [resolvePromise, callFn, tryCatch, World.newCalled]
  | undefined => simp [resolvePromise, callFn, discard, World.newCalled]
  | null => simp [resolvePromise, callFn, discard, World.newCalled]
  | bool b => simp [resolvePromise, callFn, discard, World.newCalled]
  | num n => simp [resolvePromise, callFn, discard, World.newCalled]
  | str s => simp [resolvePromise, callFn, discard, World.newCalled]

/-- C10 amended: let `p` be fulfilled with a value `v` that is not a thenable (not an
object or function, or an object whose `then` member is readable and not callable).
For `next = p.then(u, onRejected)` with `u` not a function, and for
`next = p.catch(onRejected)`, one job is scheduled; when it runs, `next` is fulfilled
with `v` itself and no user function is invoked (the trace is unchanged). -/
theorem fulfilment_passes_through (w : World) (p : Nat) (u : Val) (onRejected : Arg)
    (fuel : Nat) (queue : List Timer) (hp : p < w.nextId)
    (hs : (w.heap p).status = Status.FULFILLED)
    (hv : w.notThenable (w.heap p).value = true) :
    catch_ p onRejected w = then_ p (Arg.value Val.null) onRejected w ∧
    (then_ p (Arg.value u) onRejected w).1 = w.nextId ∧
    (then_ p (Arg.value u) onRejected w).2.timers =
      w.timers ++ [Timer.fulfilledJob p Fn.identity w.nextId] ∧
    ∃ w1, runTimer (fuel + 1) (Timer.fulfilledJob p Fn.identity w.nextId)
        { (then_ p (Arg.value u) onRejected w).2 with timers := queue } = some w1 ∧
      w1.fulfilledWith w.nextId (w.heap p).value ∧ w1.log = w.log := by
  have hne : p ≠ w.nextId := Nat.ne_of_lt hp
  rw [then_fulfilled _ _ _ _ hne hs]
  refine ⟨rfl, rfl, rfl, ?_⟩
  have hrp := resolvePromise_notThenable fuel w.nextId (w.heap p).value
    { w with heap := Function.update w.heap w.nextId PromiseState.fresh,
             nextId := w.nextId + 1, timers := queue } hv
  refine ⟨_, ?_, fresh_settleResolve w.nextId (w.heap p).value
    ({ w with heap := Function.update w.heap w.nextId PromiseState.fresh,
              nextId := w.nextId + 1, timers := queue } : World).newCalled
    (by simp [World.newCalled, PromiseState.fresh]), ?_⟩
  · simp only [runTimer, callFn, Arg.orIdentity, Function.update_noteq hne]
    rw [hrp]
  · rw [settleResolve_log]; rfl

/-- The witness of C10 amended: `dfd.promise` fulfilled with 1, then `.catch(h)`. -/
theorem fulfilment_passes_through_witness :
    0 < exampleFulfilled.nextId ∧
    (exampleFulfilled.heap 0).status = Status.FULFILLED ∧
    exampleFulfilled.notThenable (exampleFulfilled.heap 0).value = true ∧
    ∃ w1, runTimer 1 (Timer.fulfilledJob 0 Fn.identity 1)
        { (then_ 0 (Arg.value Val.null)
            (Arg.fn (Fn.user 7 (fun _ => Completion.normal Val.undefined)))
            exampleFulfilled).2 with timers := [] } = some w1 ∧
      w1.fulfilledWith 1 (exampleFulfilled.heap 0).value ∧ w1.log = exampleFulfilled.log :=
  ⟨by decide, by decide, by decide,
    (fulfilment_passes_through exampleFulfilled 0 Val.null
      (Arg.fn (Fn.user 7 (fun _ => Completion.normal Val.undefined))) 0 []
      (by decide) (by decide) (by decide)).2.2.2⟩

/-! ## C11: an initializer that throws -/

theorem runExecutor_calls (p : Nat) (calls : List Settle) (tail : List ExecEvent)
    (w : World) :
    runExecutor p (calls.map ExecEvent.ofSettle ++ tail) w =
      runExecutor p tail (applySettles p calls w) := by
  induction calls generalizing w with
  | nil => rfl
  | cons c rest ih =>
    cases c <;>
      simpa [runExecutor, ExecEvent.ofSettle, applySettles, applySettle] using ih _

theorem construct_throwing (w : World) (calls : List Settle) (e : Val)
    (rest : List ExecEvent) :
    construct (calls.map ExecEvent.ofSettle ++ ExecEvent.raise e :: rest) w =
      (w.nextId, settleReject w.nextId e (applySettles w.nextId calls (newPromise w).2)) := by
  simp only [construct, newPromise]
  rw [runExecutor_calls]
  rfl

theorem newPromise_pending (w : World) :
    ((newPromise w).2.heap w.nextId).status = Status.PENDING := by
  simp [newPromise, PromiseState.fresh]

/-- C11: an initializer that makes the settlement calls `calls` and then throws `e`
(what it would have done afterwards is `rest`).  The constructor returns the new
promise (it is a total function: nothing is thrown out of it).  If `calls` is empty
the promise is rejected with `e`; otherwise the world is the one the first call of
`calls` produced on the new promise, `e` and the later calls being without effect:
fulfilled with `v` after a first `resolve(v)`, rejected with `r` after a first
`reject(r)`. -/
theorem throwing_initializer (w : World) (calls : List Settle) (e : Val)
    (rest : List ExecEvent) :
    (construct (calls.map ExecEvent.ofSettle ++ ExecEvent.raise e :: rest) w).1 = w.nextId ∧
    (calls = [] →
      (construct (calls.map ExecEvent.ofSettle ++ ExecEvent.raise e :: rest) w).2.rejectedWith
        w.nextId e) ∧
    (∀ c cs, calls = c :: cs →
      (construct (calls.map ExecEvent.ofSettle ++ ExecEvent.raise e :: rest) w).2 =
        applySettle w.nextId c (newPromise w).2 ∧
      (∀ v, c = Settle.resolve v →
        (construct (calls.map ExecEvent.ofSettle ++ ExecEvent.raise e :: rest)
          w).2.fulfilledWith w.nextId v) ∧
      (∀ r, c = Settle.reject r →
        (construct (calls.map ExecEvent.ofSettle ++ ExecEvent.raise e :: rest)
          w).2.rejectedWith w.nextId r)) := by
  rw [construct_throwing]
  refine ⟨rfl, ?_, ?_⟩
  · intro hc
    subst hc
    exact fresh_settleReject _ _ _ (newPromise_pending w)
  · intro c cs hc
    subst hc
    have h1 : applySettles w.nextId (c :: cs) (newPromise w).2 =
        applySettle w.nextId c (newPromise w).2 :=
      applySettles_settled _ cs _ (applySettle_status _ c _)
    have h2 : settleReject w.nextId e (applySettle w.nextId c (newPromise w).2) =
        applySettle w.nextId c (newPromise w).2 :=
      settleReject_settled _ _ _ (applySettle_status _ c _)
    rw [h1, h2]
    refine ⟨rfl, ?_, ?_⟩
    · intro v hv
      subst hv
      exact fresh_settleResolve _ _ _ (newPromise_pending w)
    · intro r hr
      subst hr
      exact fresh_settleReject _ _ _ (newPromise_pending w)

/-- The witness of C11: `new Promise((resolve) => { resolve(1); throw "late"; })`. -/
theorem throwing_initializer_witness :
    (construct ([Settle.resolve (Val.num 1)].map ExecEvent.ofSettle ++
      ExecEvent.raise (Val.str "late") :: []) (World.init exampleThenOf)).2.fulfilledWith
        0 (Val.num 1) :=
  ((throwing_initializer (World.init exampleThenOf) [Settle.resolve (Val.num 1)]
    (Val.str "late") []).2.2 _ _ rfl).2.1 _ rfl

/-! ## C20: `Promise.resolve` -/

theorem then_member_cases (w : World) (x : Val) :
    (w.notThenable x = true ∧ w.hasCallableThen x = false ∧ w.thenGetterThrows x = none) ∨
    (w.notThenable x = false ∧ w.hasCallableThen x = true ∧ w.thenGetterThrows x = none) ∨
    (w.notThenable x = false ∧ w.hasCallableThen x = false ∧
      ∃ e, w.thenGetterThrows x = some e) := by
  cases x with
  | obj id =>
    cases h : w.thenOf id <;>
      simp [World.notThenable, World.hasCallableThen, World.thenGetterThrows, h]
  | _ => simp [World.notThenable, World.hasCallableThen, World.thenGetterThrows]

theorem hasThenFunction_of_notThenable (w : World) (x : Val) (h : w.notThenable x = true) :
    hasThenFunction w x = Except.ok false := by
  cases x with
  | promise q => simp [World.notThenable] at h
  | obj id =>
    simp only [World.notThenable, decide_eq_true_eq] at h
    simp [hasThenFunction, h]
  | _ => rfl

theorem hasThenFunction_of_callable (w : World) (x : Val) (h : w.hasCallableThen x = true) :
    hasThenFunction w x = Except.ok true := by
  cases x with
  | promise q => rfl
  | obj id =>
    cases hm : w.thenOf id <;> simp [World.hasCallableThen, hm] at h
    simp [hasThenFunction, hm]
  | _ => simp [World.hasCallableThen] at h

theorem hasThenFunction_of_throws (w : World) (x e : Val)
    (h : w.thenGetterThrows x = some e) : hasThenFunction w x = Except.error e := by
  cases x with
  | obj id =>
    cases hm : w.thenOf id <;> simp [World.thenGetterThrows, hm] at h
    subst h
    simp [hasThenFunction, hm]
  | _ => simp [World.thenGetterThrows] at h

/-- C20, as stated, fails: object 0 has no callable `then`, because reading its `then`
throws "g"; `Promise.resolve` of it throws "g" and builds no promise. -/
theorem promise_resolve_getter_counterexample :
    exampleGetterThenOf 0 = ThenMember.getterThrows (Val.str "g") ∧
    (World.init exampleGetterThenOf).hasCallableThen (Val.obj 0) = false ∧
    (staticResolve (Val.obj 0) (World.init exampleGetterThenOf)).1
      = Completion.thrown (Val.str "g") ∧
    (staticResolve (Val.obj 0) (World.init exampleGetterThenOf)).2.nextId = 0 :=
  ⟨rfl, rfl, rfl, rfl⟩

/-- C20 amended: every value is of exactly one of three kinds, told by its `then`
member alone.  (1) `x` is not an object or function, or its `then` can be read and is
not callable: `Promise.resolve(x)` returns a new promise, already fulfilled with `x`,
and `Promise.resolve` of that promise returns it and changes nothing.  (2) `t` has a
callable `then`: `Promise.resolve(t)` returns `t` and changes nothing, however often
it is applied.  (3) Reading the `then` of `x` throws `e`: `Promise.resolve(x)` throws
`e` and changes nothing. -/
theorem promise_resolve_wraps_once (w : World) (x : Val) :
    ((w.notThenable x = true ∧ w.hasCallableThen x = false ∧ w.thenGetterThrows x = none) ∨
     (w.notThenable x = false ∧ w.hasCallableThen x = true ∧ w.thenGetterThrows x = none) ∨
     (w.notThenable x = false ∧ w.hasCallableThen x = false ∧
       ∃ e, w.thenGetterThrows x = some e)) ∧
    (w.notThenable x = true →
      staticResolve x w = (Completion.normal (Val.promise w.nextId), (newFulfilled x w).2) ∧
      (staticResolve x w).2.fulfilledWith w.nextId x ∧
      (staticResolve x w).2.nextId = w.nextId + 1 ∧
      staticResolve (Val.promise w.nextId) (staticResolve x w).2 =
        (Completion.normal (Val.promise w.nextId), (staticResolve x w).2)) ∧
    (w.hasCallableThen x = true →
      staticResolve x w = (Completion.normal x, w) ∧
      staticResolve x (staticResolve x w).2 = (Completion.normal x, w)) ∧
    (∀ e, w.thenGetterThrows x = some e → staticResolve x w = (Completion.thrown e, w)) := by
  refine ⟨then_member_cases w x, ?_, ?_, ?_⟩
  · intro h
    have h1 : staticResolve x w =
        (Completion.normal (Val.promise w.nextId), (newFulfilled x w).2) := by
      simp [staticResolve, hasThenFunction_of_notThenable w x h, newFulfilled, newPromise]
    refine ⟨h1, ?_, ?_, ?_⟩
    · rw [h1]
      exact fresh_settleResolve _ _ _ (newPromise_pending w)
    · rw [h1]
      simp [newFulfilled, newPromise, settleResolve, forEachCall_eq, PromiseState.fresh]
    · simp [staticResolve, hasThenFunction]
  · intro h
    have h1 : staticResolve x w = (Completion.normal x, w) := by
      simp [staticResolve, hasThenFunction_of_callable w x h]
    refine ⟨h1, ?_⟩
    rw [h1]
    exact h1
  · intro e h
    simp [staticResolve, hasThenFunction_of_throws w x e h]

/-- The witness of C20 amended: `Promise.resolve(5)` in the world of the examples. -/
theorem promise_resolve_wraps_once_witness :
    exampleDeferred.notThenable (Val.num 5) = true ∧
    (staticResolve (Val.num 5) exampleDeferred).2.fulfilledWith 1 (Val.num 5) ∧
    staticResolve (Val.promise 1) (staticResolve (Val.num 5) exampleDeferred).2 =
      (Completion.normal (Val.promise 1), (staticResolve (Val.num 5) exampleDeferred).2) :=
  ⟨rfl, ((promise_resolve_wraps_once exampleDeferred (Val.num 5)).2.1 rfl).2.1,
    ((promise_resolve_wraps_once exampleDeferred (Val.num 5)).2.1 rfl).2.2.2⟩

/-! ## C15: `Promise.all` of no input -/

/-- C15 fails on the code: `Promise.all([])` returns a promise that is PENDING; it has
no callbacks, nothing is scheduled, so draining the queue of a world where nothing
else was pending leaves it PENDING. -/
theorem all_of_nothing_stays_pending (w : World) (fuel : Nat) :
    (all [] w).1 = w.nextId ∧
    ((all [] w).2.heap (all [] w).1) = PromiseState.fresh ∧
    (all [] w).2.timers = w.timers ∧
    (w.timers = [] → drain fuel (all [] w).2 = some (all [] w).2) := by
  refine ⟨rfl, ?_, rfl, ?_⟩
  · simp [all, forEachInput, finishConstruct, newPromise, World.newCell]
  · intro h
    have ht : (all [] w).2.timers = [] := h
    cases fuel <;> simp [drain, ht]

/-- The run of `Promise.all([])` in the empty world. -/
theorem all_of_nothing_stays_pending_witness :
    drain 5 (all [] (World.init exampleThenOf)).2 = some (all [] (World.init exampleThenOf)).2 ∧
    ((all [] (World.init exampleThenOf)).2.heap 0).status = Status.PENDING :=
  ⟨(all_of_nothing_stays_pending (World.init exampleThenOf) 5).2.2.2 rfl, by decide⟩

/-! ## C16: `Promise.race` -/

/-- C16 fails on the code: with both inputs pending, `agg = Promise.race([p0, p1])`,
then `p0` is rejected with "r" and after it `p1` is fulfilled with 2.  Once the queue
is drained `agg` is fulfilled with 2, though `p0` rejected before any input had
fulfilled: the rejection reaches `agg` through the promise `p0.then(resolve)`, one
timer later than a fulfilment does. -/
theorem race_rejection_arrives_late :
    (race [Val.promise 0, Val.promise 1] exampleTwoDeferred).1 = 2 ∧
    exampleRace.rejectedWith 0 (Val.str "r") ∧
    exampleRace.fulfilledWith 1 (Val.num 2) ∧
    (Option.map (fun w => ((w.heap 2).status, (w.heap 2).value, (w.heap 2).reason))
      (drain 9 exampleRace)) = some (Status.FULFILLED, Val.num 2, Val.undefined) := by
  refine ⟨rfl, ?_, ?_, ?_⟩ <;> decide

/-! ## C19: elements that are not promises -/

theorem then_heap_other (self : Nat) (a b : Arg) (w : World) (k : Nat)
    (h1 : k ≠ self) (h2 : k ≠ w.nextId) :
    (then_ self a b w).2.heap k = w.heap k := by
  simp only [then_, newPromise, World.setTimeout]
  split_ifs <;> simp [Function.update_noteq, h1, h2]

theorem then_nextId (self : Nat) (a b : Arg) (w : World) :
    (then_ self a b w).2.nextId = w.nextId + 1 := by
  simp only [then_, newPromise, World.setTimeout]
  split_ifs <;> rfl

theorem then_thenOf (self : Nat) (a b : Arg) (w : World) :
    (then_ self a b w).2.thenOf = w.thenOf := by
  simp only [then_, newPromise, World.setTimeout]
  split_ifs <;> rfl

theorem thenCatch_promise (q : Nat) (f g : Reaction) (w : World) :
    thenCatch (Val.promise q) f g w =
      (Completion.normal Val.undefined,
        (then_ w.nextId (Arg.value Val.null) (Arg.fn g.toFn)
          (then_ q (Arg.fn f.toFn) (Arg.value Val.undefined) w).2).2) := by
  simp [thenCatch, catch_, then_fst]

theorem thenCatch_notThenable (x : Val) (f g : Reaction) (w : World)
    (hx : w.notThenable x = true) :
    thenCatch x f g w = (Completion.thrown (typeErrorFor x), w) := by
  cases x with
  | promise q => simp [World.notThenable] at hx
  | obj id =>
    simp only [World.notThenable, decide_eq_true_eq] at hx
    simp [thenCatch, hx, typeErrorFor]
  | undefined => rfl
  | null => rfl
  | bool b => rfl
  | num n => rfl
  | str s => rfl
  | typeError m => rfl
  | array a => rfl

/-- The loop of a combinator over promises, then an element without `then`: the
element throws its TypeError while the aggregate is as it was. -/
theorem forEachInput_stops (f g : Nat → Reaction) (agg : Nat) (x : Val) (post : List Val) :
    ∀ (pre : List Nat) (i : Nat) (w : World), (∀ q ∈ pre, q < agg) → agg < w.nextId →
      w.notThenable x = true →
      ∃ w1, forEachInput (fun i p => thenCatch p (f i) (g i)) i
          (pre.map Val.promise ++ x :: post) w = (Completion.thrown (typeErrorFor x), w1) ∧
        w1.heap agg = w.heap agg := by
  intro pre
  induction pre with
  | nil =>
    intro i w _ _ hx
    refine ⟨w, ?_, rfl⟩
    simp [forEachInput, thenCatch_notThenable x _ _ w hx]
  | cons q rest ih =>
    intro i w hpre hagg hx
    have hq : q < agg := hpre q (List.mem_cons_self _ _)
    have hn1 := then_nextId q (Arg.fn (f i).toFn) (Arg.value Val.undefined) w
    have hn2 := then_nextId w.nextId (Arg.value Val.null) (Arg.fn (g i).toFn)
      (then_ q (Arg.fn (f i).toFn) (Arg.value Val.undefined) w).2
    have ht : ((then_ w.nextId (Arg.value Val.null) (Arg.fn (g i).toFn)
        (then_ q (Arg.fn (f i).toFn) (Arg.value Val.undefined) w).2).2).thenOf = w.thenOf := by
      rw [then_thenOf, then_thenOf]
    have hh : ((then_ w.nextId (Arg.value Val.null) (Arg.fn (g i).toFn)
        (then_ q (Arg.fn (f i).toFn) (Arg.value Val.undefined) w).2).2).heap agg
        = w.heap agg := by
      rw [then_heap_other _ _ _ _ _ (by omega) (by omega),
        then_heap_other _ _ _ _ _ (by omega) (by omega)]
    obtain ⟨w1, h1, h2⟩ := ih (i + 1)
      ((then_ w.nextId (Arg.value Val.null) (Arg.fn (g i).toFn)
        (then_ q (Arg.fn (f i).toFn) (Arg.value Val.undefined) w).2).2)
      (fun q' hq' => hpre q' (List.mem_cons_of_mem _ hq')) (by omega)
      (by
        cases x <;> simp_all [World.notThenable])
    refine ⟨w1, ?_, h2.trans hh⟩
    simp only [List.map_cons, List.cons_append, forEachInput, thenCatch_promise]
    exact h1

theorem finishConstruct_thrown (agg : Nat) (e : Val) (w : World)
    (h : (w.heap agg).status = Status.PENDING) :
    (finishConstruct agg (Completion.thrown e, w)).1 = agg ∧
    (finishConstruct agg (Completion.thrown e, w)).2.rejectedWith agg e :=
  ⟨rfl, fresh_settleReject _ _ _ h⟩

/-- C19, as stated, fails: `Promise.all([1, 2])` returns a promise that is rejected
with a TypeError (the number 1 has no `then` method) and not fulfilled. -/
theorem all_of_numbers_counterexample :
    (all [Val.num 1, Val.num 2] (World.init exampleThenOf)).1 = 0 ∧
    (all [Val.num 1, Val.num 2] (World.init exampleThenOf)).2.rejectedWith 0 notAFunction ∧
    (Option.map (fun w => (w.heap 0).status)
      (drain 5 (all [Val.num 1, Val.num 2] (World.init exampleThenOf)).2))
        = some Status.REJECTED := by
  refine ⟨rfl, ?_, ?_⟩ <;> decide

/-- C19 amended: let the input of a combinator be existing promises followed by an
element `x` that has no `then` method (then anything).  Calling `x.then` throws a
TypeError inside the initializer, which the constructor turns into a rejection: each of
`all`, `race`, `allSettled` and `any` returns a promise that is already rejected with
that TypeError. -/
theorem element_without_then_rejects (w : World) (pre : List Nat) (x : Val)
    (post : List Val) (hpre : ∀ q ∈ pre, q < w.nextId) (hx : w.notThenable x = true) :
    (all (pre.map Val.promise ++ x :: post) w).1 = w.nextId ∧
    (all (pre.map Val.promise ++ x :: post) w).2.rejectedWith w.nextId (typeErrorFor x) ∧
    (race (pre.map Val.promise ++ x :: post) w).1 = w.nextId ∧
    (race (pre.map Val.promise ++ x :: post) w).2.rejectedWith w.nextId (typeErrorFor x) ∧
    (allSettled (pre.map Val.promise ++ x :: post) w).1 = w.nextId ∧
    (allSettled (pre.map Val.promise ++ x :: post) w).2.rejectedWith w.nextId
      (typeErrorFor x) ∧
    (any (pre.map Val.promise ++ x :: post) w).1 = w.nextId ∧
    (any (pre.map Val.promise ++ x :: post) w).2.rejectedWith w.nextId (typeErrorFor x) := by
  have key : ∀ (f g : Nat → Reaction) (w0 : World), w0.nextId = w.nextId →
      w0.thenOf = w.thenOf →
      (finishConstruct w.nextId (forEachInput (fun i p => thenCatch p (f i) (g i)) 0
        (pre.map Val.promise ++ x :: post) (newPromise w0).2)).1 = w.nextId ∧
      (finishConstruct w.nextId (forEachInput (fun i p => thenCatch p (f i) (g i)) 0
        (pre.map Val.promise ++ x :: post) (newPromise w0).2)).2.rejectedWith w.nextId
          (typeErrorFor x) := by
    intro f g w0 hn ht
    obtain ⟨w1, h1, h2⟩ := forEachInput_stops f g w.nextId x post pre 0 (newPromise w0).2 hpre
      (by simp [newPromise, hn])
      (by
        have : (newPromise w0).2.thenOf = w.thenOf := ht
        cases x <;> simp_all [World.notThenable])
    rw [h1]
    refine finishConstruct_thrown _ _ _ ?_
    rw [h2, ← hn]
    exact newPromise_pending w0
  have hall := key (fun i => Reaction.closure (Closure.allOnFulfilled w.nextCell i
    (pre.map Val.promise ++ x :: post).length w.nextId)) (fun _ => Reaction.reject w.nextId)
    w.newCell rfl rfl
  have hrace := key (fun _ => Reaction.resolve w.nextId) (fun _ => Reaction.reject w.nextId)
    w rfl rfl
  have hset := key (fun i => Reaction.closure (Closure.allSettledOnFulfilled w.nextCell i
    (pre.map Val.promise ++ x :: post).length w.nextId))
    (fun i => Reaction.closure (Closure.allSettledOnRejected w.nextCell i
    (pre.map Val.promise ++ x :: post).length w.nextId)) w.newCell rfl rfl
  have hany : (any (pre.map Val.promise ++ x :: post) w).1 = w.nextId ∧
      (any (pre.map Val.promise ++ x :: post) w).2.rejectedWith w.nextId (typeErrorFor x) := by
    obtain ⟨w1, h1, h2⟩ := forEachInput_stops (fun _ => Reaction.resolve w.nextId)
      (fun i => Reaction.closure (Closure.anyOnRejected w.nextCell i
        (pre.map Val.promise ++ x :: post).length w.nextId)) w.nextId x post pre 0
      (newPromise w).2.newCell hpre (by simp [newPromise, World.newCell])
      (by
        have : (newPromise w).2.newCell.thenOf = w.thenOf := rfl
        cases x <;> simp_all [World.notThenable])
    have hfresh : (w1.heap w.nextId).status = Status.PENDING := by
      rw [h2]
      exact newPromise_pending w
    have hunf : any (pre.map Val.promise ++ x :: post) w =
        finishConstruct w.nextId (forEachInput (fun i p => thenCatch p
          (Reaction.resolve w.nextId) (Reaction.closure (Closure.anyOnRejected w.nextCell i
            (pre.map Val.promise ++ x :: post).length w.nextId))) 0
          (pre.map Val.promise ++ x :: post) (newPromise w).2.newCell) := rfl
    rw [hunf, h1]
    exact finishConstruct_thrown _ _ _ hfresh
  exact ⟨hall.1, hall.2, hrace.1, hrace.2, hset.1, hset.2, hany.1, hany.2⟩

/-- The witness of C19 amended: `Promise.all([p0, {}])` and the others, `p0` being the
pending promise of the examples and `{}` object 9, which has no `then`. -/
theorem element_without_then_rejects_witness :
    (∀ q ∈ [0], q < exampleDeferred.nextId) ∧
    exampleDeferred.notThenable (Val.obj 9) = true ∧
    (all ([0].map Val.promise ++ Val.obj 9 :: []) exampleDeferred).2.rejectedWith 1
      notAFunction ∧
    (race ([0].map Val.promise ++ Val.obj 9 :: []) exampleDeferred).2.rejectedWith 1
      notAFunction :=
  ⟨by decide, by decide,
    (element_without_then_rejects exampleDeferred [0] (Val.obj 9) [] (by decide)
      (by decide)).2.1,
    (element_without_then_rejects exampleDeferred [0] (Val.obj 9) [] (by decide)
      (by decide)).2.2.2.1⟩

/-! ## C12: `finally` -/

theorem hasThenFunction_congr {w1 w2 : World} (h : w1.thenOf = w2.thenOf) (x : Val) :
    hasThenFunction w1 x = hasThenFunction w2 x := by
  cases x <;> simp [hasThenFunction, h]

theorem notThenable_congr {w1 w2 : World} (h : w1.thenOf = w2.thenOf) (x : Val) :
    w1.notThenable x = w2.notThenable x := by
  cases x <;> simp [World.notThenable, h]

/-- C12, as stated, fails: `dfd.promise` is fulfilled with 1.  (1) The callback of
`finally` throws "oops": once the queue is drained the promise `finally` returned is
rejected with "oops".  (2) The callback returns the foreign thenable object 0, whose
`then` calls its first argument with 7 and returns nothing: the promise `finally`
returned is fulfilled with `undefined`.  In both runs the outcome was altered. -/
theorem finally_throwing_callback_counterexample :
    exampleFulfilled.fulfilledWith 0 (Val.num 1) ∧
    (finally_ 0 7 (fun _ => Completion.thrown (Val.str "oops")) exampleFulfilled).1 = 1 ∧
    (Option.map (fun w => ((w.heap 1).status, (w.heap 1).reason, (w.heap 1).value))
      (drain 9 (finally_ 0 7 (fun _ => Completion.thrown (Val.str "oops"))
        exampleFulfilled).2))
      = some (Status.REJECTED, Val.str "oops", Val.undefined) ∧
    exampleThenOf 0 = ThenMember.callable [Event.success (Val.num 7)] ∧
    (Option.map (fun w => ((w.heap 1).status, (w.heap 1).reason, (w.heap 1).value))
      (drain 9 (finally_ 0 7 (fun _ => Completion.normal (Val.obj 0))
        exampleFulfilled).2))
      = some (Status.FULFILLED, Val.undefined, Val.undefined) := by
  refine ⟨?_, rfl, ?_, rfl, ?_⟩ <;> decide

theorem resolvePromise_promise (fuel promise2 q : Nat) (res rej : Fn) (w : World)
    (h : q ≠ promise2) :
    resolvePromise (fuel + 1) promise2 (Val.promise q) res rej w =
      some (Completion.normal Val.undefined,
        (then_ q (Arg.fn (Fn.adoptFulfilled w.nextCalled promise2 res rej))
          (Arg.fn (Fn.adoptRejected w.nextCalled rej)) w.newCalled).2) := by
  have hne : Val.promise q ≠ Val.promise promise2 := by
    intro hh
    injection hh with hh
    exact h hh
  simp only [resolvePromise, hne, if_false]

/-- C12 amended: let `p` be settled and the queue empty, `next = p.finally(fn)`.
Once the queue is drained `fn` has been invoked exactly once, without argument, and:
(1) when `fn` returns a value without a callable `then`, or a promise that is already
fulfilled, `next` has the outcome of `p`: fulfilled with the value of `p` when `p` is
fulfilled with a value that is not a thenable, rejected with the reason of `p`
(whatever it is) when `p` is rejected;
(2) when `fn` returns a promise that is still pending, `next` is pending, and it gets
the outcome of `p` once that promise is fulfilled and the queue drained again;
(3) when `fn` throws `e`, returns a value whose `then` getter throws `e`, or returns a
promise rejected with `e`, `next` is rejected with `e`. -/
theorem finally_keeps_outcome (w : World) (name : Nat) (body : Val → Completion)
    (fuel p : Nat)
    (hp : p < w.nextId) (hq : w.timers = []) (hs : (w.heap p).status ≠ Status.PENDING) :
    (finally_ p name body w).1 = w.nextId ∧
    (∀ c, body Val.undefined = Completion.normal c →
      (w.notThenable c = true ∨
        ∃ q, c = Val.promise q ∧ q < w.nextId ∧ (w.heap q).status = Status.FULFILLED) →
      ((w.heap p).status = Status.FULFILLED → w.notThenable (w.heap p).value = true →
        ∃ w1, drain (fuel + 5) (finally_ p name body w).2 = some w1 ∧
          w1.fulfilledWith w.nextId (w.heap p).value ∧
          w1.log = w.log ++ [(name, Val.undefined)]) ∧
      ((w.heap p).status = Status.REJECTED →
        ∃ w1, drain (fuel + 5) (finally_ p name body w).2 = some w1 ∧
          w1.rejectedWith w.nextId (w.heap p).reason ∧
          w1.log = w.log ++ [(name, Val.undefined)])) ∧
    (∀ q, body Val.undefined = Completion.normal (Val.promise q) → q < w.nextId →
      (w.heap q).status = Status.PENDING → (w.heap q).onResolveCallbacks = [] →
      (w.heap q).onRejectedCallbacks = [] →
      ∃ w1, drain (fuel + 5) (finally_ p name body w).2 = some w1 ∧
        (w1.heap w.nextId).status = Status.PENDING ∧
        w1.log = w.log ++ [(name, Val.undefined)] ∧
        ∀ u,
          ((w.heap p).status = Status.FULFILLED → w.notThenable (w.heap p).value = true →
            ∃ w2, drain (fuel + 5) (settleResolve q u w1) = some w2 ∧
              w2.fulfilledWith w.nextId (w.heap p).value ∧
              w2.log = w.log ++ [(name, Val.undefined)]) ∧
          ((w.heap p).status = Status.REJECTED →
            ∃ w2, drain (fuel + 5) (settleResolve q u w1) = some w2 ∧
              w2.rejectedWith w.nextId (w.heap p).reason ∧
              w2.log = w.log ++ [(name, Val.undefined)])) ∧
    (∀ e, body Val.undefined = Completion.thrown e ∨
        (∃ c, body Val.undefined = Completion.normal c ∧ w.thenGetterThrows c = some e) ∨
        (∃ q, body Val.undefined = Completion.normal (Val.promise q) ∧ q < w.nextId ∧
          (w.heap q).status = Status.REJECTED ∧ (w.heap q).reason = e) →
      ∃ w1, drain (fuel + 5) (finally_ p name body w).2 = some w1 ∧
        w1.rejectedWith w.nextId e ∧
        w1.log = w.log ++ [(name, Val.undefined)]) := by
  have hne : p ≠ w.nextId := Nat.ne_of_lt hp
  have hne1 : p ≠ w.nextId + 1 := by omega
  have hne2 : p ≠ w.nextId + 2 := by omega
  have hne3 : p ≠ w.nextId + 3 := by omega
  have hu : ∀ w2 : World, w2.notThenable Val.undefined = true := fun _ => rfl
  have hvv : w.notThenable (w.heap p).value = true → ∀ w2 : World, w2.thenOf = w.thenOf →
      w2.notThenable (w.heap p).value = true :=
    fun hv w2 h => by rw [← hv]; exact notThenable_congr h _
  refine ⟨rfl, ?_, ?_, ?_⟩
  · intro c hbody hc
    rcases hc with hc | ⟨q, rfl, hql, hqs⟩
    · have hcc : ∀ w2 : World, w2.thenOf = w.thenOf →
          hasThenFunction w2 c = Except.ok false :=
        fun w2 h => by
          rw [hasThenFunction_congr h c]
          exact hasThenFunction_of_notThenable w c hc
      constructor
      · intro hs hv
        simp only [finally_]
        rw [then_fulfilled _ _ _ _ hne hs]
        simp [drain, hq, runTimer, callFn, callClosure, finallyBody, hbody, staticResolve,
          hcc, newFulfilled, newPromise, then_, settleResolve, forEachCall_eq,
          World.setTimeout, hne, hne1, hne2, hne3, Function.update_apply,
          PromiseState.fresh, World.newCalled, World.setCalled, resolvePromise_promise,
          resolvePromise_notThenable, hvv hv, hu, discard, Arg.orIdentity, Arg.orThrower,
          Nat.add_assoc, World.fulfilledWith]
      · intro hs
        simp only [finally_]
        rw [then_rejected _ _ _ _ hne hs]
        simp [drain, hq, runTimer, callFn, callClosure, finallyBody, hbody, staticResolve,
          hcc, newFulfilled, newPromise, then_, settleResolve, settleReject,
          forEachCall_eq, World.setTimeout, hne, hne1, hne2, hne3, Function.update_apply,
          PromiseState.fresh, World.newCalled, World.setCalled, resolvePromise_promise,
          resolvePromise_notThenable, hu, discard, Arg.orIdentity, Arg.orThrower,
          Nat.add_assoc, World.rejectedWith]
    · have hq0 : q ≠ w.nextId := Nat.ne_of_lt hql
      have hq1 : q ≠ w.nextId + 1 := by omega
      have hq2 : q ≠ w.nextId + 2 := by omega
      have hq3 : q ≠ w.nextId + 3 := by omega
      constructor
      · intro hs hv
        simp only [finally_]
        rw [then_fulfilled _ _ _ _ hne hs]
        simp [drain, hq, runTimer, callFn, callClosure, finallyBody, hbody, staticResolve,
          hasThenFunction, newPromise, then_, settleResolve, forEachCall_eq,
          World.setTimeout, hne, hne1, hne2, hne3, hq0, hq1, hq2, hq3, hqs,
          Function.update_apply,
          PromiseState.fresh, World.newCalled, World.setCalled, resolvePromise_promise,
          resolvePromise_notThenable, hvv hv, hu, discard, Arg.orIdentity, Arg.orThrower,
          Nat.add_assoc, World.fulfilledWith]
      · intro hs
        simp only [finally_]
        rw [then_rejected _ _ _ _ hne hs]
        simp [drain, hq, runTimer, callFn, callClosure, finallyBody, hbody, staticResolve,
          hasThenFunction, newPromise, then_, settleResolve, settleReject,
          forEachCall_eq, World.setTimeout, hne, hne1, hne2, hne3, hq0, hq1, hq2, hq3, hqs,
          Function.update_apply,
          PromiseState.fresh, World.newCalled, World.setCalled, resolvePromise_promise,
          resolvePromise_notThenable, hu, discard, Arg.orIdentity, Arg.orThrower,
          Nat.add_assoc, World.rejectedWith]
  · intro q hbody hql hqs hq1 hq2
    have hq0 : q ≠ w.nextId := Nat.ne_of_lt hql
    have hqa : q ≠ w.nextId + 1 := by omega
    have hqb : q ≠ w.nextId + 2 := by omega
    have hqc : q ≠ w.nextId + 3 := by omega
    have hpq : p ≠ q := fun h => hs (h ▸ hqs)
    cases hst : (w.heap p).status with
    | PENDING => exact absurd hst hs
    | FULFILLED =>
      simp only [finally_]
      rw [then_fulfilled _ _ _ _ hne hst]
      simp [drain, hq, runTimer, callFn, callClosure, finallyBody, hbody, staticResolve,
        hasThenFunction, newPromise, then_, settleResolve, forEachCall_eq,
        World.setTimeout, hne, hne1, hne2, hne3, hq0, hqa, hqb, hqc, hqs, hq1, hq2, hpq,
        hq0.symm, hqa.symm, hqb.symm, hqc.symm, hpq.symm,
        Function.update_apply, PromiseState.fresh, World.newCalled, World.setCalled,
        resolvePromise_promise, resolvePromise_notThenable, hu, discard, Arg.orIdentity,
        Arg.orThrower, Nat.add_assoc, World.fulfilledWith]
      intro u hv
      simp [drain, runTimer, callFn, callClosure, settleResolve, forEachCall_eq,
        World.setTimeout, hne, hne1, hne2, hne3, hq0, hqa, hqb, hqc, hpq,
        hq0.symm, hqa.symm, hqb.symm, hqc.symm, hpq.symm,
        Function.update_apply, PromiseState.fresh, World.newCalled, World.setCalled,
        resolvePromise_promise, resolvePromise_notThenable, hvv hv, hu, discard,
        Nat.add_assoc, World.fulfilledWith]
    | REJECTED =>
      simp only [finally_]
      rw [then_rejected _ _ _ _ hne hst]
      simp [drain, hq, runTimer, callFn, callClosure, finallyBody, hbody, staticResolve,
        hasThenFunction, newPromise, then_, settleResolve, settleReject, forEachCall_eq,
        World.setTimeout, hne, hne1, hne2, hne3, hq0, hqa, hqb, hqc, hqs, hq1, hq2, hpq,
        hq0.symm, hqa.symm, hqb.symm, hqc.symm, hpq.symm,
        Function.update_apply, PromiseState.fresh, World.newCalled, World.setCalled,
        resolvePromise_promise, resolvePromise_notThenable, hu, discard, Arg.orIdentity,
        Arg.orThrower, Nat.add_assoc, World.rejectedWith]
  · intro e hcase
    cases hst : (w.heap p).status with
    | PENDING => exact absurd hst hs
    | FULFILLED =>
      simp only [finally_]
      rw [then_fulfilled _ _ _ _ hne hst]
      rcases hcase with hbody | ⟨c, hbody, hg⟩ | ⟨q, hbody, hql, hqs, hqr⟩
      · simp [drain, hq, runTimer, callFn, callClosure, finallyBody, hbody, settleReject,
          forEachCall_eq, hne, Function.update_apply, PromiseState.fresh,
          World.rejectedWith]
      · have hcc : ∀ w2 : World, w2.thenOf = w.thenOf →
            hasThenFunction w2 c = Except.error e :=
          fun w2 h => by
            rw [hasThenFunction_congr h c]
            exact hasThenFunction_of_throws w c e hg
        simp [drain, hq, runTimer, callFn, callClosure, finallyBody, hbody, staticResolve,
          hcc, settleReject, forEachCall_eq, hne, Function.update_apply,
          PromiseState.fresh, World.rejectedWith]
      · have hq0 : q ≠ w.nextId := Nat.ne_of_lt hql
        have hqa : q ≠ w.nextId + 1 := by omega
        have hqb : q ≠ w.nextId + 2 := by omega
        have hqc : q ≠ w.nextId + 3 := by omega
        simp [drain, hq, runTimer, callFn, callClosure, finallyBody, hbody, staticResolve,
          hasThenFunction, newPromise, then_, settleResolve, settleReject, forEachCall_eq,
          World.setTimeout, hne, hne1, hne2, hne3, hq0, hqa, hqb, hqc, hqs, hqr,
          Function.update_apply, PromiseState.fresh, World.newCalled, World.setCalled,
          resolvePromise_promise, resolvePromise_notThenable, hu, discard, Arg.orIdentity,
          Arg.orThrower, Nat.add_assoc, World.rejectedWith]
    | REJECTED =>
      simp only [finally_]
      rw [then_rejected _ _ _ _ hne hst]
      rcases hcase with hbody | ⟨c, hbody, hg⟩ | ⟨q, hbody, hql, hqs, hqr⟩
      · simp [drain, hq, runTimer, callFn, callClosure, finallyBody, hbody, settleReject,
          forEachCall_eq, hne, Function.update_apply, PromiseState.fresh,
          World.rejectedWith]
      · have hcc : ∀ w2 : World, w2.thenOf = w.thenOf →
            hasThenFunction w2 c = Except.error e :=
          fun w2 h => by
            rw [hasThenFunction_congr h c]
            exact hasThenFunction_of_throws w c e hg
        simp [drain, hq, runTimer, callFn, callClosure, finallyBody, hbody, staticResolve,
          hcc, settleReject, forEachCall_eq, hne, Function.update_apply,
          PromiseState.fresh, World.rejectedWith]
      · have hq0 : q ≠ w.nextId := Nat.ne_of_lt hql
        have hqa : q ≠ w.nextId + 1 := by omega
        have hqb : q ≠ w.nextId + 2 := by omega
        have hqc : q ≠ w.nextId + 3 := by omega
        simp [drain, hq, runTimer, callFn, callClosure, finallyBody, hbody, staticResolve,
          hasThenFunction, newPromise, then_, settleResolve, settleReject, forEachCall_eq,
          World.setTimeout, hne, hne1, hne2, hne3, hq0, hqa, hqb, hqc, hqs, hqr,
          Function.update_apply, PromiseState.fresh, World.newCalled, World.setCalled,
          resolvePromise_promise, resolvePromise_notThenable, hu, discard, Arg.orIdentity,
          Arg.orThrower, Nat.add_assoc, World.rejectedWith]

/-- The witness of C12 amended: `dfd.promise`, rejected with "bad", and a callback
that returns `undefined`. -/
theorem finally_keeps_outcome_witness :
    0 < exampleRejected.nextId ∧ exampleRejected.timers = [] ∧
    (exampleRejected.heap 0).status = Status.REJECTED ∧
    ∃ w1, drain 5 (finally_ 0 7 (fun _ => Completion.normal Val.undefined)
        exampleRejected).2 = some w1 ∧
      w1.rejectedWith exampleRejected.nextId (exampleRejected.heap 0).reason ∧
      w1.log = exampleRejected.log ++ [(7, Val.undefined)] :=
  ⟨by decide, rfl, by decide,
    ((finally_keeps_outcome exampleRejected 7 (fun _ => Completion.normal Val.undefined)
      0 0 (by decide) rfl (by decide)).2.1 Val.undefined rfl (Or.inl rfl)).2 (by decide)⟩

/-! ## C9: a rejection passes through links without a failure handler -/

theorem linked_congr (w w1 : World) :
    ∀ (rest : List Nat) (head : Nat), (∀ k ∈ head :: rest, w1.heap k = w.heap k) →
      Linked w head rest → Linked w1 head rest := by
  intro rest
  induction rest with
  | nil =>
    intro head hk h
    simp only [Linked] at h ⊢
    rw [hk head (List.mem_cons_self _ _)]
    exact h
  | cons q qs ih =>
    intro head hk h
    simp only [Linked] at h ⊢
    rw [hk head (List.mem_cons_self _ _)]
    exact ⟨h.1, h.2.1, ih q (fun k hmem => hk k (List.mem_cons_of_mem _ hmem)) h.2.2⟩

/-- Draining a queue that holds the job rejecting the head of a linked chain rejects
the whole chain with the same reason and calls no user function. -/
theorem drain_linked (r : Val) (fuel : Nat) :
    ∀ (rest : List Nat) (head src : Nat) (w : World),
      w.timers = [Timer.rejectedJob src Fn.thrower head] → (w.heap src).reason = r →
      (head :: rest).Nodup → Linked w head rest →
      ∃ w1, drain (fuel + rest.length + 1) w = some w1 ∧
        w1.rejectedWith ((head :: rest).getLast (List.cons_ne_nil _ _)) r ∧
        w1.log = w.log := by
  intro rest
  induction rest with
  | nil =>
    intro head src w ht hr _ hl
    simp only [Linked] at hl
    refine ⟨settleReject head r { w with timers := [] }, ?_, ?_, ?_⟩
    · simp only [List.length_nil, Nat.add_zero, drain, ht, runTimer, callFn, hr]
      have : (settleReject head r { w with timers := [] }).timers = [] := by
        rw [settleReject_pending head r { w with timers := [] } hl.1]
        simp [hl.2]
      cases fuel <;> simp [drain, this]
    · exact fresh_settleReject _ _ _ hl.1
    · rw [settleReject_log]
  | cons q qs ih =>
    intro head src w ht hr hnd hl
    simp only [Linked] at hl
    obtain ⟨hst, hcb, hrest⟩ := hl
    have hnd2 : (q :: qs).Nodup := (List.nodup_cons.mp hnd).2
    have hnot : head ∉ q :: qs := (List.nodup_cons.mp hnd).1
    have hw : settleReject head r { w with timers := [] } =
        { w with heap := Function.update w.heap head
                   { w.heap head with status := Status.REJECTED, reason := r },
                 timers := [Timer.rejectedJob head Fn.thrower q] } := by
      rw [settleReject_pending head r { w with timers := [] } hst]
      simp [hcb]
    obtain ⟨w1, h1, h2, h3⟩ := ih q head (settleReject head r { w with timers := [] })
      (by rw [hw]) (by rw [hw]; simp) hnd2
      (linked_congr w _ qs q (fun k hk => by
        rw [hw]
        have hkh : k ≠ head := fun h => hnot (h ▸ hk)
        simp [Function.update_noteq hkh]) hrest)
    refine ⟨w1, ?_, ?_, ?_⟩
    · have hf : fuel + (q :: qs).length + 1 = (fuel + qs.length + 1) + 1 := by
        simp only [List.length_cons]; omega
      rw [hf]
      simp only [drain, ht, runTimer, callFn, hr]
      exact h1
    · simpa using h2
    · rw [h3, settleReject_log]

/-- Building a chain on a pending promise without failure callbacks links it to the
new promises, which are numbered from `w.nextId` on, and touches nothing else. -/
theorem thenChain_linked :
    ∀ (links : List Arg) (head : Nat) (w : World), head < w.nextId →
      (w.heap head).status = Status.PENDING → (w.heap head).onRejectedCallbacks = [] →
      Linked (thenChain links head w).2 head (List.range' w.nextId links.length) ∧
      (thenChain links head w).1 =
        (head :: List.range' w.nextId links.length).getLast (List.cons_ne_nil _ _) ∧
      (thenChain links head w).2.timers = w.timers ∧
      (thenChain links head w).2.log = w.log ∧
      (∀ k, k < w.nextId → k ≠ head → (thenChain links head w).2.heap k = w.heap k) := by
  intro links
  induction links with
  | nil =>
    intro head w _ hst hcb
    exact ⟨⟨hst, hcb⟩, rfl, rfl, rfl, fun _ _ _ => rfl⟩
  | cons a rest ih =>
    intro head w hlt hst hcb
    have hne : head ≠ w.nextId := Nat.ne_of_lt hlt
    have hw := then_pending head a (Arg.value Val.undefined) w hne hst
    have hfst := then_fst head a (Arg.value Val.undefined) w
    obtain ⟨i1, i2, i3, i4, i5⟩ := ih w.nextId (then_ head a (Arg.value Val.undefined) w).2
      (by rw [then_nextId]; omega)
      (by rw [hw]; simp [Function.update_noteq (Ne.symm hne), PromiseState.fresh])
      (by rw [hw]; simp [Function.update_noteq (Ne.symm hne), PromiseState.fresh])
    have hn1 : (then_ head a (Arg.value Val.undefined) w).2.nextId = w.nextId + 1 :=
      then_nextId _ _ _ _
    simp only [thenChain, hfst, List.length_cons, List.range'_succ]
    rw [hn1] at i1 i2 i5
    have hhead : (thenChain rest w.nextId (then_ head a (Arg.value Val.undefined) w).2).2.heap
        head = (then_ head a (Arg.value Val.undefined) w).2.heap head :=
      i5 head (by omega) hne
    have hrec : ((then_ head a (Arg.value Val.undefined) w).2.heap head).status
          = Status.PENDING ∧
        ((then_ head a (Arg.value Val.undefined) w).2.heap head).onRejectedCallbacks
          = [Timer.rejectedJob head Fn.thrower w.nextId] := by
      rw [hw]
      simp [hcb, hst, Arg.orThrower]
    refine ⟨?_, ?_, ?_, ?_, ?_⟩
    · simp only [Linked]
      rw [hhead]
      exact ⟨hrec.1, hrec.2, i1⟩
    · rw [i2]
      simp
    · rw [i3, hw]
    · rw [i4, then_log]
    · intro k hk hkh
      rw [i5 k (by omega) (by omega)]
      exact then_heap_other _ _ _ _ _ hkh (by omega)

theorem getLast_range' (a n : Nat) :
    (a :: List.range' (a + 1) n).getLast (List.cons_ne_nil _ _) = a + n := by
  induction n generalizing a with
  | zero => rfl
  | succ n ih =>
    simp only [List.range'_succ, List.getLast_cons_cons]
    rw [ih (a + 1)]
    omega

/-- C9: let `p` be rejected with reason `r`, which may be any value.  (1) For
`next = p.then(onFulfilled, u)` with `u` not a function, the one job scheduled, when
it runs, rejects `next` with `r` itself and invokes no user function, `onFulfilled`
included.  (2) A chain `p.then(a1).then(a2)...` of `k + 1` such links built while the
queue is empty returns the promise made by the last `then`, the new promise number
`k` counted from `w.nextId`; draining the queue leaves that promise rejected with `r`,
the trace of invocations being unchanged. -/
theorem rejection_passes_through (w : World) (p : Nat) (fuel : Nat) (hp : p < w.nextId)
    (hs : (w.heap p).status = Status.REJECTED) :
    (∀ (onFulfilled : Arg) (u : Val) (queue : List Timer),
      (then_ p onFulfilled (Arg.value u) w).1 = w.nextId ∧
      (then_ p onFulfilled (Arg.value u) w).2.timers =
        w.timers ++ [Timer.rejectedJob p Fn.thrower w.nextId] ∧
      ∃ w1, runTimer fuel (Timer.rejectedJob p Fn.thrower w.nextId)
          { (then_ p onFulfilled (Arg.value u) w).2 with timers := queue } = some w1 ∧
        w1.rejectedWith w.nextId (w.heap p).reason ∧ w1.log = w.log) ∧
    (∀ (a : Arg) (links : List Arg), w.timers = [] →
      (thenChain (a :: links) p w).1 = w.nextId + links.length ∧
      ∃ w1, drain (fuel + links.length + 1) (thenChain (a :: links) p w).2 = some w1 ∧
        w1.rejectedWith (w.nextId + links.length) (w.heap p).reason ∧
        w1.log = w.log) := by
  have hne : p ≠ w.nextId := Nat.ne_of_lt hp
  constructor
  · intro onFulfilled u queue
    rw [then_rejected _ _ _ _ hne hs]
    refine ⟨rfl, rfl, _, ?_, fresh_settleReject w.nextId (w.heap p).reason
      { w with heap := Function.update w.heap w.nextId PromiseState.fresh,
               nextId := w.nextId + 1, timers := queue,
               log := w.log } (by simp [PromiseState.fresh]), ?_⟩
    · simp [runTimer, callFn, Arg.orThrower, Function.update_noteq hne]
    · rw [settleReject_log]
  · intro a links ht
    have hw := then_rejected p a (Arg.value Val.undefined) w hne hs
    have hn1 : (then_ p a (Arg.value Val.undefined) w).2.nextId = w.nextId + 1 :=
      then_nextId _ _ _ _
    obtain ⟨i1, i2, i3, i4, i5⟩ := thenChain_linked links w.nextId
      (then_ p a (Arg.value Val.undefined) w).2 (by rw [hn1]; omega)
      (by rw [hw]; simp [PromiseState.fresh]) (by rw [hw]; simp [PromiseState.fresh])
    rw [hn1] at i1 i2 i5
    have hnd : (w.nextId :: List.range' (w.nextId + 1) links.length).Nodup := by
      have := List.nodup_range' (w.nextId) (links.length + 1) 1
      simpa [List.range'_succ] using this
    obtain ⟨w1, h1, h2, h3⟩ := drain_linked (w.heap p).reason fuel
      (List.range' (w.nextId + 1) links.length) w.nextId p
      (thenChain links w.nextId (then_ p a (Arg.value Val.undefined) w).2).2
      (by rw [i3, hw]; simp [ht, Arg.orThrower])
      (by rw [i5 p (by omega) hne, hw]; simp [Function.update_noteq hne])
      hnd i1
    rw [getLast_range'] at i2 h2
    refine ⟨?_, w1, ?_, h2, ?_⟩
    · simp only [thenChain, then_fst]
      exact i2
    · simpa [thenChain, then_fst] using h1
    · rw [h3, i4, then_log]

/-- The witness of C9: `dfd.promise`, rejected with "bad", then
`.then(h).then(h).then(h)`: the chain ends at promise 3, which is rejected with "bad"
once the queue is drained, and `h` was never called. -/
theorem rejection_passes_through_witness :
    0 < exampleRejected.nextId ∧
    (exampleRejected.heap 0).status = Status.REJECTED ∧
    exampleRejected.timers = [] ∧
    (thenChain [Arg.fn (Fn.user 7 (fun _ => Completion.normal (Val.num 0))),
      Arg.fn (Fn.user 7 (fun _ => Completion.normal (Val.num 0))),
      Arg.fn (Fn.user 7 (fun _ => Completion.normal (Val.num 0)))] 0
      exampleRejected).1 = 3 ∧
    ∃ w1, drain 3
        (thenChain [Arg.fn (Fn.user 7 (fun _ => Completion.normal (Val.num 0))),
          Arg.fn (Fn.user 7 (fun _ => Completion.normal (Val.num 0))),
          Arg.fn (Fn.user 7 (fun _ => Completion.normal (Val.num 0)))] 0
          exampleRejected).2 = some w1 ∧
      w1.rejectedWith 3 (exampleRejected.heap 0).reason ∧
      w1.log = exampleRejected.log :=
  ⟨by decide, by decide, rfl,
    (rejection_passes_through exampleRejected 0 0 (by decide) (by decide)).2
      (Arg.fn (Fn.user 7 (fun _ => Completion.normal (Val.num 0))))
      [Arg.fn (Fn.user 7 (fun _ => Completion.normal (Val.num 0))),
        Arg.fn (Fn.user 7 (fun _ => Completion.normal (Val.num 0)))] rfl⟩

/-! ## C8: handlers run once, in registration order -/

theorem quietStep_of_same (F : Nat) (w w1 : World) (hh : w1.heap = w.heap)
    (hn : w1.nextId = w.nextId) (hl : w1.log = w.log) (ht : w1.timers = w.timers) :
    QuietStep F w w1 := by
  intro hs
  refine ⟨?_, hl, by rw [hh], [], by simp [ht], by simp⟩
  simpa [Settled, hh, hn] using hs

theorem quietStep_settleResolve (F p : Nat) (v : Val) (w : World) :
    QuietStep F w (settleResolve p v w) := by
  intro hs
  by_cases hp : (w.heap p).status = Status.PENDING
  · have hpF : p ≠ F := fun h => hs.1 (h ▸ hp)
    rw [settleResolve_pending _ _ _ hp]
    refine ⟨⟨?_, hs.2.1, ?_⟩, rfl, ?_, (w.heap p).onResolveCallbacks, rfl, (hs.2.2 p hpF).1⟩
    · simpa [Function.update_noteq (Ne.symm hpF)] using hs.1
    · intro q hq
      by_cases hqp : q = p
      · subst hqp
        simpa using hs.2.2 q hq
      · simpa [Function.update_noteq hqp] using hs.2.2 q hq
    · simp [Function.update_noteq (Ne.symm hpF)]
  · rw [settleResolve_settled _ _ _ hp]
    exact ⟨hs, rfl, rfl, [], by simp, by simp⟩

theorem quietStep_settleReject (F p : Nat) (v : Val) (w : World) :
    QuietStep F w (settleReject p v w) := by
  intro hs
  by_cases hp : (w.heap p).status = Status.PENDING
  · have hpF : p ≠ F := fun h => hs.1 (h ▸ hp)
    rw [settleReject_pending _ _ _ hp]
    refine ⟨⟨?_, hs.2.1, ?_⟩, rfl, ?_, (w.heap p).onRejectedCallbacks, rfl, (hs.2.2 p hpF).2⟩
    · simpa [Function.update_noteq (Ne.symm hpF)] using hs.1
    · intro q hq
      by_cases hqp : q = p
      · subst hqp
        simpa using hs.2.2 q hq
      · simpa [Function.update_noteq hqp] using hs.2.2 q hq
    · simp [Function.update_noteq (Ne.symm hpF)]
  · rw [settleReject_settled _ _ _ hp]
    exact ⟨hs, rfl, rfl, [], by simp, by simp⟩

theorem quietStep_then (F q : Nat) (f g : Fn) (hf : LibFn f) (hg : LibFn g) (w : World) :
    QuietStep F w (then_ q (Arg.fn f) (Arg.fn g) w).2 := by
  intro hs
  have hFn : F ≠ w.nextId := Nat.ne_of_lt hs.2.1
  by_cases hq : q = w.nextId
  · -- `then` called on the reference the new promise is about to get
    subst hq
    have e : (then_ w.nextId (Arg.fn f) (Arg.fn g) w).2 =
        { w with heap := Function.update w.heap w.nextId
                   (PromiseState.pendingWith [Timer.fulfilledJob w.nextId f w.nextId]
                     [Timer.rejectedJob w.nextId g w.nextId]),
                 nextId := w.nextId + 1 } := by
      simp [then_, newPromise, World.setTimeout, PromiseState.fresh,
        PromiseState.pendingWith, Arg.orIdentity, Arg.orThrower]
    rw [e]
    refine ⟨⟨?_, Nat.lt_succ_of_lt hs.2.1, ?_⟩, rfl, by simp [Function.update_noteq hFn],
      [], by simp, by simp⟩
    · simpa [Function.update_noteq hFn] using hs.1
    · intro p hp
      by_cases hpn : p = w.nextId
      · subst hpn
        simp [PromiseState.pendingWith, Timer.handler, hf, hg]
      · simpa [Function.update_noteq hpn] using hs.2.2 p hp
  · cases hst : (w.heap q).status with
    | PENDING =>
      have hqF : q ≠ F := fun h => hs.1 (h ▸ hst)
      rw [then_pending _ _ _ _ hq hst]
      refine ⟨⟨?_, Nat.lt_succ_of_lt hs.2.1, ?_⟩, rfl, ?_, [], by simp, by simp⟩
      · simpa [Function.update_noteq (Ne.symm hqF), Function.update_noteq hFn] using hs.1
      · intro p hp
        by_cases hpq : p = q
        · subst hpq
          have := hs.2.2 p hp
          simp only [Function.update_same, List.mem_append, List.mem_singleton,
            Arg.orIdentity, Arg.orThrower]
          constructor
          · intro t ht
            rcases ht with ht | rfl
            · exact this.1 t ht
            · exact hf
          · intro t ht
            rcases ht with ht | rfl
            · exact this.2 t ht
            · exact hg
        · by_cases hpn : p = w.nextId
          · subst hpn
            simp [Function.update_noteq hpq, PromiseState.fresh]
          · simpa [Function.update_noteq hpq, Function.update_noteq hpn] using hs.2.2 p hp
      · simp [Function.update_noteq (Ne.symm hqF), Function.update_noteq hFn]
    | FULFILLED =>
      rw [then_fulfilled _ _ _ _ hq hst]
      refine ⟨⟨?_, Nat.lt_succ_of_lt hs.2.1, ?_⟩, rfl, by simp [Function.update_noteq hFn],
        [Timer.fulfilledJob q f w.nextId], rfl, by simp [Timer.handler, hf]⟩
      · simpa [Function.update_noteq hFn] using hs.1
      · intro p hp
        by_cases hpn : p = w.nextId
        · subst hpn
          simp [PromiseState.fresh]
        · simpa [Function.update_noteq hpn] using hs.2.2 p hp
    | REJECTED =>
      rw [then_rejected _ _ _ _ hq hst]
      refine ⟨⟨?_, Nat.lt_succ_of_lt hs.2.1, ?_⟩, rfl, by simp [Function.update_noteq hFn],
        [Timer.rejectedJob q g w.nextId], rfl, by simp [Timer.handler, hg]⟩
      · simpa [Function.update_noteq hFn] using hs.1
      · intro p hp
        by_cases hpn : p = w.nextId
        · subst hpn
          simp [PromiseState.fresh]
        · simpa [Function.update_noteq hpn] using hs.2.2 p hp

theorem quietFrame (F : Nat) : Frame LibFn (QuietStep F) where
  refl := fun w hs => ⟨hs, rfl, rfl, [], by simp, by simp⟩
  trans := fun a b c hab hbc hs => by
    obtain ⟨s1, l1, f1, ts1, t1, m1⟩ := hab hs
    obtain ⟨s2, l2, f2, ts2, t2, m2⟩ := hbc s1
    refine ⟨s2, l2.trans l1, f2.trans f1, ts1 ++ ts2, by rw [t2, t1, List.append_assoc], ?_⟩
    intro t ht
    rcases List.mem_append.mp ht with h | h
    · exact m1 t h
    · exact m2 t h
  user := fun _ _ _ _ h => absurd h (by simp [LibFn])
  resolve := fun p v w => quietStep_settleResolve F p v w
  reject := fun p v w => quietStep_settleReject F p v w
  newCalled := fun w => quietStep_of_same F w _ rfl rfl rfl rfl
  setCalled := fun c w => quietStep_of_same F w _ rfl rfl rfl rfl
  register := fun q f g w hf hg => quietStep_then F q f g hf hg w
  closure := fun _ _ _ h => absurd h (by simp [LibFn])
  adoptFulfilled := fun _ _ _ _ h1 h2 => ⟨h1, h2⟩
  adoptRejected := fun _ _ h => h
  ofAdoptFulfilled := fun _ _ _ _ h => h
  ofAdoptRejected := fun _ _ h => h

theorem settled_of_heap (F : Nat) (w w1 : World) (hh : w1.heap = w.heap)
    (hn : w1.nextId = w.nextId) (hs : Settled F w) : Settled F w1 := by
  simpa [Settled, hh, hn] using hs

theorem runTimer_lib (F fuel : Nat) (t : Timer) (w w1 : World) (ht : LibFn t.handler)
    (h : runTimer fuel t w = some w1) : QuietStep F w w1 := by
  have Q := quietFrame F
  have hcall := callFn_frame Q (resolvePromise fuel)
    (fun p x res rej w r w1 h1 h2 h => resolvePromise_frame Q fuel p x res rej w r w1 h1 h2 h)
  have hrp := resolvePromise_frame Q fuel
  have hres : ∀ p, LibFn (Fn.resolve p) := fun _ => trivial
  have hrej : ∀ p, LibFn (Fn.reject p) := fun _ => trivial
  cases t with
  | fulfilledJob self f p2 =>
    simp only [runTimer] at h
    split at h
    · exact absurd h (by simp)
    · next e w2 hc =>
      simp only [Option.some.injEq] at h
      subst h
      exact Q.trans _ _ _ (hcall _ _ _ _ _ ht hc) (Q.reject _ _ _)
    · next x w2 hc =>
      split at h
      · exact absurd h (by simp)
      · next e w3 hr =>
        simp only [Option.some.injEq] at h
        subst h
        exact Q.trans _ _ _ (hcall _ _ _ _ _ ht hc)
          (Q.trans _ _ _ (hrp _ _ _ _ _ _ _ (hres _) (hrej _) hr) (Q.reject _ _ _))
      · next y w3 hr =>
        simp only [Option.some.injEq] at h
        subst h
        exact Q.trans _ _ _ (hcall _ _ _ _ _ ht hc) (hrp _ _ _ _ _ _ _ (hres _) (hrej _) hr)
  | rejectedJob self f p2 =>
    simp only [runTimer] at h
    split at h
    · exact absurd h (by simp)
    · next e w2 hc =>
      simp only [Option.some.injEq] at h
      subst h
      exact Q.trans _ _ _ (hcall _ _ _ _ _ ht hc) (Q.reject _ _ _)
    · next x w2 hc =>
      split at h
      · exact absurd h (by simp)
      · next e w3 hr =>
        simp only [Option.some.injEq] at h
        subst h
        exact Q.trans _ _ _ (hcall _ _ _ _ _ ht hc)
          (Q.trans _ _ _ (hrp _ _ _ _ _ _ _ (hres _) (hrej _) hr) (Q.reject _ _ _))
      · next y w3 hr =>
        simp only [Option.some.injEq] at h
        subst h
        exact Q.trans _ _ _ (hcall _ _ _ _ _ ht hc) (hrp _ _ _ _ _ _ _ (hres _) (hrej _) hr)

theorem runTimer_user (F fuel : Nat) (t : Timer) (name : Nat) (body : Val → Completion)
    (w w1 : World) (ht : t.handler = Fn.user name body)
    (h : runTimer fuel t w = some w1) :
    QuietStep F { w with log := w.log ++ [(name, t.argument w)] } w1 := by
  have Q := quietFrame F
  have hrp := resolvePromise_frame Q fuel
  have hres : ∀ p, LibFn (Fn.resolve p) := fun _ => trivial
  have hrej : ∀ p, LibFn (Fn.reject p) := fun _ => trivial
  cases t with
  | fulfilledJob self f p2 =>
    simp only [Timer.handler] at ht
    subst ht
    simp only [runTimer, callFn] at h
    split at h
    · exact absurd h (by simp)
    · next e w2 hc =>
      simp only [Option.some.injEq, Prod.mk.injEq] at hc h
      obtain ⟨-, rfl⟩ := hc
      subst h
      exact Q.reject _ _ _
    · next x w2 hc =>
      simp only [Option.some.injEq, Prod.mk.injEq] at hc
      obtain ⟨-, rfl⟩ := hc
      split at h
      · exact absurd h (by simp)
      · next e w3 hr =>
        simp only [Option.some.injEq] at h
        subst h
        exact Q.trans _ _ _ (hrp _ _ _ _ _ _ _ (hres _) (hrej _) hr) (Q.reject _ _ _)
      · next y w3 hr =>
        simp only [Option.some.injEq] at h
        subst h
        exact hrp _ _ _ _ _ _ _ (hres _) (hrej _) hr
  | rejectedJob self f p2 =>
    simp only [Timer.handler] at ht
    subst ht
    simp only [runTimer, callFn] at h
    split at h
    · exact absurd h (by simp)
    · next e w2 hc =>
      simp only [Option.some.injEq, Prod.mk.injEq] at hc h
      obtain ⟨-, rfl⟩ := hc
      subst h
      exact Q.reject _ _ _
    · next x w2 hc =>
      simp only [Option.some.injEq, Prod.mk.injEq] at hc
      obtain ⟨-, rfl⟩ := hc
      split at h
      · exact absurd h (by simp)
      · next e w3 hr =>
        simp only [Option.some.injEq] at h
        subst h
        exact Q.trans _ _ _ (hrp _ _ _ _ _ _ _ (hres _) (hrej _) hr) (Q.reject _ _ _)
      · next y w3 hr =>
        simp only [Option.some.injEq] at h
        subst h
        exact hrp _ _ _ _ _ _ _ (hres _) (hrej _) hr

theorem invocation_lib (w : World) (t : Timer) (h : LibFn t.handler) :
    t.invocation w = [] := by
  unfold Timer.invocation
  split
  · next n b hh => rw [hh] at h; exact absurd h (by simp [LibFn])
  · rfl

theorem runTimer_job (F fuel : Nat) (t : Timer) (w w1 : World) (ht : JobOf F t)
    (hs : Settled F w) (h : runTimer fuel t w = some w1) :
    Settled F w1 ∧ w1.log = w.log ++ t.invocation w ∧ w1.heap F = w.heap F ∧
    ∃ ts, w1.timers = w.timers ++ ts ∧ ∀ t ∈ ts, LibFn t.handler := by
  rcases ht with hl | ⟨-, name, body, hu⟩
  · obtain ⟨a, b, c, d⟩ := runTimer_lib F fuel t w w1 hl h hs
    refine ⟨a, ?_, c, d⟩
    rw [b, invocation_lib w t hl, List.append_nil]
  · obtain ⟨a, b, c, d⟩ := runTimer_user F fuel t name body w w1 hu h
      (settled_of_heap F w _ rfl rfl hs)
    refine ⟨a, ?_, c, d⟩
    rw [b]
    simp [Timer.invocation, hu]

theorem invocations_lib (w : World) (ts : List Timer) (h : ∀ t ∈ ts, LibFn t.handler) :
    invocations w ts = [] := by
  induction ts with
  | nil => rfl
  | cons t ts ih =>
    simp only [invocations]
    rw [invocation_lib w t (h t (List.mem_cons_self _ _)),
      ih (fun t ht => h t (List.mem_cons_of_mem _ ht))]
    rfl

theorem invocations_append (w : World) (ts us : List Timer) :
    invocations w (ts ++ us) = invocations w ts ++ invocations w us := by
  induction ts with
  | nil => rfl
  | cons t ts ih => simp [invocations, ih]

theorem invocation_congr (F : Nat) (w w1 : World) (t : Timer) (ht : JobOf F t)
    (hF : w1.heap F = w.heap F) : t.invocation w1 = t.invocation w := by
  rcases ht with hl | ⟨hsrc, name, body, hu⟩
  · rw [invocation_lib w t hl, invocation_lib w1 t hl]
  · cases t <;> simp only [Timer.source] at hsrc <;> subst hsrc <;>
      simp [Timer.invocation, Timer.argument, hF]

theorem invocations_congr (F : Nat) (w w1 : World) (ts : List Timer)
    (ht : ∀ t ∈ ts, JobOf F t) (hF : w1.heap F = w.heap F) :
    invocations w1 ts = invocations w ts := by
  induction ts with
  | nil => rfl
  | cons t ts ih =>
    simp only [invocations]
    rw [invocation_congr F w w1 t (ht t (List.mem_cons_self _ _)) hF,
      ih (fun t h => ht t (List.mem_cons_of_mem _ h))]

theorem drain_trace (F : Nat) : ∀ fuel w w1, Settled F w → (∀ t ∈ w.timers, JobOf F t) →
    drain fuel w = some w1 → w1.log = w.log ++ invocations w w.timers := by
  intro fuel
  induction fuel with
  | zero =>
    intro w w1 _ _ h
    cases hq : w.timers with
    | nil =>
      simp only [drain, hq, Option.some.injEq] at h
      subst h
      simp [invocations]
    | cons t ts => simp [drain, hq] at h
  | succ fuel ih =>
    intro w w1 hs hj h
    cases hq : w.timers with
    | nil =>
      simp only [drain, hq, Option.some.injEq] at h
      subst h
      simp [invocations]
    | cons t ts =>
      simp only [drain, hq] at h
      cases hr : runTimer fuel t { w with timers := ts } with
      | none => simp [hr] at h
      | some w2 =>
        simp only [hr] at h
        rw [hq] at hj
        obtain ⟨s2, l2, f2, us, t2, m2⟩ := runTimer_job F fuel t { w with timers := ts } w2
          (hj t (List.mem_cons_self _ _)) (settled_of_heap F w _ rfl rfl hs) hr
        have hj2 : ∀ u ∈ w2.timers, JobOf F u := by
          intro u hu
          rw [t2] at hu
          rcases List.mem_append.mp hu with hu | hu
          · exact hj u (List.mem_cons_of_mem _ hu)
          · exact Or.inl (m2 u hu)
        rw [ih w2 w1 s2 hj2 h, l2, t2, invocations_append, invocations_lib w2 us m2,
          List.append_nil, invocations_congr F { w with timers := ts } w2 ts
            (fun u hu => hj u (List.mem_cons_of_mem _ hu)) f2,
          invocations_congr F w { w with timers := ts } ts
            (fun u hu => hj u (List.mem_cons_of_mem _ hu)) rfl,
          invocation_congr F w { w with timers := ts } t (hj t (List.mem_cons_self _ _)) rfl]
        simp only [invocations, List.append_assoc]

theorem applyOps_cons (F : Nat) (op : Op) (rest : List Op) (w : World) :
    applyOps F (op :: rest) w = applyOps F rest (applyOp F op w) := rfl

theorem registeredJobs_facts (F : Nat) (ok : Bool) : ∀ ops base,
    ∀ t ∈ registeredJobs F ok base ops, base ≤ t.target ∧ JobOf F t := by
  intro ops
  induction ops with
  | nil =>
    intro base t h
    simp [registeredJobs] at h
  | cons op rest ih =>
    intro base t h
    cases op with
    | settle s => exact ih base t (by simpa [registeredJobs] using h)
    | register a b =>
      simp only [registeredJobs, List.mem_cons] at h
      rcases h with rfl | h
      · rcases a with _ | ⟨n, body⟩ <;> rcases b with _ | ⟨m, body2⟩ <;> cases ok <;>
          simp [Timer.target, Timer.source, JobOf, userArg, Arg.orIdentity, Arg.orThrower,
            Timer.handler, LibFn]
      · obtain ⟨h1, h2⟩ := ih (base + 1) t h
        exact ⟨by omega, h2⟩

theorem registeredJobs_target (F : Nat) (ok ok1 : Bool) : ∀ ops base,
    (registeredJobs F ok base ops).map Timer.target
      = (registeredJobs F ok1 base ops).map Timer.target := by
  intro ops
  induction ops with
  | nil => intro base; rfl
  | cons op rest ih =>
    intro base
    cases op with
    | settle s => simpa [registeredJobs] using ih base
    | register a b =>
      simp only [registeredJobs, List.map_cons, ih (base + 1)]
      cases ok <;> cases ok1 <;> simp [Timer.target]

theorem opsFrame_register (F : Nat) (a b : Option (Nat × (Val → Completion)))
    (rest : List Op) (w w1 w2 : World) (hF : F < w.nextId)
    (hn : w1.nextId = w.nextId + 1) (hl : w1.log = w.log) (ht : w1.thenOf = w.thenOf)
    (hh : ∀ p, p ≠ F → w1.heap p = if p = w.nextId then PromiseState.fresh else w.heap p)
    (h : OpsFrame F rest w1 w2) : OpsFrame F (Op.register a b :: rest) w w2 := by
  obtain ⟨a1, a2, a3, a4, a5, a6⟩ := h
  have hne : w.nextId ≠ F := Nat.ne_of_gt hF
  have hnew : w2.heap w.nextId = PromiseState.fresh := by
    rw [a4 _ hne (by omega), hh _ hne, if_pos rfl]
  refine ⟨a1.trans hl, a2.trans ht, a3, ?_, ?_, ?_⟩
  · intro p hp hlt
    rw [a4 p hp (by omega), hh p hp, if_neg (by omega)]
  · intro p hp
    by_cases hpn : p = w.nextId
    · right
      rw [hpn, hnew]
    · rcases a5 p hp with e | e
      · left
        rw [e, hh p hp, if_neg hpn]
      · exact Or.inr e
  · intro ok t htm
    simp only [registeredJobs, List.mem_cons] at htm
    rcases htm with rfl | htm
    · cases ok <;> simpa [Timer.target] using hnew
    · rw [hn] at a6
      exact a6 ok t htm

theorem opsFrame_settle (F : Nat) (s : Settle) (rest : List Op) (w w1 w2 : World)
    (hn : w1.nextId = w.nextId) (hl : w1.log = w.log) (ht : w1.thenOf = w.thenOf)
    (hh : ∀ p, p ≠ F → w1.heap p = w.heap p)
    (h : OpsFrame F rest w1 w2) : OpsFrame F (Op.settle s :: rest) w w2 := by
  obtain ⟨a1, a2, a3, a4, a5, a6⟩ := h
  refine ⟨a1.trans hl, a2.trans ht, a3, ?_, ?_, ?_⟩
  · intro p hp hlt
    rw [a4 p hp (by omega), hh p hp]
  · intro p hp
    rcases a5 p hp with e | e
    · left
      rw [e, hh p hp]
    · exact Or.inr e
  · intro ok t htm
    rw [hn] at a6
    exact a6 ok t (by simpa [registeredJobs] using htm)

theorem opsFrame_nil (F : Nat) (w : World) (hF : F < w.nextId) : OpsFrame F [] w w :=
  ⟨rfl, rfl, hF, fun _ _ _ => rfl, fun _ _ => Or.inl rfl,
    fun _ t h => absurd h (by simp [registeredJobs])⟩

theorem applyOps_settled (F : Nat) (ok : Bool) : ∀ ops w, F < w.nextId →
    (w.heap F).status = (if ok then Status.FULFILLED else Status.REJECTED) →
    OpsFrame F ops w (applyOps F ops w) ∧ (applyOps F ops w).heap F = w.heap F ∧
    (applyOps F ops w).timers = w.timers ++ registeredJobs F ok w.nextId ops := by
  intro ops
  induction ops with
  | nil =>
    intro w hF _
    exact ⟨opsFrame_nil F w hF, rfl, by simp [registeredJobs, applyOps]⟩
  | cons op rest ih =>
    intro w hF hst
    have hne : F ≠ w.nextId := Nat.ne_of_lt hF
    have hnp : (w.heap F).status ≠ Status.PENDING := by
      rw [hst]
      cases ok <;> simp
    rw [applyOps_cons]
    cases op with
    | settle s =>
      simp only [applyOp, applySettle_settled F s w hnp]
      obtain ⟨b1, b2, b3⟩ := ih w hF hst
      exact ⟨opsFrame_settle F s rest w w _ rfl rfl rfl (fun _ _ => rfl) b1, b2,
        by simpa [registeredJobs] using b3⟩
    | register a b =>
      have e : applyOp F (Op.register a b) w =
          { w with heap := Function.update w.heap w.nextId PromiseState.fresh,
                   nextId := w.nextId + 1,
                   timers := w.timers ++
                     [if ok then Timer.fulfilledJob F (userArg a).orIdentity w.nextId
                      else Timer.rejectedJob F (userArg b).orThrower w.nextId] } := by
        cases ok
        · simp only [applyOp]
          rw [then_rejected _ _ _ _ hne (by simpa using hst)]
          simp
        · simp only [applyOp]
          rw [then_fulfilled _ _ _ _ hne (by simpa using hst)]
          simp
      rw [e]
      obtain ⟨b1, b2, b3⟩ := ih
        { w with heap := Function.update w.heap w.nextId PromiseState.fresh,
                 nextId := w.nextId + 1,
                 timers := w.timers ++
                   [if ok then Timer.fulfilledJob F (userArg a).orIdentity w.nextId
                    else Timer.rejectedJob F (userArg b).orThrower w.nextId] }
        (show F < w.nextId + 1 by omega)
        (show ((Function.update w.heap w.nextId PromiseState.fresh) F).status = _ by
          rw [Function.update_noteq hne]; exact hst)
      refine ⟨opsFrame_register F a b rest w _ _ hF ?_ ?_ ?_ ?_ b1, ?_, ?_⟩
      · rfl
      · rfl
      · rfl
      · intro p _
        by_cases hp : p = w.nextId
        · subst hp
          simp
        · simp [hp, Function.update_noteq hp]
      · rw [b2]
        simp [Function.update_noteq hne]
      · rw [b3]
        simp [registeredJobs]

theorem applyOps_pending (F : Nat) : ∀ ops w, F < w.nextId →
    (w.heap F).status = Status.PENDING →
    OpsFrame F ops w (applyOps F ops w) ∧
    match firstSettle ops with
    | none => (applyOps F ops w).timers = w.timers
    | some (Settle.resolve v) =>
      ((applyOps F ops w).heap F).status = Status.FULFILLED ∧
      ((applyOps F ops w).heap F).value = v ∧
      (applyOps F ops w).timers = w.timers ++
        ((w.heap F).onResolveCallbacks ++ registeredJobs F true w.nextId ops)
    | some (Settle.reject r) =>
      ((applyOps F ops w).heap F).status = Status.REJECTED ∧
      ((applyOps F ops w).heap F).reason = r ∧
      (applyOps F ops w).timers = w.timers ++
        ((w.heap F).onRejectedCallbacks ++ registeredJobs F false w.nextId ops) := by
  intro ops
  induction ops with
  | nil =>
    intro w hF _
    exact ⟨opsFrame_nil F w hF, by simp [firstSettle, applyOps]⟩
  | cons op rest ih =>
    intro w hF hst
    have hne : F ≠ w.nextId := Nat.ne_of_lt hF
    rw [applyOps_cons]
    cases op with
    | settle s =>
      cases s with
      | resolve v =>
        simp only [applyOp, applySettle, firstSettle]
        rw [settleResolve_pending F v w hst]
        obtain ⟨b1, b2, b3⟩ := applyOps_settled F true rest
          { w with heap := Function.update w.heap F
                     { w.heap F with status := Status.FULFILLED, value := v },
                   timers := w.timers ++ (w.heap F).onResolveCallbacks } hF (by simp)
        refine ⟨opsFrame_settle F _ rest w _ _ ?_ ?_ ?_ ?_ b1, ?_, ?_, ?_⟩
        · rfl
        · rfl
        · rfl
        · intro p hp
          simp [Function.update_noteq hp]
        · rw [b2]; simp
        · rw [b2]; simp
        · rw [b3]; simp [registeredJobs]
      | reject r =>
        simp only [applyOp, applySettle, firstSettle]
        rw [settleReject_pending F r w hst]
        obtain ⟨b1, b2, b3⟩ := applyOps_settled F false rest
          { w with heap := Function.update w.heap F
                     { w.heap F with status := Status.REJECTED, reason := r },
                   timers := w.timers ++ (w.heap F).onRejectedCallbacks } hF (by simp)
        refine ⟨opsFrame_settle F _ rest w _ _ ?_ ?_ ?_ ?_ b1, ?_, ?_, ?_⟩
        · rfl
        · rfl
        · rfl
        · intro p hp
          simp [Function.update_noteq hp]
        · rw [b2]; simp
        · rw [b2]; simp
        · rw [b3]; simp [registeredJobs]
    | register a b =>
      simp only [applyOp, firstSettle]
      rw [then_pending _ _ _ _ hne hst]
      obtain ⟨b1, b2⟩ := ih
        { w with heap := Function.update
                   (Function.update w.heap w.nextId PromiseState.fresh) F
                   { w.heap F with
                     onResolveCallbacks := (w.heap F).onResolveCallbacks ++
                       [Timer.fulfilledJob F (userArg a).orIdentity w.nextId],
                     onRejectedCallbacks := (w.heap F).onRejectedCallbacks ++
                       [Timer.rejectedJob F (userArg b).orThrower w.nextId] },
                 nextId := w.nextId + 1 } (show F < w.nextId + 1 by omega)
        (by simpa using hst)
      refine ⟨opsFrame_register F a b rest w _ _ hF ?_ ?_ ?_ ?_ b1, ?_⟩
      · rfl
      · rfl
      · rfl
      · intro p hp
        by_cases hpn : p = w.nextId
        · subst hpn
          simp [Function.update_noteq hp]
        · simp [hpn, Function.update_noteq hp, Function.update_noteq hpn]
      · cases hfs : firstSettle rest with
        | none =>
          rw [hfs] at b2
          exact b2
        | some s =>
          rw [hfs] at b2
          cases s with
          | resolve v =>
            refine ⟨b2.1, b2.2.1, ?_⟩
            rw [b2.2.2]
            simp [registeredJobs]
          | reject r =>
            refine ⟨b2.1, b2.2.1, ?_⟩
            rw [b2.2.2]
            simp [registeredJobs]

theorem invocations_registered_true (F : Nat) (w : World) : ∀ ops base,
    invocations w (registeredJobs F true base ops)
      = (fulfilNames ops).map (fun name => (name, (w.heap F).value)) := by
  intro ops
  induction ops with
  | nil => intro base; rfl
  | cons op rest ih =>
    intro base
    cases op with
    | settle s => simpa [registeredJobs, fulfilNames] using ih base
    | register a b =>
      rcases a with _ | ⟨n, body⟩ <;>
        simp [registeredJobs, fulfilNames, invocations, ih (base + 1), Timer.invocation,
          Timer.handler, Timer.argument, userArg, Arg.orIdentity]

theorem invocations_registered_false (F : Nat) (w : World) : ∀ ops base,
    invocations w (registeredJobs F false base ops)
      = (rejectNames ops).map (fun name => (name, (w.heap F).reason)) := by
  intro ops
  induction ops with
  | nil => intro base; rfl
  | cons op rest ih =>
    intro base
    cases op with
    | settle s => simpa [registeredJobs, rejectNames] using ih base
    | register a b =>
      rcases b with _ | ⟨n, body⟩ <;>
        simp [registeredJobs, rejectNames, invocations, ih (base + 1), Timer.invocation,
          Timer.handler, Timer.argument, userArg, Arg.orThrower]

theorem plain_congr {w w1 : World} (h : w1.thenOf = w.thenOf) (c : Completion) :
    c.plain w1 ↔ c.plain w := by
  cases c with
  | thrown e => simp [Completion.plain]
  | normal x => simp [Completion.plain, notThenable_congr h x]

theorem runTimer_plain (fuel : Nat) (t : Timer) (w w0 : World) (c : Completion)
    (hcall : callFn (resolvePromise (fuel + 1)) t.handler (t.argument w) w = some (c, w0))
    (hh : w0.heap = w.heap) (ht : w0.timers = w.timers) (hth : w0.thenOf = w.thenOf)
    (hc : c.plain w) (hfresh : w.heap t.target = PromiseState.fresh) :
    ∃ w1, runTimer (fuel + 1) t w = some w1 ∧ w1.timers = w.timers ∧
      w1.thenOf = w.thenOf ∧ ∀ p, p ≠ t.target → w1.heap p = w.heap p := by
  have key : ∀ p2, w.heap p2 = PromiseState.fresh →
      ∃ w1, (match c with
        | Completion.thrown e => some (settleReject p2 e w0)
        | Completion.normal x =>
          match resolvePromise (fuel + 1) p2 x (Fn.resolve p2) (Fn.reject p2) w0 with
          | none => none
          | some (Completion.thrown e, w2) => some (settleReject p2 e w2)
          | some (Completion.normal _, w2) => some w2) = some w1 ∧
        w1.timers = w.timers ∧ w1.thenOf = w.thenOf ∧ ∀ p, p ≠ p2 → w1.heap p = w.heap p := by
    intro p2 hp2
    have hpend : (w0.heap p2).status = Status.PENDING := by
      rw [hh, hp2]
      rfl
    cases c with
    | thrown e =>
      refine ⟨_, rfl, ?_, ?_, ?_⟩
      · rw [settleReject_pending p2 e w0 hpend]
        simp [hh, hp2, PromiseState.fresh, ht]
      · rw [settleReject_pending p2 e w0 hpend]
        exact hth
      · intro p hp
        rw [settleReject_pending p2 e w0 hpend]
        simp [Function.update_noteq hp, hh]
    | normal x =>
      have hx : w0.notThenable x = true := by
        rw [notThenable_congr hth x]
        exact hc
      have hpend1 : (w0.newCalled.heap p2).status = Status.PENDING := hpend
      simp only [resolvePromise_notThenable fuel p2 x w0 hx]
      refine ⟨_, rfl, ?_, ?_, ?_⟩
      · rw [settleResolve_pending p2 x w0.newCalled hpend1]
        simp [World.newCalled, hh, hp2, PromiseState.fresh, ht]
      · rw [settleResolve_pending p2 x w0.newCalled hpend1]
        exact hth
      · intro p hp
        rw [settleResolve_pending p2 x w0.newCalled hpend1]
        simp [Function.update_noteq hp, hh, World.newCalled]
  cases t with
  | fulfilledJob self f p2 =>
    simp only [Timer.handler, Timer.argument, Timer.target] at hcall hfresh ⊢
    obtain ⟨w1, e1, r⟩ := key p2 hfresh
    refine ⟨w1, ?_, r⟩
    simp only [runTimer, hcall]
    cases c <;> exact e1
  | rejectedJob self f p2 =>
    simp only [Timer.handler, Timer.argument, Timer.target] at hcall hfresh ⊢
    obtain ⟨w1, e1, r⟩ := key p2 hfresh
    refine ⟨w1, ?_, r⟩
    simp only [runTimer, hcall]
    cases c <;> exact e1

theorem registered_call (F : Nat) (ok : Bool) (v : Val)
    (a b : Option (Nat × (Val → Completion))) (base : Nat)
    (rp : Nat → Val → Fn → Fn → World → Option (Completion × World)) (w : World)
    (hv : (if ok then (w.heap F).value else (w.heap F).reason) = v)
    (hp : ∀ c, Op.completion ok v (Op.register a b) = some c → c.plain w) :
    ∀ t, t = (if ok then Timer.fulfilledJob F (userArg a).orIdentity base
              else Timer.rejectedJob F (userArg b).orThrower base) →
    t.target = base ∧
    ∃ c w0, callFn rp t.handler (t.argument w) w = some (c, w0) ∧ w0.heap = w.heap ∧
      w0.timers = w.timers ∧ w0.thenOf = w.thenOf ∧ c.plain w := by
  intro t ht
  cases ok with
  | true =>
    simp only [if_true] at hv ht
    subst ht
    refine ⟨rfl, ?_⟩
    rcases a with _ | ⟨n, body⟩
    · exact ⟨Completion.normal v, w, by simp [Timer.handler, Timer.argument, userArg,
        Arg.orIdentity, callFn, hv], rfl, rfl, rfl, hp _ (by simp [Op.completion])⟩
    · exact ⟨body v, { w with log := w.log ++ [(n, v)] }, by simp [Timer.handler, Timer.argument, userArg,
        Arg.orIdentity, callFn, hv], rfl, rfl, rfl, hp _ (by simp [Op.completion])⟩
  | false =>
    simp only [Bool.false_eq_true, if_false] at hv ht
    subst ht
    refine ⟨rfl, ?_⟩
    rcases b with _ | ⟨n, body⟩
    · exact ⟨Completion.thrown v, w, by simp [Timer.handler, Timer.argument, userArg,
        Arg.orThrower, callFn, hv], rfl, rfl, rfl, hp _ (by simp [Op.completion])⟩
    · exact ⟨body v, { w with log := w.log ++ [(n, v)] }, by simp [Timer.handler, Timer.argument, userArg,
        Arg.orThrower, callFn, hv], rfl, rfl, rfl, hp _ (by simp [Op.completion])⟩

theorem drain_registered (F : Nat) (ok : Bool) (v : Val) : ∀ ops base w fuel, F < base →
    (if ok then (w.heap F).value else (w.heap F).reason) = v →
    w.timers = registeredJobs F ok base ops →
    (∀ t ∈ registeredJobs F ok base ops, w.heap t.target = PromiseState.fresh) →
    (∀ op ∈ ops, ∀ c, Op.completion ok v op = some c → c.plain w) →
    ∃ w1, drain (ops.length + fuel + 1) w = some w1 := by
  intro ops
  induction ops with
  | nil =>
    intro base w fuel _ _ ht _ _
    simp only [registeredJobs] at ht
    exact ⟨w, by simp [drain, ht]⟩
  | cons op rest ih =>
    intro base w fuel hF hv ht hfresh hplain
    cases op with
    | settle s =>
      simp only [registeredJobs] at ht hfresh
      have hlen : (Op.settle s :: rest).length + fuel + 1 = rest.length + (fuel + 1) + 1 := by
        simp only [List.length_cons]
        omega
      rw [hlen]
      exact ih base w (fuel + 1) hF hv ht hfresh
        (fun op hop => hplain op (List.mem_cons_of_mem _ hop))
    | register a b =>
      simp only [registeredJobs] at ht hfresh
      have hlen : (Op.register a b :: rest).length + fuel + 1
          = (rest.length + fuel + 1) + 1 := by
        simp only [List.length_cons]
        omega
      rw [hlen]
      obtain ⟨htgt, c, w0, hcall, h1, h2, h3, hc⟩ := registered_call F ok v a b base
        (resolvePromise (rest.length + fuel + 1)) { w with timers := registeredJobs F ok (base + 1) rest }
        hv (hplain _ (List.mem_cons_self _ _)) _ rfl
      obtain ⟨w1, hrun, t1, t2, t3⟩ := runTimer_plain (rest.length + fuel) _
        { w with timers := registeredJobs F ok (base + 1) rest } w0 c hcall h1 h2 h3 hc
        (by rw [htgt]; simpa [htgt] using hfresh _ (List.mem_cons_self _ _))
      rw [htgt] at t3
      have hFb : F ≠ base := Nat.ne_of_lt hF
      obtain ⟨w2, hw2⟩ := ih (base + 1) w1 fuel (by omega)
        (by rw [t3 F hFb]; exact hv) t1
        (fun t htm => by
          have hge := (registeredJobs_facts F ok rest (base + 1) t htm).1
          rw [t3 _ (by omega)]
          exact hfresh t (List.mem_cons_of_mem _ htm))
        (fun op hop c hcomp => (plain_congr (w := w) t2 c).mpr
          (hplain op (List.mem_cons_of_mem _ hop) c hcomp))
      refine ⟨w2, ?_⟩
      simp only [drain, ht]
      rw [hrun]
      exact hw2

/-- C8: let `w` be a world with an empty timer queue in which the callbacks stored on
the promises call library functions only, `F` the promise of `Promise.defer()`, and
`ops` any list of registrations `F.then(onFulfilled, onRejected)` (each handler a user
function or missing) and settlement calls on `F`, in any order.  The timer queue runs
its jobs first in, first out (`drain`).  (1) Whenever the queue has been drained, what
was added to the trace of user invocations is exactly `expectedTrace ops`: when `F`
was fulfilled with `v`, the success handlers in registration order, each once with
`v`, and no failure handler; when `F` was rejected with `r`, the failure handlers in
registration order, each once with `r`, and no success handler; nothing when `F` was
never settled.  (2) When every handler on the settled path throws or returns a value
that is not a thenable, the queue is drained, by any fuel above the number of
operations, and the trace then is the one of (1). -/
theorem handlers_run_in_registration_order (w : World) (ops : List Op) (fuel : Nat)
    (hq : w.timers = [])
    (hlib : ∀ p, (∀ t ∈ (w.heap p).onResolveCallbacks, LibFn t.handler) ∧
      (∀ t ∈ (w.heap p).onRejectedCallbacks, LibFn t.handler)) :
    (defer w).1 = w.nextId ∧
    (∀ w1, drain fuel (applyOps w.nextId ops (defer w).2) = some w1 →
      w1.log = w.log ++ expectedTrace ops) ∧
    (PlainResults w ops → ops.length < fuel →
      ∃ w1, drain fuel (applyOps w.nextId ops (defer w).2) = some w1 ∧
        w1.log = w.log ++ expectedTrace ops) := by
  have hd : (defer w).2 =
      { w with heap := Function.update w.heap w.nextId PromiseState.fresh,
               nextId := w.nextId + 1 } := rfl
  obtain ⟨⟨f1, f2, f3, f4, f5, f6⟩, hm⟩ := applyOps_pending w.nextId ops (defer w).2
    (by rw [hd]; exact Nat.lt_succ_self _) (by rw [hd]; simp [PromiseState.fresh])
  have hlog : (applyOps w.nextId ops (defer w).2).log = w.log := f1
  have hthen : (applyOps w.nextId ops (defer w).2).thenOf = w.thenOf := f2
  have hbase : (defer w).2.nextId = w.nextId + 1 := rfl
  have hothers : ∀ p, p ≠ w.nextId →
      (∀ t ∈ ((applyOps w.nextId ops (defer w).2).heap p).onResolveCallbacks,
        LibFn t.handler) ∧
      (∀ t ∈ ((applyOps w.nextId ops (defer w).2).heap p).onRejectedCallbacks,
        LibFn t.handler) := by
    intro p hp
    rcases f5 p hp with e | e
    · rw [e, hd]
      simpa [Function.update_noteq hp] using hlib p
    · rw [e]
      simp [PromiseState.fresh]
  have hnil : ∀ (k : Nat) (x x1 : World), x.timers = [] → drain k x = some x1 → x1 = x := by
    intro k x x1 hx h
    cases k <;> simp [drain, hx] at h <;> exact h.symm
  have part1 : ∀ k w1, drain k (applyOps w.nextId ops (defer w).2) = some w1 →
      w1.log = w.log ++ expectedTrace ops := by
    intro fuel w1 hdr
    cases hfs : firstSettle ops with
    | none =>
      rw [hfs] at hm
      have ht : (applyOps w.nextId ops (defer w).2).timers = [] := by
        rw [hm, hd]
        exact hq
      rw [hnil _ _ _ ht hdr, hlog]
      simp [expectedTrace, hfs]
    | some s =>
      rw [hfs] at hm
      cases s with
      | resolve v =>
        obtain ⟨m1, m2, m3⟩ := hm
        have ht : (applyOps w.nextId ops (defer w).2).timers
            = registeredJobs w.nextId true (w.nextId + 1) ops := by
          rw [m3, hd]
          simp [hq, PromiseState.fresh]
        have hs : Settled w.nextId (applyOps w.nextId ops (defer w).2) :=
          ⟨by rw [m1]; simp, f3, hothers⟩
        rw [drain_trace w.nextId fuel _ w1 hs
          (by rw [ht]; exact fun t h => (registeredJobs_facts _ _ _ _ t h).2) hdr,
          hlog, ht, invocations_registered_true, m2]
        simp [expectedTrace, hfs]
      | reject r =>
        obtain ⟨m1, m2, m3⟩ := hm
        have ht : (applyOps w.nextId ops (defer w).2).timers
            = registeredJobs w.nextId false (w.nextId + 1) ops := by
          rw [m3, hd]
          simp [hq, PromiseState.fresh]
        have hs : Settled w.nextId (applyOps w.nextId ops (defer w).2) :=
          ⟨by rw [m1]; simp, f3, hothers⟩
        rw [drain_trace w.nextId fuel _ w1 hs
          (by rw [ht]; exact fun t h => (registeredJobs_facts _ _ _ _ t h).2) hdr,
          hlog, ht, invocations_registered_false, m2]
        simp [expectedTrace, hfs]
  have part2 : PlainResults w ops →
      ∃ w1, drain (ops.length + (fuel - ops.length - 1) + 1)
        (applyOps w.nextId ops (defer w).2) = some w1 := by
    intro hplain
    cases hfs : firstSettle ops with
    | none =>
      rw [hfs] at hm
      have ht : (applyOps w.nextId ops (defer w).2).timers = [] := by
        rw [hm, hd]
        exact hq
      exact ⟨applyOps w.nextId ops (defer w).2, by simp [drain, ht]⟩
    | some s =>
      rw [hfs] at hm
      simp only [PlainResults, hfs] at hplain
      cases s with
      | resolve v =>
        obtain ⟨m1, m2, m3⟩ := hm
        have ht : (applyOps w.nextId ops (defer w).2).timers
            = registeredJobs w.nextId true (w.nextId + 1) ops := by
          rw [m3, hd]
          simp [hq, PromiseState.fresh]
        exact drain_registered w.nextId true v ops (w.nextId + 1) _ (fuel - ops.length - 1)
          (Nat.lt_succ_self _) (by simpa using m2) ht (f6 true)
          (fun op hop c hc => (plain_congr hthen c).mpr (hplain op hop c hc))
      | reject r =>
        obtain ⟨m1, m2, m3⟩ := hm
        have ht : (applyOps w.nextId ops (defer w).2).timers
            = registeredJobs w.nextId false (w.nextId + 1) ops := by
          rw [m3, hd]
          simp [hq, PromiseState.fresh]
        exact drain_registered w.nextId false r ops (w.nextId + 1) _ (fuel - ops.length - 1)
          (Nat.lt_succ_self _) (by simpa using m2) ht (f6 false)
          (fun op hop c hc => (plain_congr hthen c).mpr (hplain op hop c hc))

  refine ⟨rfl, part1 fuel, ?_⟩
  intro hplain hlt
  obtain ⟨w1, h1⟩ := part2 hplain
  rw [show ops.length + (fuel - ops.length - 1) + 1 = fuel by omega] at h1
  exact ⟨w1, h1, part1 fuel w1 h1⟩

/-- The witness of C8: on a new promise, a registration, `resolve(5)`, a second
registration, `reject("late")` and a third registration; draining the queue invokes
the success handlers 1 and 3 with 5, in this order, and neither failure handler. -/
theorem handlers_run_in_registration_order_witness :
    ∃ w1, drain 6 (applyOps 0 exampleOps (defer (World.init exampleThenOf)).2) = some w1 ∧
      w1.log = [(1, Val.num 5), (3, Val.num 5)] :=
  (handlers_run_in_registration_order (World.init exampleThenOf) exampleOps 6 rfl
    (by intro p; simp [World.init, PromiseState.fresh])).2.2
    (by
      simp only [PlainResults, exampleOps, firstSettle]
      intro op hop c hc
      simp only [List.mem_cons, List.mem_singleton, List.not_mem_nil, or_false] at hop
      rcases hop with rfl | rfl | rfl | rfl | rfl <;>
        simp [Op.completion] at hc <;> subst hc <;>
        simp [Completion.plain, World.notThenable])
    (by decide)

/-! ## The combinators under any schedule: lists and queues -/

theorem mem_of_index {l : List Nat} {i a : Nat} (h : l[i]? = some a) : a ∈ l := by
  obtain ⟨hi, rfl⟩ := List.getElem?_eq_some.mp h
  exact List.getElem_mem _

theorem index_of_mem {l : List Nat} {a : Nat} (h : a ∈ l) :
    ∃ i : Nat, i < l.length ∧ l[i]? = some a := by
  obtain ⟨i, hi, rfl⟩ := List.getElem_of_mem h
  exact ⟨i, hi, List.getElem?_eq_getElem hi⟩

theorem index_lt {l : List Nat} {i a : Nat} (h : l[i]? = some a) : i < l.length :=
  (List.getElem?_eq_some.mp h).1

theorem interleave_right (ys : List Timer) : Interleave [] ys ys := by
  induction ys with
  | nil => exact Interleave.nil
  | cons t ys ih => exact Interleave.right t ih

theorem interleave_left (xs : List Timer) : Interleave xs [] xs := by
  induction xs with
  | nil => exact Interleave.nil
  | cons t xs ih => exact Interleave.left t ih

theorem interleave_nil {xs ys : List Timer} (h : Interleave xs ys []) : xs = [] ∧ ys = [] := by
  cases h
  exact ⟨rfl, rfl⟩

theorem interleave_cons {xs ys zs : List Timer} {t : Timer} (h : Interleave xs ys (t :: zs)) :
    (∃ xs1, xs = t :: xs1 ∧ Interleave xs1 ys zs) ∨
    (∃ ys1, ys = t :: ys1 ∧ Interleave xs ys1 zs) := by
  cases h with
  | left _ h1 => exact Or.inl ⟨_, rfl, h1⟩
  | right _ h1 => exact Or.inr ⟨_, rfl, h1⟩

theorem interleave_append_left {xs ys zs : List Timer} (h : Interleave xs ys zs)
    (us : List Timer) : Interleave (xs ++ us) ys (zs ++ us) := by
  induction h with
  | nil => exact interleave_left us
  | left t _ ih => exact Interleave.left t ih
  | right t _ ih => exact Interleave.right t ih

theorem interleave_append_right {xs ys zs : List Timer} (h : Interleave xs ys zs)
    (us : List Timer) : Interleave xs (ys ++ us) (zs ++ us) := by
  induction h with
  | nil => exact interleave_right us
  | left t _ ih => exact Interleave.left t ih
  | right t _ ih => exact Interleave.right t ih

theorem interleave_length {xs ys zs : List Timer} (h : Interleave xs ys zs) :
    zs.length = xs.length + ys.length := by
  induction h with
  | nil => rfl
  | left t _ ih => simp [ih]; omega
  | right t _ ih => simp [ih]; omega

theorem mem_seenAt (p : Nat) (s : Settle) (x : Seen) : ∀ (ps : List Nat) (i : Nat),
    x ∈ seenAt p s i ps ↔
      x.input = p ∧ x.outcome = s ∧ i ≤ x.index ∧ ps[x.index - i]? = some p := by
  intro ps
  induction ps with
  | nil =>
    intro i
    simp [seenAt]
  | cons y rest ih =>
    intro i
    obtain ⟨xi, xp, xs⟩ := x
    have hrest : ∀ (z : Nat) (_ : i + 1 ≤ xi), (z :: rest)[xi - i]? = rest[xi - (i + 1)]? := by
      intro z h
      have : xi - i = (xi - (i + 1)) + 1 := by omega
      rw [this, List.getElem?_cons_succ]
    by_cases hy : y = p
    · simp only [seenAt, hy, if_true, List.mem_cons, ih (i + 1), Seen.mk.injEq]
      constructor
      · rintro (⟨rfl, rfl, rfl⟩ | ⟨h1, h2, h3, h4⟩)
        · simp
        · exact ⟨h1, h2, by omega, by rw [hrest _ h3]; exact h4⟩
      · rintro ⟨h1, h2, h3, h4⟩
        by_cases hi : xi = i
        · exact Or.inl ⟨hi, h1, h2⟩
        · have h5 : i + 1 ≤ xi := by omega
          exact Or.inr ⟨h1, h2, h5, by rw [← hrest _ h5]; exact h4⟩
    · simp only [seenAt, hy, if_false, ih (i + 1)]
      constructor
      · rintro ⟨h1, h2, h3, h4⟩
        exact ⟨h1, h2, by omega, by rw [hrest _ h3]; exact h4⟩
      · rintro ⟨h1, h2, h3, h4⟩
        have hi : xi ≠ i := by
          intro hi
          subst hi
          simp at h4
          exact hy h4
        have h5 : i + 1 ≤ xi := by omega
        exact ⟨h1, h2, h5, by rw [← hrest _ h5]; exact h4⟩

theorem mem_seenAtCall (w : World) (x : Seen) : ∀ (ps : List Nat) (i : Nat),
    x ∈ seenAtCall w i ps ↔
      i ≤ x.index ∧ ps[x.index - i]? = some x.input ∧
        w.outcome x.input = some x.outcome := by
  intro ps
  induction ps with
  | nil =>
    intro i
    simp [seenAtCall]
  | cons y rest ih =>
    intro i
    obtain ⟨xi, xp, xs⟩ := x
    have hrest : ∀ (z : Nat) (_ : i + 1 ≤ xi), (z :: rest)[xi - i]? = rest[xi - (i + 1)]? := by
      intro z h
      have : xi - i = (xi - (i + 1)) + 1 := by omega
      rw [this, List.getElem?_cons_succ]
    cases hy : w.outcome y with
    | none =>
      simp only [seenAtCall, hy, ih (i + 1)]
      constructor
      · rintro ⟨h3, h4, h5⟩
        exact ⟨by omega, by rw [hrest _ h3]; exact h4, h5⟩
      · rintro ⟨h3, h4, h5⟩
        have hi : xi ≠ i := by
          intro hi
          subst hi
          simp at h4
          subst h4
          rw [hy] at h5
          exact absurd h5 (by simp)
        have h6 : i + 1 ≤ xi := by omega
        exact ⟨h6, by rw [← hrest _ h6]; exact h4, h5⟩
    | some s =>
      simp only [seenAtCall, hy, List.mem_cons, ih (i + 1), Seen.mk.injEq]
      constructor
      · rintro (⟨rfl, rfl, rfl⟩ | ⟨h3, h4, h5⟩)
        · simp [hy]
        · exact ⟨by omega, by rw [hrest _ h3]; exact h4, h5⟩
      · rintro ⟨h3, h4, h5⟩
        by_cases hi : xi = i
        · subst hi
          simp at h4
          subst h4
          rw [hy] at h5
          exact Or.inl ⟨rfl, rfl, (Option.some.inj h5).symm⟩
        · have h6 : i + 1 ≤ xi := by omega
          exact Or.inr ⟨h6, by rw [← hrest _ h6]; exact h4, h5⟩

theorem seenAt_sorted (p : Nat) (s : Settle) : ∀ (ps : List Nat) (i : Nat),
    ((seenAt p s i ps).map Seen.index).Pairwise (fun a b => a < b) := by
  intro ps
  induction ps with
  | nil =>
    intro i
    simp [seenAt]
  | cons y rest ih =>
    intro i
    by_cases hy : y = p
    · simp only [seenAt, hy, if_true, List.map_cons, List.pairwise_cons]
      refine ⟨?_, ih (i + 1)⟩
      intro j hj
      obtain ⟨x, hx, rfl⟩ := List.mem_map.mp hj
      have := ((mem_seenAt p s x rest (i + 1)).mp hx).2.2.1
      omega
    · simp only [seenAt, hy, if_false]
      exact ih (i + 1)

theorem seenAtCall_sorted (w : World) : ∀ (ps : List Nat) (i : Nat),
    ((seenAtCall w i ps).map Seen.index).Pairwise (fun a b => a < b) := by
  intro ps
  induction ps with
  | nil =>
    intro i
    simp [seenAtCall]
  | cons y rest ih =>
    intro i
    cases hy : w.outcome y with
    | none =>
      simp only [seenAtCall, hy]
      exact ih (i + 1)
    | some s =>
      simp only [seenAtCall, hy, List.map_cons, List.pairwise_cons]
      refine ⟨?_, ih (i + 1)⟩
      intro j hj
      obtain ⟨x, hx, rfl⟩ := List.mem_map.mp hj
      have := ((mem_seenAtCall w x rest (i + 1)).mp hx).1
      omega

theorem nodup_of_sorted (l : List Nat) (h : l.Pairwise (fun a b => a < b)) : l.Nodup :=
  List.Pairwise.imp (fun hab => Nat.ne_of_lt hab) h

theorem seenAt_snoc (p : Nat) (s : Settle) (y : Nat) : ∀ (l : List Nat) (i : Nat),
    seenAt p s i (l ++ [y]) =
      seenAt p s i l ++
        (if y = p then [{ index := i + l.length, input := p, outcome := s }] else []) := by
  intro l
  induction l with
  | nil =>
    intro i
    by_cases hy : y = p <;> simp [seenAt, hy]
  | cons z rest ih =>
    intro i
    have e : i + 1 + rest.length = i + (rest.length + 1) := by omega
    by_cases hz : z = p <;> simp [seenAt, hz, ih (i + 1), e]

theorem seenAtCall_snoc (w : World) (y : Nat) : ∀ (l : List Nat) (i : Nat),
    seenAtCall w i (l ++ [y]) =
      seenAtCall w i l ++
        (match w.outcome y with
          | some s => [{ index := i + l.length, input := y, outcome := s }]
          | none => []) := by
  intro l
  induction l with
  | nil =>
    intro i
    cases hy : w.outcome y <;> simp [seenAtCall, hy]
  | cons z rest ih =>
    intro i
    have e : i + 1 + rest.length = i + (rest.length + 1) := by omega
    cases hz : w.outcome z <;> simp [seenAtCall, hz, ih (i + 1), e]

theorem thenJob_seenAt (P : Pipes) (p : Nat) (v v1 : Val) : ∀ (ps : List Nat) (i : Nat),
    ((seenAt p (Settle.resolve v) i ps).map P.thenJob
      = (seenAt p (Settle.resolve v1) i ps).map P.thenJob) ∧
    ((seenAt p (Settle.reject v) i ps).map P.thenJob
      = (seenAt p (Settle.reject v1) i ps).map P.thenJob) := by
  intro ps
  induction ps with
  | nil =>
    intro i
    simp [seenAt]
  | cons y rest ih =>
    intro i
    by_cases hy : y = p
    · simp only [seenAt, hy, if_true, List.map_cons, (ih (i + 1)).1, (ih (i + 1)).2]
      simp [Pipes.thenJob]
    · simp only [seenAt, hy, if_false]
      exact ih (i + 1)

theorem length_le_of_nodup (l : List Nat) (n : Nat) (hnd : l.Nodup) (hb : ∀ j ∈ l, j < n) :
    l.length ≤ n := by
  have hsub : l.toFinset ⊆ Finset.range n := by
    intro x hx
    exact Finset.mem_range.mpr (hb x (List.mem_toFinset.mp hx))
  have h1 := Finset.card_le_card hsub
  rw [List.toFinset_card_of_nodup hnd, Finset.card_range] at h1
  exact h1

theorem length_eq_of_covers (l : List Nat) (n : Nat) (hnd : l.Nodup) (hb : ∀ j ∈ l, j < n)
    (hc : ∀ j, j < n → j ∈ l) : l.length = n := by
  have hsub : Finset.range n ⊆ l.toFinset := by
    intro x hx
    exact List.mem_toFinset.mpr (hc x (Finset.mem_range.mp hx))
  have h1 := Finset.card_le_card hsub
  rw [List.toFinset_card_of_nodup hnd, Finset.card_range] at h1
  have h2 := length_le_of_nodup l n hnd hb
  omega

theorem runTimer_settleWith (fuel : Nat) (t : Timer) (w w1 : World) (c : Completion)
    (hcall : callFn (resolvePromise (fuel + 1)) t.handler (t.argument w) w = some (c, w1))
    (hc : c.plain w1) :
    runTimer (fuel + 1) t w = some (settleWith t.target c w1) := by
  cases t with
  | fulfilledJob self f p2 =>
    simp only [Timer.handler, Timer.argument, Timer.target] at hcall ⊢
    cases c with
    | thrown e => simp [runTimer, hcall, settleWith]
    | normal x =>
      simp [runTimer, hcall, settleWith, resolvePromise_notThenable fuel p2 x w1 hc]
  | rejectedJob self f p2 =>
    simp only [Timer.handler, Timer.argument, Timer.target] at hcall ⊢
    cases c with
    | thrown e => simp [runTimer, hcall, settleWith]
    | normal x =>
      simp [runTimer, hcall, settleWith, resolvePromise_notThenable fuel p2 x w1 hc]

theorem callFn_toFn (rp : Nat → Val → Fn → Fn → World → Option (Completion × World))
    (f : Reaction) (v : Val) (w : World) :
    callFn rp f.toFn v w = some (callReaction f v w) := by
  cases f <;> simp [Reaction.toFn, callFn, callReaction]

/-! ## The combinators under any schedule: the loop over the inputs -/

theorem outcome_none (w : World) (p : Nat) :
    w.outcome p = none ↔ (w.heap p).status = Status.PENDING := by
  unfold World.outcome
  cases (w.heap p).status <;> simp

theorem outcome_resolve (w : World) (p : Nat) (v : Val) :
    w.outcome p = some (Settle.resolve v) ↔ w.fulfilledWith p v := by
  unfold World.outcome World.fulfilledWith
  cases (w.heap p).status <;> simp

theorem outcome_reject (w : World) (p : Nat) (r : Val) :
    w.outcome p = some (Settle.reject r) ↔ w.rejectedWith p r := by
  unfold World.outcome World.rejectedWith
  cases (w.heap p).status <;> simp

theorem outcome_congr (w w1 : World) (p : Nat) (h : w1.heap p = w.heap p) :
    w1.outcome p = w.outcome p := by
  unfold World.outcome
  rw [h]

theorem thenCatch_world (p : Nat) (f g : Reaction) (w : World) (hp : p < w.nextId) :
    (thenCatch (Val.promise p) f g w).1 = Completion.normal Val.undefined ∧
    (thenCatch (Val.promise p) f g w).2.nextId = w.nextId + 2 ∧
    ((thenCatch (Val.promise p) f g w).2.thenOf = w.thenOf ∧
      (thenCatch (Val.promise p) f g w).2.counts = w.counts ∧
      (thenCatch (Val.promise p) f g w).2.arrays = w.arrays ∧
      (thenCatch (Val.promise p) f g w).2.log = w.log ∧
      (thenCatch (Val.promise p) f g w).2.nextCell = w.nextCell) ∧
    (thenCatch (Val.promise p) f g w).2.heap w.nextId = PromiseState.pendingWith
      [Timer.fulfilledJob w.nextId Fn.identity (w.nextId + 1)]
      [Timer.rejectedJob w.nextId g.toFn (w.nextId + 1)] ∧
    (thenCatch (Val.promise p) f g w).2.heap (w.nextId + 1) = PromiseState.fresh ∧
    (∀ k, k ≠ p → k ≠ w.nextId → k ≠ w.nextId + 1 →
      (thenCatch (Val.promise p) f g w).2.heap k = w.heap k) ∧
    (((thenCatch (Val.promise p) f g w).2.heap p).status = (w.heap p).status ∧
      ((thenCatch (Val.promise p) f g w).2.heap p).value = (w.heap p).value ∧
      ((thenCatch (Val.promise p) f g w).2.heap p).reason = (w.heap p).reason) ∧
    ((w.heap p).status = Status.PENDING →
      (thenCatch (Val.promise p) f g w).2.timers = w.timers ∧
      ((thenCatch (Val.promise p) f g w).2.heap p).onResolveCallbacks =
        (w.heap p).onResolveCallbacks ++ [Timer.fulfilledJob p f.toFn w.nextId] ∧
      ((thenCatch (Val.promise p) f g w).2.heap p).onRejectedCallbacks =
        (w.heap p).onRejectedCallbacks ++ [Timer.rejectedJob p Fn.thrower w.nextId]) ∧
    ((w.heap p).status = Status.FULFILLED →
      (thenCatch (Val.promise p) f g w).2.timers =
        w.timers ++ [Timer.fulfilledJob p f.toFn w.nextId]) ∧
    ((w.heap p).status = Status.REJECTED →
      (thenCatch (Val.promise p) f g w).2.timers =
        w.timers ++ [Timer.rejectedJob p Fn.thrower w.nextId]) := by
  have hne : p ≠ w.nextId := Nat.ne_of_lt hp
  have hne1 : p ≠ w.nextId + 1 := by omega
  have h01 : w.nextId ≠ w.nextId + 1 := by omega
  rw [thenCatch_promise]
  cases hst : (w.heap p).status with
  | PENDING =>
    rw [then_pending p _ _ w hne hst]
    rw [then_pending w.nextId _ _ _ (by simp) (by simp [Function.update_noteq hne.symm,
      PromiseState.fresh])]
    refine ⟨rfl, rfl, ⟨rfl, rfl, rfl, rfl, rfl⟩, ?_, ?_, ?_, ?_, ?_, ?_, ?_⟩
    · simp [Function.update_noteq hne.symm, PromiseState.fresh, PromiseState.pendingWith,
        Arg.orIdentity, Arg.orThrower]
    · simp [Function.update_noteq h01.symm]
    · intro k h1 h2 h3
      simp [Function.update_noteq h1, Function.update_noteq h2, Function.update_noteq h3]
    · simp [Function.update_noteq hne, Function.update_noteq hne1, hst]
    · intro _
      simp [Function.update_noteq hne, Function.update_noteq hne1, Arg.orIdentity,
        Arg.orThrower]
    · intro h
      exact absurd h (by simp)
    · intro h
      exact absurd h (by simp)
  | FULFILLED =>
    rw [then_fulfilled p _ _ w hne hst]
    rw [then_pending w.nextId _ _ _ (by simp) (by simp [PromiseState.fresh])]
    refine ⟨rfl, rfl, ⟨rfl, rfl, rfl, rfl, rfl⟩, ?_, ?_, ?_, ?_, ?_, ?_, ?_⟩
    · simp [PromiseState.fresh, PromiseState.pendingWith, Arg.orIdentity, Arg.orThrower]
    · simp [Function.update_noteq h01.symm]
    · intro k h1 h2 h3
      simp [Function.update_noteq h2, Function.update_noteq h3]
    · simp [Function.update_noteq hne, Function.update_noteq hne1, hst]
    · intro h
      exact absurd h (by simp)
    · intro _
      simp [Arg.orIdentity]
    · intro h
      exact absurd h (by simp)
  | REJECTED =>
    rw [then_rejected p _ _ w hne hst]
    rw [then_pending w.nextId _ _ _ (by simp) (by simp [PromiseState.fresh])]
    refine ⟨rfl, rfl, ⟨rfl, rfl, rfl, rfl, rfl⟩, ?_, ?_, ?_, ?_, ?_, ?_, ?_⟩
    · simp [PromiseState.fresh, PromiseState.pendingWith, Arg.orIdentity, Arg.orThrower]
    · simp [Function.update_noteq h01.symm]
    · intro k h1 h2 h3
      simp [Function.update_noteq h2, Function.update_noteq h3]
    · simp [Function.update_noteq hne, Function.update_noteq hne1, hst]
    · intro h
      exact absurd h (by simp)
    · intro h
      exact absurd h (by simp)
    · intro _
      simp [Arg.orThrower]

theorem registered_start (P : Pipes) (w0 : World) (h : w0.nextId = P.agg + 1) :
    Registered P w0 w0 [] where
  nextId := by simp [h]
  timers := by simp [seenAtCall]
  status := fun _ _ => ⟨rfl, rfl, rfl⟩
  pending := fun _ _ _ => by simp [seenAt]
  made := fun j hj => absurd hj (by simp)
  frame := ⟨rfl, rfl, rfl, rfl, rfl, rfl⟩

theorem registered_step (P : Pipes) (w0 w : World) (pre : List Nat) (p : Nat)
    (hp : p < P.agg) (h : Registered P w0 w pre) :
    (thenCatch (Val.promise p) (P.onFulfilled pre.length) (P.onRejected pre.length) w).1
      = Completion.normal Val.undefined ∧
    Registered P w0
      (thenCatch (Val.promise p) (P.onFulfilled pre.length) (P.onRejected pre.length) w).2
      (pre ++ [p]) := by
  have hN : w.nextId = P.agg + 1 + 2 * pre.length := h.nextId
  have hq : thenOfInput P.agg pre.length = w.nextId := by
    simp [thenOfInput, hN]
  have hr : catchOfInput P.agg pre.length = w.nextId + 1 := by
    simp [catchOfInput, hN]; omega
  obtain ⟨f0, f1, ⟨f2a, f2b, f2c, f2d, f2e⟩, f3, f4, f5, f6, f7, f8, f9⟩ :=
    thenCatch_world p (P.onFulfilled pre.length) (P.onRejected pre.length) w
      (by rw [hN]; omega)
  refine ⟨f0, ?_⟩
  have hs0 := h.status p hp
  constructor
  · rw [f1, hN]
    simp
    omega
  · rw [seenAtCall_snoc]
    cases hst : (w0.heap p).status with
    | PENDING =>
      have ho : w0.outcome p = none := (outcome_none w0 p).mpr hst
      rw [(f7 (by rw [hs0.1]; exact hst)).1, h.timers, ho]
      simp
    | FULFILLED =>
      have ho : w0.outcome p = some (Settle.resolve (w0.heap p).value) := by
        simp [World.outcome, hst]
      rw [f8 (by rw [hs0.1]; exact hst), h.timers, ho]
      simp [Pipes.thenJob, hq]
    | REJECTED =>
      have ho : w0.outcome p = some (Settle.reject (w0.heap p).reason) := by
        simp [World.outcome, hst]
      rw [f9 (by rw [hs0.1]; exact hst), h.timers, ho]
      simp [Pipes.thenJob, hq]
  · intro k hk
    by_cases hkp : k = p
    · subst hkp
      rw [f6.1, f6.2.1, f6.2.2]
      exact h.status k hk
    · rw [f5 k hkp (by omega) (by omega)]
      exact h.status k hk
  · intro k hk hpend
    rw [(seenAt_snoc k _ p pre 0), (seenAt_snoc k _ p pre 0)]
    by_cases hkp : k = p
    · subst hkp
      obtain ⟨-, g1, g2⟩ := f7 (by rw [hs0.1]; exact hpend)
      rw [g1, g2, (h.pending k hk hpend).1, (h.pending k hk hpend).2]
      simp [Pipes.thenJob, hq]
    · rw [f5 k hkp (by omega) (by omega)]
      have hpk : ¬ p = k := fun e => hkp e.symm
      simp only [hpk, if_false, List.append_nil]
      exact h.pending k hk hpend
  · intro j hj
    simp only [List.length_append, List.length_singleton] at hj
    by_cases hjk : j = pre.length
    · subst hjk
      rw [hq, hr]
      exact ⟨f3, f4⟩
    · have hjlt : j < pre.length := by omega
      have e1 : thenOfInput P.agg j < w.nextId := by simp [thenOfInput, hN]; omega
      have e2 : catchOfInput P.agg j < w.nextId := by simp [catchOfInput, hN]; omega
      have e3 : P.agg < thenOfInput P.agg j := by simp [thenOfInput]; omega
      have e4 : P.agg < catchOfInput P.agg j := by simp [catchOfInput]; omega
      rw [f5 _ (by omega) (by omega) (by omega), f5 _ (by omega) (by omega) (by omega)]
      exact h.made j hjlt
  · obtain ⟨a, b, c, d, e, g⟩ := h.frame
    refine ⟨?_, f2b.trans b, f2c.trans c, f2a.trans d, f2d.trans e, f2e.trans g⟩
    rw [f5 _ (by omega) (by omega) (by omega)]
    exact a

theorem register_loop (P : Pipes) (w0 : World) (hb : ∀ p ∈ P.ps, p < P.agg) :
    ∀ (rest pre : List Nat) (w : World), P.ps = pre ++ rest → Registered P w0 w pre →
      ∃ w1, forEachInput (fun i p => thenCatch p (P.onFulfilled i) (P.onRejected i))
          pre.length (rest.map Val.promise) w = (Completion.normal Val.undefined, w1) ∧
        Registered P w0 w1 P.ps := by
  intro rest
  induction rest with
  | nil =>
    intro pre w hps h
    rw [List.append_nil] at hps
    rw [hps]
    exact ⟨w, rfl, h⟩
  | cons p rest ih =>
    intro pre w hps h
    have hp : p < P.agg := hb p (by rw [hps]; simp)
    obtain ⟨s1, s2⟩ := registered_step P w0 w pre p hp h
    obtain ⟨w1, e1, r1⟩ := ih (pre ++ [p]) _ (by rw [hps]; simp) s2
    refine ⟨w1, ?_, r1⟩
    simp only [List.map_cons, forEachInput]
    have hpair : thenCatch (Val.promise p) (P.onFulfilled pre.length)
        (P.onRejected pre.length) w = (Completion.normal Val.undefined,
          (thenCatch (Val.promise p) (P.onFulfilled pre.length)
            (P.onRejected pre.length) w).2) := by
      rw [← s1]
    rw [hpair]
    simp only [List.length_append, List.length_singleton] at e1
    exact e1

theorem plumb_of_registered (P : Pipes) (w0 w : World) (h : Registered P w0 w P.ps)
    (hb : ∀ p ∈ P.ps, p < P.agg) (ht : w0.timers = [])
    (hcb : ∀ p ∈ P.ps, (w0.heap p).status = Status.PENDING →
      (w0.heap p).onResolveCallbacks = [] ∧ (w0.heap p).onRejectedCallbacks = []) :
    Plumb P w [] [] (seenAtCall w0 0 P.ps) ∧ Queued P w [] (seenAtCall w0 0 P.ps) := by
  constructor
  · constructor
    · simpa using nodup_of_sorted _ (seenAtCall_sorted w0 P.ps 0)
    · intro x hx
      simp only [List.nil_append] at hx
      obtain ⟨-, h2, h3⟩ := (mem_seenAtCall w0 x P.ps 0).mp hx
      simp only [Nat.sub_zero] at h2
      have hmem : x.input ∈ P.ps := mem_of_index h2
      have hs := h.status x.input (hb _ hmem)
      refine ⟨h2, ?_⟩
      rw [← h3]
      unfold World.outcome
      rw [hs.1, hs.2.1, hs.2.2]
    · intro i p hip hni
      have hmem : p ∈ P.ps := mem_of_index hip
      have hpend : (w0.heap p).status = Status.PENDING := by
        rw [← outcome_none]
        cases ho : w0.outcome p with
        | none => rfl
        | some s =>
          exfalso
          apply hni
          simp only [List.nil_append, List.mem_map]
          exact ⟨⟨i, p, s⟩, (mem_seenAtCall w0 _ P.ps 0).mpr ⟨Nat.zero_le _, by simpa using hip,
            ho⟩, rfl⟩
      have hs := h.status p (hb _ hmem)
      have hp := h.pending p (hb _ hmem) hpend
      refine ⟨by rw [hs.1]; exact hpend, ?_, ?_⟩
      · rw [hp.1, (hcb p hmem hpend).1]
        rfl
      · rw [hp.2, (hcb p hmem hpend).2]
        rfl
    · exact hb
    · rw [h.nextId]
    · intro i hi _
      exact (h.made i hi).1
    · intro x hx
      simp at hx
    · intro i hi _
      exact (h.made i hi).2
  · unfold Queued
    rw [h.timers, ht]
    simpa using interleave_right _

/-! ## The combinators under any schedule: one settlement, one job -/

theorem nodup_mid (L1 L2 : List Seen) (x : Seen)
    (h : ((L1 ++ x :: L2).map Seen.index).Nodup) :
    x.index ∉ L1.map Seen.index ∧ x.index ∉ L2.map Seen.index := by
  simp only [List.map_append, List.map_cons] at h
  have h1 := List.nodup_middle.mp h
  have h2 := (List.nodup_cons.mp h1).1
  simp only [List.mem_append, not_or] at h2
  exact h2

theorem thenOutcome_resolve (P : Pipes) (s : Settle) (u : Val)
    (h : P.thenOutcome s = Settle.resolve u) : u = Val.undefined := by
  cases s with
  | resolve v =>
    simp only [Pipes.thenOutcome] at h
    cases ht : P.throws v with
    | none =>
      rw [ht] at h
      injection h with h
      exact h.symm
    | some e =>
      rw [ht] at h
      exact absurd h (by simp)
  | reject r => simp [Pipes.thenOutcome] at h

theorem plumb_index_lt (P : Pipes) (w : World) (A B C : List Seen) (h : Plumb P w A B C)
    (x : Seen) (hx : x ∈ A ++ B ++ C) : x.index < P.ps.length :=
  index_lt (h.seen x hx).1

theorem plumb_input_lt (P : Pipes) (w : World) (A B C : List Seen) (h : Plumb P w A B C)
    (x : Seen) (hx : x ∈ A ++ B ++ C) : x.input < P.agg :=
  h.below _ (mem_of_index (h.seen x hx).1)

theorem plumb_congr (P : Pipes) (w w1 : World) (A B C : List Seen) (h : Plumb P w A B C)
    (hh : ∀ k, k ≠ P.agg → k < P.agg + 1 + 2 * P.ps.length → w1.heap k = w.heap k)
    (hn : w.nextId ≤ w1.nextId) : Plumb P w1 A B C where
  nodup := h.nodup
  seen := fun x hx => by
    have hlt := plumb_input_lt P w A B C h x hx
    refine ⟨(h.seen x hx).1, ?_⟩
    rw [outcome_congr w w1 _ (hh _ (by omega) (by omega))]
    exact (h.seen x hx).2
  unseen := fun i p hip hni => by
    have hlt := h.below p (mem_of_index hip)
    rw [hh p (by omega) (by omega)]
    exact h.unseen i p hip hni
  below := h.below
  room := le_trans h.room hn
  thenWaiting := fun i hi hni => by
    rw [hh _ (by simp [thenOfInput]; omega) (by simp [thenOfInput]; omega)]
    exact h.thenWaiting i hi hni
  thenDone := fun x hx => by
    have hlt := plumb_index_lt P w A B C h x (by
      simp only [List.mem_append] at hx ⊢
      exact Or.inl hx)
    rw [outcome_congr w w1 _ (hh _ (by simp [thenOfInput]; omega)
      (by simp [thenOfInput]; omega))]
    exact h.thenDone x hx
  catchWaiting := fun i hi hni => by
    rw [hh _ (by simp [catchOfInput]; omega) (by simp [catchOfInput]; omega)]
    exact h.catchWaiting i hi hni

theorem settleWith_facts (p2 : Nat) (c : Completion) (w : World) (a b : List Timer)
    (h : w.heap p2 = PromiseState.pendingWith a b) :
    (∀ k, k ≠ p2 → (settleWith p2 c w).heap k = w.heap k) ∧
    ((settleWith p2 c w).counts = w.counts ∧ (settleWith p2 c w).arrays = w.arrays ∧
      (settleWith p2 c w).thenOf = w.thenOf ∧ (settleWith p2 c w).nextId = w.nextId ∧
      (settleWith p2 c w).log = w.log) ∧
    (settleWith p2 c w).outcome p2 = some c.settle ∧
    (settleWith p2 c w).timers = w.timers ++
      (match c.settle with
        | Settle.resolve _ => a
        | Settle.reject _ => b) := by
  have hs : (w.heap p2).status = Status.PENDING := by rw [h]; rfl
  cases c with
  | normal x =>
    have hs1 : (w.newCalled.heap p2).status = Status.PENDING := hs
    simp only [settleWith]
    rw [settleResolve_pending p2 x w.newCalled hs1]
    refine ⟨?_, ⟨rfl, rfl, rfl, rfl, rfl⟩, ?_, ?_⟩
    · intro k hk
      simp [Function.update_noteq hk, World.newCalled]
    · simp [World.outcome, Completion.settle]
    · simp [World.newCalled, h, PromiseState.pendingWith, Completion.settle]
  | thrown e =>
    simp only [settleWith]
    rw [settleReject_pending p2 e w hs]
    refine ⟨?_, ⟨rfl, rfl, rfl, rfl, rfl⟩, ?_, ?_⟩
    · intro k hk
      simp [Function.update_noteq hk]
    · simp [World.outcome, Completion.settle]
    · simp [h, PromiseState.pendingWith, Completion.settle]

theorem plumb_then (P : Pipes) (w : World) (A B C : List Seen) (x : Seen) (c : Completion)
    (h : Plumb P w A B (x :: C)) (hc : c.settle = P.thenOutcome x.outcome) :
    Plumb P (settleWith (thenOfInput P.agg x.index) c w) A (B ++ [x]) C ∧
    (settleWith (thenOfInput P.agg x.index) c w).timers = w.timers ++ [P.catchJob x] ∧
    Agree P w (settleWith (thenOfInput P.agg x.index) c w) := by
  have hxm : x ∈ A ++ B ++ x :: C := by simp
  have hi : x.index < P.ps.length := plumb_index_lt P w _ _ _ h x hxm
  have hnd := nodup_mid (A ++ B) C x (by simpa using h.nodup)
  have hq := h.thenWaiting x.index hi hnd.1
  obtain ⟨f1, ⟨f2, f3, f4, f5, f6⟩, f7, f8⟩ := settleWith_facts _ c w _ _ hq
  have e : A ++ (B ++ [x]) ++ C = A ++ B ++ x :: C := by simp
  refine ⟨?_, ?_, ?_⟩
  · constructor
    · rw [e]
      exact h.nodup
    · intro z hz
      rw [e] at hz
      have hlt := plumb_input_lt P w _ _ _ h z hz
      refine ⟨(h.seen z hz).1, ?_⟩
      rw [outcome_congr w _ _ (f1 _ (by simp [thenOfInput]; omega))]
      exact (h.seen z hz).2
    · intro i p hip hni
      rw [e] at hni
      have hlt := h.below p (mem_of_index hip)
      rw [f1 _ (by simp [thenOfInput]; omega)]
      exact h.unseen i p hip hni
    · exact h.below
    · rw [f5]
      exact h.room
    · intro j hj hnj
      have hjx : j ≠ x.index := by
        intro hh
        apply hnj
        simp [hh]
      have hnj2 : j ∉ (A ++ B).map Seen.index := by
        intro hh
        apply hnj
        simp only [List.map_append, List.mem_append] at hh ⊢
        rcases hh with hh | hh
        · exact Or.inl hh
        · exact Or.inr (Or.inl hh)
      rw [f1 _ (by simp [thenOfInput]; omega)]
      exact h.thenWaiting j hj hnj2
    · intro z hz
      have hz2 : z ∈ A ++ B ∨ z = x := by
        simp only [List.mem_append, List.mem_singleton] at hz ⊢
        tauto
      rcases hz2 with hz2 | rfl
      · have hzx : z.index ≠ x.index := by
          intro hh
          apply hnd.1
          rw [← hh]
          exact List.mem_map_of_mem _ hz2
        rw [outcome_congr w _ _ (f1 _ (by simp [thenOfInput]; omega))]
        exact h.thenDone z hz2
      · rw [f7, hc]
    · intro j hj hnj
      rw [f1 _ (by simp [thenOfInput, catchOfInput]; omega)]
      exact h.catchWaiting j hj hnj
  · rw [f8]
    congr 1
    unfold Pipes.catchJob
    rw [← hc]
    cases c.settle <;> rfl
  · refine ⟨f2, f3, f4, f5, ?_⟩
    intro k hk
    apply f1
    simp only [thenOfInput]
    omega

theorem plumb_catch (P : Pipes) (w : World) (A B C : List Seen) (y : Seen) (c : Completion)
    (h : Plumb P w A (y :: B) C) :
    Plumb P (settleWith (catchOfInput P.agg y.index) c w) (A ++ [y]) B C ∧
    (settleWith (catchOfInput P.agg y.index) c w).timers = w.timers ∧
    Agree P w (settleWith (catchOfInput P.agg y.index) c w) := by
  have hym : y ∈ A ++ y :: B ++ C := by simp
  have hi : y.index < P.ps.length := plumb_index_lt P w _ _ _ h y hym
  have hnd := nodup_mid A (B ++ C) y (by simpa using h.nodup)
  have hr := h.catchWaiting y.index hi hnd.1
  obtain ⟨f1, ⟨f2, f3, f4, f5, f6⟩, f7, f8⟩ := settleWith_facts _ c w [] [] hr
  have e : A ++ [y] ++ B ++ C = A ++ y :: B ++ C := by simp
  have e2 : A ++ [y] ++ B = A ++ y :: B := by simp
  refine ⟨?_, ?_, ?_⟩
  · constructor
    · rw [e]
      exact h.nodup
    · intro z hz
      rw [e] at hz
      have hlt := plumb_input_lt P w _ _ _ h z hz
      refine ⟨(h.seen z hz).1, ?_⟩
      rw [outcome_congr w _ _ (f1 _ (by simp [catchOfInput]; omega))]
      exact (h.seen z hz).2
    · intro i p hip hni
      rw [e] at hni
      have hlt := h.below p (mem_of_index hip)
      rw [f1 _ (by simp [catchOfInput]; omega)]
      exact h.unseen i p hip hni
    · exact h.below
    · rw [f5]
      exact h.room
    · intro j hj hnj
      rw [e2] at hnj
      rw [f1 _ (by simp [thenOfInput, catchOfInput]; omega)]
      exact h.thenWaiting j hj hnj
    · intro z hz
      rw [e2] at hz
      rw [outcome_congr w _ _ (f1 _ (by simp [thenOfInput, catchOfInput]; omega))]
      exact h.thenDone z hz
    · intro j hj hnj
      have hjy : j ≠ y.index := by
        intro hh
        apply hnj
        simp [hh]
      have hnj2 : j ∉ A.map Seen.index := by
        intro hh
        apply hnj
        simp only [List.map_append, List.mem_append]
        exact Or.inl hh
      rw [f1 _ (by simp [catchOfInput]; omega)]
      exact h.catchWaiting j hj hnj2
  · rw [f8]
    cases c.settle <;> simp
  · refine ⟨f2, f3, f4, f5, ?_⟩
    intro k hk
    apply f1
    simp only [catchOfInput]
    omega

theorem seen_settled (P : Pipes) (w : World) (A B C : List Seen) (h : Plumb P w A B C)
    (p : Nat) (hp : p ∈ P.ps) :
    (w.heap p).status ≠ Status.PENDING ↔ ∃ x ∈ A ++ B ++ C, x.input = p := by
  constructor
  · intro hs
    obtain ⟨i, -, hi⟩ := index_of_mem hp
    by_contra hno
    apply hs
    refine (h.unseen i p hi ?_).1
    intro hm
    obtain ⟨x, hx, hxi⟩ := List.mem_map.mp hm
    apply hno
    refine ⟨x, hx, ?_⟩
    have := (h.seen x hx).1
    rw [hxi, hi] at this
    exact (Option.some.inj this).symm
  · rintro ⟨x, hx, rfl⟩
    have := (h.seen x hx).2
    intro hs
    rw [(outcome_none w x.input).mpr hs] at this
    exact absurd this (by simp)

theorem plumb_settle (P : Pipes) (w : World) (A B C : List Seen) (i p : Nat) (s : Settle)
    (h : Plumb P w A B C) (hq : Queued P w B C) (hip : P.ps[i]? = some p) :
    ((A ++ B ++ C).any (fun x => decide (x.input = p)) = true → applySettle p s w = w) ∧
    ((A ++ B ++ C).any (fun x => decide (x.input = p)) = false →
      Plumb P (applySettle p s w) A B (C ++ seenAt p s 0 P.ps) ∧
      Queued P (applySettle p s w) B (C ++ seenAt p s 0 P.ps) ∧
      Agree P w (applySettle p s w)) := by
  have hp : p ∈ P.ps := mem_of_index hip
  have hpa : p < P.agg := h.below p hp
  have hset := seen_settled P w A B C h p hp
  constructor
  · intro hany
    have : (w.heap p).status ≠ Status.PENDING := by
      rw [hset]
      obtain ⟨x, hx, hxp⟩ := List.any_eq_true.mp hany
      exact ⟨x, hx, by simpa using hxp⟩
    exact applySettle_settled p s w this
  · intro hany
    have hpend : (w.heap p).status = Status.PENDING := by
      by_contra hc
      obtain ⟨x, hx, hxp⟩ := hset.mp hc
      have : (A ++ B ++ C).any (fun x => decide (x.input = p)) = true :=
        List.any_eq_true.mpr ⟨x, hx, by simpa using hxp⟩
      rw [hany] at this
      exact absurd this (by simp)
    have hni : i ∉ (A ++ B ++ C).map Seen.index := by
      intro hm
      obtain ⟨x, hx, hxi⟩ := List.mem_map.mp hm
      have h1 := (h.seen x hx).1
      rw [hxi, hip] at h1
      have h2 := (h.seen x hx).2
      rw [← Option.some.inj h1, (outcome_none w p).mpr hpend] at h2
      exact absurd h2 (by simp)
    obtain ⟨-, cb1, cb2⟩ := h.unseen i p hip hni
    have hw : (∀ k, k ≠ p → (applySettle p s w).heap k = w.heap k) ∧
        (applySettle p s w).outcome p = some s ∧
        (applySettle p s w).timers = w.timers ++ (seenAt p s 0 P.ps).map P.thenJob ∧
        (applySettle p s w).nextId = w.nextId ∧ (applySettle p s w).counts = w.counts ∧
        (applySettle p s w).arrays = w.arrays ∧ (applySettle p s w).thenOf = w.thenOf := by
      cases s with
      | resolve v =>
        simp only [applySettle]
        rw [settleResolve_pending p v w hpend]
        refine ⟨?_, ?_, ?_, rfl, rfl, rfl, rfl⟩
        · intro k hk
          simp [Function.update_noteq hk]
        · simp [World.outcome]
        · simp only [cb1]
          rw [(thenJob_seenAt P p Val.undefined v P.ps 0).1]
      | reject r =>
        simp only [applySettle]
        rw [settleReject_pending p r w hpend]
        refine ⟨?_, ?_, ?_, rfl, rfl, rfl, rfl⟩
        · intro k hk
          simp [Function.update_noteq hk]
        · simp [World.outcome]
        · simp only [cb2]
          rw [(thenJob_seenAt P p Val.undefined r P.ps 0).2]
    obtain ⟨g1, g2, g3, g4, g5, g6, g7⟩ := hw
    have hnew : ∀ x ∈ seenAt p s 0 P.ps,
        x.input = p ∧ x.outcome = s ∧ P.ps[x.index]? = some p := by
      intro x hx
      obtain ⟨a, b, -, d⟩ := (mem_seenAt p s x P.ps 0).mp hx
      exact ⟨a, b, by simpa using d⟩
    have hold : ∀ x ∈ A ++ B ++ C, x.input ≠ p := by
      intro x hx hxp
      have := hset.mpr ⟨x, hx, hxp⟩
      exact this hpend
    have e : A ++ B ++ (C ++ seenAt p s 0 P.ps) = (A ++ B ++ C) ++ seenAt p s 0 P.ps := by
      simp
    refine ⟨?_, ?_, ?_⟩
    · constructor
      · rw [e, List.map_append]
        refine List.Nodup.append h.nodup (nodup_of_sorted _ (seenAt_sorted p s P.ps 0)) ?_
        intro j hj1 hj2
        obtain ⟨x, hx, rfl⟩ := List.mem_map.mp hj1
        obtain ⟨z, hz, hzi⟩ := List.mem_map.mp hj2
        have h1 := (h.seen x hx).1
        have h2 := (hnew z hz).2.2
        rw [hzi, h1] at h2
        exact hold x hx (Option.some.inj h2)
      · intro x hx
        rw [e] at hx
        rcases List.mem_append.mp hx with hx | hx
        · refine ⟨(h.seen x hx).1, ?_⟩
          rw [outcome_congr w _ _ (g1 _ (hold x hx))]
          exact (h.seen x hx).2
        · obtain ⟨a, b, c⟩ := hnew x hx
          rw [a, b]
          exact ⟨c, g2⟩
      · intro j p1 hjp hnj
        rw [e, List.map_append, List.mem_append, not_or] at hnj
        have hne : p1 ≠ p := by
          intro hh
          subst hh
          apply hnj.2
          exact List.mem_map.mpr ⟨⟨j, p1, s⟩,
            (mem_seenAt p1 s _ P.ps 0).mpr ⟨rfl, rfl, Nat.zero_le _, by simpa using hjp⟩, rfl⟩
        rw [g1 _ hne]
        exact h.unseen j p1 hjp hnj.1
      · exact h.below
      · rw [g4]
        exact h.room
      · intro j hj hnj
        rw [g1 _ (by simp [thenOfInput]; omega)]
        exact h.thenWaiting j hj hnj
      · intro x hx
        rw [outcome_congr w _ _ (g1 _ (by simp [thenOfInput]; omega))]
        exact h.thenDone x hx
      · intro j hj hnj
        rw [g1 _ (by simp [catchOfInput]; omega)]
        exact h.catchWaiting j hj hnj
    · unfold Queued at hq ⊢
      rw [g3, List.map_append]
      exact interleave_append_right hq _
    · refine ⟨g5, g6, g7, g4, ?_⟩
      intro k hk
      apply g1
      omega

/-! ## The combinators under any schedule: runs -/

theorem tick_step (P : Pipes) (S : World → List Seen → List Seen → Prop) (hS : Steps P S)
    (fuel : Nat) (w : World) (A B C : List Seen) (h : Plumb P w A B C)
    (hq : Queued P w B C) (hs : S w A B) (t : Timer) (rest : List Timer)
    (ht : w.timers = t :: rest) :
    ∃ w1 A1 B1 C1, runTimer (fuel + 1) t { w with timers := rest } = some w1 ∧
      Plumb P w1 A1 B1 C1 ∧ Queued P w1 B1 C1 ∧ S w1 A1 B1 ∧
      A1 ++ B1 ++ C1 = A ++ B ++ C ∧
      2 * C1.length + B1.length + 1 = 2 * C.length + B.length := by
  unfold Queued at hq
  rw [ht] at hq
  have hag : Agree P w { w with timers := rest } := ⟨rfl, rfl, rfl, rfl, fun _ _ => rfl⟩
  have hpl1 : Plumb P { w with timers := rest } A B C :=
    plumb_congr P w _ A B C h (fun _ _ _ => rfl) (Nat.le_refl _)
  have hs1 := hS.congr w _ A B hag hs
  have hroom := h.room
  rcases interleave_cons hq with ⟨xs1, hxs, hint⟩ | ⟨ys1, hys, hint⟩
  · -- the job of `catch` of the first input of `B`
    cases B with
    | nil => simp at hxs
    | cons y B1 =>
      simp only [List.map_cons, List.cons.injEq] at hxs
      obtain ⟨hy, hB⟩ := hxs
      subst hB
      have hym : y ∈ A ++ y :: B1 := by simp
      have hi : y.index < P.ps.length := plumb_index_lt P w _ _ _ h y (by simp)
      have hdone := h.thenDone y hym
      have e : A ++ [y] ++ B1 ++ C = A ++ y :: B1 ++ C := by simp
      cases ho : P.thenOutcome y.outcome with
      | resolve u =>
        have hu := thenOutcome_resolve P _ u ho
        have htj : t = Timer.fulfilledJob (thenOfInput P.agg y.index) Fn.identity
            (catchOfInput P.agg y.index) := by
          rw [← hy]
          simp [Pipes.catchJob, ho]
        rw [ho] at hdone
        have hval := ((outcome_resolve w _ u).mp hdone).2
        have hcall : callFn (resolvePromise (fuel + 1)) t.handler
            (t.argument { w with timers := rest }) { w with timers := rest }
            = some (Completion.normal u, { w with timers := rest }) := by
          rw [htj]
          simp [Timer.handler, Timer.argument, callFn, hval]
        have hrun := runTimer_settleWith fuel t _ _ _ hcall (by rw [hu]; rfl)
        have htt : t.target = catchOfInput P.agg y.index := by rw [htj]; rfl
        rw [htt] at hrun
        obtain ⟨p1, p2, p3⟩ := plumb_catch P _ A B1 C y (Completion.normal u) hpl1
        refine ⟨_, A ++ [y], B1, C, hrun, p1, ?_, ?_, e, ?_⟩
        · unfold Queued
          rw [p2]
          exact hint
        · exact hS.congr _ _ _ _ p3 (hS.catchFulfilled _ A B1 C y u hpl1 hs1 ho)
        · simp only [List.length_cons, List.length_append, List.length_singleton,
            List.length_nil]
          omega
      | reject e1 =>
        have htj : t = Timer.rejectedJob (thenOfInput P.agg y.index)
            (P.onRejected y.index).toFn (catchOfInput P.agg y.index) := by
          rw [← hy]
          simp [Pipes.catchJob, ho]
        rw [ho] at hdone
        have hval := ((outcome_reject w _ e1).mp hdone).2
        obtain ⟨c, w1, hcr, heff, hcp, hs2⟩ := hS.catchRejected _ A B1 C y e1 hpl1 hs1 ho
        have hcall : callFn (resolvePromise (fuel + 1)) t.handler
            (t.argument { w with timers := rest }) { w with timers := rest }
            = some (c, w1) := by
          rw [htj]
          simp only [Timer.handler, Timer.argument]
          rw [callFn_toFn]
          show some (callReaction _ (w.heap _).reason _) = _
          rw [hval, hcr]
        have hrun := runTimer_settleWith fuel t _ _ _ hcall hcp
        have htt : t.target = catchOfInput P.agg y.index := by rw [htj]; rfl
        rw [htt] at hrun
        obtain ⟨q1, q2, q3, q4⟩ := heff
        have hpl2 : Plumb P w1 A (y :: B1) C :=
          plumb_congr P _ w1 _ _ _ hpl1 (fun k hk hlt => q4 k hk (by
            show k < w.nextId
            omega)) q3
        obtain ⟨p1, p2, p3⟩ := plumb_catch P w1 A B1 C y c hpl2
        refine ⟨_, A ++ [y], B1, C, hrun, p1, ?_, ?_, e, ?_⟩
        · unfold Queued
          rw [p2, q1]
          exact hint
        · exact hS.congr _ _ _ _ p3 hs2
        · simp only [List.length_cons, List.length_append, List.length_singleton,
            List.length_nil]
          omega
  · -- the job of `then` of the first input of `C`
    cases C with
    | nil => simp at hys
    | cons x C1 =>
      simp only [List.map_cons, List.cons.injEq] at hys
      obtain ⟨hx, hC⟩ := hys
      subst hC
      have hxm : x ∈ A ++ B ++ x :: C1 := by simp
      have hseen := (h.seen x hxm).2
      have e : A ++ (B ++ [x]) ++ C1 = A ++ B ++ x :: C1 := by simp
      cases hxo : x.outcome with
      | resolve v =>
        have htj : t = Timer.fulfilledJob x.input (P.onFulfilled x.index).toFn
            (thenOfInput P.agg x.index) := by
          rw [← hx]
          simp [Pipes.thenJob, hxo]
        rw [hxo] at hseen
        have hval := ((outcome_resolve w _ v).mp hseen).2
        obtain ⟨c, w1, hcr, heff, hn, hth, hs2⟩ :=
          hS.thenFulfilled _ A B C1 x v hpl1 hs1 hxo
        have hcs : c.settle = P.thenOutcome x.outcome ∧ c.plain w1 := by
          rw [hxo]
          cases hthr : P.throws v with
          | none =>
            rw [hn hthr]
            simp [Completion.settle, Pipes.thenOutcome, hthr, Completion.plain,
              World.notThenable]
          | some e2 =>
            rw [hth e2 hthr]
            simp [Completion.settle, Pipes.thenOutcome, hthr, Completion.plain]
        have hcall : callFn (resolvePromise (fuel + 1)) t.handler
            (t.argument { w with timers := rest }) { w with timers := rest }
            = some (c, w1) := by
          rw [htj]
          simp only [Timer.handler, Timer.argument]
          rw [callFn_toFn]
          show some (callReaction _ (w.heap _).value _) = _
          rw [hval, hcr]
        have hrun := runTimer_settleWith fuel t _ _ _ hcall hcs.2
        have htt : t.target = thenOfInput P.agg x.index := by rw [htj]; rfl
        rw [htt] at hrun
        obtain ⟨q1, q2, q3, q4⟩ := heff
        have hpl2 : Plumb P w1 A B (x :: C1) :=
          plumb_congr P _ w1 _ _ _ hpl1 (fun k hk hlt => q4 k hk (by
            show k < w.nextId
            omega)) q3
        obtain ⟨p1, p2, p3⟩ := plumb_then P w1 A B C1 x c hpl2 hcs.1
        refine ⟨_, A, B ++ [x], C1, hrun, p1, ?_, ?_, e, ?_⟩
        · unfold Queued
          rw [p2, q1, List.map_append]
          exact interleave_append_left hint _
        · exact hS.congr _ _ _ _ p3 hs2
        · simp only [List.length_cons, List.length_append, List.length_singleton,
            List.length_nil]
          omega
      | reject r =>
        have htj : t = Timer.rejectedJob x.input Fn.thrower (thenOfInput P.agg x.index) := by
          rw [← hx]
          simp [Pipes.thenJob, hxo]
        rw [hxo] at hseen
        have hval := ((outcome_reject w _ r).mp hseen).2
        have hcall : callFn (resolvePromise (fuel + 1)) t.handler
            (t.argument { w with timers := rest }) { w with timers := rest }
            = some (Completion.thrown r, { w with timers := rest }) := by
          rw [htj]
          simp [Timer.handler, Timer.argument, callFn, hval]
        have hrun := runTimer_settleWith fuel t _ _ _ hcall trivial
        have htt : t.target = thenOfInput P.agg x.index := by rw [htj]; rfl
        rw [htt] at hrun
        obtain ⟨p1, p2, p3⟩ := plumb_then P _ A B C1 x (Completion.thrown r) hpl1
          (by rw [hxo]; rfl)
        refine ⟨_, A, B ++ [x], C1, hrun, p1, ?_, ?_, e, ?_⟩
        · unfold Queued
          rw [p2, List.map_append]
          exact interleave_append_left hint _
        · exact hS.congr _ _ _ _ p3 (hS.thenRejected _ A B C1 x r hpl1 hs1 hxo)
        · simp only [List.length_cons, List.length_append, List.length_singleton,
            List.length_nil]
          omega

theorem runActs_inv (P : Pipes) (S : World → List Seen → List Seen → Prop) (hS : Steps P S)
    (fuel : Nat) : ∀ (acts : List Act) (w : World) (A B C : List Seen),
    Plumb P w A B C → Queued P w B C → S w A B →
    ∃ w1 A1 B1 C1, runActs (fuel + 1) P.ps acts w = some w1 ∧
      Plumb P w1 A1 B1 C1 ∧ Queued P w1 B1 C1 ∧ S w1 A1 B1 ∧
      A1 ++ B1 ++ C1 = observe P.ps (A ++ B ++ C) acts := by
  intro acts
  induction acts with
  | nil =>
    intro w A B C h hq hs
    exact ⟨w, A, B, C, rfl, h, hq, hs, rfl⟩
  | cons a acts ih =>
    intro w A B C h hq hs
    cases a with
    | settle i s =>
      cases hip : P.ps[i]? with
      | none =>
        obtain ⟨w1, A1, B1, C1, e1, r⟩ := ih w A B C h hq hs
        refine ⟨w1, A1, B1, C1, ?_, ?_⟩
        · simp only [runActs, runAct, hip]
          exact e1
        · simpa only [observe, hip] using r
      | some p =>
        obtain ⟨s1, s2⟩ := plumb_settle P w A B C i p s h hq hip
        cases hany : (A ++ B ++ C).any (fun x => decide (x.input = p)) with
        | true =>
          obtain ⟨w1, A1, B1, C1, e1, r⟩ := ih w A B C h hq hs
          refine ⟨w1, A1, B1, C1, ?_, ?_⟩
          · simp only [runActs, runAct, hip, s1 hany]
            exact e1
          · simpa only [observe, hip, hany, if_true] using r
        | false =>
          obtain ⟨t1, t2, t3⟩ := s2 hany
          obtain ⟨w1, A1, B1, C1, e1, r1, r2, r3, r4⟩ :=
            ih _ A B (C ++ seenAt p s 0 P.ps) t1 t2 (hS.congr _ _ _ _ t3 hs)
          refine ⟨w1, A1, B1, C1, ?_, r1, r2, r3, ?_⟩
          · simp only [runActs, runAct, hip]
            exact e1
          · rw [r4]
            have e : A ++ B ++ (C ++ seenAt p s 0 P.ps)
                = A ++ B ++ C ++ seenAt p s 0 P.ps := by simp
            rw [e]
            simp only [observe, hip, hany, Bool.false_eq_true, if_false]
    | tick =>
      cases ht : w.timers with
      | nil =>
        obtain ⟨w1, A1, B1, C1, e1, r⟩ := ih w A B C h hq hs
        refine ⟨w1, A1, B1, C1, ?_, ?_⟩
        · simp only [runActs, runAct, runTick, ht]
          exact e1
        · simpa only [observe] using r
      | cons t rest =>
        obtain ⟨w2, A2, B2, C2, e2, q1, q2, q3, q4, -⟩ :=
          tick_step P S hS fuel w A B C h hq hs t rest ht
        obtain ⟨w1, A1, B1, C1, e1, r1, r2, r3, r4⟩ := ih w2 A2 B2 C2 q1 q2 q3
        refine ⟨w1, A1, B1, C1, ?_, r1, r2, r3, ?_⟩
        · simp only [runActs, runAct, runTick, ht, e2]
          exact e1
        · rw [r4, q4]
          rfl

theorem drain_inv (P : Pipes) (S : World → List Seen → List Seen → Prop) (hS : Steps P S)
    (fuel : Nat) : ∀ (m : Nat) (w : World) (A B C : List Seen),
    2 * C.length + B.length ≤ m → Plumb P w A B C → Queued P w B C → S w A B →
    ∃ w1, drain (m + fuel + 1) w = some w1 ∧ w1.timers = [] ∧
      Plumb P w1 (A ++ B ++ C) [] [] ∧ S w1 (A ++ B ++ C) [] := by
  intro m
  induction m with
  | zero =>
    intro w A B C hm h hq hs
    have hB : B = [] := List.length_eq_zero.mp (by omega)
    have hC : C = [] := List.length_eq_zero.mp (by omega)
    subst hB hC
    have ht : w.timers = [] := by
      unfold Queued at hq
      have := interleave_length hq
      simpa using this
    refine ⟨w, by simp [drain, ht], ht, ?_, ?_⟩
    · simpa using h
    · simpa using hs
  | succ m ih =>
    intro w A B C hm h hq hs
    cases ht : w.timers with
    | nil =>
      unfold Queued at hq
      have hl := interleave_length hq
      rw [ht] at hl
      simp only [List.length_nil, List.length_map] at hl
      have hB : B = [] := List.length_eq_zero.mp (by omega)
      have hC : C = [] := List.length_eq_zero.mp (by omega)
      subst hB hC
      refine ⟨w, by simp [drain, ht], ht, ?_, ?_⟩
      · simpa using h
      · simpa using hs
    | cons t rest =>
      obtain ⟨w2, A2, B2, C2, e2, q1, q2, q3, q4, q5⟩ :=
        tick_step P S hS (m + fuel) w A B C h hq hs t rest ht
      obtain ⟨w1, e1, r1, r2, r3⟩ := ih w2 A2 B2 C2 (by omega) q1 q2 q3
      refine ⟨w1, ?_, r1, ?_, ?_⟩
      · have hf : m + 1 + fuel + 1 = (m + fuel + 1) + 1 := by omega
        rw [hf]
        simp only [drain, ht, e2]
        exact e1
      · rw [← q4]
        exact r2
      · rw [← q4]
        exact r3

/-! ## The counters and arrays of the combinators -/

theorem setIndex_get_self (xs : List (Option Val)) (i : Nat) (v : Val) :
    (setIndex xs i v)[i]? = some (some v) := by
  unfold setIndex
  split_ifs with h
  · simp [List.getElem?_set, h]
  · have hl : (xs ++ List.replicate (i - xs.length) none).length = i := by
      simp; omega
    rw [List.getElem?_append_right (by omega)]
    simp [hl]

theorem setIndex_get_of_some (xs : List (Option Val)) (i j : Nat) (v : Val) (a : Option Val)
    (h : xs[j]? = some a) (hne : j ≠ i) : (setIndex xs i v)[j]? = some a := by
  have hj : j < xs.length := by
    by_contra hc
    rw [List.getElem?_eq_none (by omega)] at h
    exact absurd h (by simp)
  unfold setIndex
  split_ifs with hi
  · rw [List.getElem?_set_ne (Ne.symm hne)]
    exact h
  · rw [List.append_assoc, List.getElem?_append_left hj]
    exact h

theorem setIndex_length_le (xs : List (Option Val)) (i n : Nat) (v : Val)
    (h : xs.length ≤ n) (hi : i < n) : (setIndex xs i v).length ≤ n := by
  unfold setIndex
  split_ifs with hlt
  · simpa using h
  · simp; omega

theorem recordAndResolve_of_settled (cell i n agg : Nat) (data : Val) (w : World)
    (h : (w.heap agg).status ≠ Status.PENDING) :
    recordAndResolve cell i n agg data w = w.record cell i data := by
  simp only [recordAndResolve]
  split_ifs
  · exact settleResolve_settled _ _ _ h
  · rfl

theorem recordAndResolve_of_fewer (cell i n agg : Nat) (data : Val) (w : World)
    (h : w.counts cell + 1 ≠ n) :
    recordAndResolve cell i n agg data w = w.record cell i data := by
  simp [recordAndResolve, World.record, h]

theorem recordAndResolve_of_last (cell i n agg : Nat) (data : Val) (w : World)
    (h : w.counts cell + 1 = n) (hagg : w.heap agg = PromiseState.pendingWith [] []) :
    recordAndResolve cell i n agg data w =
      { w.record cell i data with
        heap := (Function.update w.heap agg
          (PromiseState.fulfilledWith (Val.array cell) [] [])) } := by
  simp [recordAndResolve, World.record, h, settleResolve, hagg, PromiseState.pendingWith,
    PromiseState.fulfilledWith, forEachCall_eq]

theorem recordAndResolve_facts (cell i n agg : Nat) (data : Val) (w : World)
    (hagg : w.heap agg = PromiseState.pendingWith [] [] ∨
      (w.heap agg).status ≠ Status.PENDING) :
    (recordAndResolve cell i n agg data w).timers = w.timers ∧
    (∀ k, k ≠ agg → (recordAndResolve cell i n agg data w).heap k = w.heap k) ∧
    (recordAndResolve cell i n agg data w).counts cell = w.counts cell + 1 ∧
    (recordAndResolve cell i n agg data w).arrays cell = setIndex (w.arrays cell) i data ∧
    ((w.heap agg).status ≠ Status.PENDING ∨ w.counts cell + 1 ≠ n →
      (recordAndResolve cell i n agg data w).heap agg = w.heap agg) ∧
    (w.heap agg = PromiseState.pendingWith [] [] → w.counts cell + 1 = n →
      (recordAndResolve cell i n agg data w).heap agg =
        PromiseState.fulfilledWith (Val.array cell) [] []) := by
  by_cases hlast : w.counts cell + 1 = n
  · rcases hagg with hagg | hagg
    · rw [recordAndResolve_of_last _ _ _ _ _ _ hlast hagg]
      refine ⟨rfl, ?_, ?_, ?_, ?_, ?_⟩
      · intro k hk
        simp [World.record, Function.update_noteq hk]
      · simp [World.record]
      · simp [World.record]
      · intro h
        rcases h with h | h
        · rw [hagg] at h
          exact absurd rfl h
        · exact absurd hlast h
      · intro _ _
        simp [World.record]
    · rw [recordAndResolve_of_settled _ _ _ _ _ _ hagg]
      refine ⟨rfl, fun _ _ => rfl, ?_, ?_, fun _ => rfl, ?_⟩
      · simp [World.record]
      · simp [World.record]
      · intro h
        rw [h] at hagg
        exact absurd rfl hagg
  · rw [recordAndResolve_of_fewer _ _ _ _ _ _ hlast]
    refine ⟨rfl, fun _ _ => rfl, ?_, ?_, fun _ => rfl, ?_⟩
    · simp [World.record]
    · simp [World.record]
    · intro _ h
      exact absurd h hlast

theorem settleReject_facts (agg : Nat) (r : Val) (w : World)
    (hagg : w.heap agg = PromiseState.pendingWith [] [] ∨
      (w.heap agg).status ≠ Status.PENDING) :
    (settleReject agg r w).timers = w.timers ∧
    (∀ k, k ≠ agg → (settleReject agg r w).heap k = w.heap k) ∧
    (settleReject agg r w).counts = w.counts ∧
    (settleReject agg r w).arrays = w.arrays ∧
    ((w.heap agg).status ≠ Status.PENDING → (settleReject agg r w).heap agg = w.heap agg) ∧
    (w.heap agg = PromiseState.pendingWith [] [] →
      (settleReject agg r w).heap agg = PromiseState.rejectedWith r [] []) := by
  rcases hagg with hagg | hagg
  · have hs : (w.heap agg).status = Status.PENDING := by rw [hagg]; rfl
    rw [settleReject_pending _ _ _ hs]
    refine ⟨by simp [hagg, PromiseState.pendingWith], ?_, rfl, rfl, ?_, ?_⟩
    · intro k hk
      simp [Function.update_noteq hk]
    · intro h
      exact absurd hs h
    · intro _
      simp [hagg, PromiseState.pendingWith, PromiseState.rejectedWith]
  · rw [settleReject_settled _ _ _ hagg]
    refine ⟨rfl, fun _ _ => rfl, rfl, rfl, fun _ => rfl, ?_⟩
    intro h
    rw [h] at hagg
    exact absurd rfl hagg

theorem settleResolve_facts (agg : Nat) (v : Val) (w : World)
    (hagg : w.heap agg = PromiseState.pendingWith [] [] ∨
      (w.heap agg).status ≠ Status.PENDING) :
    (settleResolve agg v w).timers = w.timers ∧
    (∀ k, k ≠ agg → (settleResolve agg v w).heap k = w.heap k) ∧
    (settleResolve agg v w).counts = w.counts ∧
    (settleResolve agg v w).arrays = w.arrays ∧
    ((w.heap agg).status ≠ Status.PENDING → (settleResolve agg v w).heap agg = w.heap agg) ∧
    (w.heap agg = PromiseState.pendingWith [] [] →
      (settleResolve agg v w).heap agg = PromiseState.fulfilledWith v [] []) := by
  rcases hagg with hagg | hagg
  · have hs : (w.heap agg).status = Status.PENDING := by rw [hagg]; rfl
    rw [settleResolve_pending _ _ _ hs]
    refine ⟨by simp [hagg, PromiseState.pendingWith], ?_, rfl, rfl, ?_, ?_⟩
    · intro k hk
      simp [Function.update_noteq hk]
    · intro h
      exact absurd hs h
    · intro _
      simp [hagg, PromiseState.pendingWith, PromiseState.fulfilledWith]
  · rw [settleResolve_settled _ _ _ hagg]
    refine ⟨rfl, fun _ _ => rfl, rfl, rfl, fun _ => rfl, ?_⟩
    intro h
    rw [h] at hagg
    exact absurd rfl hagg

theorem recordAndReject_facts (cell i n agg : Nat) (data : Val) (w : World)
    (hagg : w.heap agg = PromiseState.pendingWith [] [] ∨
      (w.heap agg).status ≠ Status.PENDING) :
    (recordAndReject cell i n agg data w).timers = w.timers ∧
    (∀ k, k ≠ agg → (recordAndReject cell i n agg data w).heap k = w.heap k) ∧
    (recordAndReject cell i n agg data w).counts cell = w.counts cell + 1 ∧
    (recordAndReject cell i n agg data w).arrays cell = setIndex (w.arrays cell) i data ∧
    ((w.heap agg).status ≠ Status.PENDING ∨ w.counts cell + 1 ≠ n →
      (recordAndReject cell i n agg data w).heap agg = w.heap agg) ∧
    (w.heap agg = PromiseState.pendingWith [] [] → w.counts cell + 1 = n →
      (recordAndReject cell i n agg data w).heap agg =
        PromiseState.rejectedWith (Val.array cell) [] []) := by
  by_cases hlast : w.counts cell + 1 = n
  · rcases hagg with hagg | hagg
    · have e : recordAndReject cell i n agg data w =
          { w.record cell i data with
            heap := (Function.update w.heap agg
              (PromiseState.rejectedWith (Val.array cell) [] [])) } := by
        simp [recordAndReject, World.record, hlast, settleReject, hagg,
          PromiseState.pendingWith, PromiseState.rejectedWith, forEachCall_eq]
      rw [e]
      refine ⟨rfl, ?_, ?_, ?_, ?_, ?_⟩
      · intro k hk
        simp [World.record, Function.update_noteq hk]
      · simp [World.record]
      · simp [World.record]
      · intro h
        rcases h with h | h
        · rw [hagg] at h
          exact absurd rfl h
        · exact absurd hlast h
      · intro _ _
        simp [World.record]
    · have e : recordAndReject cell i n agg data w = w.record cell i data := by
        simp only [recordAndReject]
        split_ifs
        · exact settleReject_settled _ _ _ hagg
        · rfl
      rw [e]
      refine ⟨rfl, fun _ _ => rfl, ?_, ?_, fun _ => rfl, ?_⟩
      · simp [World.record]
      · simp [World.record]
      · intro h
        rw [h] at hagg
        exact absurd rfl hagg
  · have e : recordAndReject cell i n agg data w = w.record cell i data := by
      simp [recordAndReject, World.record, hlast]
    rw [e]
    refine ⟨rfl, fun _ _ => rfl, ?_, ?_, fun _ => rfl, ?_⟩
    · simp [World.record]
    · simp [World.record]
    · intro _ h
      exact absurd h hlast

theorem recordAndResolve_nextId (cell i n agg : Nat) (data : Val) (w : World) :
    (recordAndResolve cell i n agg data w).nextId = w.nextId ∧
    (recordAndResolve cell i n agg data w).thenOf = w.thenOf := by
  simp only [recordAndResolve, settleResolve, forEachCall_eq, World.record]
  split_ifs <;> exact ⟨rfl, rfl⟩

theorem callClosure_allSettledOnFulfilled (cell i n agg : Nat) (v : Val) (w : World)
    (h : hasThenFunction w v = Except.ok false) :
    callClosure (Closure.allSettledOnFulfilled cell i n agg) v w =
      (Completion.normal Val.undefined,
        recordAndResolve cell i n agg (Val.promise w.nextId)
          { w with heap := (Function.update w.heap w.nextId
                     (PromiseState.fulfilledWith v [] [])),
                   nextId := w.nextId + 1 }) := by
  simp [callClosure, staticResolve, h, newFulfilled, newPromise, settleResolve,
    PromiseState.fresh, forEachCall_eq, PromiseState.fulfilledWith]

theorem callClosure_allSettledOnRejected (cell i n agg : Nat) (r : Val) (w : World)
    (h : hasThenFunction w r = Except.ok false) :
    callClosure (Closure.allSettledOnRejected cell i n agg) r w =
      (Completion.normal Val.undefined,
        recordAndResolve cell i n agg (Val.promise w.nextId)
          { w with heap := (Function.update w.heap w.nextId
                     (PromiseState.rejectedWith r [] [])),
                   nextId := w.nextId + 1 }) := by
  simp [callClosure, staticReject, h, newRejected, newPromise, settleReject,
    PromiseState.fresh, forEachCall_eq, PromiseState.rejectedWith]

theorem nodup_length_lt (l : List Nat) (n i : Nat) (hnd : l.Nodup) (hb : ∀ j ∈ l, j < n)
    (hi : i < n) (hni : i ∉ l) : l.length < n := by
  have hsub : (i :: l).toFinset ⊆ Finset.range n := by
    intro x hx
    simp only [List.toFinset_cons, Finset.mem_insert, List.mem_toFinset] at hx
    rcases hx with rfl | hx
    · exact Finset.mem_range.mpr hi
    · exact Finset.mem_range.mpr (hb x hx)
  have hcard := Finset.card_le_card hsub
  rw [List.toFinset_card_of_nodup (List.nodup_cons.mpr ⟨hni, hnd⟩), Finset.card_range] at hcard
  simp only [List.length_cons] at hcard
  omega

/-! ## `Promise.all` under any schedule -/

theorem fulfilledCount_append (a b : List Seen) :
    fulfilledCount (a ++ b) = fulfilledCount a + fulfilledCount b := by
  induction a with
  | nil => simp [fulfilledCount]
  | cons x rest ih =>
    rw [List.cons_append]
    cases h : x.outcome with
    | resolve v =>
      simp only [fulfilledCount, h, ih]
      omega
    | reject r => simp only [fulfilledCount, h, ih]

theorem fulfilledCount_le (a : List Seen) : fulfilledCount a ≤ a.length := by
  induction a with
  | nil => simp [fulfilledCount]
  | cons x rest ih =>
    cases h : x.outcome with
    | resolve v => simpa [fulfilledCount, h] using ih
    | reject r =>
      simp only [fulfilledCount, h, List.length_cons]
      omega

theorem fulfilledCount_lt (a : List Seen) (y : Seen) (r : Val) (hy : y ∈ a)
    (hr : y.outcome = Settle.reject r) : fulfilledCount a < a.length := by
  induction a with
  | nil => simp at hy
  | cons x rest ih =>
    rcases List.mem_cons.mp hy with rfl | hy
    · have := fulfilledCount_le rest
      simp [fulfilledCount, hr]
      omega
    · have := ih hy
      cases h : x.outcome <;> simp [fulfilledCount, h] <;> omega

theorem fulfilledCount_full (a : List Seen) (h : ∀ x ∈ a, ∃ v, x.outcome = Settle.resolve v) :
    fulfilledCount a = a.length := by
  induction a with
  | nil => rfl
  | cons x rest ih =>
    obtain ⟨v, hv⟩ := h x (List.mem_cons_self _ _)
    simp [fulfilledCount, hv, ih (fun z hz => h z (List.mem_cons_of_mem _ hz))]

theorem firstRejected_append (a b : List Seen) :
    firstRejected (a ++ b) =
      match firstRejected a with
      | some r => some r
      | none => firstRejected b := by
  induction a with
  | nil => simp [firstRejected]
  | cons x rest ih =>
    cases h : x.outcome <;> simp [firstRejected, h, ih]

theorem firstRejected_none (a : List Seen) :
    firstRejected a = none ↔ ∀ x ∈ a, ∃ v, x.outcome = Settle.resolve v := by
  induction a with
  | nil => simp [firstRejected]
  | cons x rest ih =>
    cases h : x.outcome <;> simp [firstRejected, h, ih]

theorem firstFulfilled_append (a b : List Seen) :
    firstFulfilled (a ++ b) =
      match firstFulfilled a with
      | some r => some r
      | none => firstFulfilled b := by
  induction a with
  | nil => simp [firstFulfilled]
  | cons x rest ih =>
    cases h : x.outcome <;> simp [firstFulfilled, h, ih]

theorem firstFulfilled_none (a : List Seen) :
    firstFulfilled a = none ↔ ∀ x ∈ a, ∃ r, x.outcome = Settle.reject r := by
  induction a with
  | nil => simp [firstFulfilled]
  | cons x rest ih =>
    cases h : x.outcome <;> simp [firstFulfilled, h, ih]

theorem plumb_length_le (P : Pipes) (w : World) (A B C : List Seen) (h : Plumb P w A B C) :
    (A ++ B ++ C).length ≤ P.ps.length := by
  have := length_le_of_nodup _ P.ps.length h.nodup (by
    intro j hj
    obtain ⟨x, hx, rfl⟩ := List.mem_map.mp hj
    exact plumb_index_lt P w A B C h x hx)
  simpa using this

theorem thenOutcome_none (P : Pipes) (hP : ∀ v, P.throws v = none) (s : Settle) :
    P.thenOutcome s =
      match s with
      | Settle.resolve _ => Settle.resolve Val.undefined
      | Settle.reject r => Settle.reject r := by
  cases s <;> simp [Pipes.thenOutcome, hP]

theorem settleReject_frame (p : Nat) (r : Val) (w : World) :
    (settleReject p r w).thenOf = w.thenOf ∧ (settleReject p r w).nextId = w.nextId := by
  simp only [settleReject, forEachCall_eq]
  split_ifs <;> exact ⟨rfl, rfl⟩

theorem settleResolve_frame (p : Nat) (v : Val) (w : World) :
    (settleResolve p v w).thenOf = w.thenOf ∧ (settleResolve p v w).nextId = w.nextId := by
  simp only [settleResolve, forEachCall_eq]
  split_ifs <;> exact ⟨rfl, rfl⟩

theorem allSteps (ps : List Nat) (agg cell : Nat) :
    Steps (allPipes ps agg cell) (AllState ps agg cell) where
  congr := by
    intro w w1 A B hag hs
    obtain ⟨a1, a2, -, -, a5⟩ := hag
    have hagg : w1.heap agg = w.heap agg := a5 agg (Or.inl rfl)
    exact ⟨by rw [a1]; exact hs.count, by rw [a2]; exact hs.entries,
      by rw [a2]; exact hs.short, by rw [hagg]; exact hs.status⟩
  thenFulfilled := by
    intro w A B C x v hpl hs hxo
    have hlen : (A ++ B ++ x :: C).length ≤ ps.length := plumb_length_le _ w _ _ _ hpl
    simp only [List.length_append, List.length_cons] at hlen
    have hF := fulfilledCount_le (A ++ B)
    simp only [List.length_append] at hF
    have hxi : x.index < ps.length := plumb_index_lt _ w _ _ _ hpl x (by simp)
    have hnd := nodup_mid (A ++ B) C x (by simpa using hpl.nodup)
    have hagg : w.heap agg = PromiseState.pendingWith [] [] ∨
        (w.heap agg).status ≠ Status.PENDING := by
      have := hs.status
      cases hfr : firstRejected A with
      | some r =>
        rw [hfr] at this
        right
        rw [this]
        simp [PromiseState.rejectedWith]
      | none =>
        rw [hfr] at this
        split_ifs at this with hc
        · right
          rw [this]
          simp [PromiseState.fulfilledWith]
        · left
          exact this
    obtain ⟨f1, f2, f3, f4, f5, f6⟩ := recordAndResolve_facts cell x.index ps.length agg v w hagg
    obtain ⟨f7, f8⟩ := recordAndResolve_nextId cell x.index ps.length agg v w
    refine ⟨Completion.normal Val.undefined, recordAndResolve cell x.index ps.length agg v w,
      rfl, ⟨f1, f8, by rw [f7], fun k hk _ => f2 k hk⟩, fun _ => rfl,
      fun e he => absurd he (by simp [allPipes]), ?_⟩
    have hcnt : fulfilledCount (A ++ (B ++ [x])) = fulfilledCount (A ++ B) + 1 := by
      rw [← List.append_assoc, fulfilledCount_append]
      simp [fulfilledCount, hxo]
    constructor
    · rw [f3, hs.count, hcnt]
    · intro z hz u hu
      rw [f4]
      have hz2 : z ∈ A ++ B ∨ z = x := by
        simp only [List.mem_append, List.mem_singleton] at hz ⊢
        tauto
      rcases hz2 with hz2 | rfl
      · have hne : z.index ≠ x.index := by
          intro hh
          apply hnd.1
          rw [← hh]
          exact List.mem_map_of_mem _ hz2
        exact setIndex_get_of_some _ _ _ _ _ (hs.entries z hz2 u hu) hne
      · rw [hxo] at hu
        injection hu with hu
        rw [← hu]
        exact setIndex_get_self _ _ _
    · rw [f4]
      exact setIndex_length_le _ _ _ _ hs.short hxi
    · have hst := hs.status
      cases hfr : firstRejected A with
      | some r =>
        rw [hfr] at hst
        simp only []
        rw [f5 (Or.inl (by rw [hst]; simp [PromiseState.rejectedWith]))]
        exact hst
      | none =>
        rw [hfr] at hst
        simp only []
        rw [if_neg (by omega)] at hst
        rw [hcnt]
        by_cases hlast : fulfilledCount (A ++ B) + 1 = ps.length
        · rw [if_pos hlast]
          exact f6 hst (by rw [hs.count]; exact hlast)
        · rw [if_neg hlast, f5 (Or.inr (by rw [hs.count]; exact hlast))]
          exact hst
  thenRejected := by
    intro w A B C x r hpl hs hxo
    have hcnt : fulfilledCount (A ++ (B ++ [x])) = fulfilledCount (A ++ B) := by
      rw [← List.append_assoc, fulfilledCount_append]
      simp [fulfilledCount, hxo]
    refine ⟨by rw [hcnt]; exact hs.count, ?_, hs.short, by rw [hcnt]; exact hs.status⟩
    intro z hz u hu
    have hz2 : z ∈ A ++ B ∨ z = x := by
      simp only [List.mem_append, List.mem_singleton] at hz ⊢
      tauto
    rcases hz2 with hz2 | rfl
    · exact hs.entries z hz2 u hu
    · rw [hxo] at hu
      exact absurd hu (by simp)
  catchFulfilled := by
    intro w A B C y u hpl hs ho
    have hyo : ∃ v, y.outcome = Settle.resolve v := by
      cases h : y.outcome with
      | resolve v => exact ⟨v, rfl⟩
      | reject r =>
        rw [h] at ho
        simp [Pipes.thenOutcome] at ho
    obtain ⟨v, hv⟩ := hyo
    have e : A ++ [y] ++ B = A ++ y :: B := by simp
    have hfr : firstRejected (A ++ [y]) = firstRejected A := by
      rw [firstRejected_append]
      cases firstRejected A <;> simp [firstRejected, hv]
    refine ⟨by rw [e]; exact hs.count, by rw [e]; exact hs.entries, hs.short, ?_⟩
    rw [hfr, e]
    exact hs.status
  catchRejected := by
    intro w A B C y e hpl hs ho
    have hyo : y.outcome = Settle.reject e := by
      cases h : y.outcome with
      | resolve v =>
        rw [h] at ho
        simp [Pipes.thenOutcome, allPipes] at ho
      | reject r =>
        rw [h] at ho
        simp only [Pipes.thenOutcome] at ho
        rw [ho]
    have hlen : (A ++ y :: B ++ C).length ≤ ps.length := plumb_length_le _ w _ _ _ hpl
    simp only [List.length_append, List.length_cons] at hlen
    have hF := fulfilledCount_lt (A ++ y :: B) y e (by simp) hyo
    simp only [List.length_append, List.length_cons] at hF
    have hagg : w.heap agg = PromiseState.pendingWith [] [] ∨
        (w.heap agg).status ≠ Status.PENDING := by
      have := hs.status
      cases hfr : firstRejected A with
      | some r =>
        rw [hfr] at this
        right
        rw [this]
        simp [PromiseState.rejectedWith]
      | none =>
        rw [hfr] at this
        rw [if_neg (by omega)] at this
        left
        exact this
    obtain ⟨f1, f2, f3, f4, f5, f6⟩ := settleReject_facts agg e w hagg
    obtain ⟨f7, f8⟩ := settleReject_frame agg e w
    refine ⟨Completion.normal Val.undefined, settleReject agg e w, rfl,
      ⟨f1, f7, by rw [f8], fun k hk _ => f2 k hk⟩, rfl, ?_⟩
    have e2 : A ++ [y] ++ B = A ++ y :: B := by simp
    refine ⟨by rw [f3, e2]; exact hs.count, by rw [f4, e2]; exact hs.entries,
      by rw [f4]; exact hs.short, ?_⟩
    have hst := hs.status
    rw [firstRejected_append]
    cases hfr : firstRejected A with
    | some r =>
      rw [hfr] at hst
      simp only []
      rw [f5 (by rw [hst]; simp [PromiseState.rejectedWith])]
      exact hst
    | none =>
      rw [hfr] at hst
      rw [if_neg (by omega)] at hst
      simp only [firstRejected, hyo]
      exact f6 hst

theorem seenAtCall_congr (w w1 : World) : ∀ (ps : List Nat) (i : Nat),
    (∀ p ∈ ps, w1.outcome p = w.outcome p) → seenAtCall w1 i ps = seenAtCall w i ps := by
  intro ps
  induction ps with
  | nil =>
    intro i _
    rfl
  | cons y rest ih =>
    intro i h
    simp only [seenAtCall, h y (List.mem_cons_self _ _),
      ih (i + 1) (fun p hp => h p (List.mem_cons_of_mem _ hp))]

theorem all_call (w : World) (ps : List Nat) (hn : ps ≠ []) (hq : QuietInputs w ps) :
    (all (ps.map Val.promise) w).1 = w.nextId ∧
    Plumb (allPipes ps w.nextId w.nextCell) (all (ps.map Val.promise) w).2 [] []
      (seenAtCall w 0 ps) ∧
    Queued (allPipes ps w.nextId w.nextCell) (all (ps.map Val.promise) w).2 []
      (seenAtCall w 0 ps) ∧
    AllState ps w.nextId w.nextCell (all (ps.map Val.promise) w).2 [] [] := by
  obtain ⟨hq1, hq2⟩ := hq
  have hb : ∀ p ∈ (allPipes ps w.nextId w.nextCell).ps, p < (allPipes ps w.nextId w.nextCell).agg :=
    fun p hp => (hq2 p hp).1
  obtain ⟨wf, hloop, hreg⟩ := register_loop (allPipes ps w.nextId w.nextCell)
    (newPromise w.newCell).2 hb ps [] (newPromise w.newCell).2 rfl
    (registered_start _ _ rfl)
  have hall : all (ps.map Val.promise) w = (w.nextId, wf) := by
    simp only [all, List.length_map]
    exact congrArg (finishConstruct w.nextId) hloop
  have hheap : ∀ p ∈ ps, (newPromise w.newCell).2.heap p = w.heap p := by
    intro p hp
    have := (hq2 p hp).1
    simp [newPromise, World.newCell, Function.update_noteq (Nat.ne_of_lt this)]
  obtain ⟨p1, p2⟩ := plumb_of_registered _ _ wf hreg hb hq1
    (fun p hp => by rw [hheap p hp]; exact (hq2 p hp).2)
  have hsc : seenAtCall (newPromise w.newCell).2 0 (allPipes ps w.nextId w.nextCell).ps
      = seenAtCall w 0 ps :=
    seenAtCall_congr w _ ps 0 (fun p hp => outcome_congr w _ p (hheap p hp))
  rw [hsc] at p1 p2
  rw [hall]
  refine ⟨rfl, p1, p2, ?_⟩
  obtain ⟨a, b, c, -, -, -⟩ := hreg.frame
  have hlen : 0 < ps.length := List.length_pos.mpr hn
  constructor
  · show wf.counts w.nextCell = _
    rw [b]
    simp [newPromise, World.newCell, fulfilledCount]
  · intro x hx
    simp at hx
  · show (wf.arrays w.nextCell).length ≤ _
    rw [c]
    simp [newPromise, World.newCell]
  · simp only [firstRejected, List.append_nil, fulfilledCount]
    rw [if_neg (by omega)]
    show wf.heap w.nextId = _
    have a1 : wf.heap w.nextId = (newPromise w.newCell).2.heap w.nextId := a
    rw [a1]
    simp [newPromise, World.newCell]

theorem run_and_drain (P : Pipes) (S : World → List Seen → List Seen → Prop)
    (hS : Steps P S) (fuel : Nat) (acts : List Act) (w : World) (C : List Seen)
    (h : Plumb P w [] [] C) (hq : Queued P w [] C) (hs : S w [] []) :
    ∃ w1 A1 B1 C1, runActs (fuel + 1) P.ps acts w = some w1 ∧
      Plumb P w1 A1 B1 C1 ∧ S w1 A1 B1 ∧ A1 ++ B1 ++ C1 = observe P.ps C acts ∧
      ∃ w2, drain (2 * P.ps.length + fuel + 1) w1 = some w2 ∧ w2.timers = [] ∧
        Plumb P w2 (observe P.ps C acts) [] [] ∧ S w2 (observe P.ps C acts) [] := by
  obtain ⟨w1, A1, B1, C1, e1, r1, r2, r3, r4⟩ := runActs_inv P S hS fuel acts w [] [] C h hq hs
  have hlen := plumb_length_le P w1 A1 B1 C1 r1
  simp only [List.length_append] at hlen
  obtain ⟨w2, e2, t1, t2, t3⟩ := drain_inv P S hS fuel (2 * P.ps.length) w1 A1 B1 C1
    (by omega) r1 r2 r3
  simp only [List.nil_append] at r4
  rw [r4] at t2 t3
  exact ⟨w1, A1, B1, C1, e1, r1, r3, r4, w2, e2, t1, t2, t3⟩

theorem plumb_outcome (P : Pipes) (w : World) (A B C : List Seen) (h : Plumb P w A B C)
    (p : Nat) (hp : p ∈ P.ps) :
    (w.outcome p = none ∧ ∀ x ∈ A ++ B ++ C, x.input ≠ p) ∨
    (∃ x ∈ A ++ B ++ C, x.input = p ∧ w.outcome p = some x.outcome) := by
  by_cases hs : (w.heap p).status = Status.PENDING
  · left
    refine ⟨(outcome_none w p).mpr hs, ?_⟩
    intro x hx hxp
    exact (seen_settled P w A B C h p hp).mpr ⟨x, hx, hxp⟩ hs
  · right
    obtain ⟨x, hx, hxp⟩ := (seen_settled P w A B C h p hp).mp hs
    refine ⟨x, hx, hxp, ?_⟩
    rw [← hxp]
    exact (h.seen x hx).2

theorem plumb_outcome_eq (P : Pipes) (w w1 : World) (A B C A1 B1 C1 : List Seen)
    (h : Plumb P w A B C) (h1 : Plumb P w1 A1 B1 C1) (e : A1 ++ B1 ++ C1 = A ++ B ++ C)
    (p : Nat) (hp : p ∈ P.ps) : w1.outcome p = w.outcome p := by
  rcases plumb_outcome P w A B C h p hp with ⟨a, b⟩ | ⟨x, hx, hxp, a⟩
  · rcases plumb_outcome P w1 A1 B1 C1 h1 p hp with ⟨c, -⟩ | ⟨x, hx, hxp, -⟩
    · rw [a, c]
    · rw [e] at hx
      exact absurd hxp (b x hx)
  · have hx1 : x ∈ A1 ++ B1 ++ C1 := by rw [e]; exact hx
    have := (h1.seen x hx1).2
    rw [hxp] at this
    rw [a, this]

theorem plumb_covers (P : Pipes) (w : World) (A B C : List Seen) (h : Plumb P w A B C)
    (hall : ∀ p ∈ P.ps, (w.heap p).status ≠ Status.PENDING) :
    (A ++ B ++ C).length = P.ps.length ∧
    ∀ i p, P.ps[i]? = some p → ∃ x ∈ A ++ B ++ C, x.index = i ∧ x.input = p := by
  have hcov : ∀ i p, P.ps[i]? = some p → ∃ x ∈ A ++ B ++ C, x.index = i ∧ x.input = p := by
    intro i p hip
    by_contra hno
    have hni : i ∉ (A ++ B ++ C).map Seen.index := by
      intro hm
      obtain ⟨x, hx, hxi⟩ := List.mem_map.mp hm
      apply hno
      refine ⟨x, hx, hxi, ?_⟩
      have := (h.seen x hx).1
      rw [hxi, hip] at this
      exact (Option.some.inj this).symm
    exact hall p (mem_of_index hip) (h.unseen i p hip hni).1
  refine ⟨?_, hcov⟩
  have := length_eq_of_covers ((A ++ B ++ C).map Seen.index) P.ps.length h.nodup
    (by
      intro j hj
      obtain ⟨x, hx, rfl⟩ := List.mem_map.mp hj
      exact plumb_index_lt P w A B C h x hx)
    (by
      intro j hj
      obtain ⟨x, hx, hxi, -⟩ := hcov j (P.ps[j]) (List.getElem?_eq_getElem hj)
      exact List.mem_map.mpr ⟨x, hx, hxi⟩)
  simpa using this

theorem observe_append (ps : List Nat) : ∀ (a b : List Act) (seen : List Seen),
    observe ps seen (a ++ b) = observe ps (observe ps seen a) b := by
  intro a
  induction a with
  | nil =>
    intro b seen
    rfl
  | cons x rest ih =>
    intro b seen
    rw [List.cons_append]
    cases x with
    | tick =>
      simp only [observe]
      exact ih b seen
    | settle i s =>
      simp only [observe]
      cases ps[i]? with
      | none => exact ih b seen
      | some p =>
        simp only []
        split_ifs
        · exact ih b seen
        · exact ih b _

theorem observe_extends (ps : List Nat) : ∀ (a : List Act) (seen : List Seen),
    ∃ ext, observe ps seen a = seen ++ ext := by
  intro a
  induction a with
  | nil =>
    intro seen
    exact ⟨[], by simp [observe]⟩
  | cons x rest ih =>
    intro seen
    cases x with
    | tick =>
      simp only [observe]
      exact ih seen
    | settle i s =>
      simp only [observe]
      cases ps[i]? with
      | none => exact ih seen
      | some p =>
        simp only []
        split_ifs
        · exact ih seen
        · obtain ⟨ext, he⟩ := ih (seen ++ seenAt p s 0 ps)
          exact ⟨seenAt p s 0 ps ++ ext, by rw [he, List.append_assoc]⟩

theorem observe_nil : ∀ (a : List Act) (seen : List Seen), observe [] seen a = seen := by
  intro a
  induction a with
  | nil =>
    intro seen
    rfl
  | cons x rest ih =>
    intro seen
    cases x with
    | tick => simp only [observe, ih]
    | settle i s => simp [observe, ih]

theorem all_run (w : World) (ps : List Nat) (acts : List Act) (fuel : Nat) (hn : ps ≠ [])
    (hq : QuietInputs w ps) :
    ∃ w1 A1 B1 C1, runActs (fuel + 1) ps acts (all (ps.map Val.promise) w).2 = some w1 ∧
      Plumb (allPipes ps w.nextId w.nextCell) w1 A1 B1 C1 ∧
      AllState ps w.nextId w.nextCell w1 A1 B1 ∧
      A1 ++ B1 ++ C1 = observe ps (seenAtCall w 0 ps) acts ∧
      ∃ w2, drain (2 * ps.length + fuel + 1) w1 = some w2 ∧ w2.timers = [] ∧
        Plumb (allPipes ps w.nextId w.nextCell) w2 (observe ps (seenAtCall w 0 ps) acts)
          [] [] ∧
        AllState ps w.nextId w.nextCell w2 (observe ps (seenAtCall w 0 ps) acts) [] := by
  obtain ⟨-, c2, c3, c4⟩ := all_call w ps hn hq
  exact run_and_drain _ _ (allSteps ps w.nextId w.nextCell) fuel acts _ _ c2 c3 c4

/-- C13: let the inputs `ps` be any non-empty list of existing promises, pending or
settled, repeated or not, the pending ones without callbacks, the queue empty, and
`agg = Promise.all(ps)`.  After the call let settlement closures of inputs be called
and timers run in any order (`acts`).  The run ends.  At every such moment `agg` is
not fulfilled as long as an input is not fulfilled, and it is pending as long as an
input is pending and none is rejected.  Draining the queue then ends and leaves the
inputs as they are; if all inputs are fulfilled, `agg` is fulfilled with the array of
their values in input order. -/
theorem all_fulfils_in_input_order (w : World) (ps : List Nat) (acts : List Act)
    (fuel : Nat) (hn : ps ≠ []) (hq : QuietInputs w ps) :
    (all (ps.map Val.promise) w).1 = w.nextId ∧
    ∃ w1, runActs (fuel + 1) ps acts (all (ps.map Val.promise) w).2 = some w1 ∧
      ((∃ p ∈ ps, (w1.heap p).status ≠ Status.FULFILLED) →
        (w1.heap w.nextId).status ≠ Status.FULFILLED) ∧
      ((∃ p ∈ ps, (w1.heap p).status = Status.PENDING) →
        (∀ p ∈ ps, (w1.heap p).status ≠ Status.REJECTED) →
        (w1.heap w.nextId).status = Status.PENDING) ∧
      ∃ w2, drain (2 * ps.length + fuel + 1) w1 = some w2 ∧ w2.timers = [] ∧
        (∀ p ∈ ps, w2.outcome p = w1.outcome p) ∧
        ((∀ p ∈ ps, (w2.heap p).status = Status.FULFILLED) →
          w2.fulfilledWith w.nextId (Val.array w.nextCell) ∧
          w2.arrays w.nextCell = ps.map (fun p => some (w2.heap p).value)) := by
  obtain ⟨c1, -, -, -⟩ := all_call w ps hn hq
  obtain ⟨w1, A1, B1, C1, e1, r1, r3, r4, w2, e2, t1, t2, t3⟩ := all_run w ps acts fuel hn hq
  have hlen : (A1 ++ B1 ++ C1).length ≤ ps.length := plumb_length_le _ w1 _ _ _ r1
  have hF := fulfilledCount_le (A1 ++ B1)
  simp only [List.length_append] at hlen hF
  have hnotrej : (∀ p ∈ ps, (w1.heap p).status ≠ Status.REJECTED) →
      firstRejected A1 = none := by
    intro hno
    rw [firstRejected_none]
    intro x hx
    have hx1 : x ∈ A1 ++ B1 ++ C1 := by simp [hx]
    have hs := r1.seen x hx1
    cases hxo : x.outcome with
    | resolve v => exact ⟨v, rfl⟩
    | reject r =>
      rw [hxo] at hs
      exact absurd ((outcome_reject w1 _ r).mp hs.2).1 (hno _ (mem_of_index hs.1))
  refine ⟨c1, w1, e1, ?_, ?_, w2, e2, t1, ?_, ?_⟩
  · rintro ⟨p, hp, hpf⟩ hagg
    have hst := r3.status
    cases hfr : firstRejected A1 with
    | some r =>
      rw [hfr] at hst
      rw [hst] at hagg
      simp [PromiseState.rejectedWith] at hagg
    | none =>
      rw [hfr] at hst
      split_ifs at hst with hc
      · -- all inputs are counted: `p` is among them
        have hAB : (A1 ++ B1).length = ps.length := by
          simp only [List.length_append]
          omega
        have hC : C1 = [] := List.length_eq_zero.mp (by omega)
        subst hC
        rcases plumb_outcome _ w1 A1 B1 [] r1 p hp with ⟨a, b⟩ | ⟨x, hx, hxp, a⟩
        · obtain ⟨i, hi, hip⟩ := index_of_mem hp
          have hni : i ∉ (A1 ++ B1 ++ []).map Seen.index := by
            intro hm
            obtain ⟨x, hx, hxi⟩ := List.mem_map.mp hm
            have := (r1.seen x hx).1
            rw [hxi] at this
            exact b x hx (Option.some.inj (this.symm.trans hip))
          have := nodup_length_lt _ ps.length i r1.nodup (by
            intro j hj
            obtain ⟨x, hx, rfl⟩ := List.mem_map.mp hj
            exact plumb_index_lt _ w1 _ _ _ r1 x hx) hi hni
          simp at this
          omega
        · simp only [List.append_nil] at hx
          cases hxo : x.outcome with
          | resolve v =>
            rw [hxo] at a
            exact hpf ((outcome_resolve w1 p v).mp a).1
          | reject r =>
            have := fulfilledCount_lt (A1 ++ B1) x r hx hxo
            omega
      · rw [hst] at hagg
        simp [PromiseState.fresh] at hagg
  · rintro ⟨p, hp, hpp⟩ hno
    have hst := r3.status
    rw [hnotrej hno] at hst
    obtain ⟨i, hi, hip⟩ := index_of_mem hp
    have hni : i ∉ (A1 ++ B1 ++ C1).map Seen.index := by
      intro hm
      obtain ⟨x, hx, hxi⟩ := List.mem_map.mp hm
      have h1 := r1.seen x hx
      rw [hxi] at h1
      have hxp : x.input = p := Option.some.inj (h1.1.symm.trans hip)
      rw [hxp, (outcome_none w1 p).mpr hpp] at h1
      exact absurd h1.2 (by simp)
    have := nodup_length_lt _ ps.length i r1.nodup (by
      intro j hj
      obtain ⟨x, hx, rfl⟩ := List.mem_map.mp hj
      exact plumb_index_lt _ w1 _ _ _ r1 x hx) hi hni
    simp only [List.length_map, List.length_append] at this
    rw [if_neg (by omega)] at hst
    rw [hst]
    rfl
  · intro p hp
    exact plumb_outcome_eq _ w1 w2 _ _ _ _ _ _ r1 t2 (by simp [r4]) p hp
  · intro hall
    obtain ⟨hcl, hcov⟩ := plumb_covers _ w2 _ _ _ t2 (fun p hp => by
      rw [hall p hp]
      simp)
    simp only [List.append_nil] at hcl hcov
    have hcl : (observe ps (seenAtCall w 0 ps) acts).length = ps.length := hcl
    have hcov : ∀ i p, ps[i]? = some p →
        ∃ x ∈ observe ps (seenAtCall w 0 ps) acts, x.index = i ∧ x.input = p := hcov
    have hval : ∀ x ∈ observe ps (seenAtCall w 0 ps) acts,
        x.outcome = Settle.resolve (w2.heap x.input).value := by
      intro x hx
      have hs := t2.seen x (by simpa using hx)
      have hst := hall x.input (mem_of_index hs.1)
      rw [← Option.some.injEq, ← hs.2]
      simp [World.outcome, hst]
    have hst := t3.status
    rw [(firstRejected_none _).mpr (fun x hx => ⟨_, hval x hx⟩)] at hst
    simp only [List.append_nil] at hst
    rw [fulfilledCount_full _ (fun x hx => ⟨_, hval x hx⟩), if_pos hcl] at hst
    refine ⟨by rw [World.fulfilledWith, hst]; exact ⟨rfl, rfl⟩, ?_⟩
    apply List.ext_getElem?
    intro i
    by_cases hi : i < ps.length
    · obtain ⟨x, hx, hxi, hxp⟩ := hcov i (ps[i]) (List.getElem?_eq_getElem hi)
      have := t3.entries x (by simpa using hx) _ (hval x hx)
      rw [hxi, hxp] at this
      rw [this]
      simp [List.getElem?_map, List.getElem?_eq_getElem hi]
    · have h1 : (w2.arrays w.nextCell)[i]? = none :=
        List.getElem?_eq_none (by have := t3.short; omega)
      rw [h1]
      simp [List.getElem?_map, List.getElem?_eq_none (Nat.le_of_not_lt hi)]

/-- C14, as stated, fails: input 1 is rejected with "b", then input 0 with "a", and
then `Promise.all([p0, p1])` is called.  Once the queue is drained the aggregate is
rejected with "a", the reason of the input that rejected second. -/
theorem all_first_rejection_counterexample :
    (settleReject 1 (Val.str "b") exampleTwoDeferred).rejectedWith 1 (Val.str "b") ∧
    (settleReject 1 (Val.str "b") exampleTwoDeferred).heap 0 = PromiseState.fresh ∧
    exampleBothRejected.rejectedWith 0 (Val.str "a") ∧
    (all [Val.promise 0, Val.promise 1] exampleBothRejected).1 = 2 ∧
    (Option.map (fun w => ((w.heap 2).status, (w.heap 2).reason))
      (drain 9 (all [Val.promise 0, Val.promise 1] exampleBothRejected).2))
      = some (Status.REJECTED, Val.str "a") := by
  refine ⟨?_, rfl, ?_, rfl, ?_⟩ <;> decide

/-- C14 amended: let the inputs `ps` be any list of existing promises, pending or
settled, repeated or not, the pending ones without callbacks, the queue empty, and
`agg = Promise.all(ps)`; after the call settlement closures of inputs are called and
timers run in any order.  `Promise.all` sees the inputs settled in this order: first
those already settled at the call, in input order, then the others in the order of
the settlement calls.  If `r` is the reason of the first rejection in that order, then
after any such acts, and whatever is done afterwards (`more`), the run ends, draining
the queue ends, and `agg` is rejected with `r`. -/
theorem all_rejects_with_first_reason (w : World) (ps : List Nat) (acts : List Act)
    (fuel : Nat) (r : Val) (hq : QuietInputs w ps)
    (hr : firstRejected (observe ps (seenAtCall w 0 ps) acts) = some r) :
    (all (ps.map Val.promise) w).1 = w.nextId ∧
    ∀ more : List Act, ∃ w1 w2,
      runActs (fuel + 1) ps (acts ++ more) (all (ps.map Val.promise) w).2 = some w1 ∧
      drain (2 * ps.length + fuel + 1) w1 = some w2 ∧
      w2.rejectedWith w.nextId r := by
  have hn : ps ≠ [] := by
    intro h
    subst h
    rw [observe_nil] at hr
    simp [seenAtCall, firstRejected] at hr
  obtain ⟨c1, -, -, -⟩ := all_call w ps hn hq
  refine ⟨c1, ?_⟩
  intro more
  obtain ⟨w1, A1, B1, C1, e1, r1, r3, r4, w2, e2, t1, t2, t3⟩ :=
    all_run w ps (acts ++ more) fuel hn hq
  refine ⟨w1, w2, e1, e2, ?_⟩
  have hst := t3.status
  have hfr : firstRejected (observe ps (seenAtCall w 0 ps) (acts ++ more)) = some r := by
    rw [observe_append]
    obtain ⟨ext, he⟩ := observe_extends ps more (observe ps (seenAtCall w 0 ps) acts)
    rw [he, firstRejected_append, hr]
  rw [hfr] at hst
  rw [World.rejectedWith, hst]
  exact ⟨rfl, rfl⟩

theorem exampleTwoDeferred_quiet : QuietInputs exampleTwoDeferred [0, 1] := by
  refine ⟨rfl, ?_⟩
  intro p hp
  simp only [List.mem_cons, List.mem_singleton, List.not_mem_nil, or_false] at hp
  rcases hp with rfl | rfl <;> exact ⟨by decide, fun _ => ⟨rfl, rfl⟩⟩

theorem exampleBothRejected_quiet : QuietInputs exampleBothRejected [0, 1] := by
  refine ⟨rfl, ?_⟩
  intro p hp
  simp only [List.mem_cons, List.mem_singleton, List.not_mem_nil, or_false] at hp
  rcases hp with rfl | rfl <;> exact ⟨by decide, fun _ => ⟨rfl, rfl⟩⟩

/-- The witness of C13: `Promise.all([p0, p1])` on two pending deferreds, then
`d1.resolve(20)`, a timer run, `d0.resolve(10)`. -/
theorem all_fulfils_in_input_order_witness :
    ∃ w1, runActs 1 [0, 1]
        [Act.settle 1 (Settle.resolve (Val.num 20)), Act.tick,
          Act.settle 0 (Settle.resolve (Val.num 10))]
        (all [Val.promise 0, Val.promise 1] exampleTwoDeferred).2 = some w1 ∧
      ∃ w2, drain 5 w1 = some w2 ∧ w2.timers = [] ∧
        ((∀ p ∈ [0, 1], (w2.heap p).status = Status.FULFILLED) →
          w2.fulfilledWith 2 (Val.array 0) ∧
          w2.arrays 0 = [0, 1].map (fun p => some (w2.heap p).value)) := by
  obtain ⟨-, w1, e1, -, -, w2, e2, t1, -, t3⟩ :=
    all_fulfils_in_input_order exampleTwoDeferred [0, 1]
      [Act.settle 1 (Settle.resolve (Val.num 20)), Act.tick,
        Act.settle 0 (Settle.resolve (Val.num 10))] 0 (by simp) exampleTwoDeferred_quiet
  exact ⟨w1, e1, w2, e2, t1, t3⟩

/-- The witness of C14 amended: both inputs are rejected before the call, input 1
first; the first rejection `Promise.all` sees is that of input 0. -/
theorem all_rejects_with_first_reason_witness :
    firstRejected (observe [0, 1] (seenAtCall exampleBothRejected 0 [0, 1]) [])
      = some (Val.str "a") ∧
    ∃ w1 w2, runActs 1 [0, 1] [Act.tick]
        (all [Val.promise 0, Val.promise 1] exampleBothRejected).2 = some w1 ∧
      drain 5 w1 = some w2 ∧ w2.rejectedWith 2 (Val.str "a") :=
  ⟨by decide, (all_rejects_with_first_reason exampleBothRejected [0, 1] [] 0 (Val.str "a")
    exampleBothRejected_quiet (by decide)).2 [Act.tick]⟩

/-! ## `Promise.any` under any schedule -/

theorem rejectionCount_append (a b : List Seen) :
    rejectionCount (a ++ b) = rejectionCount a + rejectionCount b := by
  induction a with
  | nil => simp [rejectionCount]
  | cons x rest ih =>
    rw [List.cons_append]
    cases h : x.outcome with
    | reject r =>
      simp only [rejectionCount, h, ih]
      omega
    | resolve v => simp only [rejectionCount, h, ih]

theorem rejectionCount_le (a : List Seen) : rejectionCount a ≤ a.length := by
  induction a with
  | nil => simp [rejectionCount]
  | cons x rest ih =>
    cases h : x.outcome with
    | reject r => simpa [rejectionCount, h] using ih
    | resolve v =>
      simp only [rejectionCount, h, List.length_cons]
      omega

theorem rejectionCount_lt (a : List Seen) (y : Seen) (v : Val) (hy : y ∈ a)
    (hv : y.outcome = Settle.resolve v) : rejectionCount a < a.length := by
  induction a with
  | nil => simp at hy
  | cons x rest ih =>
    rcases List.mem_cons.mp hy with rfl | hy
    · have := rejectionCount_le rest
      simp only [rejectionCount, hv, List.length_cons]
      omega
    · have := ih hy
      cases h : x.outcome with
      | reject r =>
        simp only [rejectionCount, h, List.length_cons]
        omega
      | resolve u =>
        simp only [rejectionCount, h, List.length_cons]
        omega

theorem rejectionCount_full (a : List Seen) (h : ∀ x ∈ a, ∃ r, x.outcome = Settle.reject r) :
    rejectionCount a = a.length := by
  induction a with
  | nil => rfl
  | cons x rest ih =>
    obtain ⟨r, hr⟩ := h x (List.mem_cons_self _ _)
    simp [rejectionCount, hr, ih (fun z hz => h z (List.mem_cons_of_mem _ hz))]

theorem recordAndReject_frame (cell i n agg : Nat) (data : Val) (w : World) :
    (recordAndReject cell i n agg data w).nextId = w.nextId ∧
    (recordAndReject cell i n agg data w).thenOf = w.thenOf := by
  simp only [recordAndReject, settleReject, forEachCall_eq, World.record]
  split_ifs <;> exact ⟨rfl, rfl⟩

theorem anySteps (ps : List Nat) (agg cell : Nat) :
    Steps (anyPipes ps agg cell) (AnyState ps agg cell) where
  congr := by
    intro w w1 A B hag hs
    obtain ⟨a1, a2, -, -, a5⟩ := hag
    have hagg : w1.heap agg = w.heap agg := a5 agg (Or.inl rfl)
    exact ⟨by rw [a1]; exact hs.count, by rw [a2]; exact hs.entries,
      by rw [a2]; exact hs.short, by rw [hagg]; exact hs.status⟩
  thenFulfilled := by
    intro w A B C x v hpl hs hxo
    have hlen : (A ++ B ++ x :: C).length ≤ ps.length := plumb_length_le _ w _ _ _ hpl
    simp only [List.length_append, List.length_cons] at hlen
    have hR := rejectionCount_le A
    have hagg : w.heap agg = PromiseState.pendingWith [] [] ∨
        (w.heap agg).status ≠ Status.PENDING := by
      have := hs.status
      cases hff : firstFulfilled (A ++ B) with
      | some u =>
        rw [hff] at this
        right
        rw [this]
        simp [PromiseState.fulfilledWith]
      | none =>
        rw [hff] at this
        rw [if_neg (by omega)] at this
        left
        exact this
    obtain ⟨f1, f2, f3, f4, f5, f6⟩ := settleResolve_facts agg v w hagg
    obtain ⟨f7, f8⟩ := settleResolve_frame agg v w
    refine ⟨Completion.normal Val.undefined, settleResolve agg v w, rfl,
      ⟨f1, f7, by rw [f8], fun k hk _ => f2 k hk⟩, fun _ => rfl,
      fun e he => absurd he (by simp [anyPipes]), ?_⟩
    refine ⟨by rw [f3]; exact hs.count, by rw [f4]; exact hs.entries,
      by rw [f4]; exact hs.short, ?_⟩
    have hst := hs.status
    rw [← List.append_assoc, firstFulfilled_append]
    cases hff : firstFulfilled (A ++ B) with
    | some u =>
      rw [hff] at hst
      simp only []
      rw [f5 (by rw [hst]; simp [PromiseState.fulfilledWith])]
      exact hst
    | none =>
      rw [hff] at hst
      rw [if_neg (by omega)] at hst
      simp only [firstFulfilled, hxo]
      exact f6 hst
  thenRejected := by
    intro w A B C x r hpl hs hxo
    refine ⟨hs.count, hs.entries, hs.short, ?_⟩
    have hff : firstFulfilled (A ++ (B ++ [x])) = firstFulfilled (A ++ B) := by
      rw [← List.append_assoc, firstFulfilled_append]
      cases firstFulfilled (A ++ B) <;> simp [firstFulfilled, hxo]
    rw [hff]
    exact hs.status
  catchFulfilled := by
    intro w A B C y u hpl hs ho
    have hyo : ∃ v, y.outcome = Settle.resolve v := by
      cases h : y.outcome with
      | resolve v => exact ⟨v, rfl⟩
      | reject r =>
        rw [h] at ho
        simp [Pipes.thenOutcome] at ho
    obtain ⟨v, hv⟩ := hyo
    have e : A ++ [y] ++ B = A ++ y :: B := by simp
    have hcnt : rejectionCount (A ++ [y]) = rejectionCount A := by
      rw [rejectionCount_append]
      simp [rejectionCount, hv]
    refine ⟨by rw [hcnt]; exact hs.count, ?_, hs.short, ?_⟩
    · intro z hz r hr
      rcases List.mem_append.mp hz with hz | hz
      · exact hs.entries z hz r hr
      · rw [List.mem_singleton] at hz
        subst hz
        rw [hv] at hr
        exact absurd hr (by simp)
    · rw [hcnt, e]
      exact hs.status
  catchRejected := by
    intro w A B C y e hpl hs ho
    have hyo : y.outcome = Settle.reject e := by
      cases h : y.outcome with
      | resolve v =>
        rw [h] at ho
        simp [Pipes.thenOutcome, anyPipes] at ho
      | reject r =>
        rw [h] at ho
        simp only [Pipes.thenOutcome] at ho
        rw [ho]
    have hlen : (A ++ y :: B ++ C).length ≤ ps.length := plumb_length_le _ w _ _ _ hpl
    simp only [List.length_append, List.length_cons] at hlen
    have hR := rejectionCount_le A
    have hyi : y.index < ps.length := plumb_index_lt _ w _ _ _ hpl y (by simp)
    have hnd := nodup_mid A (B ++ C) y (by simpa using hpl.nodup)
    have hagg : w.heap agg = PromiseState.pendingWith [] [] ∨
        (w.heap agg).status ≠ Status.PENDING := by
      have := hs.status
      cases hff : firstFulfilled (A ++ y :: B) with
      | some u =>
        rw [hff] at this
        right
        rw [this]
        simp [PromiseState.fulfilledWith]
      | none =>
        rw [hff] at this
        rw [if_neg (by omega)] at this
        left
        exact this
    obtain ⟨f1, f2, f3, f4, f5, f6⟩ := recordAndReject_facts cell y.index ps.length agg e w hagg
    obtain ⟨f7, f8⟩ := recordAndReject_frame cell y.index ps.length agg e w
    refine ⟨Completion.normal Val.undefined, recordAndReject cell y.index ps.length agg e w,
      rfl, ⟨f1, f8, by rw [f7], fun k hk _ => f2 k hk⟩, rfl, ?_⟩
    have hcnt : rejectionCount (A ++ [y]) = rejectionCount A + 1 := by
      rw [rejectionCount_append]
      simp [rejectionCount, hyo]
    have e2 : A ++ [y] ++ B = A ++ y :: B := by simp
    constructor
    · rw [f3, hs.count, hcnt]
    · intro z hz r hr
      rw [f4]
      rcases List.mem_append.mp hz with hz | hz
      · have hne : z.index ≠ y.index := by
          intro hh
          apply hnd.1
          rw [← hh]
          exact List.mem_map_of_mem _ hz
        exact setIndex_get_of_some _ _ _ _ _ (hs.entries z hz r hr) hne
      · rw [List.mem_singleton] at hz
        subst hz
        rw [hyo] at hr
        injection hr with hr
        rw [← hr]
        exact setIndex_get_self _ _ _
    · rw [f4]
      exact setIndex_length_le _ _ _ _ hs.short hyi
    · have hst := hs.status
      rw [e2, hcnt]
      cases hff : firstFulfilled (A ++ y :: B) with
      | some u =>
        rw [hff] at hst
        simp only []
        rw [f5 (Or.inl (by rw [hst]; simp [PromiseState.fulfilledWith]))]
        exact hst
      | none =>
        rw [hff] at hst
        simp only []
        rw [if_neg (by omega)] at hst
        by_cases hlast : rejectionCount A + 1 = ps.length
        · rw [if_pos hlast]
          exact f6 hst (by rw [hs.count]; exact hlast)
        · rw [if_neg hlast, f5 (Or.inr (by rw [hs.count]; exact hlast))]
          exact hst

theorem any_call (w : World) (ps : List Nat) (hn : ps ≠ []) (hq : QuietInputs w ps) :
    (any (ps.map Val.promise) w).1 = w.nextId ∧
    Plumb (anyPipes ps w.nextId w.nextCell) (any (ps.map Val.promise) w).2 [] []
      (seenAtCall w 0 ps) ∧
    Queued (anyPipes ps w.nextId w.nextCell) (any (ps.map Val.promise) w).2 []
      (seenAtCall w 0 ps) ∧
    AnyState ps w.nextId w.nextCell (any (ps.map Val.promise) w).2 [] [] := by
  obtain ⟨hq1, hq2⟩ := hq
  have hb : ∀ p ∈ (anyPipes ps w.nextId w.nextCell).ps, p < (anyPipes ps w.nextId w.nextCell).agg :=
    fun p hp => (hq2 p hp).1
  obtain ⟨wf, hloop, hreg⟩ := register_loop (anyPipes ps w.nextId w.nextCell)
    (newPromise w).2.newCell hb ps [] (newPromise w).2.newCell rfl
    (registered_start _ _ rfl)
  have hall : any (ps.map Val.promise) w = (w.nextId, wf) := by
    simp only [any, List.length_map]
    exact congrArg (finishConstruct w.nextId) hloop
  have hheap : ∀ p ∈ ps, (newPromise w).2.newCell.heap p = w.heap p := by
    intro p hp
    have := (hq2 p hp).1
    simp [newPromise, World.newCell, Function.update_noteq (Nat.ne_of_lt this)]
  obtain ⟨p1, p2⟩ := plumb_of_registered _ _ wf hreg hb hq1
    (fun p hp => by rw [hheap p hp]; exact (hq2 p hp).2)
  have hsc : seenAtCall (newPromise w).2.newCell 0 (anyPipes ps w.nextId w.nextCell).ps
      = seenAtCall w 0 ps :=
    seenAtCall_congr w _ ps 0 (fun p hp => outcome_congr w _ p (hheap p hp))
  rw [hsc] at p1 p2
  rw [hall]
  refine ⟨rfl, p1, p2, ?_⟩
  obtain ⟨a, b, c, -, -, -⟩ := hreg.frame
  have hlen : 0 < ps.length := List.length_pos.mpr hn
  constructor
  · show wf.counts w.nextCell = _
    rw [b]
    simp [newPromise, World.newCell, rejectionCount]
  · intro x hx
    simp at hx
  · show (wf.arrays w.nextCell).length ≤ _
    rw [c]
    simp [newPromise, World.newCell]
  · simp only [firstFulfilled, List.append_nil, rejectionCount]
    rw [if_neg (by omega)]
    show wf.heap w.nextId = _
    have a1 : wf.heap w.nextId = (newPromise w).2.newCell.heap w.nextId := a
    rw [a1]
    simp [newPromise, World.newCell]

theorem any_run (w : World) (ps : List Nat) (acts : List Act) (fuel : Nat) (hn : ps ≠ [])
    (hq : QuietInputs w ps) :
    ∃ w1 A1 B1 C1, runActs (fuel + 1) ps acts (any (ps.map Val.promise) w).2 = some w1 ∧
      Plumb (anyPipes ps w.nextId w.nextCell) w1 A1 B1 C1 ∧
      AnyState ps w.nextId w.nextCell w1 A1 B1 ∧
      A1 ++ B1 ++ C1 = observe ps (seenAtCall w 0 ps) acts ∧
      ∃ w2, drain (2 * ps.length + fuel + 1) w1 = some w2 ∧ w2.timers = [] ∧
        Plumb (anyPipes ps w.nextId w.nextCell) w2 (observe ps (seenAtCall w 0 ps) acts)
          [] [] ∧
        AnyState ps w.nextId w.nextCell w2 (observe ps (seenAtCall w 0 ps) acts) [] := by
  obtain ⟨-, c2, c3, c4⟩ := any_call w ps hn hq
  exact run_and_drain _ _ (anySteps ps w.nextId w.nextCell) fuel acts _ _ c2 c3 c4

theorem any_rejected_inputs (ps : List Nat) (agg cell : Nat) (w : World) (A B C : List Seen)
    (hpl : Plumb (anyPipes ps agg cell) w A B C) (hs : AnyState ps agg cell w A B)
    (hagg : (w.heap agg).status = Status.REJECTED) :
    ∀ p ∈ ps, (w.heap p).status = Status.REJECTED := by
  have hlen : (A ++ B ++ C).length ≤ ps.length := plumb_length_le _ w _ _ _ hpl
  simp only [List.length_append] at hlen
  have hR := rejectionCount_le A
  have hst := hs.status
  cases hff : firstFulfilled (A ++ B) with
  | some v =>
    rw [hff] at hst
    rw [hst] at hagg
    simp [PromiseState.fulfilledWith] at hagg
  | none =>
    rw [hff] at hst
    split_ifs at hst with hc
    · have hB : B = [] := List.length_eq_zero.mp (by omega)
      have hC : C = [] := List.length_eq_zero.mp (by omega)
      subst hB hC
      intro p hp
      rcases plumb_outcome _ w A [] [] hpl p hp with ⟨a, b⟩ | ⟨x, hx, hxp, a⟩
      · obtain ⟨i, hi, hip⟩ := index_of_mem hp
        have hni : i ∉ (A ++ [] ++ []).map Seen.index := by
          intro hm
          obtain ⟨x, hx, hxi⟩ := List.mem_map.mp hm
          have := (hpl.seen x hx).1
          rw [hxi] at this
          exact b x hx (Option.some.inj (this.symm.trans hip))
        have := nodup_length_lt _ ps.length i hpl.nodup (by
          intro j hj
          obtain ⟨x, hx, rfl⟩ := List.mem_map.mp hj
          exact plumb_index_lt _ w _ _ _ hpl x hx) hi hni
        simp at this
        omega
      · simp only [List.append_nil] at hx
        cases hxo : x.outcome with
        | reject r =>
          rw [hxo] at a
          exact ((outcome_reject w p r).mp a).1
        | resolve v =>
          have := rejectionCount_lt A x v hx hxo
          omega
    · rw [hst] at hagg
      simp [PromiseState.fresh] at hagg

/-- C18, as stated, fails: input 1 is fulfilled with 2, then input 0 with 1, and then
`Promise.any([p0, p1])` is called.  Once the queue is drained the aggregate is
fulfilled with 1, the value of the input that fulfilled second. -/
theorem any_first_fulfilment_counterexample :
    (settleResolve 1 (Val.num 2) exampleTwoDeferred).fulfilledWith 1 (Val.num 2) ∧
    (settleResolve 1 (Val.num 2) exampleTwoDeferred).heap 0 = PromiseState.fresh ∧
    exampleBothFulfilled.fulfilledWith 0 (Val.num 1) ∧
    (any [Val.promise 0, Val.promise 1] exampleBothFulfilled).1 = 2 ∧
    (Option.map (fun w => ((w.heap 2).status, (w.heap 2).value))
      (drain 9 (any [Val.promise 0, Val.promise 1] exampleBothFulfilled).2))
      = some (Status.FULFILLED, Val.num 1) := by
  refine ⟨?_, rfl, ?_, rfl, ?_⟩ <;> decide

/-- C18 amended: let the inputs `ps` be any non-empty list of existing promises,
pending or settled, repeated or not, the pending ones without callbacks, the queue
empty, and `agg = Promise.any(ps)`; after the call settlement closures of inputs are
called and timers run in any order (`acts`).  The run ends, and draining the queue
then ends and leaves the inputs as they are.  (1) `agg` is rejected only if every
input is rejected, and once the queue is drained it is rejected if and only if every
input is rejected, its reason then being the array of the reasons of the inputs in
input order.  (2) `Promise.any` sees the inputs settled in this order: first those
already settled at the call, in input order, then the others in the order of the
settlement calls.  If an input is fulfilled, `agg` is fulfilled with the value of the
first fulfilment in that order, whatever is rejected before it and whatever is done
afterwards (`more`). -/
theorem any_rejects_iff_all_reject (w : World) (ps : List Nat) (acts : List Act)
    (fuel : Nat) (hn : ps ≠ []) (hq : QuietInputs w ps) :
    (any (ps.map Val.promise) w).1 = w.nextId ∧
    (∃ w1, runActs (fuel + 1) ps acts (any (ps.map Val.promise) w).2 = some w1 ∧
      ((w1.heap w.nextId).status = Status.REJECTED →
        ∀ p ∈ ps, (w1.heap p).status = Status.REJECTED) ∧
      ∃ w2, drain (2 * ps.length + fuel + 1) w1 = some w2 ∧ w2.timers = [] ∧
        (∀ p ∈ ps, w2.outcome p = w1.outcome p) ∧
        ((w2.heap w.nextId).status = Status.REJECTED ↔
          ∀ p ∈ ps, (w2.heap p).status = Status.REJECTED) ∧
        ((∀ p ∈ ps, (w2.heap p).status = Status.REJECTED) →
          w2.rejectedWith w.nextId (Val.array w.nextCell) ∧
          w2.arrays w.nextCell = ps.map (fun p => some (w2.heap p).reason)) ∧
        ((∃ p ∈ ps, (w2.heap p).status = Status.FULFILLED) →
          ∃ v, firstFulfilled (observe ps (seenAtCall w 0 ps) acts) = some v ∧
            w2.fulfilledWith w.nextId v)) ∧
    (∀ v, firstFulfilled (observe ps (seenAtCall w 0 ps) acts) = some v →
      ∀ more : List Act, ∃ w3 w4,
        runActs (fuel + 1) ps (acts ++ more) (any (ps.map Val.promise) w).2 = some w3 ∧
        drain (2 * ps.length + fuel + 1) w3 = some w4 ∧
        w4.fulfilledWith w.nextId v) := by
  obtain ⟨c1, -, -, -⟩ := any_call w ps hn hq
  obtain ⟨w1, A1, B1, C1, e1, r1, r3, r4, w2, e2, t1, t2, t3⟩ := any_run w ps acts fuel hn hq
  refine ⟨c1, ⟨w1, e1, any_rejected_inputs ps _ _ w1 A1 B1 C1 r1 r3, w2, e2, t1, ?_, ?_, ?_, ?_⟩,
    ?_⟩
  · intro p hp
    exact plumb_outcome_eq _ w1 w2 _ _ _ _ _ _ r1 t2 (by simp [r4]) p hp
  · constructor
    · exact any_rejected_inputs ps _ _ w2 _ [] [] t2 t3
    · intro hall
      obtain ⟨hcl, hcov⟩ := plumb_covers _ w2 _ _ _ t2 (fun p hp => by
        rw [hall p hp]
        simp)
      simp only [List.append_nil] at hcl
      have hcl : (observe ps (seenAtCall w 0 ps) acts).length = ps.length := hcl
      have hval : ∀ x ∈ observe ps (seenAtCall w 0 ps) acts,
          x.outcome = Settle.reject (w2.heap x.input).reason := by
        intro x hx
        have hs := t2.seen x (by simpa using hx)
        have hst := hall x.input (mem_of_index hs.1)
        rw [← Option.some.injEq, ← hs.2]
        simp [World.outcome, hst]
      have hst := t3.status
      simp only [List.append_nil] at hst
      rw [(firstFulfilled_none _).mpr (fun x hx => ⟨_, hval x hx⟩)] at hst
      simp only [] at hst
      rw [rejectionCount_full _ (fun x hx => ⟨_, hval x hx⟩), if_pos hcl] at hst
      rw [hst]
      rfl
  · intro hall
    obtain ⟨hcl, hcov⟩ := plumb_covers _ w2 _ _ _ t2 (fun p hp => by
      rw [hall p hp]
      simp)
    simp only [List.append_nil] at hcl hcov
    have hcl : (observe ps (seenAtCall w 0 ps) acts).length = ps.length := hcl
    have hcov : ∀ i p, ps[i]? = some p →
        ∃ x ∈ observe ps (seenAtCall w 0 ps) acts, x.index = i ∧ x.input = p := hcov
    have hval : ∀ x ∈ observe ps (seenAtCall w 0 ps) acts,
        x.outcome = Settle.reject (w2.heap x.input).reason := by
      intro x hx
      have hs := t2.seen x (by simpa using hx)
      have hst := hall x.input (mem_of_index hs.1)
      rw [← Option.some.injEq, ← hs.2]
      simp [World.outcome, hst]
    have hst := t3.status
    simp only [List.append_nil] at hst
    rw [(firstFulfilled_none _).mpr (fun x hx => ⟨_, hval x hx⟩)] at hst
    simp only [] at hst
    rw [rejectionCount_full _ (fun x hx => ⟨_, hval x hx⟩), if_pos hcl] at hst
    refine ⟨by rw [World.rejectedWith, hst]; exact ⟨rfl, rfl⟩, ?_⟩
    apply List.ext_getElem?
    intro i
    by_cases hi : i < ps.length
    · obtain ⟨x, hx, hxi, hxp⟩ := hcov i (ps[i]) (List.getElem?_eq_getElem hi)
      have := t3.entries x hx _ (hval x hx)
      rw [hxi, hxp] at this
      rw [this]
      simp [List.getElem?_map, List.getElem?_eq_getElem hi]
    · have h1 : (w2.arrays w.nextCell)[i]? = none :=
        List.getElem?_eq_none (by have := t3.short; omega)
      rw [h1]
      simp [List.getElem?_map, List.getElem?_eq_none (Nat.le_of_not_lt hi)]
  · rintro ⟨p, hp, hpf⟩
    rcases plumb_outcome _ w2 _ [] [] t2 p hp with ⟨a, -⟩ | ⟨x, hx, hxp, a⟩
    · rw [(outcome_none w2 p).mp a] at hpf
      exact absurd hpf (by simp)
    · simp only [List.append_nil] at hx
      have hxo : ∃ u, x.outcome = Settle.resolve u := by
        cases hxo : x.outcome with
        | resolve u => exact ⟨u, rfl⟩
        | reject r =>
          rw [hxo] at a
          rw [((outcome_reject w2 p r).mp a).1] at hpf
          exact absurd hpf (by simp)
      obtain ⟨u, hu⟩ := hxo
      cases hff : firstFulfilled (observe ps (seenAtCall w 0 ps) acts) with
      | none =>
        obtain ⟨r, hr⟩ := (firstFulfilled_none _).mp hff x hx
        rw [hu] at hr
        exact absurd hr (by simp)
      | some v =>
        refine ⟨v, rfl, ?_⟩
        have hst := t3.status
        simp only [List.append_nil] at hst
        rw [hff] at hst
        rw [World.fulfilledWith, hst]
        exact ⟨rfl, rfl⟩
  · intro v hv more
    obtain ⟨w3, A3, B3, C3, e3, -, -, -, w4, e4, -, -, t5⟩ :=
      any_run w ps (acts ++ more) fuel hn hq
    refine ⟨w3, w4, e3, e4, ?_⟩
    have hst := t5.status
    simp only [List.append_nil] at hst
    have hff : firstFulfilled (observe ps (seenAtCall w 0 ps) (acts ++ more)) = some v := by
      rw [observe_append]
      obtain ⟨ext, he⟩ := observe_extends ps more (observe ps (seenAtCall w 0 ps) acts)
      rw [he, firstFulfilled_append, hv]
    rw [hff] at hst
    rw [World.fulfilledWith, hst]
    exact ⟨rfl, rfl⟩

theorem exampleBothFulfilled_quiet : QuietInputs exampleBothFulfilled [0, 1] := by
  refine ⟨rfl, ?_⟩
  intro p hp
  simp only [List.mem_cons, List.mem_singleton, List.not_mem_nil, or_false] at hp
  rcases hp with rfl | rfl <;> exact ⟨by decide, fun _ => ⟨rfl, rfl⟩⟩

/-- The witness of C18 amended: both inputs are fulfilled before the call, input 1
first; the first fulfilment `Promise.any` sees is that of input 0, with 1. -/
theorem any_rejects_iff_all_reject_witness :
    firstFulfilled (observe [0, 1] (seenAtCall exampleBothFulfilled 0 [0, 1]) [])
      = some (Val.num 1) ∧
    ∃ w3 w4, runActs 1 [0, 1] [Act.tick]
        (any [Val.promise 0, Val.promise 1] exampleBothFulfilled).2 = some w3 ∧
      drain 5 w3 = some w4 ∧ w4.fulfilledWith 2 (Val.num 1) :=
  ⟨by decide, (any_rejects_iff_all_reject exampleBothFulfilled [0, 1] [] 0 (by simp)
    exampleBothFulfilled_quiet).2.2 (Val.num 1) (by decide) [Act.tick]⟩

/-! ## `Promise.allSettled` under any schedule -/

theorem thenGetterThrows_congr {w1 w2 : World} (h : w1.thenOf = w2.thenOf) (x : Val) :
    w1.thenGetterThrows x = w2.thenGetterThrows x := by
  cases x <;> simp [World.thenGetterThrows, h]

theorem hasCallableThen_congr {w1 w2 : World} (h : w1.thenOf = w2.thenOf) (x : Val) :
    w1.hasCallableThen x = w2.hasCallableThen x := by
  cases x <;> simp [World.hasCallableThen, h]

theorem thenRec_index (P : Pipes) (x : Seen) (r : Nat × Settle) (h : thenRec P x = some r) :
    r.1 = x.index := by
  unfold thenRec at h
  split at h
  · split at h
    · injection h with h
      rw [← h]
    · exact absurd h (by simp)
  · exact absurd h (by simp)

theorem catchRec_index (P : Pipes) (x : Seen) (r : Nat × Settle)
    (h : catchRec P x = some r) : r.1 = x.index := by
  unfold catchRec at h
  split at h
  · exact absurd h (by simp)
  · split at h
    · injection h with h
      rw [← h]
    · exact absurd h (by simp)

theorem thenRec_exclusive (P : Pipes) (x : Seen) (r : Nat × Settle)
    (h : thenRec P x = some r) : catchRec P x = none := by
  unfold thenRec at h
  split at h
  · rename_i v hv
    split at h
    · rename_i hn
      simp [catchRec, hv, Pipes.thenOutcome, hn]
    · exact absurd h (by simp)
  · exact absurd h (by simp)

theorem thenRec_of_rejected (P : Pipes) (x : Seen) (e : Val)
    (h : P.thenOutcome x.outcome = Settle.reject e) : thenRec P x = none := by
  cases hx : x.outcome with
  | reject r => simp [thenRec, hx]
  | resolve v =>
    rw [hx] at h
    cases ht : P.throws v with
    | none => simp [Pipes.thenOutcome, ht] at h
    | some g => simp [thenRec, hx, ht]

theorem catchRec_of_fulfilled (P : Pipes) (x : Seen) (u : Val)
    (h : P.thenOutcome x.outcome = Settle.resolve u) : catchRec P x = none := by
  simp [catchRec, h]

theorem records_then_none (P : Pipes) (A B : List Seen) (x : Seen)
    (h : thenRec P x = none) : records P A (B ++ [x]) = records P A B := by
  simp [records, List.filterMap_append, List.filterMap_cons, h]

theorem records_then_some (P : Pipes) (A B : List Seen) (x : Seen) (r : Nat × Settle)
    (h : thenRec P x = some r) :
    (records P A B ++ [r]).Perm (records P A (B ++ [x])) := by
  have e : records P A (B ++ [x]) =
      (A ++ B).filterMap (thenRec P) ++ ([r] ++ A.filterMap (catchRec P)) := by
    simp [records, List.filterMap_append, List.filterMap_cons, h]
  rw [e, records, List.append_assoc]
  exact List.Perm.append_left _ List.perm_append_comm

theorem records_cons_none (P : Pipes) (A B : List Seen) (y : Seen)
    (h : thenRec P y = none) : records P A (y :: B) = records P A B := by
  simp [records, List.filterMap_append, List.filterMap_cons, h]

theorem records_catch_none (P : Pipes) (A B : List Seen) (y : Seen)
    (h : catchRec P y = none) : records P (A ++ [y]) B = records P A (y :: B) := by
  simp [records, List.filterMap_append, List.filterMap_cons, h]

theorem records_catch_some (P : Pipes) (A B : List Seen) (y : Seen) (r : Nat × Settle)
    (h : catchRec P y = some r) :
    records P (A ++ [y]) B = records P A (y :: B) ++ [r] := by
  simp [records, List.filterMap_append, List.filterMap_cons, h]

theorem records_index (P : Pipes) (A B : List Seen) (r : Nat × Settle)
    (h : r ∈ records P A B) :
    ∃ z ∈ A ++ B, z.index = r.1 ∧ (thenRec P z = some r ∨ catchRec P z = some r) := by
  simp only [records, List.mem_append, List.mem_filterMap] at h
  rcases h with ⟨z, hz, hr⟩ | ⟨z, hz, hr⟩
  · exact ⟨z, List.mem_append.mpr hz, (thenRec_index P z r hr).symm, Or.inl hr⟩
  · exact ⟨z, List.mem_append.mpr (Or.inl hz), (catchRec_index P z r hr).symm, Or.inr hr⟩

theorem both_length_le (P : Pipes) (A : List Seen) :
    (A.filterMap (thenRec P)).length + (A.filterMap (catchRec P)).length ≤ A.length := by
  induction A with
  | nil => simp
  | cons x rest ih =>
    cases ht : thenRec P x with
    | none =>
      have := List.length_filterMap_le (catchRec P) (x :: rest)
      cases hc : catchRec P x with
      | none =>
        simp only [List.filterMap_cons, ht, hc, List.length_cons]
        omega
      | some r =>
        simp only [List.filterMap_cons, ht, hc, List.length_cons]
        omega
    | some r =>
      have hc := thenRec_exclusive P x r ht
      simp only [List.filterMap_cons, ht, hc, List.length_cons]
      omega

theorem records_length (P : Pipes) (A B : List Seen) :
    (records P A B).length ≤ A.length + B.length := by
  have h1 := both_length_le P A
  have h2 := List.length_filterMap_le (thenRec P) B
  simp only [records, List.filterMap_append, List.length_append]
  omega

theorem both_length_lt (P : Pipes) (A : List Seen) (x : Seen) (hx : x ∈ A)
    (ht : thenRec P x = none) (hc : catchRec P x = none) :
    (A.filterMap (thenRec P)).length + (A.filterMap (catchRec P)).length < A.length := by
  induction A with
  | nil => simp at hx
  | cons y rest ih =>
    rcases List.mem_cons.mp hx with rfl | hx
    · have := both_length_le P rest
      simp only [List.filterMap_cons, ht, hc, List.length_cons]
      omega
    · have h1 := ih hx
      have h2 := both_length_le P [y]
      have e : y :: rest = [y] ++ rest := rfl
      rw [e, List.filterMap_append, List.filterMap_append]
      simp only [List.length_append] at h2 ⊢
      omega

theorem both_length_full (P : Pipes) (A : List Seen)
    (h : ∀ x ∈ A, (∃ r, thenRec P x = some r) ∨ ∃ r, catchRec P x = some r) :
    (A.filterMap (thenRec P)).length + (A.filterMap (catchRec P)).length = A.length := by
  induction A with
  | nil => simp
  | cons x rest ih =>
    have ih := ih (fun z hz => h z (List.mem_cons_of_mem _ hz))
    rcases h x (List.mem_cons_self _ _) with ⟨r, hr⟩ | ⟨r, hr⟩
    · have hc := thenRec_exclusive P x r hr
      simp only [List.filterMap_cons, hr, hc, List.length_cons]
      omega
    · cases ht : thenRec P x with
      | none =>
        simp only [List.filterMap_cons, hr, ht, List.length_cons]
        omega
      | some r2 =>
        have hc := thenRec_exclusive P x r2 ht
        rw [hr] at hc
        exact absurd hc (by simp)

theorem wrapped_mono (w0 w w1 : World) (lo : Nat) (s : Settle) (d : Val)
    (hn : w.nextId ≤ w1.nextId) (hh : ∀ k, lo ≤ k → k < w.nextId → w1.heap k = w.heap k)
    (h : Wrapped w0 w lo s d) : Wrapped w0 w1 lo s d := by
  rcases h with h | ⟨h, k, hd, hk1, hk2, hk3⟩
  · exact Or.inl h
  · exact Or.inr ⟨h, k, hd, hk1, Nat.lt_of_lt_of_le hk2 hn, by rw [hh k hk1 hk2]; exact hk3⟩

theorem settledCore_perm (w0 : World) (ps : List Nat) (agg cell : Nat) (w : World)
    (R R2 : List (Nat × Settle)) (hp : R.Perm R2) (h : SettledCore w0 ps agg cell w R) :
    SettledCore w0 ps agg cell w R2 where
  table := h.table
  count := by rw [← hp.length_eq]; exact h.count
  entries := fun r hr => h.entries r (hp.mem_iff.mpr hr)
  short := h.short
  status := by rw [← hp.length_eq]; exact h.status

theorem settledCore_congr (w0 : World) (ps : List Nat) (agg cell : Nat) (w w1 : World)
    (R : List (Nat × Settle)) (hag : Agree (settledPipes w0 ps agg cell) w w1)
    (h : SettledCore w0 ps agg cell w R) : SettledCore w0 ps agg cell w1 R := by
  obtain ⟨a1, a2, a3, a4, a5⟩ := hag
  have hagg : w1.heap agg = w.heap agg := a5 agg (Or.inl rfl)
  refine ⟨a3.trans h.table, by rw [a1]; exact h.count, ?_, by rw [a2]; exact h.short,
    by rw [hagg]; exact h.status⟩
  intro r hr
  obtain ⟨d, hd, hw⟩ := h.entries r hr
  refine ⟨d, by rw [a2]; exact hd, ?_⟩
  exact wrapped_mono w0 w w1 _ _ _ (Nat.le_of_eq a4.symm) (fun k hk _ => a5 k (Or.inr hk)) hw

theorem settled_record (w0 : World) (ps : List Nat) (agg cell : Nat) (w wa : World)
    (R : List (Nat × Settle)) (i : Nat) (s : Settle) (d : Val)
    (hs : SettledCore w0 ps agg cell w R)
    (h1 : wa.thenOf = w.thenOf) (h2 : wa.counts = w.counts) (h3 : wa.arrays = w.arrays)
    (h4 : wa.timers = w.timers) (h5 : w.nextId ≤ wa.nextId)
    (h6 : ∀ k, k < w.nextId → wa.heap k = w.heap k) (hagg : agg < w.nextId)
    (hd : Wrapped w0 wa (agg + 1 + 2 * ps.length) s d)
    (hlt : R.length < ps.length) (hi : i < ps.length) (hne : ∀ r ∈ R, r.1 ≠ i) :
    Effect agg w (recordAndResolve cell i ps.length agg d wa) ∧
    SettledCore w0 ps agg cell (recordAndResolve cell i ps.length agg d wa)
      (R ++ [(i, s)]) := by
  have hst := hs.status
  rw [if_neg (by omega)] at hst
  have hfresh : wa.heap agg = PromiseState.pendingWith [] [] := by
    rw [h6 agg hagg]
    exact hst
  obtain ⟨f1, f2, f3, f4, f5, f6⟩ :=
    recordAndResolve_facts cell i ps.length agg d wa (Or.inl hfresh)
  obtain ⟨f7, f8⟩ := recordAndResolve_nextId cell i ps.length agg d wa
  refine ⟨⟨f1.trans h4, f8.trans h1, by rw [f7]; exact h5,
    fun k hk hkl => (f2 k hk).trans (h6 k hkl)⟩, ?_⟩
  refine ⟨(f8.trans h1).trans hs.table, ?_, ?_, ?_, ?_⟩
  · rw [f3, h2, hs.count]
    simp
  · intro r hr
    rcases List.mem_append.mp hr with hr | hr
    · obtain ⟨d2, hd2, hw2⟩ := hs.entries r hr
      refine ⟨d2, ?_, ?_⟩
      · rw [f4, h3]
        exact setIndex_get_of_some _ _ _ _ _ hd2 (hne r hr)
      · refine wrapped_mono w0 w _ _ _ _ (by rw [f7]; exact h5) ?_ hw2
        intro k hk hkl
        exact (f2 k (by omega)).trans (h6 k hkl)
    · rw [List.mem_singleton] at hr
      subst hr
      refine ⟨d, ?_, ?_⟩
      · rw [f4]
        exact setIndex_get_self _ _ _
      · refine wrapped_mono w0 wa _ _ _ _ (Nat.le_of_eq f7.symm) ?_ hd
        intro k hk _
        exact f2 k (by omega)
  · rw [f4, h3]
    exact setIndex_length_le _ _ _ _ hs.short hi
  · simp only [List.length_append, List.length_singleton]
    by_cases hlast : R.length + 1 = ps.length
    · rw [if_pos hlast]
      exact f6 hfresh (by rw [h2, hs.count]; exact hlast)
    · rw [if_neg hlast, f5 (Or.inr (by rw [h2, hs.count]; exact hlast)), h6 agg hagg]
      exact hst
theorem settledSteps (w0 : World) (ps : List Nat) (agg cell : Nat) :
    Steps (settledPipes w0 ps agg cell) (SettledState w0 ps agg cell) where
  congr := fun w w1 A B hag hs => settledCore_congr w0 ps agg cell w w1 _ hag hs
  thenFulfilled := by
    intro w A B C x v hpl hs hxo
    have hlen : (A ++ B ++ x :: C).length ≤ ps.length := plumb_length_le _ w _ _ _ hpl
    simp only [List.length_append, List.length_cons] at hlen
    have hyi : x.index < ps.length := plumb_index_lt _ w _ _ _ hpl x (by simp)
    have hnd := nodup_mid (A ++ B) C x hpl.nodup
    have hroom : agg + 1 + 2 * ps.length ≤ w.nextId := hpl.room
    have hRlen := records_length (settledPipes w0 ps agg cell) A B
    have hne : ∀ r ∈ records (settledPipes w0 ps agg cell) A B, r.1 ≠ x.index := by
      intro r hr hh
      obtain ⟨z, hz, hzi, -⟩ := records_index _ A B r hr
      apply hnd.1
      rw [← hh, ← hzi]
      exact List.mem_map_of_mem _ hz
    have hs2 : SettledCore w0 ps agg cell w (records (settledPipes w0 ps agg cell) A B) := hs
    rcases then_member_cases w0 v with ⟨hn, -, ht⟩ | ⟨-, hc, ht⟩ | ⟨-, -, g, ht⟩
    · have hT : hasThenFunction w v = Except.ok false :=
        (hasThenFunction_congr hs2.table v).trans (hasThenFunction_of_notThenable w0 v hn)
      have hrec : thenRec (settledPipes w0 ps agg cell) x = some (x.index, Settle.resolve v) := by
        simp [thenRec, hxo, settledPipes, ht]
      obtain ⟨e1, e2⟩ := settled_record w0 ps agg cell w
        { w with heap := (Function.update w.heap w.nextId
                   (PromiseState.fulfilledWith v [] [])),
                 nextId := w.nextId + 1 }
        _ x.index (Settle.resolve v) (Val.promise w.nextId) hs2 rfl rfl rfl rfl
        (Nat.le_succ _) (fun k hk => Function.update_noteq (Nat.ne_of_lt hk) _ _)
        (by omega)
        (Or.inr ⟨hn, w.nextId, rfl, hroom, Nat.lt_succ_self _, by simp [Settle.record]⟩)
        (by omega) hyi hne
      refine ⟨Completion.normal Val.undefined, _,
        callClosure_allSettledOnFulfilled cell x.index ps.length agg v w hT, e1,
        fun _ => rfl, ?_, ?_⟩
      · intro e he
        have he : w0.thenGetterThrows v = some e := he
        rw [ht] at he
        exact absurd he (by simp)
      · exact settledCore_perm _ _ _ _ _ _ _ (records_then_some _ A B x _ hrec) e2
    · have hT : hasThenFunction w v = Except.ok true :=
        (hasThenFunction_congr hs2.table v).trans (hasThenFunction_of_callable w0 v hc)
      have hrec : thenRec (settledPipes w0 ps agg cell) x = some (x.index, Settle.resolve v) := by
        simp [thenRec, hxo, settledPipes, ht]
      obtain ⟨e1, e2⟩ := settled_record w0 ps agg cell w w
        _ x.index (Settle.resolve v) v hs2 rfl rfl rfl rfl
        (Nat.le_refl _) (fun _ _ => rfl) (by omega) (Or.inl ⟨hc, rfl⟩)
        (by omega) hyi hne
      refine ⟨Completion.normal Val.undefined, _, ?_, e1, fun _ => rfl, ?_, ?_⟩
      · simp [settledPipes, callReaction, callClosure, staticResolve, hT]
      · intro e he
        have he : w0.thenGetterThrows v = some e := he
        rw [ht] at he
        exact absurd he (by simp)
      · exact settledCore_perm _ _ _ _ _ _ _ (records_then_some _ A B x _ hrec) e2
    · have hT : hasThenFunction w v = Except.error g :=
        (hasThenFunction_congr hs2.table v).trans (hasThenFunction_of_throws w0 v g ht)
      have hrec : thenRec (settledPipes w0 ps agg cell) x = none := by
        simp [thenRec, hxo, settledPipes, ht]
      refine ⟨Completion.thrown g, w, ?_, ⟨rfl, rfl, Nat.le_refl _, fun _ _ _ => rfl⟩,
        ?_, ?_, ?_⟩
      · simp [settledPipes, callReaction, callClosure, staticResolve, hT]
      · intro he
        have he : w0.thenGetterThrows v = none := he
        rw [ht] at he
        exact absurd he (by simp)
      · intro e he
        have he : w0.thenGetterThrows v = some e := he
        rw [ht] at he
        injection he with he
        rw [he]
      · show SettledCore _ _ _ _ _ _
        rw [records_then_none _ A B x hrec]
        exact hs2
  thenRejected := by
    intro w A B C x r hpl hs hxo
    show SettledCore _ _ _ _ _ _
    rw [records_then_none _ A B x (by simp [thenRec, hxo])]
    exact hs
  catchFulfilled := by
    intro w A B C y u hpl hs ho
    show SettledCore _ _ _ _ _ _
    rw [records_catch_none _ A B y (catchRec_of_fulfilled _ y u ho)]
    exact hs
  catchRejected := by
    intro w A B C y e hpl hs ho
    have hlen : (A ++ y :: B ++ C).length ≤ ps.length := plumb_length_le _ w _ _ _ hpl
    simp only [List.length_append, List.length_cons] at hlen
    have hyi : y.index < ps.length := plumb_index_lt _ w _ _ _ hpl y (by simp)
    have hnd := nodup_mid A (B ++ C) y (by simpa using hpl.nodup)
    have hroom : agg + 1 + 2 * ps.length ≤ w.nextId := hpl.room
    have hRlen := records_length (settledPipes w0 ps agg cell) A B
    have hth := thenRec_of_rejected _ y e ho
    have hne : ∀ r ∈ records (settledPipes w0 ps agg cell) A B, r.1 ≠ y.index := by
      intro r hr hh
      obtain ⟨z, hz, hzi, -⟩ := records_index _ A B r hr
      rcases List.mem_append.mp hz with hz | hz
      · apply hnd.1
        rw [← hh, ← hzi]
        exact List.mem_map_of_mem _ hz
      · apply hnd.2
        rw [← hh, ← hzi]
        exact List.mem_map_of_mem _ (List.mem_append.mpr (Or.inl hz))
    have hs1 : SettledCore w0 ps agg cell w
        (records (settledPipes w0 ps agg cell) A (y :: B)) := hs
    have hs2 : SettledCore w0 ps agg cell w (records (settledPipes w0 ps agg cell) A B) := by
      rw [← records_cons_none _ A B y hth]
      exact hs1
    rcases then_member_cases w0 e with ⟨hn, -, ht⟩ | ⟨-, hc, ht⟩ | ⟨-, -, g, ht⟩
    · have hT : hasThenFunction w e = Except.ok false :=
        (hasThenFunction_congr hs2.table e).trans (hasThenFunction_of_notThenable w0 e hn)
      have hrec : catchRec (settledPipes w0 ps agg cell) y = some (y.index, Settle.reject e) := by
        simp only [catchRec, ho]
        simp [settledPipes, ht]
      obtain ⟨e1, e2⟩ := settled_record w0 ps agg cell w
        { w with heap := (Function.update w.heap w.nextId
                   (PromiseState.rejectedWith e [] [])),
                 nextId := w.nextId + 1 }
        _ y.index (Settle.reject e) (Val.promise w.nextId) hs2 rfl rfl rfl rfl
        (Nat.le_succ _) (fun k hk => Function.update_noteq (Nat.ne_of_lt hk) _ _)
        (by omega)
        (Or.inr ⟨hn, w.nextId, rfl, hroom, Nat.lt_succ_self _, by simp [Settle.record]⟩)
        (by omega) hyi hne
      refine ⟨Completion.normal Val.undefined, _,
        callClosure_allSettledOnRejected cell y.index ps.length agg e w hT, e1, rfl, ?_⟩
      show SettledCore _ _ _ _ _ _
      rw [records_catch_some _ A B y _ hrec, records_cons_none _ A B y hth]
      exact e2
    · have hT : hasThenFunction w e = Except.ok true :=
        (hasThenFunction_congr hs2.table e).trans (hasThenFunction_of_callable w0 e hc)
      have hrec : catchRec (settledPipes w0 ps agg cell) y = some (y.index, Settle.reject e) := by
        simp only [catchRec, ho]
        simp [settledPipes, ht]
      obtain ⟨e1, e2⟩ := settled_record w0 ps agg cell w w
        _ y.index (Settle.reject e) e hs2 rfl rfl rfl rfl
        (Nat.le_refl _) (fun _ _ => rfl) (by omega) (Or.inl ⟨hc, rfl⟩)
        (by omega) hyi hne
      refine ⟨Completion.normal Val.undefined, _, ?_, e1, rfl, ?_⟩
      · simp [settledPipes, callReaction, callClosure, staticReject, hT]
      · show SettledCore _ _ _ _ _ _
        rw [records_catch_some _ A B y _ hrec, records_cons_none _ A B y hth]
        exact e2
    · have hT : hasThenFunction w e = Except.error g :=
        (hasThenFunction_congr hs2.table e).trans (hasThenFunction_of_throws w0 e g ht)
      have hrec : catchRec (settledPipes w0 ps agg cell) y = none := by
        simp only [catchRec, ho]
        simp [settledPipes, ht]
      refine ⟨Completion.thrown g, w, ?_, ⟨rfl, rfl, Nat.le_refl _, fun _ _ _ => rfl⟩,
        trivial, ?_⟩
      · simp [settledPipes, callReaction, callClosure, staticReject, hT]
      · show SettledCore _ _ _ _ _ _
        rw [records_catch_none _ A B y hrec]
        exact hs1

theorem allSettled_call (w : World) (ps : List Nat) (hn : ps ≠ []) (hq : QuietInputs w ps) :
    (allSettled (ps.map Val.promise) w).1 = w.nextId ∧
    Plumb (settledPipes w ps w.nextId w.nextCell) (allSettled (ps.map Val.promise) w).2 [] []
      (seenAtCall w 0 ps) ∧
    Queued (settledPipes w ps w.nextId w.nextCell) (allSettled (ps.map Val.promise) w).2 []
      (seenAtCall w 0 ps) ∧
    SettledState w ps w.nextId w.nextCell (allSettled (ps.map Val.promise) w).2 [] [] := by
  obtain ⟨hq1, hq2⟩ := hq
  have hb : ∀ p ∈ (settledPipes w ps w.nextId w.nextCell).ps,
      p < (settledPipes w ps w.nextId w.nextCell).agg :=
    fun p hp => (hq2 p hp).1
  obtain ⟨wf, hloop, hreg⟩ := register_loop (settledPipes w ps w.nextId w.nextCell)
    (newPromise w.newCell).2 hb ps [] (newPromise w.newCell).2 rfl
    (registered_start _ _ rfl)
  have hall : allSettled (ps.map Val.promise) w = (w.nextId, wf) := by
    simp only [allSettled, List.length_map]
    exact congrArg (finishConstruct w.nextId) hloop
  have hheap : ∀ p ∈ ps, (newPromise w.newCell).2.heap p = w.heap p := by
    intro p hp
    have := (hq2 p hp).1
    simp [newPromise, World.newCell, Function.update_noteq (Nat.ne_of_lt this)]
  obtain ⟨p1, p2⟩ := plumb_of_registered _ _ wf hreg hb hq1
    (fun p hp => by rw [hheap p hp]; exact (hq2 p hp).2)
  have hsc : seenAtCall (newPromise w.newCell).2 0 (settledPipes w ps w.nextId w.nextCell).ps
      = seenAtCall w 0 ps :=
    seenAtCall_congr w _ ps 0 (fun p hp => outcome_congr w _ p (hheap p hp))
  rw [hsc] at p1 p2
  rw [hall]
  refine ⟨rfl, p1, p2, ?_⟩
  obtain ⟨a, b, c, d, -, -⟩ := hreg.frame
  have hlen : 0 < ps.length := List.length_pos.mpr hn
  constructor
  · show wf.thenOf = w.thenOf
    rw [d]
    rfl
  · show wf.counts w.nextCell = _
    rw [b]
    simp [newPromise, World.newCell, records]
  · intro x hx
    simp [records] at hx
  · show (wf.arrays w.nextCell).length ≤ _
    rw [c]
    simp [newPromise, World.newCell]
  · simp only [records, List.append_nil, List.filterMap_nil, List.length_nil]
    rw [if_neg (by omega)]
    show wf.heap w.nextId = _
    have a1 : wf.heap w.nextId = (newPromise w.newCell).2.heap w.nextId := a
    rw [a1]
    simp [newPromise, World.newCell]

theorem allSettled_run (w : World) (ps : List Nat) (acts : List Act) (fuel : Nat)
    (hn : ps ≠ []) (hq : QuietInputs w ps) :
    ∃ w1 A1 B1 C1,
      runActs (fuel + 1) ps acts (allSettled (ps.map Val.promise) w).2 = some w1 ∧
      Plumb (settledPipes w ps w.nextId w.nextCell) w1 A1 B1 C1 ∧
      SettledState w ps w.nextId w.nextCell w1 A1 B1 ∧
      A1 ++ B1 ++ C1 = observe ps (seenAtCall w 0 ps) acts ∧
      ∃ w2, drain (2 * ps.length + fuel + 1) w1 = some w2 ∧ w2.timers = [] ∧
        Plumb (settledPipes w ps w.nextId w.nextCell) w2
          (observe ps (seenAtCall w 0 ps) acts) [] [] ∧
        SettledState w ps w.nextId w.nextCell w2 (observe ps (seenAtCall w 0 ps) acts) [] := by
  obtain ⟨-, c2, c3, c4⟩ := allSettled_call w ps hn hq
  exact run_and_drain _ _ (settledSteps w ps w.nextId w.nextCell) fuel acts _ _ c2 c3 c4
theorem recordable_congr {w1 w2 : World} (h : w1.thenOf = w2.thenOf) (s : Settle) :
    w1.recordable s ↔ w2.recordable s := by
  cases s with
  | resolve v =>
    simp only [World.recordable, thenGetterThrows_congr h]
  | reject r =>
    simp only [World.recordable, thenGetterThrows_congr h]

theorem rec_of_recordable (w0 : World) (ps : List Nat) (agg cell : Nat) (x : Seen)
    (h : w0.recordable x.outcome) :
    (∃ r, thenRec (settledPipes w0 ps agg cell) x = some r) ∨
    ∃ r, catchRec (settledPipes w0 ps agg cell) x = some r := by
  cases hxo : x.outcome with
  | resolve v =>
    rw [hxo] at h
    cases ht : w0.thenGetterThrows v with
    | none =>
      left
      exact ⟨(x.index, Settle.resolve v), by simp [thenRec, hxo, settledPipes, ht]⟩
    | some g =>
      right
      have hg := h g ht
      exact ⟨(x.index, Settle.reject g),
        by simp [catchRec, hxo, Pipes.thenOutcome, settledPipes, ht, hg]⟩
  | reject r =>
    rw [hxo] at h
    have hr : w0.thenGetterThrows r = none := h
    right
    exact ⟨(x.index, Settle.reject r),
      by simp [catchRec, hxo, Pipes.thenOutcome, settledPipes, hr]⟩

theorem no_rec_of_unrecordable (w0 : World) (ps : List Nat) (agg cell : Nat) (x : Seen)
    (h : ¬ w0.recordable x.outcome) :
    thenRec (settledPipes w0 ps agg cell) x = none ∧
    catchRec (settledPipes w0 ps agg cell) x = none := by
  cases hxo : x.outcome with
  | resolve v =>
    rw [hxo] at h
    simp only [World.recordable, not_forall] at h
    obtain ⟨g, hg, hgg⟩ := h
    cases hg2 : w0.thenGetterThrows g with
    | none => exact absurd hg2 hgg
    | some g2 =>
      constructor
      · simp [thenRec, hxo, settledPipes, hg]
      · simp [catchRec, hxo, Pipes.thenOutcome, settledPipes, hg, hg2]
  | reject r =>
    rw [hxo] at h
    cases hr : w0.thenGetterThrows r with
    | none => exact absurd hr h
    | some g =>
      constructor
      · simp [thenRec, hxo]
      · simp [catchRec, hxo, Pipes.thenOutcome, settledPipes, hr]

theorem rejectionEntry_of_wrapped (w0 w : World) (agg n : Nat) (r d : Val)
    (ht : w.thenOf = w0.thenOf) (h : Wrapped w0 w (agg + 1 + 2 * n) (Settle.reject r) d) :
    w.rejectionEntry agg r d := by
  rcases h with ⟨hc, hd⟩ | ⟨hn, k, hd, hk1, -, hk3⟩
  · exact Or.inr ⟨(hasCallableThen_congr ht r).trans hc, hd⟩
  · refine Or.inl ⟨(notThenable_congr ht r).trans hn, k, hd, by omega, ?_⟩
    rw [World.rejectedWith, hk3]
    exact ⟨rfl, rfl⟩

theorem entry_of_core (w0 : World) (ps : List Nat) (agg cell : Nat) (w : World)
    (L : List Seen) (hs : SettledState w0 ps agg cell w L []) (x : Seen) (hx : x ∈ L)
    (hr : w0.recordable x.outcome) :
    ∃ d, (w.arrays cell)[x.index]? = some (some d) ∧ w.entryFor agg x.outcome d := by
  have hs : SettledCore w0 ps agg cell w (records (settledPipes w0 ps agg cell) L []) := hs
  have hmemT : ∀ r, thenRec (settledPipes w0 ps agg cell) x = some r →
      r ∈ records (settledPipes w0 ps agg cell) L [] := by
    intro r h
    simp only [records, List.append_nil, List.mem_append, List.mem_filterMap]
    exact Or.inl ⟨x, hx, h⟩
  have hmemC : ∀ r, catchRec (settledPipes w0 ps agg cell) x = some r →
      r ∈ records (settledPipes w0 ps agg cell) L [] := by
    intro r h
    simp only [records, List.append_nil, List.mem_append, List.mem_filterMap]
    exact Or.inr ⟨x, hx, h⟩
  cases hxo : x.outcome with
  | resolve v =>
    rw [hxo] at hr
    cases ht : w0.thenGetterThrows v with
    | none =>
      obtain ⟨d, hd, hw⟩ := hs.entries (x.index, Settle.resolve v)
        (hmemT _ (by simp [thenRec, hxo, settledPipes, ht]))
      refine ⟨d, hd, ?_⟩
      rcases hw with ⟨hc, hd2⟩ | ⟨hn, k, hd2, hk1, -, hk3⟩
      · exact Or.inr (Or.inl ⟨(hasCallableThen_congr hs.table v).trans hc, hd2⟩)
      · refine Or.inl ⟨(notThenable_congr hs.table v).trans hn, k, hd2, by omega, ?_⟩
        rw [World.fulfilledWith, hk3]
        exact ⟨rfl, rfl⟩
    | some g =>
      have hg := hr g ht
      obtain ⟨d, hd, hw⟩ := hs.entries (x.index, Settle.reject g)
        (hmemC _ (by simp [catchRec, hxo, Pipes.thenOutcome, settledPipes, ht, hg]))
      refine ⟨d, hd, Or.inr (Or.inr ⟨g, (thenGetterThrows_congr hs.table v).trans ht, ?_⟩)⟩
      exact rejectionEntry_of_wrapped w0 w agg ps.length g d hs.table hw
  | reject r =>
    rw [hxo] at hr
    have hr : w0.thenGetterThrows r = none := hr
    obtain ⟨d, hd, hw⟩ := hs.entries (x.index, Settle.reject r)
      (hmemC _ (by simp [catchRec, hxo, Pipes.thenOutcome, settledPipes, hr]))
    exact ⟨d, hd, rejectionEntry_of_wrapped w0 w agg ps.length r d hs.table hw⟩

theorem plumb_length_lt (P : Pipes) (w : World) (A B C : List Seen) (h : Plumb P w A B C)
    (p : Nat) (hp : p ∈ P.ps) (hs : (w.heap p).status = Status.PENDING) :
    (A ++ B ++ C).length < P.ps.length := by
  obtain ⟨i, hi, hip⟩ := index_of_mem hp
  have hni : i ∉ (A ++ B ++ C).map Seen.index := by
    intro hm
    obtain ⟨x, hx, hxi⟩ := List.mem_map.mp hm
    obtain ⟨h1, h2⟩ := h.seen x hx
    rw [hxi] at h1
    have hxp : p = x.input := Option.some.inj (hip.symm.trans h1)
    rw [← hxp, (outcome_none w p).mpr hs] at h2
    exact absurd h2 (by simp)
  have := nodup_length_lt _ P.ps.length i h.nodup (by
    intro j hj
    obtain ⟨x, hx, rfl⟩ := List.mem_map.mp hj
    exact plumb_index_lt P w A B C h x hx) hi hni
  simpa using this

theorem settled_not_rejected (w0 : World) (ps : List Nat) (agg cell : Nat) (w : World)
    (R : List (Nat × Settle)) (h : SettledCore w0 ps agg cell w R) :
    (w.heap agg).status ≠ Status.REJECTED := by
  have hst := h.status
  split_ifs at hst <;> rw [hst] <;> simp [PromiseState.fulfilledWith, PromiseState.fresh]

theorem settled_pending (w0 : World) (ps : List Nat) (agg cell : Nat) (w : World)
    (R : List (Nat × Settle)) (h : SettledCore w0 ps agg cell w R)
    (hlt : R.length < ps.length) : (w.heap agg).status = Status.PENDING := by
  have hst := h.status
  rw [if_neg (by omega)] at hst
  rw [hst]
  rfl

/-- C17, as stated, fails: `agg = Promise.allSettled([p0, p1])`, then `p0` is
fulfilled with the thenable `x` (object 0) and `p1` is rejected with the same `x`.
`agg` is fulfilled with an array whose two entries are `x` itself: neither is a record
holding `x`, and nothing tells the fulfilment from the rejection. -/
theorem allSettled_thenable_payload_counterexample :
    exampleThenOf 0 = ThenMember.callable [Event.success (Val.num 7)] ∧
    (allSettled [Val.promise 0, Val.promise 1] exampleTwoDeferred).1 = 2 ∧
    exampleAllSettled.fulfilledWith 0 (Val.obj 0) ∧
    exampleAllSettled.rejectedWith 1 (Val.obj 0) ∧
    (Option.map (fun w => ((w.heap 2).status, (w.heap 2).value, w.arrays 0))
      (drain 9 exampleAllSettled))
      = some (Status.FULFILLED, Val.array 0, [some (Val.obj 0), some (Val.obj 0)]) := by
  refine ⟨rfl, rfl, ?_, ?_, ?_⟩ <;> decide

/-- C17 amended: let the inputs `ps` be any non-empty list of existing promises,
pending or settled, repeated or not, the pending ones without callbacks, the queue
empty, and `agg = Promise.allSettled(ps)`; after the call settlement closures of
inputs are called and timers run in any order (`acts`).  The run ends; at every such
moment `agg` is not rejected, and it is pending as long as an input is pending.
Draining the queue then ends and leaves the inputs as they are, and `agg` is still not
rejected.  Call an outcome storable when reading the `then` member of a rejection
reason does not throw and, if reading the `then` member of a fulfilment value throws
`g`, reading that of `g` does not.  If every input is settled with a storable outcome,
`agg` is fulfilled with an array as long as the input list, whose entry at the index
of an input is: for a fulfilment with `v`, a new promise fulfilled with `v` when `v`
is not a thenable, `v` itself when `v` has a callable `then`, and the entry of a
rejection with `g` when reading the `then` member of `v` throws `g`; for a rejection
with `r`, a new promise rejected with `r` when `r` is not a thenable, and `r` itself
when it has a callable `then`.  If an input is pending or its outcome is not storable,
`agg` stays pending. -/
theorem allSettled_collects_outcomes (w : World) (ps : List Nat) (acts : List Act)
    (fuel : Nat) (hn : ps ≠ []) (hq : QuietInputs w ps) :
    (allSettled (ps.map Val.promise) w).1 = w.nextId ∧
    ∃ w1, runActs (fuel + 1) ps acts (allSettled (ps.map Val.promise) w).2 = some w1 ∧
      (w1.heap w.nextId).status ≠ Status.REJECTED ∧
      ((∃ p ∈ ps, (w1.heap p).status = Status.PENDING) →
        (w1.heap w.nextId).status = Status.PENDING) ∧
      ∃ w2, drain (2 * ps.length + fuel + 1) w1 = some w2 ∧ w2.timers = [] ∧
        (∀ p ∈ ps, w2.outcome p = w1.outcome p) ∧
        (w2.heap w.nextId).status ≠ Status.REJECTED ∧
        ((∀ p ∈ ps, ∃ s, w2.outcome p = some s ∧ w2.recordable s) →
          w2.fulfilledWith w.nextId (Val.array w.nextCell) ∧
          (w2.arrays w.nextCell).length = ps.length ∧
          ∀ (i p : Nat) (s : Settle), ps[i]? = some p → w2.outcome p = some s →
            ∃ d, (w2.arrays w.nextCell)[i]? = some (some d) ∧ w2.entryFor w.nextId s d) ∧
        ((∃ p ∈ ps, ∀ s, w2.outcome p = some s → ¬ w2.recordable s) →
          (w2.heap w.nextId).status = Status.PENDING) := by
  obtain ⟨c1, -, -, -⟩ := allSettled_call w ps hn hq
  obtain ⟨w1, A1, B1, C1, e1, r1, r3, r4, w2, e2, t1, t2, t3⟩ :=
    allSettled_run w ps acts fuel hn hq
  have t3c : SettledCore w ps w.nextId w.nextCell w2
      (records (settledPipes w ps w.nextId w.nextCell)
        (observe ps (seenAtCall w 0 ps) acts) []) := t3
  have hLlen : (observe ps (seenAtCall w 0 ps) acts ++ [] ++ []).length ≤ ps.length :=
    plumb_length_le _ w2 _ _ _ t2
  simp only [List.append_nil] at hLlen
  have hrl : (records (settledPipes w ps w.nextId w.nextCell)
      (observe ps (seenAtCall w 0 ps) acts) []).length =
      ((observe ps (seenAtCall w 0 ps) acts).filterMap
        (thenRec (settledPipes w ps w.nextId w.nextCell))).length +
      ((observe ps (seenAtCall w 0 ps) acts).filterMap
        (catchRec (settledPipes w ps w.nextId w.nextCell))).length := by
    simp [records]
  refine ⟨c1, w1, e1, settled_not_rejected _ _ _ _ _ _ r3, ?_, w2, e2, t1, ?_,
    settled_not_rejected _ _ _ _ _ _ t3, ?_, ?_⟩
  · rintro ⟨p, hp, hpp⟩
    have h1 : (A1 ++ B1 ++ C1).length < ps.length := plumb_length_lt _ w1 _ _ _ r1 p hp hpp
    have h2 := records_length (settledPipes w ps w.nextId w.nextCell) A1 B1
    simp only [List.length_append] at h1
    exact settled_pending _ _ _ _ _ _ r3 (by omega)
  · intro p hp
    exact plumb_outcome_eq _ w1 w2 _ _ _ _ _ _ r1 t2 (by simp [r4]) p hp
  · intro hall
    obtain ⟨hcl, hcov⟩ := plumb_covers _ w2 _ _ _ t2 (fun p hp => by
      obtain ⟨s, hs, -⟩ := hall p hp
      intro hpen
      rw [(outcome_none w2 p).mpr hpen] at hs
      exact absurd hs (by simp))
    simp only [List.append_nil] at hcl hcov
    have hcl : (observe ps (seenAtCall w 0 ps) acts).length = ps.length := hcl
    have hcov : ∀ i p, ps[i]? = some p →
        ∃ x ∈ observe ps (seenAtCall w 0 ps) acts, x.index = i ∧ x.input = p := hcov
    have hrec : ∀ x ∈ observe ps (seenAtCall w 0 ps) acts, w.recordable x.outcome := by
      intro x hx
      obtain ⟨h1, h2⟩ := t2.seen x (by simpa using hx)
      obtain ⟨s, hs, hsr⟩ := hall x.input (mem_of_index h1)
      have hsx : s = x.outcome := Option.some.inj (hs.symm.trans h2)
      rw [← hsx]
      exact (recordable_congr t3c.table s).mp hsr
    have hfull := both_length_full (settledPipes w ps w.nextId w.nextCell) _
      (fun x hx => rec_of_recordable w ps w.nextId w.nextCell x (hrec x hx))
    have hst := t3c.status
    rw [if_pos (by rw [hrl, hfull, hcl])] at hst
    have hent : ∀ (i p : Nat) (s : Settle), ps[i]? = some p → w2.outcome p = some s →
        ∃ d, (w2.arrays w.nextCell)[i]? = some (some d) ∧ w2.entryFor w.nextId s d := by
      intro i p s hip hs
      obtain ⟨x, hx, hxi, hxp⟩ := hcov i p hip
      obtain ⟨-, h2⟩ := t2.seen x (by simpa using hx)
      rw [hxp] at h2
      have hsx : s = x.outcome := Option.some.inj (hs.symm.trans h2)
      rw [hsx, ← hxi]
      exact entry_of_core w ps w.nextId w.nextCell w2 _ t3 x hx (hrec x hx)
    refine ⟨by rw [World.fulfilledWith, hst]; exact ⟨rfl, rfl⟩, ?_, hent⟩
    apply Nat.le_antisymm t3c.short
    have hpos : 0 < ps.length := List.length_pos.mpr hn
    have hlast : ps.length - 1 < ps.length := by omega
    obtain ⟨s, hs, -⟩ := hall (ps[ps.length - 1]) (List.getElem_mem _)
    obtain ⟨d, hd, -⟩ := hent (ps.length - 1) (ps[ps.length - 1]) s
      (List.getElem?_eq_getElem hlast) hs
    by_contra hc
    rw [List.getElem?_eq_none (by omega)] at hd
    exact absurd hd (by simp)
  · rintro ⟨p, hp, hun⟩
    apply settled_pending _ _ _ _ _ _ t3c
    rw [hrl]
    have hle := both_length_le (settledPipes w ps w.nextId w.nextCell)
      (observe ps (seenAtCall w 0 ps) acts)
    rcases plumb_outcome _ w2 _ [] [] t2 p hp with ⟨a, -⟩ | ⟨x, hx, hxp, a⟩
    · have := plumb_length_lt _ w2 _ _ _ t2 p hp ((outcome_none w2 p).mp a)
      simp only [List.append_nil] at this
      have this2 : (observe ps (seenAtCall w 0 ps) acts).length < ps.length := this
      omega
    · simp only [List.append_nil] at hx
      have hnr : ¬ w.recordable x.outcome := fun h =>
        hun x.outcome a ((recordable_congr t3c.table _).mpr h)
      obtain ⟨n1, n2⟩ := no_rec_of_unrecordable w ps w.nextId w.nextCell x hnr
      have := both_length_lt (settledPipes w ps w.nextId w.nextCell) _ x hx n1 n2
      omega

/-- The witness of C17 amended: `Promise.allSettled([p0, p1])` on two pending
deferreds, then `d0.resolve(1)`, a timer run, `d1.reject("x")`. -/
theorem allSettled_collects_outcomes_witness :
    ∃ w1, runActs 1 [0, 1]
        [Act.settle 0 (Settle.resolve (Val.num 1)), Act.tick,
          Act.settle 1 (Settle.reject (Val.str "x"))]
        (allSettled [Val.promise 0, Val.promise 1] exampleTwoDeferred).2 = some w1 ∧
      (w1.heap 2).status ≠ Status.REJECTED ∧
      ∃ w2, drain 5 w1 = some w2 ∧ w2.timers = [] ∧
        ((∀ p ∈ [0, 1], ∃ s, w2.outcome p = some s ∧ w2.recordable s) →
          w2.fulfilledWith 2 (Val.array 0) ∧ (w2.arrays 0).length = 2 ∧
          ∀ (i p : Nat) (s : Settle), [0, 1][i]? = some p → w2.outcome p = some s →
            ∃ d, (w2.arrays 0)[i]? = some (some d) ∧ w2.entryFor 2 s d) := by
  obtain ⟨-, w1, e1, n1, -, w2, e2, t1, -, -, t3, -⟩ :=
    allSettled_collects_outcomes exampleTwoDeferred [0, 1]
      [Act.settle 0 (Settle.resolve (Val.num 1)), Act.tick,
        Act.settle 1 (Settle.reject (Val.str "x"))] 0 (by simp) exampleTwoDeferred_quiet
  exact ⟨w1, e1, n1, w2, e2, t1, t3⟩
/-- The example of the specification, run: `Promise.allSettled([p0, p1])`, then `p0` is
fulfilled with 1 and `p1` rejected with "x".  Once the queue is drained the aggregate
(promise 2) is fulfilled with the array of two new promises, 7 fulfilled with 1 and 8
rejected with "x". -/
theorem allSettled_mixed_example :
    (Option.map (fun w => ((w.heap 2).status, (w.heap 2).value, w.arrays 0,
        (w.heap 7).status, (w.heap 7).value, (w.heap 8).status, (w.heap 8).reason))
      (drain 9 exampleSettledMixed))
      = some (Status.FULFILLED, Val.array 0, [some (Val.promise 7), some (Val.promise 8)],
          Status.FULFILLED, Val.num 1, Status.REJECTED, Val.str "x") := by
  rfl
end PromiseJS
